import Mathlib

/-!
# EASY backfilling scheduler (`src/easy_variants.cpp`)

A shallow embedding of the unified EASY plug-in and proofs about it.  Two sibling
plug-ins are embedded next to it, each in a namespace of its own: `others/fcfs.cpp`
(`Fcfs`) and `one-by-one/easy_spf_spf.cpp` (`SpfSpf`).

Modelling conventions.

* `double` is an arbitrary type `T` carrying a decidable linear order and the
  arithmetic operations the code applies to times (`+`, `-`, unary `-`, `/`,
  the conversion from an unsigned integer and the literal `0`).  No algebraic
  law is assumed about these operations, so results do not depend on exact
  arithmetic; NaN is outside the model.  A few statements need laws and say so:
  the conversion of the threshold from hours to seconds, the threshold-zero boundary
  and the bound on projected end times are stated over a linearly ordered ring, the
  stability of the primary order assumes that the subtraction is antitone in its second
  argument.  Concrete evaluations use `Int`; where rounding matters they use
  `Binary64`, whose sum, difference and quotient are rounded to 53 significant bits as
  those of `double` are, and `Rat` shows what exact arithmetic would give.
* `uint32_t` values are natural numbers; where the code does 32-bit arithmetic
  (`compute_reservation`) the reduction modulo `2 ^ 32` is written out.
* `std::set<uint32_t>` is a strictly ascending `List Nat`.
* `std::unordered_map<std::string, V>` is an association list with distinct keys;
  a new key is stored at the end.
* `SchedJob*` is a record together with the address it lives at; the queue
  compares pointers, hence addresses.
* `std::list::sort` and `std::stable_sort` are the stable insertion sort `stable_sort`;
  `std::sort` on the candidate vector is a parameter `std_sort` of the loop, since the
  order it gives to equivalent elements is not fixed by the language.
* Undefined behaviour (advancing an iterator past the end of the free set) and
  running out of loop fuel are explicit faults.
-/

namespace EasyVariants

/-- Modulus of `uint32_t` arithmetic. -/
def U32 : Nat := 4294967296

/-! ## Containers -/

/-- `std::set<uint32_t>::insert`: ordered insertion, an element already present is kept once. -/
def set_insert (h : Nat) : List Nat → List Nat
  | [] => [h]
  | x :: xs =>
    if h < x then h :: x :: xs
    else if h = x then x :: xs
    else x :: set_insert h xs

/-- `std::set<uint32_t>::erase(key)`. -/
def set_erase (h : Nat) (s : List Nat) : List Nat :=
  s.filter (fun x => decide (x ≠ h))

/-- `unordered_map::find` / `count`: the value stored under `key`, if any. -/
def map_get? {V : Type} : List (String × V) → String → Option V
  | [], _ => none
  | kv :: m, key => if kv.1 = key then some kv.2 else map_get? m key

/-- `m[key] = v`: overwrite the value of an existing key, else store a new entry. -/
def map_set {V : Type} : List (String × V) → String → V → List (String × V)
  | [], key, v => [(key, v)]
  | kv :: m, key, v => if kv.1 = key then (kv.1, v) :: m else kv :: map_set m key v

/-- `unordered_map::erase(key)`. -/
def map_erase {V : Type} (m : List (String × V)) (key : String) : List (String × V) :=
  m.filter (fun kv => decide (kv.1 ≠ key))

/-- Keys of a map. -/
def map_keys {V : Type} (m : List (String × V)) : List String :=
  m.map Prod.fst

/-- Insertion of `a` behind every element that is strictly smaller under `lt`. -/
def ordered_insert {α : Type} (lt : α → α → Bool) (a : α) : List α → List α
  | [] => [a]
  | b :: l => if lt b a then b :: ordered_insert lt a l else a :: b :: l

/-- Stable sort under the strict comparator `lt` (`std::list::sort(comp)`): elements that
are equivalent under `lt` keep their relative order.  For a strict weak ordering the
stable arrangement is unique, so this is the list `std::list::sort` produces. -/
def stable_sort {α : Type} (lt : α → α → Bool) : List α → List α
  | [] => []
  | a :: l => ordered_insert lt a (stable_sort lt l)

/-! ## Data model -/

/-- The record `struct SchedJob`. -/
structure SchedJob (T : Type) where
  job_id : String
  nb_hosts : Nat
  walltime : T
  submit_time : T
deriving DecidableEq

/-- A `SchedJob*`: the record and the heap address returned by `new SchedJob()`. -/
structure JobPtr (T : Type) extends SchedJob T where
  addr : Nat
deriving DecidableEq

/-- `enum class Policy`. -/
inductive Policy where
  | EXP | FCFS | LCFS | LPF | LQF | SPF | SQF
deriving DecidableEq

/-- The configuration globals `primary_policy`, `backfill_policy`, `THRESHOLD_SEC`. -/
structure Config (T : Type) where
  primary_policy : Policy
  backfill_policy : Policy
  THRESHOLD_SEC : T

/-- Decoded input events. -/
inductive Event (T : Type) where
  | hello
  | simulationBegins (computation_host_number : Nat)
  | jobSubmitted (job_id : String) (resource_request : Nat) (walltime : T)
  | jobCompleted (job_id : String)
  | other

/-- Decisions appended to the message builder `mb`. -/
inductive Decision where
  | edc_hello (name version : String)
  | reject_job (job_id : String)
  | execute_job (job_id : String) (hosts : String)
deriving DecidableEq

/-- Faults of the model. -/
inductive Fault where
  | underflow
  | out_of_fuel
deriving DecidableEq

/-- The global state of the plug-in; `out` is the content of the message builder and
`heap` counts the `SchedJob` records created so far. -/
structure State (T : Type) where
  pending : List (JobPtr T)
  allocations : List (String × List Nat)
  end_times : List (String × T)
  available_hosts : List Nat
  platform_nb_hosts : Nat
  out : List Decision
  heap : Nat

/-- State at load time: every global is empty or zero. -/
def State.init (T : Type) : State T :=
  { pending := [], allocations := [], end_times := [], available_hosts := [],
    platform_nb_hosts := 0, out := [], heap := 0 }

section Code

variable {T : Type} [LinearOrder T] [Add T] [Sub T] [Neg T] [Div T] [Zero T] [NatCast T]

/-! ## Policies -/

/-- The function `key_for`. -/
def key_for (j : JobPtr T) (now : T) (p : Policy) : T :=
  match p with
  | .FCFS => j.submit_time
  | .LCFS => -j.submit_time
  | .SQF => (j.nb_hosts : T)
  | .LQF => -(j.nb_hosts : T)
  | .SPF => j.walltime
  | .LPF => -j.walltime
  | .EXP => -((now - j.submit_time + j.walltime) / j.walltime)

/-- The flags `a_old` / `b_old` of the primary comparator. -/
def is_old (cfg : Config T) (now : T) (j : JobPtr T) : Bool :=
  decide (0 ≤ cfg.THRESHOLD_SEC) && decide (cfg.THRESHOLD_SEC < now - j.submit_time)

/-- Comparator of the unified sort: old jobs first, then the primary key. -/
def primary_lt (cfg : Config T) (now : T) (a b : JobPtr T) : Bool :=
  if is_old cfg now a != is_old cfg now b then is_old cfg now a
  else decide (key_for a now cfg.primary_policy < key_for b now cfg.primary_policy)

/-- Comparator of the backfill sort. -/
def backfill_lt (cfg : Config T) (now : T) (a b : JobPtr T) : Bool :=
  decide (key_for a now cfg.backfill_policy < key_for b now cfg.backfill_policy)

/-! ## Shadow reservation -/

/-- `operator<` of `std::pair<double, uint32_t>`. -/
def pair_lt (a b : T × Nat) : Bool :=
  decide (a.1 < b.1) || (!decide (b.1 < a.1) && decide (a.2 < b.2))

/-- The value of `allocations[jid].size()`; an absent key reads as the empty set. -/
def alloc_size (st : State T) (jid : String) : Nat :=
  ((map_get? st.allocations jid).getD []).length

/-- The vector `events` of `compute_reservation` before it is sorted: for every entry of
`end_times` the end time and the size of `allocations[job]` converted to `uint32_t`. -/
def release_events (st : State T) : List (T × Nat) :=
  st.end_times.map (fun kv => (kv.2, alloc_size st kv.1 % U32))

/-- The scan loop of `compute_reservation`: `free += ev.second; if (free >= need) return`. -/
def scan_events (need : Nat) : Nat → List (T × Nat) → Option T
  | _, [] => none
  | free, ev :: rest =>
    if need ≤ (free + ev.2) % U32 then some ev.1
    else scan_events need ((free + ev.2) % U32) rest

/-- The end of `compute_reservation`, from the sorted vector on: the scan, and when it falls
through `return events.empty() ? now : events.back().first`. -/
def reservation_from (now : T) (need free : Nat) (events : List (T × Nat)) : T :=
  match scan_events need free events with
  | some t => t
  | none =>
    match events.getLast? with
    | none => now
    | some ev => ev.1

/-- The value returned by `compute_reservation(now, need)`. -/
def compute_reservation (st : State T) (now : T) (need : Nat) : T :=
  if need ≤ st.available_hosts.length % U32 then now
  else reservation_from now need (st.available_hosts.length % U32)
    (stable_sort pair_lt (release_events st))

/-- Side effect of `compute_reservation(now, need)` on the globals: unless it returns at
once, the expression `allocations[kv.first]` default-constructs an empty set for every key of
`end_times` that is missing in `allocations`. -/
def touch_allocations (st : State T) (need : Nat) : State T :=
  if need ≤ st.available_hosts.length % U32 then st
  else
    { st with
      allocations :=
        List.foldl (fun m kv => match map_get? m kv.1 with
          | some _ => m
          | none => map_set m kv.1 []) st.allocations st.end_times }

/-! ## Allocation -/

/-- The string built at the end of `allocate`. -/
def host_string (picked : List Nat) : String :=
  (picked.foldl (fun (acc : String × Bool) h =>
      ((if acc.2 then acc.1 else acc.1 ++ ",") ++ toString h, false)) ("", true)).1

/-- The set `picked` of `allocate`: the first `q` elements in iteration order, inserted one by one. -/
def pick_hosts (avail : List Nat) (q : Nat) : List Nat :=
  (avail.take q).foldl (fun s h => set_insert h s) []

/-- The function `allocate(jid, q)`; advancing the iterator past the end is a fault. -/
def allocate (st : State T) (jid : String) (q : Nat) : Except Fault (State T × String) :=
  if q ≤ st.available_hosts.length then
    .ok ({ st with
            available_hosts :=
              (pick_hosts st.available_hosts q).foldl (fun s h => set_erase h s) st.available_hosts,
            allocations := map_set st.allocations jid (pick_hosts st.available_hosts q) },
         host_string (pick_hosts st.available_hosts q))
  else .error .underflow

/-! ## Event dispatch -/

/-- One case of the event `switch` of `batsim_edc_take_decisions`. -/
def dispatch (now : T) (st : State T) : Event T → State T
  | .hello => { st with out := st.out ++ [.edc_hello "easy-unified" "1.2"] }
  | .simulationBegins h =>
    { st with
      platform_nb_hosts := h,
      available_hosts := (List.range h).foldl (fun s i => set_insert i s) st.available_hosts }
  | .jobSubmitted jid nb wt =>
    if st.platform_nb_hosts < nb then
      { st with out := st.out ++ [.reject_job jid], heap := st.heap + 1 }
    else
      { st with
        pending := st.pending ++
          [{ job_id := jid, nb_hosts := nb, walltime := wt, submit_time := now, addr := st.heap }],
        heap := st.heap + 1 }
  | .jobCompleted jid =>
    match map_get? st.allocations jid with
    | some hs =>
      { st with
        available_hosts := hs.foldl (fun s h => set_insert h s) st.available_hosts,
        allocations := map_erase st.allocations jid,
        end_times := map_erase st.end_times jid }
    | none => st
  | .other => st

/-! ## Decision loop -/

/-- The three statements that start a job (they occur twice, for the head and for a backfill
candidate): `allocate`, `add_execute_job`, `end_times[job_id] = now + walltime`. -/
def start_job (now : T) (st : State T) (j : JobPtr T) : Except Fault (State T) :=
  match allocate st j.job_id j.nb_hosts with
  | .error e => .error e
  | .ok (st1, res) =>
    .ok { st1 with
          out := st1.out ++ [.execute_job j.job_id res],
          end_times := map_set st1.end_times j.job_id (now + j.walltime) }

/-- Body of the loop over the backfill candidates; the flag is `progress`. -/
def backfill_step (now reserve_t : T) (acc : State T × Bool) (cand : JobPtr T) :
    Except Fault (State T × Bool) :=
  if cand.nb_hosts ≤ acc.1.available_hosts.length ∧ now + cand.walltime ≤ reserve_t then
    match start_job now acc.1 cand with
    | .error e => .error e
    | .ok st1 =>
      .ok ({ st1 with pending := st1.pending.filter (fun j => decide (j.addr ≠ cand.addr)) }, true)
  else .ok acc

/-- The loop `for (SchedJob* cand : bf)`. -/
def backfill (now reserve_t : T) : State T × Bool → List (JobPtr T) →
    Except Fault (State T × Bool)
  | acc, [] => .ok acc
  | acc, cand :: bf =>
    match backfill_step now reserve_t acc cand with
    | .error e => .error e
    | .ok acc1 => backfill now reserve_t acc1 bf

/-- One iteration of the EASY loop; returns the new state and `progress`.  `std_sort` is
`std::sort` on the candidate vector, whose order among equivalent elements is not fixed
by the language. -/
def easy_pass (std_sort : (JobPtr T → JobPtr T → Bool) → List (JobPtr T) → List (JobPtr T))
    (cfg : Config T) (now : T) (st : State T) : Except Fault (State T × Bool) :=
  match stable_sort (primary_lt cfg now) st.pending with
  | [] => .ok (st, false)
  | head :: rest =>
    if head.nb_hosts ≤ st.available_hosts.length then
      match start_job now { st with pending := head :: rest } head with
      | .error e => .error e
      | .ok st1 => .ok ({ st1 with pending := rest }, true)
    else
      backfill now (compute_reservation { st with pending := head :: rest } now head.nb_hosts)
        (touch_allocations { st with pending := head :: rest } head.nb_hosts, false)
        (std_sort (backfill_lt cfg now) rest)

/-- The loop `while (progress && !pending->empty())`, bounded by `fuel` iterations. -/
def easy_loop (std_sort : (JobPtr T → JobPtr T → Bool) → List (JobPtr T) → List (JobPtr T))
    (cfg : Config T) (now : T) : Nat → State T → Except Fault (State T)
  | 0, st => if st.pending.isEmpty then .ok st else .error .out_of_fuel
  | fuel + 1, st =>
    if st.pending.isEmpty then .ok st
    else
      match easy_pass std_sort cfg now st with
      | .error e => .error e
      | .ok (st1, progress) => if progress then easy_loop std_sort cfg now fuel st1 else .ok st1

/-- The callback `batsim_edc_take_decisions` on a decoded message `(now, events)`: clear the
builder, dispatch the events, run the loop.  The final `out` is the message sent back. -/
def batsim_edc_take_decisions (std_sort : (JobPtr T → JobPtr T → Bool) → List (JobPtr T) → List (JobPtr T))
    (cfg : Config T) (st : State T) (msg : T × List (Event T)) : Except Fault (State T) :=
  easy_loop std_sort cfg msg.1
    ((msg.2.foldl (dispatch msg.1) { st with out := [] }).pending.length + 1)
    (msg.2.foldl (dispatch msg.1) { st with out := [] })

/-! ## Whole simulations -/

/-- The states reached after each dispatched event of one message. -/
def dispatch_trace (now : T) : State T → List (Event T) → List (State T)
  | _, [] => []
  | st, ev :: evs => dispatch now st ev :: dispatch_trace now (dispatch now st ev) evs

/-- The states reached after each iteration of the EASY loop. -/
def loop_trace (std_sort : (JobPtr T → JobPtr T → Bool) → List (JobPtr T) → List (JobPtr T))
    (cfg : Config T) (now : T) : Nat → State T → List (State T)
  | 0, _ => []
  | fuel + 1, st =>
    if st.pending.isEmpty then []
    else
      match easy_pass std_sort cfg now st with
      | .error _ => []
      | .ok (st1, progress) =>
        st1 :: (if progress then loop_trace std_sort cfg now fuel st1 else [])

/-- The states a simulation goes through: for each message in turn, the states after each
dispatched event and after each iteration of the EASY loop. -/
def run_trace (std_sort : (JobPtr T → JobPtr T → Bool) → List (JobPtr T) → List (JobPtr T))
    (cfg : Config T) : State T → List (T × List (Event T)) → List (State T)
  | _, [] => []
  | st, msg :: msgs =>
    dispatch_trace msg.1 { st with out := [] } msg.2 ++
    loop_trace std_sort cfg msg.1
      ((msg.2.foldl (dispatch msg.1) { st with out := [] }).pending.length + 1)
      (msg.2.foldl (dispatch msg.1) { st with out := [] }) ++
    match batsim_edc_take_decisions std_sort cfg st msg with
    | .error _ => []
    | .ok st1 => run_trace std_sort cfg st1 msgs

/-- A simulation: one call of `batsim_edc_take_decisions` per message.  The result lists, per wakeup,
the state after the event dispatch and the state at the return of the call. -/
def run (std_sort : (JobPtr T → JobPtr T → Bool) → List (JobPtr T) → List (JobPtr T))
    (cfg : Config T) : State T → List (T × List (Event T)) →
    Except Fault (List (State T × State T))
  | _, [] => .ok []
  | st, msg :: msgs =>
    match batsim_edc_take_decisions std_sort cfg st msg with
    | .error e => .error e
    | .ok st1 =>
      match run std_sort cfg st1 msgs with
      | .error e => .error e
      | .ok ws => .ok ((msg.2.foldl (dispatch msg.1) { st with out := [] }, st1) :: ws)

/-! ## Vocabulary of the specification -/

/-- The events of a sequence of messages, in order. -/
def all_events (msgs : List (T × List (Event T))) : List (Event T) :=
  (msgs.map Prod.snd).flatten

/-- Whether the event is a `SimulationBegins`. -/
def is_begin : Event T → Bool
  | .simulationBegins _ => true
  | _ => false

/-- The job ids of the `JobSubmitted` events of a list, in order. -/
def submitted_ids : List (Event T) → List String
  | [] => []
  | .jobSubmitted jid _ _ :: evs => jid :: submitted_ids evs
  | _ :: evs => submitted_ids evs

/-- The job ids named by the `Reject` decisions of a list, in order. -/
def rejected_ids : List Decision → List String
  | [] => []
  | .reject_job jid :: ds => jid :: rejected_ids ds
  | _ :: ds => rejected_ids ds

/-- The job ids named by the `Execute` decisions of a list, in order. -/
def executed_ids : List Decision → List String
  | [] => []
  | .execute_job jid _ :: ds => jid :: executed_ids ds
  | _ :: ds => executed_ids ds

/-- The job ids named by the `Reject` and `Execute` decisions of a list, in order. -/
def decided_ids : List Decision → List String
  | [] => []
  | .reject_job jid :: ds => jid :: decided_ids ds
  | .execute_job jid _ :: ds => jid :: decided_ids ds
  | _ :: ds => decided_ids ds

/-- All decisions sent during a simulation, in order. -/
def decisions_of (ws : List (State T × State T)) : List Decision :=
  (ws.map (fun w => w.2.out)).flatten


/-- Hosts released up to time `t` by a list of release events `(end time, host count)`. -/
def released (events : List (T × Nat)) (t : T) : Nat :=
  ((events.filter (fun ev => decide (ev.1 ≤ t))).map Prod.snd).sum

/-- Sum of the host counts of all running jobs whose projected end time is at most `t`. -/
def released_by (st : State T) (t : T) : Nat :=
  ((st.end_times.filter (fun kv => decide (kv.2 ≤ t))).map (fun kv => alloc_size st kv.1)).sum

/-- Sum of the host counts of all running jobs. -/
def running_hosts (st : State T) : Nat :=
  (st.end_times.map (fun kv => alloc_size st kv.1)).sum

/-- Every host the state accounts for: the free hosts, then the hosts of each running job. -/
def hosts_of (st : State T) : List Nat :=
  st.available_hosts ++ (st.allocations.map Prod.snd).flatten

/-- Invariant I1: the free host set and the host sets allocated to the running jobs are sets,
are pairwise disjoint, and their union is exactly `{0, ..., H-1}`. -/
def Partition (H : Nat) (st : State T) : Prop :=
  st.available_hosts.Nodup ∧
  (∀ kv ∈ st.allocations, kv.2.Nodup) ∧
  (∀ kv ∈ st.allocations, List.Disjoint st.available_hosts kv.2) ∧
  st.allocations.Pairwise (fun a b => List.Disjoint a.2 b.2) ∧
  ∀ h, h < H ↔ (h ∈ st.available_hosts ∨ ∃ kv ∈ st.allocations, h ∈ kv.2)

/-- The decision `Execute(job, hosts)` with its host list rendered as `allocate` does. -/
def execute_of (p : JobPtr T × List Nat) : Decision :=
  .execute_job p.1.job_id (host_string p.2)

/-- The map `allocations` after the starts `E` (job, host set) have been recorded in order. -/
def record_allocations (m : List (String × List Nat)) (E : List (JobPtr T × List Nat)) :
    List (String × List Nat) :=
  E.foldl (fun m p => map_set m p.1.job_id p.2) m

/-- The map `end_times` after the starts `E` have been recorded in order at time `now`. -/
def record_end_times (now : T) (m : List (String × T)) (E : List (JobPtr T × List Nat)) :
    List (String × T) :=
  E.foldl (fun m p => map_set m p.1.job_id (now + p.1.walltime)) m

/-- Every job with a projected end time has an entry in `allocations`. -/
def Consistent (st : State T) : Prop :=
  ∀ k ∈ map_keys st.end_times, k ∈ map_keys st.allocations

/-- Summary of a stretch of the decision loop leading from `st` to `st1` in which the jobs
of `E` were started, in this order, on the host sets given. -/
def StartsSpec (now : T) (st st1 : State T) (E : List (JobPtr T × List Nat)) : Prop :=
  st1.out = st.out ++ E.map execute_of ∧
  st.available_hosts = (E.map Prod.snd).flatten ++ st1.available_hosts ∧
  (∀ p ∈ E, p.2.length = p.1.nb_hosts ∧ p.1 ∈ st.pending) ∧
  (∀ j ∈ st1.pending, j ∈ st.pending) ∧
  st1.platform_nb_hosts = st.platform_nb_hosts ∧
  st1.heap = st.heap ∧
  (Consistent st →
    st1.allocations = record_allocations st.allocations E ∧
    st1.end_times = record_end_times now st.end_times E) ∧
  ((st.pending.map (fun j => j.addr)).Nodup → st.pending.Perm (E.map Prod.fst ++ st1.pending))

/-- Facts about the representation that hold in every state a simulation reaches: the free
set is ascending, the queued records live at distinct addresses, all handed out already. -/
def BaseInv (st : State T) : Prop :=
  st.available_hosts.Sorted (· < ·) ∧
  (st.pending.map (fun j => j.addr)).Nodup ∧
  ∀ j ∈ st.pending, j.addr < st.heap

/-- State invariant of a simulation on a platform of `H` hosts in which job ids are unique:
the hosts of the state are a rearrangement of `0, ..., H-1`, the running jobs are distinct
and have end times only if they have an allocation, the queued jobs have distinct ids and
none of them is running. -/
def RunInv (H : Nat) (st : State T) : Prop :=
  BaseInv st ∧
  st.platform_nb_hosts = H ∧
  (hosts_of st).Perm (List.range H) ∧
  (map_keys st.allocations).Nodup ∧
  Consistent st ∧
  (st.pending.map (fun j => j.job_id)).Nodup ∧
  ∀ j ∈ st.pending, j.job_id ∉ map_keys st.allocations

/-- The ids still to be submitted are distinct and belong to no queued or running job. -/
def Fresh (ids : List String) (st : State T) : Prop :=
  ids.Nodup ∧
  ∀ id ∈ ids, id ∉ st.pending.map (fun j => j.job_id) ∧ id ∉ map_keys st.allocations

/-! ## Reading a host list -/

/-- Value of a decimal digit character. -/
def digit_value (c : Char) : Nat :=
  c.toNat - 48

/-- A decimal numeral read from left to right. -/
def read_decimal (cs : List Char) : Nat :=
  cs.foldl (fun n c => 10 * n + digit_value c) 0

/-- The pieces of a character sequence between its commas. -/
def split_commas : List Char → List (List Char)
  | [] => [[]]
  | c :: cs =>
    if c = ',' then [] :: split_commas cs
    else
      match split_commas cs with
      | [] => [[c]]
      | p :: ps => (c :: p) :: ps

/-- Reading a host list back: the empty string names no host, any other string is split on
its commas and each piece is read as a decimal number. -/
def parse_host_list (s : String) : List Nat :=
  if s.data = [] then [] else (split_commas s.data).map read_decimal

end Code

/-! ## Configuration -/

/-- The table `STR2POL`. -/
def STR2POL : List (String × Policy) :=
  [("exp", .EXP), ("fcfs", .FCFS), ("lcfs", .LCFS), ("lpf", .LPF), ("lqf", .LQF),
   ("spf", .SPF), ("sqf", .SQF)]

/-- The configuration globals as their static initialisers leave them:
`primary_policy = backfill_policy = Policy::FCFS`, `THRESHOLD_SEC = -1.0`. -/
def Config.load (T : Type) [Neg T] [NatCast T] : Config T :=
  { primary_policy := .FCFS, backfill_policy := .FCFS, THRESHOLD_SEC := -((1 : Nat) : T) }

/-- The way `batsim_edc_init` can fail to return: `std::stod` throws and nothing catches. -/
inductive InitFault where
  | stod_throws
deriving DecidableEq

/-- The erase-remove of `batsim_edc_init`: every single quote (code 39) and double quote
(code 34) is dropped. -/
def strip_quotes (s : List Char) : List Char :=
  s.filter (fun c => !(c == Char.ofNat 39 || c == Char.ofNat 34))

/-- Cutting a text at the first occurrence of `c`, as `find` and `substr` do: the part before
it and, when `c` occurs, the part after it. -/
def split_first (c : Char) : List Char → List Char × Option (List Char)
  | [] => ([], none)
  | x :: xs =>
    if x = c then ([], some xs)
    else ((x :: (split_first c xs).1), (split_first c xs).2)

/-- The statement `if (auto it = STR2POL.find(p); it != STR2POL.end()) field = it->second`:
the new value of `field`. -/
def assign_policy (field : Policy) (p : List Char) : Policy :=
  match map_get? STR2POL (String.mk p) with
  | some pol => pol
  | none => field

/-- The value of `THRESHOLD_SEC` after the lines that cut the text `s` at `@`: unchanged when
there is no `@`, else `std::stod(s.substr(at+1)) * 3600.0`.  `stod` is `std::stod`, with
`none` where it throws. -/
def parse_threshold {T : Type} [Mul T] [NatCast T] (stod : List Char → Option T)
    (cfg : Config T) (s : List Char) : Except InitFault T :=
  match (split_first '@' s).2 with
  | none => .ok cfg.THRESHOLD_SEC
  | some num =>
    match stod num with
    | none => .error .stod_throws
    | some h => .ok (h * ((3600 : Nat) : T))

/-- The texts `p1` and `p2` cut out of `queue_part`. -/
def policy_tokens (queue_part : List Char) : List Char × List Char :=
  ((split_first ',' queue_part).1,
   match (split_first ',' queue_part).2 with
   | none => (split_first ',' queue_part).1
   | some rest => rest)

/-- The callback `batsim_edc_init` on the argument text (a null pointer or a zero size, for
which the parsing is skipped, is the empty text): the returned status and the configuration
globals afterwards. -/
def batsim_edc_init {T : Type} [Mul T] [NatCast T] (stod : List Char → Option T)
    (cfg : Config T) (arg : String) : Except InitFault (Nat × Config T) :=
  if arg.data = [] then .ok (0, cfg)
  else
    match parse_threshold stod cfg (strip_quotes arg.data) with
    | .error e => .error e
    | .ok thr =>
      .ok (0,
        { primary_policy := assign_policy cfg.primary_policy
            (policy_tokens (split_first '@' (strip_quotes arg.data)).1).1,
          backfill_policy := assign_policy cfg.backfill_policy
            (policy_tokens (split_first '@' (strip_quotes arg.data)).1).2,
          THRESHOLD_SEC := thr })

/-- The status byte handed back by `batsim_edc_take_decisions`: the function has the single exit
`return 0` behind the loop. -/
def take_decisions_status {T : Type} [LinearOrder T] [Add T] [Sub T] [Neg T] [Div T] [Zero T]
    [NatCast T]
    (std_sort : (JobPtr T → JobPtr T → Bool) → List (JobPtr T) → List (JobPtr T))
    (cfg : Config T) (st : State T) (msg : T × List (Event T)) : Except Fault Nat :=
  match batsim_edc_take_decisions std_sort cfg st msg with
  | .error e => .error e
  | .ok _ => .ok 0

/-- The policy the specification assigns to a token: the entry of the table for the seven
names, FCFS for any other token. -/
def policy_of_token (p : List Char) : Policy :=
  (map_get? STR2POL (String.mk p)).getD .FCFS

/-! ## Determinism -/

/-- Two results of the model agree up to `R`: the same fault, or values related by `R`. -/
def Agree {α : Type} (R : α → α → Prop) : Except Fault α → Except Fault α → Prop
  | .ok x, .ok y => R x y
  | .error e, .error f => e = f
  | _, _ => False

/-- Two states that differ at most in the order in which the hash maps `allocations` and
`end_times` enumerate their entries (each being a map, with one entry per key, and every job
with an end time having an allocation). -/
def SameMaps {T : Type} (st st2 : State T) : Prop :=
  st.pending = st2.pending ∧ st.available_hosts = st2.available_hosts ∧
  st.platform_nb_hosts = st2.platform_nb_hosts ∧ st.out = st2.out ∧ st.heap = st2.heap ∧
  st.allocations.Perm st2.allocations ∧ st.end_times.Perm st2.end_times ∧
  (map_keys st.allocations).Nodup ∧ (map_keys st.end_times).Nodup ∧ Consistent st

/-! ## The iterations of a simulation -/

section EntriesDefs
variable {T : Type} [LinearOrder T] [Add T] [Sub T] [Neg T] [Div T] [Zero T] [NatCast T]

/-- The states in which the iterations of the EASY loop are entered, in order. -/
def loop_entries (std_sort : (JobPtr T → JobPtr T → Bool) → List (JobPtr T) → List (JobPtr T))
    (cfg : Config T) (now : T) : Nat → State T → List (State T)
  | 0, _ => []
  | fuel + 1, st =>
    if st.pending.isEmpty then []
    else
      st :: match easy_pass std_sort cfg now st with
        | .error _ => []
        | .ok (st1, progress) => if progress then loop_entries std_sort cfg now fuel st1 else []

/-- Every iteration of the EASY loop of a simulation: the time `now` of its wakeup and the
state in which it is entered. -/
def run_entries (std_sort : (JobPtr T → JobPtr T → Bool) → List (JobPtr T) → List (JobPtr T))
    (cfg : Config T) : State T → List (T × List (Event T)) → List (T × State T)
  | _, [] => []
  | st, msg :: msgs =>
    (loop_entries std_sort cfg msg.1
      ((msg.2.foldl (dispatch msg.1) { st with out := [] }).pending.length + 1)
      (msg.2.foldl (dispatch msg.1) { st with out := [] })).map (fun s => (msg.1, s)) ++
    match batsim_edc_take_decisions std_sort cfg st msg with
    | .error _ => []
    | .ok st1 => run_entries std_sort cfg st1 msgs

/-- The walltime carried by a `JobSubmitted` event is positive. -/
def walltime_positive : Event T → Prop
  | .jobSubmitted _ _ wt => 0 < wt
  | _ => True

end EntriesDefs

/-- The queue is in arrival order at time `t`: the records stand in the order of their
creation, their submission times do not decrease along the queue and none lies after `t`. -/
def ArrivalOrder {T : Type} [LinearOrder T] (t : T) (st : State T) : Prop :=
  BaseInv st ∧
  st.pending.Pairwise (fun x y => x.addr < y.addr ∧ x.submit_time ≤ y.submit_time) ∧
  ∀ j ∈ st.pending, j.submit_time ≤ t

/-- Invariant behind the stability of the primary order, at time `t`: the queued records
were submitted no later than `t` with positive walltimes, records created earlier were
submitted no later, and a record that stands in front of one created earlier has a
strictly smaller primary key from `t` on. -/
def SubmissionOrder {T : Type} [LinearOrder T] [Add T] [Sub T] [Neg T] [Div T] [Zero T]
    [NatCast T] (cfg : Config T) (t : T) (st : State T) : Prop :=
  BaseInv st ∧
  (∀ j ∈ st.pending, j.submit_time ≤ t ∧ 0 < j.walltime) ∧
  st.pending.Pairwise (fun x y =>
    (x.addr < y.addr → x.submit_time ≤ y.submit_time) ∧
    (y.addr < x.addr → y.submit_time ≤ x.submit_time ∧
      ∀ t2, t ≤ t2 → key_for x t2 cfg.primary_policy < key_for y t2 cfg.primary_policy))

/-- The configuration `cfg` with the threshold set to `thr`, the policies unchanged. -/
def with_threshold {T : Type} (cfg : Config T) (thr : T) : Config T :=
  { cfg with THRESHOLD_SEC := thr }

/-- The walltime carried by a `JobSubmitted` event is not negative. -/
def walltime_nonneg {T : Type} [LE T] [Zero T] : Event T → Prop
  | .jobSubmitted _ _ wt => 0 ≤ wt
  | _ => True

/-- No projected end time lies before `now`, and no queued job has a negative walltime. -/
def EndsAfter {T : Type} [LE T] [Zero T] (now : T) (st : State T) : Prop :=
  (∀ kv ∈ st.end_times, now ≤ kv.2) ∧ ∀ j ∈ st.pending, 0 ≤ j.walltime

/-! ## The plug-in `others/fcfs.cpp` -/

namespace Fcfs

/-- The record `struct SchedJob` of `fcfs.cpp`; `nb_hosts` is a `uint8_t`. -/
structure SchedJob where
  job_id : String
  nb_hosts : Nat
deriving DecidableEq

/-- The globals of `fcfs.cpp`; `out` is the content of the message builder. -/
structure State where
  jobs : List SchedJob
  running_jobs : List (String × SchedJob)
  job_allocations : List (String × List Nat)
  platform_nb_hosts : Nat
  available_res : List Nat
  out : List Decision

/-- State at load time. -/
def State.init : State :=
  { jobs := [], running_jobs := [], job_allocations := [], platform_nb_hosts := 0,
    available_res := [], out := [] }

/-- One case of the event `switch`.  The assignment `job->nb_hosts = resource_request()`
converts the 32-bit request to `uint8_t`, that is modulo 256, and the test that follows
reads the converted value. -/
def dispatch {T : Type} (st : State) : Event T → State
  | .hello => { st with out := st.out ++ [.edc_hello "fcfs" "1.0.0"] }
  | .simulationBegins h =>
    { st with
      platform_nb_hosts := h,
      available_res := (List.range h).foldl (fun s i => set_insert i s) st.available_res }
  | .jobSubmitted jid nb _ =>
    if st.platform_nb_hosts < nb % 256 then
      { st with out := st.out ++ [.reject_job jid] }
    else
      { st with jobs := st.jobs ++ [{ job_id := jid, nb_hosts := nb % 256 }] }
  | .jobCompleted jid =>
    match map_get? st.running_jobs jid with
    | some _ =>
      { st with
        available_res :=
          ((map_get? st.job_allocations jid).getD []).foldl (fun s h => set_insert h s)
            st.available_res,
        running_jobs := map_erase st.running_jobs jid,
        job_allocations := map_erase st.job_allocations jid }
    | none => st
  | .other => st

/-- The loop `while (!jobs->empty())` over the queue `q`: the front job is started while it
fits, the first one that does not fit ends the loop. -/
def schedule (st : State) : List SchedJob → State
  | [] => { st with jobs := [] }
  | job :: rest =>
    if job.nb_hosts ≤ st.available_res.length then
      schedule
        { st with
          available_res :=
            (pick_hosts st.available_res job.nb_hosts).foldl (fun s h => set_erase h s)
              st.available_res,
          running_jobs := map_set st.running_jobs job.job_id job,
          job_allocations :=
            map_set st.job_allocations job.job_id (pick_hosts st.available_res job.nb_hosts),
          out := st.out ++
            [.execute_job job.job_id (host_string (pick_hosts st.available_res job.nb_hosts))] }
        rest
    else { st with jobs := job :: rest }

/-- The callback `batsim_edc_take_decisions` of `fcfs.cpp` on a decoded message. -/
def batsim_edc_take_decisions {T : Type} (st : State) (msg : T × List (Event T)) : State :=
  schedule (msg.2.foldl dispatch { st with out := [] })
    (msg.2.foldl dispatch { st with out := [] }).jobs

end Fcfs

/-- The `Reject` and `Execute` decisions of a message, in order: every decision but the
`Hello` answers. -/
def reject_execute (ds : List Decision) : List Decision :=
  ds.filter (fun d => match d with
    | .edc_hello _ _ => false
    | _ => true)

/-! ## The plug-in `one-by-one/easy_spf_spf.cpp` -/

namespace SpfSpf

/-- The record `struct SchedJob` of `easy_spf_spf.cpp`; it has no submission time. -/
structure SchedJob (T : Type) where
  job_id : String
  nb_hosts : Nat
  walltime : T
deriving DecidableEq

/-- A `SchedJob*` of `easy_spf_spf.cpp`: the record and its heap address. -/
structure JobPtr (T : Type) extends SchedJob T where
  addr : Nat
deriving DecidableEq

/-- The globals of `easy_spf_spf.cpp`; `out` is the content of the message builder and
`heap` counts the `SchedJob` records created so far. -/
structure State (T : Type) where
  pending : List (JobPtr T)
  allocations : List (String × List Nat)
  end_times : List (String × T)
  available_hosts : List Nat
  platform_nb_hosts : Nat
  out : List Decision
  heap : Nat

/-- State at load time. -/
def State.init (T : Type) : State T :=
  { pending := [], allocations := [], end_times := [], available_hosts := [],
    platform_nb_hosts := 0, out := [], heap := 0 }

section Code

variable {T : Type} [LinearOrder T] [Add T]

/-- The value returned by `compute_reservation(now, need_hosts)` of `easy_spf_spf.cpp`. -/
def compute_reservation (st : State T) (now : T) (need_hosts : Nat) : T :=
  if need_hosts ≤ st.available_hosts.length % U32 then now
  else reservation_from now need_hosts (st.available_hosts.length % U32)
    (stable_sort pair_lt
      (st.end_times.map (fun kv =>
        (kv.2, ((map_get? st.allocations kv.1).getD []).length % U32))))

/-- Side effect of `compute_reservation` on the globals: unless it returns at once,
`allocations[kv.first]` stores an empty set for every key of `end_times` that is missing in
`allocations`. -/
def touch_allocations (st : State T) (need_hosts : Nat) : State T :=
  if need_hosts ≤ st.available_hosts.length % U32 then st
  else
    { st with
      allocations :=
        List.foldl (fun m kv => match map_get? m kv.1 with
          | some _ => m
          | none => map_set m kv.1 []) st.allocations st.end_times }

/-- The function `allocate_hosts(job_id, q)`; advancing the iterator past the end is a
fault. -/
def allocate_hosts (st : State T) (job_id : String) (q : Nat) :
    Except Fault (State T × String) :=
  if q ≤ st.available_hosts.length then
    .ok ({ st with
            available_hosts :=
              (pick_hosts st.available_hosts q).foldl (fun s h => set_erase h s) st.available_hosts,
            allocations := map_set st.allocations job_id (pick_hosts st.available_hosts q) },
         host_string (pick_hosts st.available_hosts q))
  else .error .underflow

/-- One case of the event `switch` of `easy_spf_spf.cpp`. -/
def dispatch (st : State T) : Event T → State T
  | .hello => { st with out := st.out ++ [.edc_hello "easy-spf" "1.0.0"] }
  | .simulationBegins h =>
    { st with
      platform_nb_hosts := h,
      available_hosts := (List.range h).foldl (fun s i => set_insert i s) st.available_hosts }
  | .jobSubmitted jid nb wt =>
    if st.platform_nb_hosts < nb then
      { st with out := st.out ++ [.reject_job jid], heap := st.heap + 1 }
    else
      { st with
        pending := st.pending ++
          [{ job_id := jid, nb_hosts := nb, walltime := wt, addr := st.heap }],
        heap := st.heap + 1 }
  | .jobCompleted jid =>
    match map_get? st.allocations jid with
    | some hs =>
      { st with
        available_hosts := hs.foldl (fun s h => set_insert h s) st.available_hosts,
        allocations := map_erase st.allocations jid,
        end_times := map_erase st.end_times jid }
    | none => st
  | .other => st

/-- The statements that start the job `j` and take it off the queue: `allocate_hosts`,
`add_execute_job`, `end_times[job_id] = now + walltime`, `pending->remove(j)`. -/
def start_job (now : T) (st : State T) (j : JobPtr T) : Except Fault (State T) :=
  match allocate_hosts st j.job_id j.nb_hosts with
  | .error e => .error e
  | .ok (st1, res) =>
    .ok { st1 with
          out := st1.out ++ [.execute_job j.job_id res],
          end_times := map_set st1.end_times j.job_id (now + j.walltime),
          pending := st1.pending.filter (fun x => decide (x.addr ≠ j.addr)) }

/-- The comparator handed to `std::stable_sort`. -/
def walltime_lt (a b : JobPtr T) : Bool :=
  decide (a.walltime < b.walltime)

/-- Body of the loop `for (auto *cand : sorted)`; the flag is `progress`. -/
def backfill_step (now reserve_t : T) (head : JobPtr T) (acc : State T × Bool)
    (cand : JobPtr T) : Except Fault (State T × Bool) :=
  if cand.addr = head.addr then .ok acc
  else if cand.nb_hosts ≤ acc.1.available_hosts.length ∧ now + cand.walltime ≤ reserve_t then
    match start_job now acc.1 cand with
    | .error e => .error e
    | .ok st1 => .ok (st1, true)
  else .ok acc

/-- The loop `for (auto *cand : sorted)`. -/
def backfill (now reserve_t : T) (head : JobPtr T) : State T × Bool → List (JobPtr T) →
    Except Fault (State T × Bool)
  | acc, [] => .ok acc
  | acc, cand :: sorted =>
    match backfill_step now reserve_t head acc cand with
    | .error e => .error e
    | .ok acc1 => backfill now reserve_t head acc1 sorted

/-- One iteration of the EASY-SPF-SPF loop; returns the new state and `progress`.  The
queue is copied into the vector `sorted`, which `std::stable_sort` orders by walltime; the
queue itself keeps its order. -/
def easy_pass (now : T) (st : State T) : Except Fault (State T × Bool) :=
  match stable_sort walltime_lt st.pending with
  | [] => .ok (st, false)
  | head :: rest =>
    if head.nb_hosts ≤ st.available_hosts.length then
      match start_job now st head with
      | .error e => .error e
      | .ok st1 => .ok (st1, true)
    else
      backfill now (compute_reservation st now head.nb_hosts) head
        (touch_allocations st head.nb_hosts, false) (head :: rest)

/-- The loop `while (progress && !pending->empty())`, bounded by `fuel` iterations. -/
def easy_loop (now : T) : Nat → State T → Except Fault (State T)
  | 0, st => if st.pending.isEmpty then .ok st else .error .out_of_fuel
  | fuel + 1, st =>
    if st.pending.isEmpty then .ok st
    else
      match easy_pass now st with
      | .error e => .error e
      | .ok (st1, progress) => if progress then easy_loop now fuel st1 else .ok st1

/-- The callback `batsim_edc_take_decisions` of `easy_spf_spf.cpp` on a decoded message. -/
def batsim_edc_take_decisions (st : State T) (msg : T × List (Event T)) :
    Except Fault (State T) :=
  easy_loop msg.1
    ((msg.2.foldl dispatch { st with out := [] }).pending.length + 1)
    (msg.2.foldl dispatch { st with out := [] })

/-- A simulation: one call of `batsim_edc_take_decisions` per message; the result lists the
state at the return of each call. -/
def run : State T → List (T × List (Event T)) → Except Fault (List (State T))
  | _, [] => .ok []
  | st, msg :: msgs =>
    match batsim_edc_take_decisions st msg with
    | .error e => .error e
    | .ok st1 =>
      match run st1 msgs with
      | .error e => .error e
      | .ok ds => .ok (st1 :: ds)

end Code

end SpfSpf

/-- The record of `easy_spf_spf.cpp` that holds the fields of a record of
`easy_variants.cpp` other than the submission time, at the same address. -/
def spf_record {T : Type} (j : JobPtr T) : SpfSpf.JobPtr T :=
  { job_id := j.job_id, nb_hosts := j.nb_hosts, walltime := j.walltime, addr := j.addr }

/-- The states of the two plug-ins hold the same globals, have sent the same `Reject` and
`Execute` decisions, and queue the same records, each queue in an order that gives the
same vector when sorted by walltime. -/
def Refines {T : Type} [LinearOrder T] (u : State T) (d : SpfSpf.State T) : Prop :=
  d.allocations = u.allocations ∧ d.end_times = u.end_times ∧
  d.available_hosts = u.available_hosts ∧ d.platform_nb_hosts = u.platform_nb_hosts ∧
  d.heap = u.heap ∧ reject_execute d.out = reject_execute u.out ∧
  (u.pending.map spf_record).Perm d.pending ∧
  (u.pending.map (fun j => j.addr)).Nodup ∧
  (∀ j ∈ u.pending, j.addr < u.heap) ∧
  u.pending.Pairwise (fun x y => x.walltime < y.walltime ∨ x.addr < y.addr) ∧
  d.pending.Pairwise (fun x y => x.walltime < y.walltime ∨ x.addr < y.addr)

/-! ## Binary64 arithmetic -/

/-- Number of binary digits of `n`, computed with at most `fuel` halvings. -/
def bit_length : Nat → Nat → Nat
  | 0, _ => 0
  | fuel + 1, n => if n = 0 then 0 else bit_length fuel (n / 2) + 1

/-- Rounding of a rational to 53 significant bits, to nearest, ties to even: the rounding
of IEEE 754 binary64 arithmetic (the C++ type `double`) on results in the normal range.
The exponent range is not modelled.  With `n / d` the absolute value, `k` is the exponent of
its leading bit and `m1` the 53-bit significand after rounding. -/
def round53 (q : Rat) : Rat :=
  if q = 0 then 0
  else
    let n := q.num.natAbs
    let d := q.den
    let k0 : Int := (bit_length n n : Int) - (bit_length d d : Int)
    let k : Int := if d * 2 ^ k0.toNat ≤ n * 2 ^ (-k0).toNat then k0 else k0 - 1
    let s : Int := 52 - k
    let num := n * 2 ^ s.toNat
    let den := d * 2 ^ (-s).toNat
    let m := num / den
    let r := num % den
    let m1 := if 2 * r < den then m else if den < 2 * r then m + 1
      else if m % 2 = 0 then m else m + 1
    let v : Rat := mkRat (m1 * 2 ^ (-s).toNat) (2 ^ s.toNat)
    if q < 0 then -v else v

/-- A finite `double`, given by its value.  The comparisons are those of the values; sum,
difference and quotient are the exact results rounded by `round53`, negation is exact. -/
structure Binary64 where
  val : Rat
deriving DecidableEq

instance : LinearOrder Binary64 where
  le a b := a.val ≤ b.val
  lt a b := a.val < b.val
  le_refl a := le_refl a.val
  le_trans _ _ _ h1 h2 := le_trans (α := Rat) h1 h2
  lt_iff_le_not_le _ _ := lt_iff_le_not_le (α := Rat)
  le_antisymm a b h1 h2 := by
    cases a
    cases b
    exact congrArg Binary64.mk (le_antisymm (α := Rat) h1 h2)
  le_total a b := le_total a.val b.val
  decidableLE a b := inferInstanceAs (Decidable (a.val ≤ b.val))
  decidableLT a b := inferInstanceAs (Decidable (a.val < b.val))

instance : Add Binary64 := ⟨fun a b => ⟨round53 (a.val + b.val)⟩⟩

instance : Sub Binary64 := ⟨fun a b => ⟨round53 (a.val - b.val)⟩⟩

instance : Neg Binary64 := ⟨fun a => ⟨-a.val⟩⟩

instance : Div Binary64 := ⟨fun a b => ⟨round53 (a.val / b.val)⟩⟩

instance : Zero Binary64 := ⟨⟨0⟩⟩

instance : NatCast Binary64 := ⟨fun n => ⟨round53 (n : Rat)⟩⟩

/-! ## Concrete inputs used to exercise the theorems -/

/-- Insertion sort as one admissible behaviour of `std::sort`. -/
def demo_sort : (JobPtr Int → JobPtr Int → Bool) → List (JobPtr Int) → List (JobPtr Int) :=
  stable_sort

/-- Configuration `fcfs`: primary = backfill = FCFS, threshold disabled. -/
def cfg_fcfs : Config Int :=
  { primary_policy := .FCFS, backfill_policy := .FCFS, THRESHOLD_SEC := -1 }

/-- A platform of four hosts, all free, nothing queued. -/
def st_four_free : State Int :=
  { State.init Int with available_hosts := [0, 1, 2, 3], platform_nb_hosts := 4 }

/-- A job record asking for two hosts for ten seconds. -/
def job_two : JobPtr Int :=
  { job_id := "J1", nb_hosts := 2, walltime := 10, submit_time := 0, addr := 0 }

/-- Scenario C before the last decision: four hosts, `J1` runs on hosts 0 and 1 until
time 50, and `J2` (four hosts) and `J3` (two hosts, walltime 100) wait. -/
def st_busy : State Int :=
  { pending :=
      [{ job_id := "J2", nb_hosts := 4, walltime := 20, submit_time := 0, addr := 1 },
       { job_id := "J3", nb_hosts := 2, walltime := 100, submit_time := 0, addr := 2 }],
    allocations := [("J1", [0, 1])],
    end_times := [("J1", 50)],
    available_hosts := [2, 3],
    platform_nb_hosts := 4,
    out := [],
    heap := 3 }

/-- The head of Scenario C. -/
def job_head : JobPtr Int :=
  { job_id := "J2", nb_hosts := 4, walltime := 20, submit_time := 0, addr := 1 }

/-- A candidate that ends before the reservation of Scenario C. -/
def job_short : JobPtr Int :=
  { job_id := "J4", nb_hosts := 1, walltime := 30, submit_time := 0, addr := 3 }

/-- The candidate `J3` of Scenario C: two hosts, walltime 100. -/
def job_wide : JobPtr Int :=
  { job_id := "J3", nb_hosts := 2, walltime := 100, submit_time := 0, addr := 2 }

/-- First message of Scenario C. -/
def msg_c1 : Int × List (Event Int) :=
  (0, [.simulationBegins 4, .jobSubmitted "J1" 2 50])

/-- Second message of Scenario C. -/
def msg_c2 : Int × List (Event Int) :=
  (0, [.jobSubmitted "J2" 4 20, .jobSubmitted "J3" 2 100])

/-- A first message that starts two jobs at once. -/
def msg_two_starts : Int × List (Event Int) :=
  (0, [.simulationBegins 4, .jobSubmitted "J1" 2 10, .jobSubmitted "J2" 1 5])

/-- Scenario B: four hosts; `J1` takes them all, `J2` and `J3` start when it completes. -/
def msgs_b_rest : List (Int × List (Event Int)) :=
  [(100, [.jobCompleted "J1"])]

/-- The events of the first message of Scenario B that follow `SimulationBegins(4)`. -/
def evs_b_first : List (Event Int) :=
  [.jobSubmitted "J1" 4 100, .jobSubmitted "J2" 2 10, .jobSubmitted "J3" 1 1000]

/-- Scenario F: two hosts and a job asking for three. -/
def msg_f : Int × List (Event Int) :=
  (0, [.simulationBegins 2, .jobSubmitted "Big" 3 1])

/-- A simulation on two hosts with an oversized job, a job that runs and completes, and a
job submitted afterwards. -/
def msgs_reject : List (Int × List (Event Int)) :=
  [(0, [.simulationBegins 2, .jobSubmitted "Big" 3 1, .jobSubmitted "A" 1 5]),
   (5, [.jobCompleted "A", .jobSubmitted "B" 2 3])]

/-- A simulation on five hosts in which the id `J` is submitted a second time while the
first job `J` runs: first message. -/
def msg_dup1 : Int × List (Event Int) :=
  (0, [.simulationBegins 5, .jobSubmitted "J" 3 10, .jobSubmitted "K" 1 20])

/-- Second message: a four-host job and a second job named `J`. -/
def msg_dup2 : Int × List (Event Int) :=
  (1, [.jobSubmitted "Head" 4 5, .jobSubmitted "J" 1 2])

/-- The four-host head of that simulation. -/
def job_h : JobPtr Int :=
  { job_id := "Head", nb_hosts := 4, walltime := 5, submit_time := 1, addr := 2 }

/-- The second job named `J`: one host, walltime 2. -/
def job_dup : JobPtr Int :=
  { job_id := "J", nb_hosts := 1, walltime := 2, submit_time := 1, addr := 3 }

/-- The state after the dispatch of the second message: `J` runs on hosts 0 to 2 until 10,
`K` on host 3 until 20, host 4 is free, `Head` and the second `J` are queued. -/
def st_dup : State Int :=
  { pending := [job_h, job_dup],
    allocations := [("J", [0, 1, 2]), ("K", [3])],
    end_times := [("J", 10), ("K", 20)],
    available_hosts := [4],
    platform_nb_hosts := 5,
    out := [],
    heap := 4 }

/-- Configuration `spf@20`: SPF for both orders, age rescue after 72000 seconds. -/
def cfg_spf_rescue : Config Int :=
  { primary_policy := .SPF, backfill_policy := .SPF, THRESHOLD_SEC := 72000 }

/-- Three queued jobs: a long old one, a short recent one, a short old one. -/
def queue_mixed : List (JobPtr Int) :=
  [{ job_id := "A", nb_hosts := 1, walltime := 500, submit_time := 0, addr := 0 },
   { job_id := "B", nb_hosts := 1, walltime := 10, submit_time := 50000, addr := 1 },
   { job_id := "C", nb_hosts := 1, walltime := 20, submit_time := 100, addr := 2 }]

/-- A state whose queue holds those three jobs in submission order. -/
def st_mixed : State Int :=
  { State.init Int with pending := queue_mixed, heap := 3 }

/-- `std::stod` on texts whose number is a plain decimal integer: white space in front is
skipped, an optional sign and the digits are read and whatever follows is left unread.
`none` where no digit is found, the case in which `std::stod` throws. -/
def stod_int (cs : List Char) : Option Int :=
  match cs.dropWhile Char.isWhitespace with
  | '-' :: r =>
    if r.takeWhile Char.isDigit = [] then none
    else some (-(read_decimal (r.takeWhile Char.isDigit) : Int))
  | '+' :: r =>
    if r.takeWhile Char.isDigit = [] then none
    else some (read_decimal (r.takeWhile Char.isDigit) : Int)
  | r =>
    if r.takeWhile Char.isDigit = [] then none
    else some (read_decimal (r.takeWhile Char.isDigit) : Int)

/-- A batch in which `SimulationBegins` arrives a second time, behind a submission. -/
def msg_begin_twice : Int × List (Event Int) :=
  (0, [.simulationBegins 4, .jobSubmitted "J1" 2 10, .simulationBegins 2])

/-- A later batch that holds a `SimulationBegins`. -/
def msg_begin_again : Int × List (Event Int) :=
  (5, [.simulationBegins 4])

/-- Five hosts: `A` runs on hosts 0 to 2 until 10, `B` on host 3 until 20, host 4 is free;
a four-host job and a short one-host job wait. -/
def st_pair : State Int :=
  { pending := [job_h, { job_id := "S", nb_hosts := 1, walltime := 2, submit_time := 1, addr := 3 }],
    allocations := [("A", [0, 1, 2]), ("B", [3])],
    end_times := [("A", 10), ("B", 20)],
    available_hosts := [4],
    platform_nb_hosts := 5,
    out := [],
    heap := 4 }

/-- The same state with the entries of both hash maps enumerated in the other order. -/
def st_pair_swapped : State Int :=
  { st_pair with
    allocations := [("B", [3]), ("A", [0, 1, 2])],
    end_times := [("B", 20), ("A", 10)] }

/-- Two wakeups: one without events at time 1, then `A` and `S` complete at time 10. -/
def msgs_pair : List (Int × List (Event Int)) :=
  [(1, []), (10, [.jobCompleted "A", .jobCompleted "S"])]

/-- A simulation on four hosts under `fcfs`: `A` takes three hosts, then the four-host job
`B` and the short one-host job `C` arrive. -/
def msgs_fcfs : List (Int × List (Event Int)) :=
  [(0, [.simulationBegins 4, .jobSubmitted "A" 3 10]),
   (1, [.jobSubmitted "B" 4 5, .jobSubmitted "C" 1 2])]

/-- Configuration `exp@1` over the rationals: EXP for both orders, age rescue after one
hour. -/
def cfg_exp : Config Rat :=
  { primary_policy := .EXP, backfill_policy := .EXP, THRESHOLD_SEC := 3600 }

/-- A simulation on one host: `R` holds the host, then `A` and `B` (walltime 10) and `C`
(walltime 2) arrive together and wait. -/
def msgs_exp : List (Rat × List (Event Rat)) :=
  [(0, [.simulationBegins 1, .jobSubmitted "R" 1 100]),
   (5, [.jobSubmitted "A" 1 10, .jobSubmitted "B" 1 10, .jobSubmitted "C" 1 2]),
   (7, [])]

/-- One host and a job `A` of walltime 5, submitted at time 0. -/
def msg_short_job : Int × List (Event Int) :=
  (0, [.simulationBegins 1, .jobSubmitted "A" 1 5])

/-- One host and a job submitted without a walltime, which the protocol writes as `-1`. -/
def msg_no_walltime : Int × List (Event Int) :=
  (0, [.simulationBegins 1, .jobSubmitted "A" 1 (-1)])

/-- Scenario C between its two messages: `J1` runs on hosts 0 and 1 until 50, nothing is
queued. -/
def st_busy_c : State Int :=
  { st_busy with pending := [], heap := 1 }

/-- Four hosts and a job asking for 260. -/
def msg_wide : Int × List (Event Int) :=
  (0, [.simulationBegins 4, .jobSubmitted "W" 260 10])

/-- Four hosts and a job asking for 256. -/
def msg_wide_zero : Int × List (Event Int) :=
  (0, [.simulationBegins 4, .jobSubmitted "Z" 256 10])

/-- Four hosts and a job asking for 5. -/
def msg_five : Int × List (Event Int) :=
  (0, [.simulationBegins 4, .jobSubmitted "F" 5 10])

/-- Configuration `lcfs,spf`: primary LCFS, backfill SPF, threshold disabled. -/
def cfg_lcfs_spf : Config Int :=
  { primary_policy := .LCFS, backfill_policy := .SPF, THRESHOLD_SEC := -1 }

/-- Three hosts.  `R1` and `R2` take them at time 0 and `X1` waits; `X2`, of the same
walltime as `X1`, arrives at time 1; at time 10 `R2` completes and the three-host job `Head`
arrives. -/
def msgs_ties : List (Int × List (Event Int)) :=
  [(0, [.simulationBegins 3, .jobSubmitted "R1" 2 100, .jobSubmitted "R2" 1 10,
        .jobSubmitted "X1" 1 5]),
   (1, [.jobSubmitted "X2" 1 5]),
   (10, [.jobCompleted "R2", .jobSubmitted "Head" 3 50])]

/-- The state of that simulation when the loop of the third wakeup is entered: `R1` runs on
hosts 0 and 1 until 100, host 2 is free, and `X2`, `X1`, `Head` are queued. -/
def st_ties : State Int :=
  { pending :=
      [{ job_id := "X2", nb_hosts := 1, walltime := 5, submit_time := 1, addr := 3 },
       { job_id := "X1", nb_hosts := 1, walltime := 5, submit_time := 0, addr := 2 },
       { job_id := "Head", nb_hosts := 3, walltime := 50, submit_time := 10, addr := 4 }],
    allocations := [("R1", [0, 1])],
    end_times := [("R1", 100)],
    available_hosts := [2],
    platform_nb_hosts := 3,
    out := [],
    heap := 5 }

/-- Configuration `spf`: SPF for both orders, threshold disabled. -/
def cfg_spf : Config Int :=
  { primary_policy := .SPF, backfill_policy := .SPF, THRESHOLD_SEC := -1 }

/-- Another admissible behaviour of `std::sort`: the result is ordered by the comparator and
equivalent elements come out in the reverse of their input order. -/
def tie_reversing_sort :
    (JobPtr Int → JobPtr Int → Bool) → List (JobPtr Int) → List (JobPtr Int) :=
  fun lt l => stable_sort lt l.reverse

/-- Three hosts: `R` takes two of them until time 100; at time 1 the three-host job `Head`
of walltime 5 arrives, followed by seventeen one-host jobs `C1` to `C17` of walltime 10. -/
def msgs_spf_ties : List (Int × List (Event Int)) :=
  [(0, [.simulationBegins 3, .jobSubmitted "R" 2 100]),
   (1, [.jobSubmitted "Head" 3 5,
        .jobSubmitted "C1" 1 10, .jobSubmitted "C2" 1 10, .jobSubmitted "C3" 1 10,
        .jobSubmitted "C4" 1 10, .jobSubmitted "C5" 1 10, .jobSubmitted "C6" 1 10,
        .jobSubmitted "C7" 1 10, .jobSubmitted "C8" 1 10, .jobSubmitted "C9" 1 10,
        .jobSubmitted "C10" 1 10, .jobSubmitted "C11" 1 10, .jobSubmitted "C12" 1 10,
        .jobSubmitted "C13" 1 10, .jobSubmitted "C14" 1 10, .jobSubmitted "C15" 1 10,
        .jobSubmitted "C16" 1 10, .jobSubmitted "C17" 1 10])]

/-- Configuration `exp` over `double`: EXP for both orders, threshold disabled. -/
def cfg_exp_double : Config Binary64 :=
  { primary_policy := .EXP, backfill_policy := .EXP, THRESHOLD_SEC := ⟨-1⟩ }

/-- One host, held by `R`.  At time 0 `Y`, of walltime `1 + 2^-52` (the `double` next
above 1), is submitted before `X`, of walltime 1; wakeups without events follow at time 1
and at time `1 + 2^-51`. -/
def msgs_rounding : List (Binary64 × List (Event Binary64)) :=
  [(⟨0⟩, [.simulationBegins 1, .jobSubmitted "R" 1 ⟨100⟩,
          .jobSubmitted "Y" 1 ⟨1 + 1 / 2 ^ 52⟩, .jobSubmitted "X" 1 ⟨1⟩]),
   (⟨1⟩, []),
   (⟨1 + 1 / 2 ^ 51⟩, [])]

/-- One host, held by `R`; `A` and `B` (walltime 10) and `C` (walltime 2) arrive together at
time 5 and wait; a wakeup without events follows at time 7. -/
def msgs_spf_tied : List (Int × List (Event Int)) :=
  [(0, [.simulationBegins 1, .jobSubmitted "R" 1 100]),
   (5, [.jobSubmitted "A" 1 10, .jobSubmitted "B" 1 10, .jobSubmitted "C" 1 2]),
   (7, [])]
/-! ## Container lemmas -/

theorem mem_set_insert (h x : Nat) (s : List Nat) : x ∈ set_insert h s ↔ x = h ∨ x ∈ s := by
  induction s with
  | nil => simp [set_insert]
  | cons y ys ih =>
    unfold set_insert
    split_ifs with h1 h2
    · simp
    · subst h2; simp
    · simp [ih]; tauto

theorem set_insert_perm {h : Nat} {s : List Nat} (hn : h ∉ s) : (set_insert h s).Perm (h :: s) := by
  induction s with
  | nil => simp [set_insert]
  | cons y ys ih =>
    simp only [List.mem_cons, not_or] at hn
    unfold set_insert
    split_ifs with h1 h2
    · exact List.Perm.refl _
    · exact absurd h2 hn.1
    · exact ((ih hn.2).cons y).trans (List.Perm.swap h y ys)

theorem set_insert_sorted {h : Nat} {s : List Nat} (hs : s.Sorted (· < ·)) :
    (set_insert h s).Sorted (· < ·) := by
  induction s with
  | nil => simp [set_insert]
  | cons y ys ih =>
    have hy := List.sorted_cons.1 hs
    unfold set_insert
    split_ifs with h1 h2
    · exact List.sorted_cons.2 ⟨fun b hb => by
        rcases List.mem_cons.1 hb with rfl | hb
        · exact h1
        · exact lt_trans h1 (hy.1 b hb), hs⟩
    · exact hs
    · refine List.sorted_cons.2 ⟨fun b hb => ?_, ih hy.2⟩
      rcases (mem_set_insert h b ys).1 hb with rfl | hb
      · omega
      · exact hy.1 b hb

theorem set_insert_of_mem {h : Nat} {s : List Nat} (hs : s.Sorted (· < ·)) (hm : h ∈ s) :
    set_insert h s = s := by
  induction s with
  | nil => simp at hm
  | cons y ys ih =>
    have hy := List.sorted_cons.1 hs
    unfold set_insert
    rcases List.mem_cons.1 hm with rfl | hm
    · simp
    · have := hy.1 h hm
      rw [if_neg (by omega), if_neg (by omega), ih hy.2 hm]

theorem set_insert_append {h : Nat} {s : List Nat} (hs : ∀ x ∈ s, x < h) :
    set_insert h s = s ++ [h] := by
  induction s with
  | nil => simp [set_insert]
  | cons y ys ih =>
    have := hs y (by simp)
    unfold set_insert
    rw [if_neg (by omega), if_neg (by omega), ih (fun x hx => hs x (by simp [hx]))]
    simp

theorem foldl_set_insert_append {l : List Nat} (hl : l.Sorted (· < ·)) :
    ∀ acc : List Nat, (∀ x ∈ acc, ∀ y ∈ l, x < y) →
      l.foldl (fun s h => set_insert h s) acc = acc ++ l := by
  induction l with
  | nil => intro acc _; simp
  | cons y ys ih =>
    intro acc hacc
    have hy := List.sorted_cons.1 hl
    rw [List.foldl_cons, set_insert_append (fun x hx => hacc x hx y (by simp)),
      ih hy.2 (acc ++ [y])]
    · simp
    · intro x hx z hz
      rcases List.mem_append.1 hx with hx | hx
      · exact hacc x hx z (by simp [hz])
      · simp at hx; subst hx; exact hy.1 z hz

theorem pick_hosts_eq {avail : List Nat} (hs : avail.Sorted (· < ·)) (q : Nat) :
    pick_hosts avail q = avail.take q := by
  unfold pick_hosts
  have := foldl_set_insert_append (hs.sublist (List.take_sublist q avail)) [] (by simp)
  simpa using this

theorem foldl_set_erase (l s : List Nat) :
    l.foldl (fun s h => set_erase h s) s = s.filter (fun x => decide (x ∉ l)) := by
  induction l generalizing s with
  | nil => simp
  | cons y ys ih =>
    rw [List.foldl_cons, ih, set_erase, List.filter_filter]
    congr 1
    funext x
    simp [not_or, Bool.and_comm]

theorem filter_not_mem_append {a b : List Nat} (hd : a.Disjoint b) :
    (a ++ b).filter (fun x => decide (x ∉ a)) = b := by
  rw [List.filter_append]
  have h1 : a.filter (fun x => decide (x ∉ a)) = [] := by
    rw [List.filter_eq_nil_iff]; intro x hx; simpa using hx
  have h2 : b.filter (fun x => decide (x ∉ a)) = b := by
    rw [List.filter_eq_self]; intro x hx; simpa using fun h => hd h hx
  rw [h1, h2, List.nil_append]

theorem erase_take_eq_drop {s : List Nat} (hs : s.Nodup) (q : Nat) :
    (s.take q).foldl (fun s h => set_erase h s) s = s.drop q := by
  rw [foldl_set_erase]
  rw [← List.take_append_drop q s] at hs
  have := filter_not_mem_append (List.disjoint_of_nodup_append hs)
  rwa [List.take_append_drop] at this

/-! ## Map lemmas -/

theorem map_get?_eq_none {V : Type} {m : List (String × V)} {k : String} :
    map_get? m k = none ↔ k ∉ map_keys m := by
  induction m with
  | nil => simp [map_get?, map_keys]
  | cons kv m ih =>
    unfold map_get?
    by_cases h : kv.1 = k
    · simp [h, map_keys]
    · simp only [h, if_false, ih, map_keys, List.map_cons, List.mem_cons, not_or]
      exact ⟨fun h2 => ⟨fun h3 => h h3.symm, h2⟩, fun h2 => h2.2⟩

theorem map_get?_mem {V : Type} {m : List (String × V)} {k : String} {v : V}
    (h : map_get? m k = some v) : (k, v) ∈ m := by
  induction m with
  | nil => simp [map_get?] at h
  | cons kv m ih =>
    unfold map_get? at h
    by_cases hk : kv.1 = k
    · simp only [hk, if_true, Option.some.injEq] at h
      subst hk; subst h; simp
    · simp only [hk, if_false] at h
      exact List.mem_cons_of_mem _ (ih h)

theorem map_set_of_not_mem {V : Type} {m : List (String × V)} {k : String} (v : V)
    (h : k ∉ map_keys m) : map_set m k v = m ++ [(k, v)] := by
  induction m with
  | nil => simp [map_set]
  | cons kv m ih =>
    simp only [map_keys, List.map_cons, List.mem_cons, not_or] at h
    unfold map_set
    rw [if_neg (fun e => h.1 e.symm), ih h.2]
    simp

theorem map_keys_map_set {V : Type} (m : List (String × V)) (k : String) (v : V) :
    map_keys (map_set m k v) = if k ∈ map_keys m then map_keys m else map_keys m ++ [k] := by
  induction m with
  | nil => simp [map_set, map_keys]
  | cons kv m ih =>
    unfold map_set
    by_cases hk : kv.1 = k
    · simp [hk, map_keys]
    · have hk2 : ¬ k = kv.1 := fun e => hk e.symm
      simp only [map_keys] at ih
      simp only [hk, if_false, map_keys, List.map_cons, List.mem_cons, hk2, false_or, ih]
      split_ifs <;> simp

theorem map_get?_map_set_same {V : Type} (m : List (String × V)) (k : String) (v : V) :
    map_get? (map_set m k v) k = some v := by
  induction m with
  | nil => simp [map_set, map_get?]
  | cons kv m ih =>
    unfold map_set
    by_cases hk : kv.1 = k
    · simp [hk, map_get?]
    · simp [hk, map_get?, ih]

theorem map_get?_map_set_other {V : Type} (m : List (String × V)) {k k2 : String} (v : V)
    (h : k2 ≠ k) : map_get? (map_set m k v) k2 = map_get? m k2 := by
  induction m with
  | nil =>
    have : ¬ k = k2 := fun e => h e.symm
    simp [map_set, map_get?, this]
  | cons kv m ih =>
    obtain ⟨a, b⟩ := kv
    by_cases hk : a = k
    · have h2 : ¬ a = k2 := fun e => h (e.symm.trans hk)
      simp only [map_set, hk, if_true, map_get?]
      rw [if_neg (hk ▸ h2), if_neg (hk ▸ h2)]
    · by_cases hk2 : a = k2
      · simp only [map_set, if_neg hk, map_get?, if_pos hk2]
      · simp only [map_set, if_neg hk, map_get?, if_neg hk2, ih]

theorem map_erase_of_not_mem {V : Type} {m : List (String × V)} {k : String}
    (h : k ∉ map_keys m) : map_erase m k = m := by
  unfold map_erase
  rw [List.filter_eq_self]
  intro kv hkv
  simp only [decide_eq_true_eq]
  intro e
  exact h (e ▸ List.mem_map_of_mem Prod.fst hkv)

theorem map_erase_map_set {V : Type} {m : List (String × V)} {k : String} (v : V)
    (h : k ∉ map_keys m) : map_erase (map_set m k v) k = m := by
  rw [map_set_of_not_mem v h]
  unfold map_erase
  rw [List.filter_append]
  have := map_erase_of_not_mem h
  unfold map_erase at this
  rw [this]
  simp

theorem map_keys_map_erase {V : Type} (m : List (String × V)) (k : String) :
    map_keys (map_erase m k) = (map_keys m).filter (fun x => decide (x ≠ k)) := by
  unfold map_erase map_keys
  rw [List.filter_map]
  rfl

theorem map_get?_map_erase_same {V : Type} (m : List (String × V)) (k : String) :
    map_get? (map_erase m k) k = none := by
  rw [map_get?_eq_none, map_keys_map_erase]
  simp

theorem map_get?_map_erase_other {V : Type} (m : List (String × V)) {k k2 : String}
    (h : k2 ≠ k) : map_get? (map_erase m k) k2 = map_get? m k2 := by
  induction m with
  | nil => simp [map_erase, map_get?]
  | cons kv m ih =>
    obtain ⟨a, b⟩ := kv
    unfold map_erase at ih ⊢
    by_cases hk : a = k
    · have h2 : ¬ a = k2 := fun e => h (e.symm.trans hk)
      have hd : decide ((a, b).1 ≠ k) = false := by simp [hk]
      rw [List.filter_cons_of_neg (by simp [hd]), ih]
      simp only [map_get?, if_neg h2]
    · have e : List.filter (fun kv : String × V => decide (kv.1 ≠ k)) ((a, b) :: m) =
          (a, b) :: List.filter (fun kv : String × V => decide (kv.1 ≠ k)) m := by
        simp [List.filter_cons, hk]
      rw [e]
      by_cases hk2 : a = k2
      · simp only [map_get?, if_pos hk2]
      · simp only [map_get?, if_neg hk2, ih]

/-! ## Sorting lemmas -/

theorem ordered_insert_perm {α : Type} (lt : α → α → Bool) (a : α) (l : List α) :
    (ordered_insert lt a l).Perm (a :: l) := by
  induction l with
  | nil => simp [ordered_insert]
  | cons b l ih =>
    unfold ordered_insert
    split_ifs
    · exact (ih.cons b).trans (List.Perm.swap a b l)
    · exact List.Perm.refl _

theorem stable_sort_perm {α : Type} (lt : α → α → Bool) (l : List α) :
    (stable_sort lt l).Perm l := by
  induction l with
  | nil => simp [stable_sort]
  | cons a l ih =>
    unfold stable_sort
    exact (ordered_insert_perm lt a _).trans (ih.cons a)

/-! ## Sets built by repeated insertion -/

theorem foldl_set_insert_sorted (l : List Nat) {s : List Nat} (hs : s.Sorted (· < ·)) :
    (l.foldl (fun s h => set_insert h s) s).Sorted (· < ·) := by
  induction l generalizing s with
  | nil => simpa using hs
  | cons y ys ih => exact ih (set_insert_sorted hs)

theorem mem_foldl_set_insert (l s : List Nat) (x : Nat) :
    x ∈ l.foldl (fun s h => set_insert h s) s ↔ x ∈ l ∨ x ∈ s := by
  induction l generalizing s with
  | nil => simp
  | cons y ys ih =>
    rw [List.foldl_cons, ih, mem_set_insert]
    simp only [List.mem_cons]
    tauto

theorem foldl_set_insert_perm (l : List Nat) {s : List Nat} (hn : (l ++ s).Nodup) :
    (l.foldl (fun s h => set_insert h s) s).Perm (l ++ s) := by
  induction l generalizing s with
  | nil => simp
  | cons y ys ih =>
    rw [List.foldl_cons]
    have h1 : y ∉ ys ++ s := (List.nodup_cons.1 hn).1
    have h2 : (ys ++ s).Nodup := (List.nodup_cons.1 hn).2
    have hy : y ∉ s := fun h => h1 (List.mem_append.2 (Or.inr h))
    have hp : (set_insert y s).Perm (y :: s) := set_insert_perm hy
    have h3 : (ys ++ set_insert y s).Nodup := by
      refine (List.Perm.nodup_iff (List.Perm.append_left ys hp)).2 ?_
      exact (List.Perm.nodup_iff List.perm_middle).2 (List.nodup_cons.2 ⟨h1, h2⟩)
    exact (ih h3).trans ((List.Perm.append_left ys hp).trans List.perm_middle)

theorem sorted_eq_of_mem_iff {a b : List Nat} (ha : a.Sorted (· < ·)) (hb : b.Sorted (· < ·))
    (h : ∀ x, x ∈ a ↔ x ∈ b) : a = b :=
  List.eq_of_perm_of_sorted ((List.perm_ext_iff_of_nodup ha.nodup hb.nodup).2 h) ha hb

theorem insert_take_into_drop {s : List Nat} (hs : s.Sorted (· < ·)) (q : Nat) :
    (s.take q).foldl (fun s h => set_insert h s) (s.drop q) = s := by
  refine sorted_eq_of_mem_iff
    (foldl_set_insert_sorted _ (hs.sublist (List.drop_sublist q s))) hs (fun x => ?_)
  rw [mem_foldl_set_insert, ← List.mem_append, List.take_append_drop]

/-! ## `allocate` -/

section Allocate

variable {T : Type}

theorem allocate_eq (st : State T) (jid : String) {q : Nat}
    (hF : st.available_hosts.Sorted (· < ·)) (hq : q ≤ st.available_hosts.length) :
    allocate st jid q =
      .ok ({ st with
              available_hosts := st.available_hosts.drop q,
              allocations := map_set st.allocations jid (st.available_hosts.take q) },
           host_string (st.available_hosts.take q)) := by
  unfold allocate
  rw [if_pos hq, pick_hosts_eq hF, erase_take_eq_drop hF.nodup]

theorem allocate_underflow (st : State T) (jid : String) {q : Nat}
    (hq : st.available_hosts.length < q) : allocate st jid q = .error .underflow := by
  unfold allocate
  rw [if_neg (by omega)]

theorem start_job_eq [Add T] (now : T) (st : State T) (j : JobPtr T)
    (hF : st.available_hosts.Sorted (· < ·)) (hq : j.nb_hosts ≤ st.available_hosts.length) :
    start_job now st j =
      .ok { st with
            available_hosts := st.available_hosts.drop j.nb_hosts,
            allocations := map_set st.allocations j.job_id (st.available_hosts.take j.nb_hosts),
            out := st.out ++
              [.execute_job j.job_id (host_string (st.available_hosts.take j.nb_hosts))],
            end_times := map_set st.end_times j.job_id (now + j.walltime) } := by
  unfold start_job
  rw [allocate_eq st j.job_id hF hq]

theorem take_lt_drop {s : List Nat} (hs : s.Sorted (· < ·)) (q : Nat) :
    ∀ x ∈ s.take q, ∀ y ∈ s.drop q, x < y := by
  have h := hs
  rw [← List.take_append_drop q s] at h
  exact (List.pairwise_append.1 h).2.2

theorem mem_drop_iff {s : List Nat} (hs : s.Nodup) (q x : Nat) :
    x ∈ s.drop q ↔ x ∈ s ∧ x ∉ s.take q := by
  have h := hs
  rw [← List.take_append_drop q s] at h
  have hd := List.disjoint_of_nodup_append h
  constructor
  · intro hx
    exact ⟨List.mem_of_mem_drop hx, fun ht => hd ht hx⟩
  · rintro ⟨hx, hn⟩
    rw [← List.take_append_drop q s] at hx
    rcases List.mem_append.1 hx with h1 | h1
    · exact absurd h1 hn
    · exact h1

end Allocate

/-! ## Sortedness of `stable_sort` -/

theorem mem_ordered_insert {α : Type} (lt : α → α → Bool) (a x : α) (l : List α) :
    x ∈ ordered_insert lt a l ↔ x = a ∨ x ∈ l := by
  rw [(ordered_insert_perm lt a l).mem_iff, List.mem_cons]

theorem ordered_insert_sorted {α : Type} (lt : α → α → Bool)
    (hasymm : ∀ a b, lt a b = true → lt b a = false)
    (htrans : ∀ a b c, lt b a = false → lt c b = false → lt c a = false)
    (a : α) {l : List α} (hl : l.Sorted (fun x y => lt y x = false)) :
    (ordered_insert lt a l).Sorted (fun x y => lt y x = false) := by
  induction l with
  | nil => simp [ordered_insert]
  | cons b l ih =>
    have hb := List.sorted_cons.1 hl
    unfold ordered_insert
    by_cases h : lt b a = true
    · rw [if_pos h]
      refine List.sorted_cons.2 ⟨fun x hx => ?_, ih hb.2⟩
      rcases (mem_ordered_insert lt a x l).1 hx with rfl | hx
      · exact hasymm _ _ h
      · exact hb.1 x hx
    · rw [if_neg h]
      have h2 : lt b a = false := by simpa using h
      refine List.sorted_cons.2 ⟨fun x hx => ?_, hl⟩
      rcases List.mem_cons.1 hx with rfl | hx
      · exact h2
      · exact htrans _ _ _ h2 (hb.1 x hx)

theorem stable_sort_sorted {α : Type} (lt : α → α → Bool)
    (hasymm : ∀ a b, lt a b = true → lt b a = false)
    (htrans : ∀ a b c, lt b a = false → lt c b = false → lt c a = false)
    (l : List α) : (stable_sort lt l).Sorted (fun x y => lt y x = false) := by
  induction l with
  | nil => simp [stable_sort]
  | cons a l ih => exact ordered_insert_sorted lt hasymm htrans a ih

section Reservation

variable {T : Type} [LinearOrder T]

theorem pair_lt_eq_false {a b : T × Nat} (h : pair_lt b a = false) : a.1 ≤ b.1 := by
  unfold pair_lt at h
  simp only [Bool.or_eq_false_iff, decide_eq_false_iff_not, not_lt] at h
  exact h.1

theorem pair_lt_asymm (a b : T × Nat) (h : pair_lt a b = true) : pair_lt b a = false := by
  unfold pair_lt at h ⊢
  simp only [Bool.or_eq_true, decide_eq_true_eq, Bool.and_eq_true, Bool.not_eq_true',
    decide_eq_false_iff_not, not_lt] at h
  simp only [Bool.or_eq_false_iff, decide_eq_false_iff_not, not_lt, Bool.and_eq_false_imp,
    Bool.not_eq_true', decide_eq_false_iff_not, not_lt]
  rcases h with h | ⟨h1, h2⟩
  · exact ⟨le_of_lt h, fun h3 => absurd (lt_of_lt_of_le h h3) (lt_irrefl _)⟩
  · exact ⟨h1, fun _ => by omega⟩

theorem pair_lt_trans (a b c : T × Nat) (h1 : pair_lt b a = false) (h2 : pair_lt c b = false) :
    pair_lt c a = false := by
  unfold pair_lt at h1 h2 ⊢
  simp only [Bool.or_eq_false_iff, decide_eq_false_iff_not, not_lt, Bool.and_eq_false_imp,
    Bool.not_eq_true', decide_eq_false_iff_not, not_lt] at h1 h2 ⊢
  refine ⟨le_trans h1.1 h2.1, fun h3 => ?_⟩
  have e1 : b.1 ≤ a.1 := le_trans h2.1 h3
  have e2 : c.1 ≤ b.1 := le_trans h3 h1.1
  have := h1.2 e1
  have := h2.2 e2
  omega

/-- The sorted event vector is ascending in the end time. -/
theorem sorted_events_time (l : List (T × Nat)) :
    (stable_sort pair_lt l).Sorted (fun a b => a.1 ≤ b.1) :=
  (stable_sort_sorted pair_lt pair_lt_asymm pair_lt_trans l).imp (fun h => pair_lt_eq_false h)

end Reservation

section Scan

variable {T : Type} [LinearOrder T]

theorem released_cons_of_le (ev : T × Nat) (rest : List (T × Nat)) {t : T} (h : ev.1 ≤ t) :
    released (ev :: rest) t = ev.2 + released rest t := by
  unfold released
  rw [List.filter_cons_of_pos (by simpa using h)]
  simp

theorem released_le_sum (events : List (T × Nat)) (t : T) :
    released events t ≤ (events.map Prod.snd).sum := by
  unfold released
  exact List.Sublist.sum_le_sum (List.Sublist.map _ (List.filter_sublist _)) (by simp)

theorem released_perm {a b : List (T × Nat)} (h : a.Perm b) (t : T) :
    released a t = released b t := by
  unfold released
  exact ((h.filter _).map _).sum_eq

theorem exists_mem_of_released_pos {events : List (T × Nat)} {t : T}
    (h : 0 < released events t) : ∃ ev ∈ events, ev.1 ≤ t := by
  unfold released at h
  cases hf : events.filter (fun ev => decide (ev.1 ≤ t)) with
  | nil => rw [hf] at h; simp at h
  | cons ev l =>
    have : ev ∈ events.filter (fun ev => decide (ev.1 ≤ t)) := by rw [hf]; simp
    rw [List.mem_filter] at this
    exact ⟨ev, this.1, by simpa using this.2⟩

theorem released_congr (events : List (T × Nat)) {s t : T}
    (h : ∀ ev ∈ events, (ev.1 ≤ s ↔ ev.1 ≤ t)) : released events s = released events t := by
  unfold released
  congr 2
  apply List.filter_congr
  intro ev hev
  simp [h ev hev]

/-- What the scan loop computes on a vector ascending in time, as long as the 32-bit
accumulator does not wrap: the least event time at which the accumulated count reaches
`need`, or nothing when even the total falls short. -/
theorem scan_events_spec (need : Nat) :
    ∀ (events : List (T × Nat)) (free : Nat), events.Sorted (fun a b => a.1 ≤ b.1) →
      free + (events.map Prod.snd).sum < U32 → free < need →
      match scan_events need free events with
      | some r => (∃ ev ∈ events, ev.1 = r) ∧ need ≤ free + released events r ∧
          ∀ ev ∈ events, need ≤ free + released events ev.1 → r ≤ ev.1
      | none => free + (events.map Prod.snd).sum < need := by
  intro events
  induction events with
  | nil => intro free _ _ hlt; simpa [scan_events] using hlt
  | cons ev rest ih =>
    intro free hs hfit hlt
    have hsc := List.sorted_cons.1 hs
    simp only [List.map_cons, List.sum_cons] at hfit
    have hmod : (free + ev.2) % U32 = free + ev.2 := Nat.mod_eq_of_lt (by omega)
    unfold scan_events
    rw [hmod]
    by_cases hreach : need ≤ free + ev.2
    · rw [if_pos hreach]
      refine ⟨⟨ev, by simp, rfl⟩, ?_, ?_⟩
      · rw [released_cons_of_le ev rest (le_refl _)]; omega
      · intro ev2 hev2 _
        rcases List.mem_cons.1 hev2 with rfl | h
        · exact le_refl _
        · exact hsc.1 ev2 h
    · rw [if_neg hreach]
      have hih := ih (free + ev.2) hsc.2 (by omega) (by omega)
      cases hscan : scan_events need (free + ev.2) rest with
      | none =>
        rw [hscan] at hih
        simp only [List.map_cons, List.sum_cons] at hih ⊢
        omega
      | some r =>
        rw [hscan] at hih
        obtain ⟨⟨ev1, hev1, hr⟩, hsat, hmin⟩ := hih
        have hle : ev.1 ≤ r := hr ▸ hsc.1 ev1 hev1
        refine ⟨⟨ev1, List.mem_cons_of_mem _ hev1, hr⟩, ?_, ?_⟩
        · rw [released_cons_of_le ev rest hle]; omega
        · intro ev2 hev2 hsat2
          rcases List.mem_cons.1 hev2 with rfl | h
          · rw [released_cons_of_le ev2 rest (le_refl _)] at hsat2
            have hpos : 0 < released rest ev2.1 := by omega
            obtain ⟨ev3, hev3, hle3⟩ := exists_mem_of_released_pos hpos
            have heq : ev3.1 = ev2.1 := le_antisymm hle3 (hsc.1 ev3 hev3)
            have := hmin ev3 hev3 (by rw [heq]; omega)
            rwa [heq] at this
          · have hle2 := hsc.1 ev2 h
            rw [released_cons_of_le ev rest hle2] at hsat2
            exact hmin ev2 h (by omega)

omit [LinearOrder T] in
/-- A successful scan returns the time of one of the events. -/
theorem scan_events_mem (need : Nat) :
    ∀ (events : List (T × Nat)) (free : Nat) (r : T),
      scan_events need free events = some r → ∃ ev ∈ events, ev.1 = r := by
  intro events
  induction events with
  | nil => intro free r h; simp [scan_events] at h
  | cons ev rest ih =>
    intro free r h
    unfold scan_events at h
    split_ifs at h with h1
    · exact ⟨ev, by simp, by simpa using h⟩
    · obtain ⟨ev1, hev1, hr⟩ := ih _ r h
      exact ⟨ev1, List.mem_cons_of_mem _ hev1, hr⟩

end Scan

section NoDelay

variable {T : Type} [LinearOrder T]

theorem sorted_le_getLast {events : List (T × Nat)} (hs : events.Sorted (fun a b => a.1 ≤ b.1))
    {l : T × Nat} (hl : events.getLast? = some l) : ∀ ev ∈ events, ev.1 ≤ l.1 := by
  induction events with
  | nil => simp
  | cons a rest ih =>
    have hsc := List.sorted_cons.1 hs
    intro ev hev
    cases rest with
    | nil =>
      simp only [List.getLast?_singleton, Option.some.injEq] at hl
      simp only [List.mem_singleton] at hev
      rw [hev, hl]
    | cons b rest2 =>
      rw [List.getLast?_cons_cons] at hl
      have hmem : l ∈ b :: rest2 := List.mem_of_getLast?_eq_some hl
      rcases List.mem_cons.1 hev with rfl | h
      · exact hsc.1 l hmem
      · exact ih hsc.2 hl ev h

omit [LinearOrder T] in
/-- The value of `reservation_from` on a non-empty vector is the time of one of its events. -/
theorem reservation_from_mem (now : T) (need free : Nat) {events : List (T × Nat)}
    (hne : events ≠ []) : ∃ ev ∈ events, ev.1 = reservation_from now need free events := by
  unfold reservation_from
  cases hscan : scan_events need free events with
  | some r => exact scan_events_mem need events free r hscan
  | none =>
    cases hl : events.getLast? with
    | none => exact absurd (List.getLast?_eq_none_iff.1 hl) hne
    | some l => exact ⟨l, List.mem_of_getLast?_eq_some hl, rfl⟩

/-- No-delay on event vectors: adding a release event `(e, q)` with `e` not later than the
old reservation, while taking `q` hosts out of the free count, does not move the reservation
to a later time. -/
theorem reservation_from_no_delay (now : T) (need free q : Nat) (e : T)
    {old new : List (T × Nat)}
    (hso : old.Sorted (fun a b => a.1 ≤ b.1)) (hsn : new.Sorted (fun a b => a.1 ≤ b.1))
    (hperm : new.Perm ((e, q) :: old))
    (hfit : free + (old.map Prod.snd).sum < U32) (hq : q ≤ free) (hlt : free < need)
    (he : e ≤ reservation_from now need free old) :
    reservation_from now need (free - q) new ≤ reservation_from now need free old := by
  have hsum : (new.map Prod.snd).sum = q + (old.map Prod.snd).sum := by
    rw [(hperm.map Prod.snd).sum_eq]; simp
  have hnew := scan_events_spec need new (free - q) hsn (by omega) (by omega)
  have hold := scan_events_spec need old free hso hfit hlt
  have hne : new ≠ [] := fun h => by rw [h] at hperm; simp at hperm
  cases hscan : scan_events need free old with
  | some t =>
    have htv : reservation_from now need free old = t := by
      unfold reservation_from; rw [hscan]
    rw [hscan] at hold
    rw [htv] at he ⊢
    obtain ⟨⟨ev, hev, hevt⟩, hsat, -⟩ := hold
    have hrel : released new t = q + released old t := by
      rw [released_perm hperm t]; exact released_cons_of_le (e, q) old he
    have hevn : ev ∈ new := hperm.mem_iff.2 (List.mem_cons_of_mem _ hev)
    cases hscan2 : scan_events need (free - q) new with
    | none =>
      rw [hscan2] at hnew
      have := released_le_sum new t
      omega
    | some r =>
      rw [hscan2] at hnew
      have hv : reservation_from now need (free - q) new = r := by
        unfold reservation_from; rw [hscan2]
      rw [hv]
      have := hnew.2.2 ev hevn (by rw [hevt, hrel]; omega)
      rwa [hevt] at this
  | none =>
    obtain ⟨ev, hev, hr⟩ := reservation_from_mem now need (free - q) hne
    rw [← hr]
    rcases List.mem_cons.1 (hperm.mem_iff.1 hev) with h | h
    · rw [h]; exact he
    · cases hl : old.getLast? with
      | none => rw [List.getLast?_eq_none_iff.1 hl] at h; simp at h
      | some l =>
        have htv : reservation_from now need free old = l.1 := by
          unfold reservation_from; rw [hscan, hl]
        rw [htv]
        exact sorted_le_getLast hso hl ev h

end NoDelay

/-! ## The partition invariant -/

section PartitionLemmas

variable {T : Type}

theorem mem_hosts_of (st : State T) (h : Nat) :
    h ∈ hosts_of st ↔ (h ∈ st.available_hosts ∨ ∃ kv ∈ st.allocations, h ∈ kv.2) := by
  unfold hosts_of
  simp only [List.mem_append, List.mem_flatten, List.mem_map]
  constructor
  · rintro (h1 | ⟨l, ⟨kv, hkv, rfl⟩, hl⟩)
    · exact Or.inl h1
    · exact Or.inr ⟨kv, hkv, hl⟩
  · rintro (h1 | ⟨kv, hkv, hl⟩)
    · exact Or.inl h1
    · exact Or.inr ⟨kv.2, ⟨kv, hkv, rfl⟩, hl⟩

theorem nodup_hosts_of (st : State T) :
    (hosts_of st).Nodup ↔
      st.available_hosts.Nodup ∧ (∀ kv ∈ st.allocations, kv.2.Nodup) ∧
      (∀ kv ∈ st.allocations, List.Disjoint st.available_hosts kv.2) ∧
      st.allocations.Pairwise (fun a b => List.Disjoint a.2 b.2) := by
  unfold hosts_of
  rw [List.nodup_append, List.nodup_flatten, List.pairwise_map]
  constructor
  · rintro ⟨h1, ⟨h2, h3⟩, h4⟩
    refine ⟨h1, fun kv hkv => h2 _ (List.mem_map_of_mem _ hkv), fun kv hkv x hx hx2 => ?_, h3⟩
    exact h4 hx (List.mem_flatten.2 ⟨kv.2, List.mem_map_of_mem _ hkv, hx2⟩)
  · rintro ⟨h1, h2, h3, h4⟩
    refine ⟨h1, ⟨fun l hl => ?_, h4⟩, fun x hx hx2 => ?_⟩
    · obtain ⟨kv, hkv, rfl⟩ := List.mem_map.1 hl
      exact h2 kv hkv
    · obtain ⟨l, hl, hxl⟩ := List.mem_flatten.1 hx2
      obtain ⟨kv, hkv, rfl⟩ := List.mem_map.1 hl
      exact h3 kv hkv hx hxl

/-- The partition invariant says that the hosts of the state are a rearrangement of
`0, ..., H-1`. -/
theorem partition_iff_perm (H : Nat) (st : State T) :
    Partition H st ↔ (hosts_of st).Perm (List.range H) := by
  constructor
  · rintro ⟨h1, h2, h3, h4, h5⟩
    refine (List.perm_ext_iff_of_nodup ((nodup_hosts_of st).2 ⟨h1, h2, h3, h4⟩)
      (List.nodup_range H)).2 (fun h => ?_)
    rw [mem_hosts_of, List.mem_range, h5]
  · intro hp
    have hn : (hosts_of st).Nodup := hp.nodup_iff.2 (List.nodup_range H)
    obtain ⟨h1, h2, h3, h4⟩ := (nodup_hosts_of st).1 hn
    refine ⟨h1, h2, h3, h4, fun h => ?_⟩
    rw [← mem_hosts_of, hp.mem_iff, List.mem_range]

theorem length_hosts_of (st : State T) :
    (hosts_of st).length =
      st.available_hosts.length + (st.allocations.map (fun kv => kv.2.length)).sum := by
  unfold hosts_of
  simp [List.length_flatten, Function.comp_def]

theorem alloc_size_cons (st : State T) (kv : String × List Nat) (k : String) :
    alloc_size { st with allocations := kv :: st.allocations } k =
      if kv.1 = k then kv.2.length else alloc_size st k := by
  unfold alloc_size
  simp only [map_get?]
  split_ifs <;> rfl

/-- Distinct running jobs read distinct entries of `allocations`, so together they hold at
most as many hosts as the allocations contain. -/
theorem sum_sizes_le (m : List (String × List Nat)) :
    ∀ keys : List String, keys.Nodup →
      (keys.map (fun k => ((map_get? m k).getD []).length)).sum ≤
        (m.map (fun kv => kv.2.length)).sum := by
  induction m with
  | nil => intro keys _; simp [map_get?]
  | cons kv m ih =>
    intro keys hk
    have hsz : ∀ k, ((map_get? (kv :: m) k).getD []).length =
        if kv.1 = k then kv.2.length else ((map_get? m k).getD []).length := by
      intro k
      simp only [map_get?]
      split_ifs <;> rfl
    have hstep : ∀ ks : List String, ks.Nodup →
        (ks.map (fun k => ((map_get? (kv :: m) k).getD []).length)).sum ≤
          (if kv.1 ∈ ks then kv.2.length else 0) +
            (ks.map (fun k => ((map_get? m k).getD []).length)).sum := by
      intro ks
      induction ks with
      | nil => intro _; simp
      | cons k ks ih2 =>
        intro hnd
        have hnd2 := List.nodup_cons.1 hnd
        have h3 := ih2 hnd2.2
        rw [List.map_cons, List.sum_cons, List.map_cons, List.sum_cons, hsz k]
        by_cases hkk : kv.1 = k
        · have hnot : kv.1 ∉ ks := hkk ▸ hnd2.1
          rw [if_neg hnot] at h3
          rw [if_pos hkk, if_pos (by simp [hkk])]
          omega
        · rw [if_neg hkk]
          by_cases hin : kv.1 ∈ ks
          · rw [if_pos hin] at h3
            rw [if_pos (by simp [hin])]
            omega
          · rw [if_neg hin] at h3
            rw [if_neg (by simp [hin, hkk])]
            omega
    have h1 := hstep keys hk
    have h2 := ih keys hk
    simp only [List.map_cons, List.sum_cons]
    split_ifs at h1 <;> omega

theorem running_hosts_le (st : State T) (hk : (map_keys st.end_times).Nodup) :
    running_hosts st ≤ (st.allocations.map (fun kv => kv.2.length)).sum := by
  have := sum_sizes_le st.allocations (map_keys st.end_times) hk
  unfold running_hosts alloc_size
  unfold map_keys at this
  rwa [List.map_map] at this

/-- In a state satisfying the partition invariant for a 32-bit host count, the free count
plus the host counts of the running jobs fits in 32 bits. -/
theorem partition_fits {H : Nat} {st : State T} (hp : Partition H st) (hH : H < U32)
    (hk : (map_keys st.end_times).Nodup) :
    st.available_hosts.length + running_hosts st < U32 := by
  have h1 := ((partition_iff_perm H st).1 hp).length_eq
  rw [length_hosts_of, List.length_range] at h1
  have h2 := running_hosts_le st hk
  omega

end PartitionLemmas

/-! ## `compute_reservation` on states -/

section ReservationState

variable {T : Type} [LinearOrder T]

omit [LinearOrder T] in
theorem alloc_size_le_running (st : State T) {kv : String × T} (h : kv ∈ st.end_times) :
    alloc_size st kv.1 ≤ running_hosts st := by
  unfold running_hosts
  exact List.le_sum_of_mem (List.mem_map.2 ⟨kv, h, rfl⟩)

omit [LinearOrder T] in
theorem release_events_eq (st : State T) (hfit : running_hosts st < U32) :
    release_events st = st.end_times.map (fun kv => (kv.2, alloc_size st kv.1)) := by
  unfold release_events
  apply List.map_congr_left
  intro kv hkv
  have := alloc_size_le_running st hkv
  rw [Nat.mod_eq_of_lt (by omega)]

omit [LinearOrder T] in
theorem sum_release_events (st : State T) (hfit : running_hosts st < U32) :
    ((release_events st).map Prod.snd).sum = running_hosts st := by
  rw [release_events_eq st hfit, List.map_map]
  rfl

theorem released_release_events (st : State T) (hfit : running_hosts st < U32) (t : T) :
    released (release_events st) t = released_by st t := by
  rw [release_events_eq st hfit]
  unfold released released_by
  rw [List.filter_map, List.map_map]
  rfl

theorem sum_sorted_events (st : State T) (hfit : running_hosts st < U32) :
    ((stable_sort pair_lt (release_events st)).map Prod.snd).sum = running_hosts st := by
  rw [((stable_sort_perm pair_lt (release_events st)).map Prod.snd).sum_eq]
  exact sum_release_events st hfit

theorem compute_reservation_of_lt (st : State T) (now : T) {need : Nat}
    (hfit : st.available_hosts.length < U32) (hlt : st.available_hosts.length < need) :
    compute_reservation st now need =
      reservation_from now need st.available_hosts.length
        (stable_sort pair_lt (release_events st)) := by
  unfold compute_reservation
  rw [Nat.mod_eq_of_lt hfit, if_neg (by omega)]

omit [LinearOrder T] in
/-- Release events after a job that is not running has been started. -/
theorem release_events_start [Add T] (now : T) (st : State T) (j : JobPtr T)
    (hF : st.available_hosts.Sorted (· < ·)) (hq : j.nb_hosts ≤ st.available_hosts.length)
    (he : j.job_id ∉ map_keys st.end_times) (hfit : st.available_hosts.length < U32) :
    ∃ st1, start_job now st j = .ok st1 ∧
      st1.available_hosts = st.available_hosts.drop j.nb_hosts ∧
      release_events st1 = release_events st ++ [(now + j.walltime, j.nb_hosts)] := by
  refine ⟨_, start_job_eq now st j hF hq, rfl, ?_⟩
  unfold release_events
  simp only [map_set_of_not_mem _ he, List.map_append, List.map_cons, List.map_nil]
  congr 1
  · apply List.map_congr_left
    intro kv hkv
    have hne : kv.1 ≠ j.job_id := fun e => he (e ▸ List.mem_map_of_mem Prod.fst hkv)
    unfold alloc_size
    simp only [map_get?_map_set_other _ _ hne]
  · unfold alloc_size
    simp only [map_get?_map_set_same, Option.getD_some, List.length_take]
    rw [Nat.min_eq_left hq, Nat.mod_eq_of_lt (by omega)]

end ReservationState

/-! ## Structure of the decision loop -/

section LoopStructure

variable {T : Type}

theorem touch_allocations_fields (st : State T) (need : Nat) :
    (touch_allocations st need).pending = st.pending ∧
    (touch_allocations st need).out = st.out ∧
    (touch_allocations st need).available_hosts = st.available_hosts ∧
    (touch_allocations st need).end_times = st.end_times ∧
    (touch_allocations st need).platform_nb_hosts = st.platform_nb_hosts ∧
    (touch_allocations st need).heap = st.heap := by
  unfold touch_allocations
  split_ifs <;> exact ⟨rfl, rfl, rfl, rfl, rfl, rfl⟩

theorem allocate_ok (st : State T) (jid : String) {q : Nat}
    (hq : q ≤ st.available_hosts.length) : ∃ r, allocate st jid q = .ok r := by
  unfold allocate
  rw [if_pos hq]
  exact ⟨_, rfl⟩

theorem start_job_ok [Add T] (now : T) (st : State T) (j : JobPtr T)
    (hq : j.nb_hosts ≤ st.available_hosts.length) : ∃ st1, start_job now st j = .ok st1 := by
  obtain ⟨r, hr⟩ := allocate_ok st j.job_id hq
  unfold start_job
  rw [hr]
  exact ⟨_, rfl⟩

/-- A backfill step either skips the candidate or, the two guards holding, starts it and
removes it from the queue. -/
theorem backfill_step_cases [LinearOrder T] [Add T] (now reserve_t : T) (acc : State T × Bool)
    (cand : JobPtr T) :
    (¬ (cand.nb_hosts ≤ acc.1.available_hosts.length ∧ now + cand.walltime ≤ reserve_t) ∧
      backfill_step now reserve_t acc cand = .ok acc) ∨
    (cand.nb_hosts ≤ acc.1.available_hosts.length ∧ now + cand.walltime ≤ reserve_t ∧
      ∃ st1, start_job now acc.1 cand = .ok st1 ∧
        backfill_step now reserve_t acc cand =
          .ok ({ st1 with pending := st1.pending.filter (fun j => decide (j.addr ≠ cand.addr)) },
               true)) := by
  by_cases hg : cand.nb_hosts ≤ acc.1.available_hosts.length ∧ now + cand.walltime ≤ reserve_t
  · right
    obtain ⟨st1, hst1⟩ := start_job_ok now acc.1 cand hg.1
    refine ⟨hg.1, hg.2, st1, hst1, ?_⟩
    unfold backfill_step
    rw [if_pos hg, hst1]
  · left
    refine ⟨hg, ?_⟩
    unfold backfill_step
    rw [if_neg hg]

theorem backfill_step_ok [LinearOrder T] [Add T] (now reserve_t : T) (acc : State T × Bool)
    (cand : JobPtr T) : ∃ acc1, backfill_step now reserve_t acc cand = .ok acc1 := by
  rcases backfill_step_cases now reserve_t acc cand with ⟨-, h⟩ | ⟨-, -, st1, -, h⟩
  · exact ⟨_, h⟩
  · exact ⟨_, h⟩

/-- Induction over the candidate loop: a property of the accumulated state and the
candidates still to be tried that survives skipping and starting a candidate holds at the
end, and the loop does not fault. -/
theorem backfill_fold [LinearOrder T] [Add T] (now reserve_t : T)
    (P : State T × Bool → List (JobPtr T) → Prop)
    (hskip : ∀ acc c bf, P acc (c :: bf) → P acc bf)
    (hstart : ∀ acc c bf st1, P acc (c :: bf) → c.nb_hosts ≤ acc.1.available_hosts.length →
      now + c.walltime ≤ reserve_t → start_job now acc.1 c = .ok st1 →
      P ({ st1 with pending := st1.pending.filter (fun j => decide (j.addr ≠ c.addr)) }, true) bf) :
    ∀ (bf : List (JobPtr T)) (acc : State T × Bool), P acc bf →
      ∃ acc1, backfill now reserve_t acc bf = .ok acc1 ∧ P acc1 [] := by
  intro bf
  induction bf with
  | nil => intro acc h; exact ⟨acc, rfl, h⟩
  | cons c bf ih =>
    intro acc h
    unfold backfill
    rcases backfill_step_cases now reserve_t acc c with ⟨-, hs⟩ | ⟨h1, h2, st1, hst1, hs⟩
    · rw [hs]; exact ih acc (hskip acc c bf h)
    · rw [hs]; exact ih _ (hstart acc c bf st1 h h1 h2 hst1)

end LoopStructure

section PassStructure

variable {T : Type} [LinearOrder T] [Add T] [Sub T] [Neg T] [Div T] [Zero T] [NatCast T]

/-- The three ways an iteration of the EASY loop can go. -/
theorem easy_pass_cases
    (std_sort : (JobPtr T → JobPtr T → Bool) → List (JobPtr T) → List (JobPtr T))
    (cfg : Config T) (now : T) (st : State T) :
    (stable_sort (primary_lt cfg now) st.pending = [] ∧
      easy_pass std_sort cfg now st = .ok (st, false)) ∨
    (∃ head rest, stable_sort (primary_lt cfg now) st.pending = head :: rest ∧
      head.nb_hosts ≤ st.available_hosts.length ∧
      ∃ st1, start_job now { st with pending := head :: rest } head = .ok st1 ∧
        easy_pass std_sort cfg now st = .ok ({ st1 with pending := rest }, true)) ∨
    (∃ head rest, stable_sort (primary_lt cfg now) st.pending = head :: rest ∧
      st.available_hosts.length < head.nb_hosts ∧
      easy_pass std_sort cfg now st =
        backfill now (compute_reservation { st with pending := head :: rest } now head.nb_hosts)
          (touch_allocations { st with pending := head :: rest } head.nb_hosts, false)
          (std_sort (backfill_lt cfg now) rest)) := by
  cases hs : stable_sort (primary_lt cfg now) st.pending with
  | nil =>
    left
    refine ⟨rfl, ?_⟩
    unfold easy_pass
    rw [hs]
  | cons head rest =>
    right
    by_cases hg : head.nb_hosts ≤ st.available_hosts.length
    · left
      obtain ⟨st1, hst1⟩ := start_job_ok now { st with pending := head :: rest } head hg
      refine ⟨head, rest, rfl, hg, st1, hst1, ?_⟩
      unfold easy_pass
      rw [hs]
      simp only [if_pos hg, hst1]
    · right
      refine ⟨head, rest, rfl, by omega, ?_⟩
      unfold easy_pass
      rw [hs]
      simp only [if_neg hg]

end PassStructure

/-! ## The loop neither faults nor runs out of fuel -/

section LoopFacts

variable {T : Type} [LinearOrder T] [Add T]

omit [LinearOrder T] in
/-- The fields `start_job` leaves alone, and the decision it appends. -/
theorem start_job_fields (now : T) (st st1 : State T) (j : JobPtr T)
    (h : start_job now st j = .ok st1) :
    j.nb_hosts ≤ st.available_hosts.length ∧
    st1.pending = st.pending ∧ st1.platform_nb_hosts = st.platform_nb_hosts ∧
    st1.heap = st.heap ∧
    st1.out = st.out ++
      [.execute_job j.job_id (host_string (pick_hosts st.available_hosts j.nb_hosts))] := by
  unfold start_job allocate at h
  by_cases hq : j.nb_hosts ≤ st.available_hosts.length
  · rw [if_pos hq] at h
    simp only [Except.ok.injEq] at h
    subst h
    exact ⟨hq, rfl, rfl, rfl, rfl⟩
  · rw [if_neg hq] at h
    simp at h

theorem backfill_ok (now reserve_t : T) (bf : List (JobPtr T)) (acc : State T × Bool) :
    ∃ acc1, backfill now reserve_t acc bf = .ok acc1 := by
  obtain ⟨acc1, h, -⟩ := backfill_fold now reserve_t (fun _ _ => True)
    (fun _ _ _ _ => trivial) (fun _ _ _ _ _ _ _ _ => trivial) bf acc trivial
  exact ⟨acc1, h⟩

omit [LinearOrder T] [Add T] in
theorem length_filter_addr_lt {l : List (JobPtr T)} {c : JobPtr T} (hc : c ∈ l) :
    (l.filter (fun j => decide (j.addr ≠ c.addr))).length < l.length := by
  rw [List.length_filter_lt_length_iff_exists]
  exact ⟨c, hc, by simp⟩

/-- When the candidates come from the queue, a candidate loop that reports progress has
shortened the queue, and one that reports none has left it alone. -/
theorem backfill_progress (now reserve_t : T) (st : State T) (bf : List (JobPtr T))
    (hbf : ∀ c ∈ bf, c ∈ st.pending) :
    ∃ acc1, backfill now reserve_t (st, false) bf = .ok acc1 ∧
      ((acc1.2 = false ∧ acc1.1.pending = st.pending) ∨
       (acc1.2 = true ∧ acc1.1.pending.length < st.pending.length)) := by
  obtain ⟨acc1, h, hP⟩ := backfill_fold now reserve_t
    (fun acc rem => (∀ c ∈ rem, c ∈ st.pending) ∧
      ((acc.2 = false ∧ acc.1.pending = st.pending) ∨
       (acc.2 = true ∧ acc.1.pending.length < st.pending.length)))
    (fun acc c bf h => ⟨fun x hx => h.1 x (List.mem_cons_of_mem _ hx), h.2⟩)
    (fun acc c bf st1 h _ _ hst => by
      refine ⟨fun x hx => h.1 x (List.mem_cons_of_mem _ hx), Or.inr ⟨rfl, ?_⟩⟩
      have hp := (start_job_fields now acc.1 st1 c hst).2.1
      simp only [hp]
      rcases h.2 with ⟨-, h2⟩ | ⟨-, h2⟩
      · rw [h2]
        exact length_filter_addr_lt (h.1 c (by simp))
      · exact lt_of_le_of_lt (List.length_filter_le _ _) h2)
    bf (st, false) ⟨hbf, Or.inl ⟨rfl, rfl⟩⟩
  exact ⟨acc1, h, hP.2⟩

end LoopFacts

section LoopTermination

variable {T : Type} [LinearOrder T] [Add T] [Sub T] [Neg T] [Div T] [Zero T] [NatCast T]

/-- An iteration never faults. -/
theorem easy_pass_ok
    (std_sort : (JobPtr T → JobPtr T → Bool) → List (JobPtr T) → List (JobPtr T))
    (cfg : Config T) (now : T) (st : State T) :
    ∃ r, easy_pass std_sort cfg now st = .ok r := by
  rcases easy_pass_cases std_sort cfg now st with ⟨-, h⟩ | ⟨_, _, -, -, _, -, h⟩ |
    ⟨head, rest, -, -, h⟩
  · exact ⟨_, h⟩
  · exact ⟨_, h⟩
  · rw [h]; exact backfill_ok _ _ _ _

/-- An iteration that reports progress has shortened the queue. -/
theorem easy_pass_progress
    (std_sort : (JobPtr T → JobPtr T → Bool) → List (JobPtr T) → List (JobPtr T))
    (hsub : ∀ lt l, ∀ x ∈ std_sort lt l, x ∈ l)
    (cfg : Config T) (now : T) (st st1 : State T)
    (h : easy_pass std_sort cfg now st = .ok (st1, true)) :
    st1.pending.length < st.pending.length := by
  have hlen := (stable_sort_perm (primary_lt cfg now) st.pending).length_eq
  rcases easy_pass_cases std_sort cfg now st with ⟨-, h1⟩ | ⟨head, rest, hs, -, s1, hs1, h1⟩ |
    ⟨head, rest, hs, -, h1⟩
  · rw [h1] at h; simp at h
  · rw [h1] at h
    simp only [Except.ok.injEq, Prod.mk.injEq, and_true] at h
    subst h
    rw [hs] at hlen
    simp only [List.length_cons] at hlen
    simp only
    omega
  · rw [h1] at h
    obtain ⟨acc1, hb, hP⟩ := backfill_progress now
      (compute_reservation { st with pending := head :: rest } now head.nb_hosts)
      (touch_allocations { st with pending := head :: rest } head.nb_hosts)
      (std_sort (backfill_lt cfg now) rest)
      (fun c hc => by
        rw [(touch_allocations_fields _ _).1]
        exact List.mem_cons_of_mem _ (hsub _ _ c hc))
    rw [hb] at h
    simp only [Except.ok.injEq] at h
    subst h
    rcases hP with ⟨h2, -⟩ | ⟨-, h2⟩
    · simp at h2
    · have e : (touch_allocations { st with pending := head :: rest }
          head.nb_hosts).pending = head :: rest := (touch_allocations_fields _ _).1
      rw [e] at h2
      rw [hs] at hlen
      simp only at h2
      omega

/-- With fuel beyond the queue length the loop comes to its end. -/
theorem easy_loop_ok
    (std_sort : (JobPtr T → JobPtr T → Bool) → List (JobPtr T) → List (JobPtr T))
    (hsub : ∀ lt l, ∀ x ∈ std_sort lt l, x ∈ l)
    (cfg : Config T) (now : T) :
    ∀ (fuel : Nat) (st : State T), st.pending.length < fuel →
      ∃ st1, easy_loop std_sort cfg now fuel st = .ok st1 := by
  intro fuel
  induction fuel with
  | zero => intro st h; omega
  | succ n ih =>
    intro st h
    unfold easy_loop
    by_cases he : st.pending.isEmpty = true
    · rw [if_pos he]; exact ⟨st, rfl⟩
    · rw [if_neg he]
      obtain ⟨⟨s1, pr⟩, hp⟩ := easy_pass_ok std_sort cfg now st
      rw [hp]
      cases pr with
      | false => exact ⟨s1, rfl⟩
      | true =>
        have := easy_pass_progress std_sort hsub cfg now st s1 hp
        simp only [if_true]
        exact ih s1 (by omega)

/-- A result of the bounded loop is the result of the loop itself: more fuel does not
change it. -/
theorem easy_loop_fuel_mono
    (std_sort : (JobPtr T → JobPtr T → Bool) → List (JobPtr T) → List (JobPtr T))
    (cfg : Config T) (now : T) :
    ∀ (fuel : Nat) (st st1 : State T), easy_loop std_sort cfg now fuel st = .ok st1 →
      ∀ extra : Nat, easy_loop std_sort cfg now (fuel + extra) st = .ok st1 := by
  intro fuel
  induction fuel with
  | zero =>
    intro st st1 h extra
    unfold easy_loop at h
    split_ifs at h with he
    cases extra with
    | zero => unfold easy_loop; rw [if_pos he]; exact h
    | succ n =>
      rw [Nat.zero_add]
      unfold easy_loop
      rw [if_pos he]; exact h
  | succ n ih =>
    intro st st1 h extra
    rw [Nat.add_right_comm]
    unfold easy_loop at h ⊢
    split_ifs at h ⊢ with he
    · exact h
    · obtain ⟨⟨s1, pr⟩, hp⟩ := easy_pass_ok std_sort cfg now st
      rw [hp] at h ⊢
      cases pr with
      | false => exact h
      | true =>
        simp only [if_true] at h ⊢
        exact ih s1 st1 h extra

/-- Induction over the loop: a property kept by every iteration entered with a non-empty
queue holds when the loop ends. -/
theorem easy_loop_induct
    (std_sort : (JobPtr T → JobPtr T → Bool) → List (JobPtr T) → List (JobPtr T))
    (cfg : Config T) (now : T) (P : State T → Prop)
    (hpass : ∀ s s1 pr, P s → s.pending ≠ [] → easy_pass std_sort cfg now s = .ok (s1, pr) →
      P s1) :
    ∀ (fuel : Nat) (st st1 : State T), P st → easy_loop std_sort cfg now fuel st = .ok st1 →
      P st1 := by
  intro fuel
  induction fuel with
  | zero =>
    intro st st1 hP h
    unfold easy_loop at h
    split_ifs at h
    simp only [Except.ok.injEq] at h
    exact h ▸ hP
  | succ n ih =>
    intro st st1 hP h
    unfold easy_loop at h
    by_cases he : st.pending.isEmpty = true
    · rw [if_pos he] at h
      simp only [Except.ok.injEq] at h
      exact h ▸ hP
    · rw [if_neg he] at h
      have hne : st.pending ≠ [] := fun e => he (by simp [e])
      obtain ⟨⟨s1, pr⟩, hp⟩ := easy_pass_ok std_sort cfg now st
      rw [hp] at h
      have hP1 := hpass st s1 pr hP hne hp
      cases pr with
      | false =>
        simp only [Bool.false_eq_true, if_false, Except.ok.injEq] at h
        exact h ▸ hP1
      | true =>
        simp only [if_true] at h
        exact ih s1 st1 hP1 h

end LoopTermination

/-! ## Summary of the decision loop as a list of starts -/

section Spec

variable {T : Type}

theorem touch_allocations_of_consistent (st : State T) (need : Nat) (h : Consistent st) :
    touch_allocations st need = st := by
  unfold touch_allocations
  have key : ∀ (l : List (String × T)) (m : List (String × List Nat)),
      (∀ k ∈ map_keys l, k ∈ map_keys m) →
      List.foldl (fun m kv => match map_get? m kv.1 with
        | some _ => m
        | none => map_set m kv.1 []) m l = m := by
    intro l
    induction l with
    | nil => intro m _; rfl
    | cons kv l ih =>
      intro m hm
      rw [List.foldl_cons]
      have hk : kv.1 ∈ map_keys m := hm kv.1 (by simp [map_keys])
      cases hg : map_get? m kv.1 with
      | none => exact absurd hk (map_get?_eq_none.1 hg)
      | some v =>
        simp only []
        exact ih m (fun k hk2 => hm k (by
          simp only [map_keys, List.map_cons, List.mem_cons] at hk2 ⊢
          exact Or.inr hk2))
  rw [key st.end_times st.allocations h]
  split_ifs <;> rfl

theorem mem_map_keys_map_set {V : Type} (m : List (String × V)) (k k2 : String) (v : V) :
    k2 ∈ map_keys (map_set m k v) ↔ k2 = k ∨ k2 ∈ map_keys m := by
  rw [map_keys_map_set]
  split_ifs with h
  · constructor
    · exact fun h2 => Or.inr h2
    · rintro (rfl | h2)
      · exact h
      · exact h2
  · simp only [List.mem_append, List.mem_singleton]
    tauto

theorem mem_keys_record_allocations (E : List (JobPtr T × List Nat)) :
    ∀ (m : List (String × List Nat)) (k : String),
      k ∈ map_keys (record_allocations m E) ↔
        k ∈ map_keys m ∨ ∃ p ∈ E, p.1.job_id = k := by
  induction E with
  | nil => intro m k; simp [record_allocations]
  | cons p E ih =>
    intro m k
    unfold record_allocations at ih ⊢
    rw [List.foldl_cons, ih, mem_map_keys_map_set]
    simp only [List.mem_cons, exists_eq_or_imp]
    constructor
    · rintro ((rfl | h) | h)
      · exact Or.inr (Or.inl rfl)
      · exact Or.inl h
      · exact Or.inr (Or.inr h)
    · rintro (h | h | h)
      · exact Or.inl (Or.inr h)
      · exact Or.inl (Or.inl h.symm)
      · exact Or.inr h

theorem mem_keys_record_end_times [Add T] (now : T) (E : List (JobPtr T × List Nat)) :
    ∀ (m : List (String × T)) (k : String),
      k ∈ map_keys (record_end_times now m E) ↔
        k ∈ map_keys m ∨ ∃ p ∈ E, p.1.job_id = k := by
  induction E with
  | nil => intro m k; simp [record_end_times]
  | cons p E ih =>
    intro m k
    unfold record_end_times at ih ⊢
    rw [List.foldl_cons, ih, mem_map_keys_map_set]
    simp only [List.mem_cons, exists_eq_or_imp]
    constructor
    · rintro ((rfl | h) | h)
      · exact Or.inr (Or.inl rfl)
      · exact Or.inl h
      · exact Or.inr (Or.inr h)
    · rintro (h | h | h)
      · exact Or.inl (Or.inr h)
      · exact Or.inl (Or.inl h.symm)
      · exact Or.inr h

theorem record_allocations_append (m : List (String × List Nat))
    (E E2 : List (JobPtr T × List Nat)) :
    record_allocations m (E ++ E2) = record_allocations (record_allocations m E) E2 := by
  unfold record_allocations
  rw [List.foldl_append]

theorem record_end_times_append [Add T] (now : T) (m : List (String × T))
    (E E2 : List (JobPtr T × List Nat)) :
    record_end_times now m (E ++ E2) = record_end_times now (record_end_times now m E) E2 := by
  unfold record_end_times
  rw [List.foldl_append]

theorem StartsSpec.consistent [Add T] {now : T} {st st1 : State T}
    {E : List (JobPtr T × List Nat)} (h : StartsSpec now st st1 E) (hc : Consistent st) :
    Consistent st1 := by
  obtain ⟨ha, he⟩ := h.2.2.2.2.2.2.1 hc
  intro k hk
  rw [he, mem_keys_record_end_times] at hk
  rw [ha, mem_keys_record_allocations]
  rcases hk with hk | hk
  · exact Or.inl (hc k hk)
  · exact Or.inr hk

theorem StartsSpec.refl [Add T] (now : T) (st : State T) : StartsSpec now st st [] := by
  refine ⟨by simp, by simp, by simp, fun j hj => hj, rfl, rfl, fun _ => ⟨rfl, rfl⟩,
    fun _ => by simp⟩

theorem StartsSpec.trans [Add T] {now : T} {st s1 s2 : State T}
    {E E2 : List (JobPtr T × List Nat)}
    (h1 : StartsSpec now st s1 E) (h2 : StartsSpec now s1 s2 E2) :
    StartsSpec now st s2 (E ++ E2) := by
  obtain ⟨a1, a2, a3, a4, a5, a6, a7, a8⟩ := h1
  have hcons := StartsSpec.consistent ⟨a1, a2, a3, a4, a5, a6, a7, a8⟩
  obtain ⟨b1, b2, b3, b4, b5, b6, b7, b8⟩ := h2
  refine ⟨?_, ?_, ?_, fun j hj => a4 j (b4 j hj), b5.trans a5, b6.trans a6, ?_, ?_⟩
  · rw [b1, a1, List.map_append, List.append_assoc]
  · rw [a2, b2, List.map_append, List.flatten_append, List.append_assoc]
  · intro p hp
    rcases List.mem_append.1 hp with hp | hp
    · exact a3 p hp
    · exact ⟨(b3 p hp).1, a4 _ (b3 p hp).2⟩
  · intro hc
    obtain ⟨c1, c2⟩ := a7 hc
    obtain ⟨d1, d2⟩ := b7 (hcons hc)
    rw [d1, d2, c1, c2, record_allocations_append, record_end_times_append]
    exact ⟨rfl, rfl⟩
  · intro hnd
    have p1 := a8 hnd
    have hnd1 : (s1.pending.map (fun j => j.addr)).Nodup := by
      have := (p1.map (fun j => j.addr)).nodup_iff.1 hnd
      rw [List.map_append] at this
      exact (List.nodup_append.1 this).2.1
    have p2 := b8 hnd1
    rw [List.map_append, List.append_assoc]
    exact p1.trans (List.Perm.append_left _ p2)

end Spec

section PassSpec

variable {T : Type}

theorem perm_cons_filter_addr {l : List (JobPtr T)} {c : JobPtr T}
    (hnd : (l.map (fun j => j.addr)).Nodup) (hc : c ∈ l) :
    l.Perm (c :: l.filter (fun j => decide (j.addr ≠ c.addr))) := by
  induction l with
  | nil => simp at hc
  | cons a l ih =>
    simp only [List.map_cons, List.nodup_cons, List.mem_map, not_exists, not_and] at hnd
    by_cases hac : a = c
    · subst hac
      have hf : (a :: l).filter (fun j => decide (j.addr ≠ a.addr)) = l := by
        rw [List.filter_cons_of_neg (by simp), List.filter_eq_self]
        intro j hj
        simpa using hnd.1 j hj
      rw [hf]
    · have hcl : c ∈ l := by
        rcases List.mem_cons.1 hc with h | h
        · exact absurd h.symm hac
        · exact h
      have hne : a.addr ≠ c.addr := fun e => hnd.1 c hcl e.symm
      have hf : (a :: l).filter (fun j => decide (j.addr ≠ c.addr)) =
          a :: l.filter (fun j => decide (j.addr ≠ c.addr)) := by
        rw [List.filter_cons_of_pos (by simpa using hne)]
      rw [hf]
      exact ((ih hnd.2 hcl).cons a).trans (List.Perm.swap c a _)

/-- Summary of one start (on an ascending free set that is large enough). -/
theorem start_job_spec [Add T] (now : T) (s st1 : State T) (c : JobPtr T)
    (hF : s.available_hosts.Sorted (· < ·))
    (h : start_job now s c = .ok st1) :
    c.nb_hosts ≤ s.available_hosts.length ∧
    st1.out = s.out ++ [execute_of (c, s.available_hosts.take c.nb_hosts)] ∧
    s.available_hosts = s.available_hosts.take c.nb_hosts ++ st1.available_hosts ∧
    st1.available_hosts.Sorted (· < ·) ∧
    st1.pending = s.pending ∧
    st1.platform_nb_hosts = s.platform_nb_hosts ∧ st1.heap = s.heap ∧
    st1.allocations = map_set s.allocations c.job_id (s.available_hosts.take c.nb_hosts) ∧
    st1.end_times = map_set s.end_times c.job_id (now + c.walltime) := by
  have hq := (start_job_fields now s st1 c h).1
  rw [start_job_eq now s c hF hq] at h
  simp only [Except.ok.injEq] at h
  subst h
  exact ⟨hq, rfl, (List.take_append_drop _ _).symm, hF.sublist (List.drop_sublist _ _),
    rfl, rfl, rfl, rfl, rfl⟩

end PassSpec

section PassSpec2

variable {T : Type} [LinearOrder T] [Add T]

/-- Summary of the candidate loop. -/
theorem backfill_spec (now reserve_t : T) (s0 : State T) (bf0 : List (JobPtr T))
    (hF : s0.available_hosts.Sorted (· < ·))
    (hbf : ∀ c ∈ bf0, c ∈ s0.pending)
    (hnd : (s0.pending.map (fun j => j.addr)).Nodup → bf0.Nodup) :
    ∃ acc1 E, backfill now reserve_t (s0, false) bf0 = .ok acc1 ∧
      StartsSpec now s0 acc1.1 E ∧ acc1.1.available_hosts.Sorted (· < ·) ∧
      (E.map Prod.fst).Sublist bf0 := by
  obtain ⟨acc1, h, E, hE, hsub, hs⟩ := backfill_fold now reserve_t
    (fun acc rem => ∃ E, StartsSpec now s0 acc.1 E ∧
      (E.map Prod.fst ++ rem).Sublist bf0 ∧ acc.1.available_hosts.Sorted (· < ·))
    (fun acc c bf ⟨E, h1, h2, h3⟩ =>
      ⟨E, h1, (List.Sublist.append_left (List.sublist_cons_self c bf) _).trans h2, h3⟩)
    (fun acc c bf st1 ⟨E, h1, h2, h3⟩ _ _ hst => by
      obtain ⟨hq, s1, s2, s3, s4, s5, s6, s7, s8⟩ := start_job_spec now acc.1 st1 c h3 hst
      obtain ⟨a1, a2, a3, a4, a5, a6, a7, a8⟩ := h1
      have hcbf : c ∈ bf0 := h2.subset (by simp)
      refine ⟨E ++ [(c, acc.1.available_hosts.take c.nb_hosts)], ⟨?_, ?_, ?_, ?_, ?_, ?_, ?_, ?_⟩,
        ?_, s3⟩
      · simp only [s1, a1, List.map_append, List.map_cons, List.map_nil, List.append_assoc]
      · simp only [List.map_append, List.map_cons, List.map_nil, List.flatten_append,
          List.flatten_cons, List.flatten_nil, List.append_nil, List.append_assoc]
        rw [← s2]; exact a2
      · intro p hp
        rcases List.mem_append.1 hp with hp | hp
        · exact a3 p hp
        · simp only [List.mem_singleton] at hp
          subst hp
          exact ⟨List.length_take_of_le hq, hbf c hcbf⟩
      · intro j hj
        simp only [s4] at hj
        exact a4 j (List.mem_of_mem_filter hj)
      · exact s5.trans a5
      · exact s6.trans a6
      · intro hc
        obtain ⟨c1, c2⟩ := a7 hc
        simp only [s7, s8, c1, c2, record_allocations_append, record_end_times_append]
        exact ⟨rfl, rfl⟩
      · intro hn
        have p1 := a8 hn
        have hn1 : (E.map Prod.fst ++ acc.1.pending).Nodup :=
          p1.nodup_iff.1 (List.Nodup.of_map _ hn)
        have hnd1 : (acc.1.pending.map (fun j => j.addr)).Nodup := by
          have := (p1.map (fun j => j.addr)).nodup_iff.1 hn
          rw [List.map_append] at this
          exact (List.nodup_append.1 this).2.1
        have hcE : c ∉ E.map Prod.fst := by
          have := (h2.nodup (hnd hn))
          rw [List.nodup_append] at this
          exact fun hin => this.2.2 hin (by simp)
        have hcp : c ∈ acc.1.pending := by
          rcases List.mem_append.1 (p1.mem_iff.1 (hbf c hcbf)) with h | h
          · exact absurd h hcE
          · exact h
        have p2 := perm_cons_filter_addr hnd1 hcp
        simp only [s4, List.map_append, List.map_cons, List.map_nil, List.append_assoc,
          List.singleton_append]
        exact p1.trans (List.Perm.append_left _ p2)
      · simpa only [List.map_append, List.map_cons, List.map_nil, List.append_assoc,
          List.singleton_append] using h2)
    bf0 (s0, false) ⟨[], StartsSpec.refl now s0, by simp, hF⟩
  exact ⟨acc1, E, h, hE, hs, by simpa using hsub⟩

end PassSpec2

section CandidatePending

variable {T : Type} [LinearOrder T] [Add T]

/-- When the queue holds records at distinct addresses, a candidate is still in the queue
when its turn comes in the candidate loop. -/
theorem backfill_candidate_pending (now reserve_t : T) (s0 : State T)
    (pre post : List (JobPtr T)) (c : JobPtr T)
    (hF : s0.available_hosts.Sorted (· < ·))
    (hadr : (s0.pending.map (fun j => j.addr)).Nodup)
    (hbf : ∀ x ∈ pre ++ c :: post, x ∈ s0.pending)
    (hnd : (pre ++ c :: post).Nodup) :
    ∃ acc, backfill now reserve_t (s0, false) pre = .ok acc ∧ c ∈ acc.1.pending := by
  obtain ⟨acc, E, hb, hE, -, hsub⟩ := backfill_spec now reserve_t s0 pre hF
    (fun x hx => hbf x (List.mem_append_left _ hx))
    (fun _ => (List.nodup_append.1 hnd).1)
  refine ⟨acc, hb, ?_⟩
  have hp := hE.2.2.2.2.2.2.2 hadr
  rcases List.mem_append.1 (hp.mem_iff.1 (hbf c (by simp))) with h | h
  · exact absurd (List.mem_cons_self c post)
      (fun h2 => (List.nodup_append.1 hnd).2.2 (hsub.subset h) h2)
  · exact h

end CandidatePending

section LoopSpec

variable {T : Type} [LinearOrder T] [Add T] [Sub T] [Neg T] [Div T] [Zero T] [NatCast T]

omit [LinearOrder T] [Sub T] [Neg T] [Div T] [Zero T] [NatCast T] in
/-- Re-ordering the queue and the side effect of `compute_reservation` start no job. -/
theorem StartsSpec.prepare (now : T) (st : State T) (need : Nat) {l : List (JobPtr T)}
    (hl : l.Perm st.pending) :
    StartsSpec now st (touch_allocations { st with pending := l } need) [] := by
  obtain ⟨t1, t2, t3, -, t5, t6⟩ := touch_allocations_fields { st with pending := l } need
  refine ⟨by simp [t2], by simp [t3], by simp, fun j hj => hl.mem_iff.1 (by rw [t1] at hj; exact hj), t5, t6,
    fun hc => ?_, fun _ => by simpa [t1] using hl.symm⟩
  have hc2 : Consistent { st with pending := l } := hc
  rw [touch_allocations_of_consistent _ need hc2]
  exact ⟨rfl, rfl⟩

/-- Summary of one iteration of the EASY loop. -/
theorem easy_pass_spec
    (std_sort : (JobPtr T → JobPtr T → Bool) → List (JobPtr T) → List (JobPtr T))
    (hperm : ∀ lt l, (std_sort lt l).Perm l)
    (cfg : Config T) (now : T) (st st1 : State T) (pr : Bool)
    (hF : st.available_hosts.Sorted (· < ·))
    (h : easy_pass std_sort cfg now st = .ok (st1, pr)) :
    ∃ E, StartsSpec now st st1 E ∧ st1.available_hosts.Sorted (· < ·) := by
  have hsp := stable_sort_perm (primary_lt cfg now) st.pending
  rcases easy_pass_cases std_sort cfg now st with ⟨-, h1⟩ | ⟨head, rest, hs, hq, s1, hs1, h1⟩ |
    ⟨head, rest, hs, -, h1⟩
  · rw [h1] at h
    simp only [Except.ok.injEq, Prod.mk.injEq] at h
    rw [← h.1]
    exact ⟨[], StartsSpec.refl now st, hF⟩
  · rw [h1] at h
    simp only [Except.ok.injEq, Prod.mk.injEq] at h
    rw [← h.1]
    rw [hs] at hsp
    obtain ⟨-, s1', s2, s3, s4, s5, s6, s7, s8⟩ :=
      start_job_spec now { st with pending := head :: rest } s1 head hF hs1
    refine ⟨[(head, st.available_hosts.take head.nb_hosts)],
      ⟨by simpa using s1', by simpa using s2, ?_, ?_, s5, s6, fun _ => ⟨s7, s8⟩, ?_⟩, s3⟩
    · intro p hp
      simp only [List.mem_singleton] at hp
      subst hp
      exact ⟨List.length_take_of_le hq, hsp.mem_iff.1 (by simp)⟩
    · intro j hj
      exact hsp.mem_iff.1 (List.mem_cons_of_mem _ hj)
    · intro _
      simpa using hsp.symm
  · rw [h1] at h
    rw [hs] at hsp
    have hprep := StartsSpec.prepare now st head.nb_hosts hsp
    obtain ⟨acc1, E, hb, hE, hsorted, -⟩ := backfill_spec now
      (compute_reservation { st with pending := head :: rest } now head.nb_hosts)
      (touch_allocations { st with pending := head :: rest } head.nb_hosts)
      (std_sort (backfill_lt cfg now) rest)
      (by rw [(touch_allocations_fields _ _).2.2.1]; exact hF)
      (fun c hc => by
        rw [(touch_allocations_fields _ _).1]
        exact List.mem_cons_of_mem _ ((hperm _ rest).mem_iff.1 hc))
      (fun hn => by
        rw [(touch_allocations_fields _ _).1] at hn
        have h2 : (head :: rest).Nodup := List.Nodup.of_map _ hn
        exact (hperm _ rest).nodup_iff.2 (List.nodup_cons.1 h2).2)
    rw [hb] at h
    simp only [Except.ok.injEq] at h
    subst h
    exact ⟨[] ++ E, StartsSpec.trans hprep hE, hsorted⟩

/-- Summary of the whole EASY loop of a wakeup. -/
theorem easy_loop_spec
    (std_sort : (JobPtr T → JobPtr T → Bool) → List (JobPtr T) → List (JobPtr T))
    (hperm : ∀ lt l, (std_sort lt l).Perm l)
    (cfg : Config T) (now : T) (fuel : Nat) (st st1 : State T)
    (hF : st.available_hosts.Sorted (· < ·))
    (h : easy_loop std_sort cfg now fuel st = .ok st1) :
    ∃ E, StartsSpec now st st1 E ∧ st1.available_hosts.Sorted (· < ·) :=
  easy_loop_induct std_sort cfg now
    (fun s => ∃ E, StartsSpec now st s E ∧ s.available_hosts.Sorted (· < ·))
    (fun s s1 pr ⟨E, hE, hs⟩ _ hp => by
      obtain ⟨E2, hE2, hs2⟩ := easy_pass_spec std_sort hperm cfg now s s1 pr hs hp
      exact ⟨E ++ E2, StartsSpec.trans hE hE2, hs2⟩)
    fuel st st1 ⟨[], StartsSpec.refl now st, hF⟩ h

end LoopSpec

/-! ## Event dispatch -/

section DispatchLemmas

variable {T : Type}

/-- Dispatch keeps the free set ascending. -/
theorem dispatch_sorted (now : T) (st : State T) (ev : Event T)
    (hF : st.available_hosts.Sorted (· < ·)) :
    (dispatch now st ev).available_hosts.Sorted (· < ·) := by
  cases ev with
  | hello => exact hF
  | simulationBegins h => exact foldl_set_insert_sorted _ hF
  | jobSubmitted jid nb wt =>
    simp only [dispatch]
    split_ifs <;> exact hF
  | jobCompleted jid =>
    simp only [dispatch]
    split
    · exact foldl_set_insert_sorted _ hF
    · exact hF
  | other => exact hF

theorem foldl_dispatch_sorted (now : T) (evs : List (Event T)) :
    ∀ st : State T, st.available_hosts.Sorted (· < ·) →
      (evs.foldl (dispatch now) st).available_hosts.Sorted (· < ·) := by
  induction evs with
  | nil => intro st h; exact h
  | cons ev evs ih => intro st h; exact ih _ (dispatch_sorted now st ev h)

theorem dispatch_no_execute (now : T) (st : State T) (ev : Event T)
    (h : ∀ d ∈ st.out, ∀ jid hs, d ≠ Decision.execute_job jid hs) :
    ∀ d ∈ (dispatch now st ev).out, ∀ jid hs, d ≠ Decision.execute_job jid hs := by
  cases ev with
  | hello =>
    intro d hd
    simp only [dispatch, List.mem_append, List.mem_singleton] at hd
    rcases hd with hd | hd
    · exact h d hd
    · subst hd; intro _ _ e; cases e
  | simulationBegins n => exact h
  | jobSubmitted jid nb wt =>
    simp only [dispatch]
    split_ifs
    · intro d hd
      simp only [List.mem_append, List.mem_singleton] at hd
      rcases hd with hd | hd
      · exact h d hd
      · subst hd; intro _ _ e; cases e
    · exact h
  | jobCompleted jid =>
    simp only [dispatch]
    split <;> exact h
  | other => exact h

theorem foldl_dispatch_no_execute (now : T) (evs : List (Event T)) :
    ∀ st : State T, (∀ d ∈ st.out, ∀ jid hs, d ≠ Decision.execute_job jid hs) →
      ∀ d ∈ (evs.foldl (dispatch now) st).out, ∀ jid hs, d ≠ Decision.execute_job jid hs := by
  induction evs with
  | nil => intro st h; exact h
  | cons ev evs ih => intro st h; exact ih _ (dispatch_no_execute now st ev h)

end DispatchLemmas

/-! ## Induction along a simulation -/

section TraceInduct

variable {T : Type} [LinearOrder T] [Add T] [Sub T] [Neg T] [Div T] [Zero T] [NatCast T]

omit [LinearOrder T] [Add T] [Sub T] [Neg T] [Div T] [Zero T] [NatCast T] in
theorem dispatch_trace_induct (now : T) (P : State T → List (Event T) → Prop)
    (hdisp : ∀ st ev fut, P st (ev :: fut) → P (dispatch now st ev) fut) :
    ∀ (evs : List (Event T)) (st : State T) (fut : List (Event T)), P st (evs ++ fut) →
      (∀ s ∈ dispatch_trace now st evs, ∃ f, P s f) ∧ P (evs.foldl (dispatch now) st) fut := by
  intro evs
  induction evs with
  | nil => intro st fut h; exact ⟨by simp [dispatch_trace], h⟩
  | cons ev evs ih =>
    intro st fut h
    have h1 := hdisp st ev (evs ++ fut) h
    obtain ⟨h2, h3⟩ := ih (dispatch now st ev) fut h1
    refine ⟨fun s hs => ?_, h3⟩
    simp only [dispatch_trace, List.mem_cons] at hs
    rcases hs with rfl | hs
    · exact ⟨_, h1⟩
    · exact h2 s hs

theorem loop_trace_induct
    (std_sort : (JobPtr T → JobPtr T → Bool) → List (JobPtr T) → List (JobPtr T))
    (cfg : Config T) (now : T) (Q : State T → Prop)
    (hpass : ∀ st st1 pr, Q st → easy_pass std_sort cfg now st = .ok (st1, pr) → Q st1) :
    ∀ (fuel : Nat) (st : State T), Q st → ∀ s ∈ loop_trace std_sort cfg now fuel st, Q s := by
  intro fuel
  induction fuel with
  | zero => intro st _ s hs; simp [loop_trace] at hs
  | succ n ih =>
    intro st hQ s hs
    unfold loop_trace at hs
    split_ifs at hs with he
    · simp at hs
    · obtain ⟨⟨s1, pr⟩, hp⟩ := easy_pass_ok std_sort cfg now st
      rw [hp] at hs
      have hQ1 := hpass st s1 pr hQ hp
      simp only [List.mem_cons] at hs
      rcases hs with rfl | hs
      · exact hQ1
      · cases pr with
        | false => simp at hs
        | true => exact ih s1 hQ1 s (by simpa using hs)

/-- Induction along a simulation entered in the middle of the dispatch of a message: a
property of the state and the events still to come that is kept by every dispatch and by
every loop iteration holds in every state the rest of the simulation goes through. -/
theorem trace_from_induct
    (std_sort : (JobPtr T → JobPtr T → Bool) → List (JobPtr T) → List (JobPtr T))
    (cfg : Config T) (P : State T → List (Event T) → Prop)
    (hclear : ∀ st fut, P st fut → P { st with out := [] } fut)
    (hdisp : ∀ now st ev fut, P st (ev :: fut) → P (dispatch now st ev) fut)
    (hpass : ∀ now st st1 pr fut, P st fut →
      easy_pass std_sort cfg now st = .ok (st1, pr) → P st1 fut) :
    ∀ (msgs : List (T × List (Event T))) (now : T) (evs : List (Event T)) (st : State T),
      P st (evs ++ all_events msgs) →
      ∀ s ∈ dispatch_trace now st evs ++
          loop_trace std_sort cfg now ((evs.foldl (dispatch now) st).pending.length + 1)
            (evs.foldl (dispatch now) st) ++
          (match easy_loop std_sort cfg now ((evs.foldl (dispatch now) st).pending.length + 1)
              (evs.foldl (dispatch now) st) with
            | .error _ => []
            | .ok st1 => run_trace std_sort cfg st1 msgs),
        ∃ f, P s f := by
  intro msgs
  induction msgs with
  | nil =>
    intro now evs st h s hs
    obtain ⟨h1, h2⟩ := dispatch_trace_induct now P (hdisp now) evs st _ h
    simp only [List.mem_append] at hs
    rcases hs with (hs | hs) | hs
    · exact h1 s hs
    · exact ⟨_, loop_trace_induct std_sort cfg now (fun s => P s (all_events []))
        (fun a b pr ha hp => hpass now a b pr _ ha hp) _ _ h2 s hs⟩
    · split at hs <;> simp [run_trace] at hs
  | cons msg msgs ih =>
    intro now evs st h s hs
    obtain ⟨h1, h2⟩ := dispatch_trace_induct now P (hdisp now) evs st _ h
    simp only [List.mem_append] at hs
    rcases hs with (hs | hs) | hs
    · exact h1 s hs
    · exact ⟨_, loop_trace_induct std_sort cfg now (fun s => P s (all_events (msg :: msgs)))
        (fun a b pr ha hp => hpass now a b pr _ ha hp) _ _ h2 s hs⟩
    · split at hs
      · simp at hs
      · rename_i st1 hl
        have h3 : P st1 (all_events (msg :: msgs)) :=
          easy_loop_induct std_sort cfg now (fun s => P s (all_events (msg :: msgs)))
            (fun a b pr ha _ hp => hpass now a b pr _ ha hp) _ _ st1 h2 hl
        have h4 : P { st1 with out := [] } (msg.2 ++ all_events msgs) := by
          have := hclear _ _ h3
          simpa [all_events] using this
        unfold run_trace at hs
        unfold batsim_edc_take_decisions at hs
        exact ih msg.1 msg.2 { st1 with out := [] } h4 s hs

/-- Induction along a simulation. -/
theorem run_trace_induct
    (std_sort : (JobPtr T → JobPtr T → Bool) → List (JobPtr T) → List (JobPtr T))
    (cfg : Config T) (P : State T → List (Event T) → Prop)
    (hclear : ∀ st fut, P st fut → P { st with out := [] } fut)
    (hdisp : ∀ now st ev fut, P st (ev :: fut) → P (dispatch now st ev) fut)
    (hpass : ∀ now st st1 pr fut, P st fut →
      easy_pass std_sort cfg now st = .ok (st1, pr) → P st1 fut)
    (msgs : List (T × List (Event T))) (st : State T) (h : P st (all_events msgs)) :
    ∀ s ∈ run_trace std_sort cfg st msgs, ∃ f, P s f := by
  cases msgs with
  | nil => intro s hs; simp [run_trace] at hs
  | cons msg msgs =>
    intro s hs
    unfold run_trace at hs
    unfold batsim_edc_take_decisions at hs
    exact trace_from_induct std_sort cfg P hclear hdisp hpass msgs msg.1 msg.2
      { st with out := [] } (by simpa [all_events] using hclear _ _ h) s hs

end TraceInduct

/-! ## Invariants of a simulation -/

section BaseInvariant

variable {T : Type}

theorem baseInv_dispatch (now : T) (st : State T) (ev : Event T) (h : BaseInv st) :
    BaseInv (dispatch now st ev) := by
  obtain ⟨h1, h2, h3⟩ := h
  refine ⟨dispatch_sorted now st ev h1, ?_⟩
  cases ev with
  | hello => exact ⟨h2, h3⟩
  | simulationBegins n => exact ⟨h2, h3⟩
  | jobSubmitted jid nb wt =>
    simp only [dispatch]
    split_ifs
    · exact ⟨h2, fun j hj => Nat.lt_succ_of_lt (h3 j hj)⟩
    · constructor
      · rw [List.map_append, List.nodup_append]
        refine ⟨h2, by simp, ?_⟩
        intro a ha hb
        simp only [List.map_cons, List.map_nil, List.mem_singleton] at hb
        obtain ⟨j, hj, rfl⟩ := List.mem_map.1 ha
        have := h3 j hj
        omega
      · intro j hj
        rcases List.mem_append.1 hj with hj | hj
        · exact Nat.lt_succ_of_lt (h3 j hj)
        · simp only [List.mem_singleton] at hj
          subst hj
          exact Nat.lt_succ_self _
  | jobCompleted jid =>
    simp only [dispatch]
    split <;> exact ⟨h2, h3⟩
  | other => exact ⟨h2, h3⟩

theorem baseInv_clear (st : State T) (h : BaseInv st) : BaseInv { st with out := [] } := h

theorem baseInv_foldl_dispatch (now : T) (evs : List (Event T)) :
    ∀ st : State T, BaseInv st → BaseInv (evs.foldl (dispatch now) st) := by
  induction evs with
  | nil => intro st h; exact h
  | cons ev evs ih => intro st h; exact ih _ (baseInv_dispatch now st ev h)

theorem baseInv_of_spec [Add T] {now : T} {st st1 : State T} {E : List (JobPtr T × List Nat)}
    (h : BaseInv st) (hE : StartsSpec now st st1 E)
    (hs : st1.available_hosts.Sorted (· < ·)) : BaseInv st1 := by
  obtain ⟨-, h2, h3⟩ := h
  obtain ⟨-, -, -, a4, -, a6, -, a8⟩ := hE
  refine ⟨hs, ?_, fun j hj => a6 ▸ h3 j (a4 j hj)⟩
  have := ((a8 h2).map (fun j => j.addr)).nodup_iff.1 h2
  rw [List.map_append] at this
  exact (List.nodup_append.1 this).2.1

end BaseInvariant

section RunInvariant

variable {T : Type}

theorem flatten_map_erase_perm {m : List (String × List Nat)} {k : String} {v : List Nat}
    (hk : (map_keys m).Nodup) (hg : map_get? m k = some v) :
    (v ++ ((map_erase m k).map Prod.snd).flatten).Perm ((m.map Prod.snd).flatten) := by
  induction m with
  | nil => simp [map_get?] at hg
  | cons kv m ih =>
    obtain ⟨a, w⟩ := kv
    simp only [map_keys, List.map_cons, List.nodup_cons] at hk
    by_cases hak : a = k
    · subst hak
      simp only [map_get?, if_true, Option.some.injEq] at hg
      subst hg
      have he : map_erase ((a, w) :: m) a = m := by
        have h1 : map_erase ((a, w) :: m) a = map_erase m a := by
          unfold map_erase
          rw [List.filter_cons_of_neg (by simp)]
        rw [h1, map_erase_of_not_mem hk.1]
      rw [he]
      simp
    · simp only [map_get?, if_neg hak] at hg
      have he : map_erase ((a, w) :: m) k = (a, w) :: map_erase m k := by
        unfold map_erase
        rw [List.filter_cons_of_pos (by simpa using hak)]
      rw [he]
      simp only [List.map_cons, List.flatten_cons]
      have := ih hk.2 hg
      exact (List.perm_append_comm_assoc v w _).trans (List.Perm.append_left w this)

theorem record_allocations_fresh (E : List (JobPtr T × List Nat)) :
    ∀ m : List (String × List Nat),
      (E.map (fun p => p.1.job_id)).Nodup →
      (∀ p ∈ E, p.1.job_id ∉ map_keys m) →
      record_allocations m E = m ++ E.map (fun p => (p.1.job_id, p.2)) := by
  induction E with
  | nil => intro m _ _; simp [record_allocations]
  | cons p E ih =>
    intro m hnd hfresh
    simp only [List.map_cons, List.nodup_cons, List.mem_map, not_exists, not_and] at hnd
    have hp : p.1.job_id ∉ map_keys m := hfresh p (by simp)
    have hstep : record_allocations m (p :: E) =
        record_allocations (map_set m p.1.job_id p.2) E := rfl
    rw [hstep, map_set_of_not_mem _ hp, ih _ hnd.2]
    · simp
    · intro q hq
      simp only [map_keys, List.map_append, List.map_cons, List.map_nil, List.mem_append,
        List.mem_singleton, not_or]
      exact ⟨hfresh q (List.mem_cons_of_mem _ hq), fun e => hnd.1 q hq e⟩

theorem hosts_of_pending (st : State T) (l : List (JobPtr T)) :
    hosts_of { st with pending := l } = hosts_of st := rfl

/-- The state right after `SimulationBegins(H)` at load time. -/
theorem runInv_begin (now : T) (H : Nat) :
    RunInv H (dispatch now { State.init T with out := [] } (.simulationBegins H)) := by
  have hav : (List.range H).foldl (fun s i => set_insert i s) [] = List.range H := by
    have := foldl_set_insert_append (List.sorted_lt_range H) [] (by simp)
    simpa using this
  simp only [dispatch, State.init, hav]
  refine ⟨⟨List.sorted_lt_range H, by simp, by simp⟩, rfl, ?_, by simp [map_keys], ?_, by simp,
    by simp⟩
  · simp [hosts_of]
  · intro k hk
    simp [map_keys] at hk

theorem runInv_clear {H : Nat} {st : State T} (h : RunInv H st) :
    RunInv H { st with out := [] } := h

theorem fresh_clear {ids : List String} {st : State T} (h : Fresh ids st) :
    Fresh ids { st with out := [] } := h

theorem runInv_submit (now : T) {H : Nat} {st : State T} (jid : String) (nb : Nat) (wt : T)
    {ids : List String} (h : RunInv H st) (hf : Fresh (jid :: ids) st) :
    RunInv H (dispatch now st (.jobSubmitted jid nb wt)) ∧
    Fresh ids (dispatch now st (.jobSubmitted jid nb wt)) := by
  have hb := baseInv_dispatch now st (.jobSubmitted jid nb wt) h.1
  obtain ⟨-, h2, h3, h4, h5, h6, h7⟩ := h
  obtain ⟨f1, f2⟩ := hf
  have fj := f2 jid (by simp)
  have f1' := List.nodup_cons.1 f1
  simp only [dispatch] at hb ⊢
  split_ifs at hb ⊢
  · exact ⟨⟨hb, h2, h3, h4, h5, h6, h7⟩, f1'.2, fun id hid => f2 id (List.mem_cons_of_mem _ hid)⟩
  · refine ⟨⟨hb, h2, h3, h4, h5, ?_, ?_⟩, f1'.2, fun id hid => ⟨?_, ?_⟩⟩
    · rw [List.map_append, List.nodup_append]
      refine ⟨h6, by simp, ?_⟩
      intro a ha hb2
      simp only [List.map_cons, List.map_nil, List.mem_singleton] at hb2
      exact fj.1 (hb2 ▸ ha)
    · intro j hj
      rcases List.mem_append.1 hj with hj | hj
      · exact h7 j hj
      · simp only [List.mem_singleton] at hj
        subst hj
        exact fj.2
    · simp only [List.map_append, List.map_cons, List.map_nil, List.mem_append,
        List.mem_singleton, not_or]
      exact ⟨(f2 id (List.mem_cons_of_mem _ hid)).1, fun e => f1'.1 (e ▸ hid)⟩
    · exact (f2 id (List.mem_cons_of_mem _ hid)).2

theorem runInv_complete (now : T) {H : Nat} {st : State T} (jid : String)
    {ids : List String} (h : RunInv H st) (hf : Fresh ids st) :
    RunInv H (dispatch now st (.jobCompleted jid)) ∧
    Fresh ids (dispatch now st (.jobCompleted jid)) := by
  have hb := baseInv_dispatch now st (.jobCompleted jid) h.1
  obtain ⟨hb0, h2, h3, h4, h5, h6, h7⟩ := h
  obtain ⟨f1, f2⟩ := hf
  simp only [dispatch] at hb ⊢
  cases hg : map_get? st.allocations jid with
  | none =>
    simp only [hg] at hb ⊢
    exact ⟨⟨hb, h2, h3, h4, h5, h6, h7⟩, f1, f2⟩
  | some hs =>
    simp only [hg] at hb ⊢
    have hkeys : ∀ k, k ∈ map_keys (map_erase st.allocations jid) →
        k ∈ map_keys st.allocations := by
      intro k hk
      rw [map_keys_map_erase] at hk
      exact List.mem_of_mem_filter hk
    refine ⟨⟨hb, h2, ?_, ?_, ?_, h6, fun j hj hk => h7 j hj (hkeys _ hk)⟩, f1,
      fun id hid => ⟨(f2 id hid).1, fun hk => (f2 id hid).2 (hkeys _ hk)⟩⟩
    · have hp := flatten_map_erase_perm h4 hg
      have hnd : (hosts_of st).Nodup := h3.nodup_iff.2 (List.nodup_range H)
      have hp2 : (hosts_of st).Perm
          (hs ++ st.available_hosts ++ ((map_erase st.allocations jid).map Prod.snd).flatten) := by
        unfold hosts_of
        refine (List.Perm.append_left _ hp.symm).trans ?_
        rw [← List.append_assoc]
        exact List.Perm.append_right _ List.perm_append_comm
      have hnd2 := hp2.nodup_iff.1 hnd
      have hnd3 : (hs ++ st.available_hosts).Nodup := (List.nodup_append.1 hnd2).1
      have hp3 := foldl_set_insert_perm hs hnd3
      unfold hosts_of
      simp only
      exact ((List.Perm.append_right _ hp3).trans hp2.symm).trans h3
    · rw [map_keys_map_erase]
      exact h4.sublist (List.filter_sublist _)
    · intro k hk
      simp only at hk ⊢
      rw [map_keys_map_erase] at hk ⊢
      have hk1 := List.mem_filter.1 hk
      exact List.mem_filter.2 ⟨h5 k hk1.1, hk1.2⟩

end RunInvariant

section RunInvariantPass

variable {T : Type} [LinearOrder T] [Add T] [Sub T] [Neg T] [Div T] [Zero T] [NatCast T]

omit [LinearOrder T] [Sub T] [Neg T] [Div T] [Zero T] [NatCast T] in
/-- The invariant of a simulation survives a stretch of the decision loop. -/
theorem runInv_of_spec {now : T} {H : Nat} {st st1 : State T} {E : List (JobPtr T × List Nat)}
    (h : RunInv H st) (hE : StartsSpec now st st1 E)
    (hs : st1.available_hosts.Sorted (· < ·)) :
    RunInv H st1 ∧ ∀ ids, Fresh ids st → Fresh ids st1 := by
  have hb := baseInv_of_spec h.1 hE hs
  have hcons := StartsSpec.consistent hE h.2.2.2.2.1
  obtain ⟨⟨-, hb2, -⟩, h2, h3, h4, h5, h6, h7⟩ := h
  obtain ⟨-, a2, a3, a4, a5, -, a7, a8⟩ := hE
  have hperm := a8 hb2
  have hids : ((E.map Prod.fst).map (fun j => j.job_id) ++
      st1.pending.map (fun j => j.job_id)).Nodup := by
    have := (hperm.map (fun j => j.job_id)).nodup_iff.1 h6
    rwa [List.map_append] at this
  have hEids : (E.map (fun p => p.1.job_id)).Nodup := by
    have := (List.nodup_append.1 hids).1
    rwa [List.map_map] at this
  have hEfresh : ∀ p ∈ E, p.1.job_id ∉ map_keys st.allocations :=
    fun p hp => h7 p.1 (a3 p hp).2
  have halloc : st1.allocations = st.allocations ++ E.map (fun p => (p.1.job_id, p.2)) := by
    rw [(a7 h5).1, record_allocations_fresh E _ hEids hEfresh]
  have hkeys : map_keys st1.allocations =
      map_keys st.allocations ++ E.map (fun p => p.1.job_id) := by
    rw [halloc]
    simp [map_keys, List.map_map, Function.comp_def]
  have hdisj : ∀ j ∈ st1.pending, ∀ p ∈ E, j.job_id ≠ p.1.job_id := by
    intro j hj p hp e
    refine (List.nodup_append.1 hids).2.2 ?_ (List.mem_map_of_mem _ hj)
    rw [e, List.map_map]
    exact List.mem_map.2 ⟨p, hp, rfl⟩
  refine ⟨⟨hb, a5.trans h2, ?_, ?_, hcons, (List.nodup_append.1 hids).2.1, ?_⟩, ?_⟩
  · refine List.Perm.trans ?_ h3
    unfold hosts_of
    rw [halloc, a2]
    simp only [List.map_append, List.map_map, List.flatten_append, Function.comp_def]
    have e : List.map (fun x : JobPtr T × List Nat => x.2) E = List.map Prod.snd E := rfl
    rw [e, ← List.append_assoc]
    exact List.perm_append_comm.trans (by rw [List.append_assoc])
  · rw [hkeys, List.nodup_append]
    refine ⟨h4, hEids, ?_⟩
    intro k hk hk2
    obtain ⟨p, hp, rfl⟩ := List.mem_map.1 hk2
    exact hEfresh p hp hk
  · intro j hj
    rw [hkeys, List.mem_append, not_or]
    refine ⟨h7 j (a4 j hj), fun hk => ?_⟩
    obtain ⟨p, hp, e⟩ := List.mem_map.1 hk
    exact hdisj j hj p hp e.symm
  · rintro ids ⟨f1, f2⟩
    refine ⟨f1, fun id hid => ⟨fun hin => ?_, ?_⟩⟩
    · obtain ⟨j, hj, rfl⟩ := List.mem_map.1 hin
      exact (f2 _ hid).1 (List.mem_map_of_mem _ (a4 j hj))
    · rw [hkeys, List.mem_append, not_or]
      refine ⟨(f2 id hid).2, fun hk => ?_⟩
      obtain ⟨p, hp, rfl⟩ := List.mem_map.1 hk
      exact (f2 _ hid).1 (List.mem_map_of_mem _ (a3 p hp).2)

omit [LinearOrder T] [Add T] [Sub T] [Neg T] [Div T] [Zero T] [NatCast T] in
/-- The property carried along a simulation after its `SimulationBegins`: the state
invariant, no further `SimulationBegins` to come, and the ids to come fresh. -/
theorem runInv_dispatch (now : T) {H : Nat} {st : State T} (ev : Event T)
    (fut : List (Event T))
    (h : RunInv H st ∧ (∀ e ∈ ev :: fut, is_begin e = false) ∧
      Fresh (submitted_ids (ev :: fut)) st) :
    RunInv H (dispatch now st ev) ∧ (∀ e ∈ fut, is_begin e = false) ∧
      Fresh (submitted_ids fut) (dispatch now st ev) := by
  obtain ⟨h1, h2, h3⟩ := h
  have h2' : ∀ e ∈ fut, is_begin e = false := fun e he => h2 e (List.mem_cons_of_mem _ he)
  cases ev with
  | hello => exact ⟨h1, h2', h3⟩
  | simulationBegins n =>
    have := h2 (.simulationBegins n) (by simp)
    simp [is_begin] at this
  | jobSubmitted jid nb wt =>
    obtain ⟨r1, r2⟩ := runInv_submit now jid nb wt h1 h3
    exact ⟨r1, h2', r2⟩
  | jobCompleted jid =>
    obtain ⟨r1, r2⟩ := runInv_complete now jid h1 h3
    exact ⟨r1, h2', r2⟩
  | other => exact ⟨h1, h2', h3⟩

theorem take_decisions_ok
    (std_sort : (JobPtr T → JobPtr T → Bool) → List (JobPtr T) → List (JobPtr T))
    (hperm : ∀ lt l, (std_sort lt l).Perm l)
    (cfg : Config T) (st : State T) (msg : T × List (Event T)) :
    ∃ st1, batsim_edc_take_decisions std_sort cfg st msg = .ok st1 :=
  easy_loop_ok std_sort (fun lt l x hx => (hperm lt l).mem_iff.1 hx) cfg msg.1 _ _ (by omega)

/-- A simulation runs to its end. -/
theorem run_ok
    (std_sort : (JobPtr T → JobPtr T → Bool) → List (JobPtr T) → List (JobPtr T))
    (hperm : ∀ lt l, (std_sort lt l).Perm l)
    (cfg : Config T) :
    ∀ (msgs : List (T × List (Event T))) (st : State T),
      ∃ ws, run std_sort cfg st msgs = .ok ws := by
  intro msgs
  induction msgs with
  | nil => intro st; exact ⟨[], rfl⟩
  | cons msg msgs ih =>
    intro st
    obtain ⟨st1, h1⟩ := take_decisions_ok std_sort hperm cfg st msg
    obtain ⟨ws, h2⟩ := ih st1
    refine ⟨(msg.2.foldl (dispatch msg.1) { st with out := [] }, st1) :: ws, ?_⟩
    simp only [run, h1, h2]

end RunInvariantPass

section RunBegin

variable {T : Type} [LinearOrder T] [Add T] [Sub T] [Neg T] [Div T] [Zero T] [NatCast T]

/-- Induction along a simulation whose first event is given: it is enough that the property
holds right after that event. -/
theorem run_trace_first
    (std_sort : (JobPtr T → JobPtr T → Bool) → List (JobPtr T) → List (JobPtr T))
    (cfg : Config T) (P : State T → List (Event T) → Prop)
    (hclear : ∀ st fut, P st fut → P { st with out := [] } fut)
    (hdisp : ∀ now st ev fut, P st (ev :: fut) → P (dispatch now st ev) fut)
    (hpass : ∀ now st st1 pr fut, P st fut →
      easy_pass std_sort cfg now st = .ok (st1, pr) → P st1 fut)
    (st : State T) (now0 : T) (ev0 : Event T) (evs0 : List (Event T))
    (msgs : List (T × List (Event T)))
    (h : P (dispatch now0 { st with out := [] } ev0) (evs0 ++ all_events msgs)) :
    ∀ s ∈ run_trace std_sort cfg st ((now0, ev0 :: evs0) :: msgs), ∃ f, P s f := by
  intro s hs
  unfold run_trace at hs
  unfold batsim_edc_take_decisions at hs
  simp only [dispatch_trace, List.foldl_cons, List.cons_append, List.mem_cons] at hs
  rcases hs with rfl | hs
  · exact ⟨_, h⟩
  · exact trace_from_induct std_sort cfg P hclear hdisp hpass msgs now0 evs0 _ h s hs

end RunBegin

/-! ## Decisions over a whole simulation -/

section History

variable {T : Type}

theorem decided_ids_append (a b : List Decision) :
    decided_ids (a ++ b) = decided_ids a ++ decided_ids b := by
  induction a with
  | nil => rfl
  | cons d a ih =>
    cases d <;> simp [decided_ids, ih]

theorem decided_ids_executes (E : List (JobPtr T × List Nat)) :
    decided_ids (E.map execute_of) = E.map (fun p => p.1.job_id) := by
  induction E with
  | nil => rfl
  | cons p E ih => simp [execute_of, decided_ids, ih]

theorem mem_decided_of_rejected {D : List Decision} {id : String}
    (h : id ∈ rejected_ids D) : id ∈ decided_ids D := by
  induction D with
  | nil => simp [rejected_ids] at h
  | cons d D ih =>
    cases d with
    | edc_hello a b => exact ih h
    | reject_job j =>
      simp only [rejected_ids, List.mem_cons] at h
      simp only [decided_ids, List.mem_cons]
      exact h.imp (fun e => e) ih
    | execute_job j hs =>
      simp only [decided_ids, List.mem_cons]
      exact Or.inr (ih h)

theorem mem_decided_of_executed {D : List Decision} {id : String}
    (h : id ∈ executed_ids D) : id ∈ decided_ids D := by
  induction D with
  | nil => simp [executed_ids] at h
  | cons d D ih =>
    cases d with
    | edc_hello a b => exact ih h
    | reject_job j =>
      simp only [decided_ids, List.mem_cons]
      exact Or.inr (ih h)
    | execute_job j hs =>
      simp only [executed_ids, List.mem_cons] at h
      simp only [decided_ids, List.mem_cons]
      exact h.imp (fun e => e) ih

/-- When no id is decided twice, no id is executed twice and none is both rejected and
executed. -/
theorem of_decided_nodup {D : List Decision} (h : (decided_ids D).Nodup) :
    (executed_ids D).Nodup ∧ ∀ id ∈ rejected_ids D, id ∉ executed_ids D := by
  induction D with
  | nil => simp [executed_ids, rejected_ids]
  | cons d D ih =>
    cases d with
    | edc_hello a b => exact ih h
    | reject_job j =>
      simp only [decided_ids, List.nodup_cons] at h
      obtain ⟨i1, i2⟩ := ih h.2
      refine ⟨i1, fun id hid => ?_⟩
      simp only [rejected_ids, List.mem_cons] at hid
      simp only [executed_ids]
      rcases hid with rfl | hid
      · exact fun he => h.1 (mem_decided_of_executed he)
      · exact i2 id hid
    | execute_job j hs =>
      simp only [decided_ids, List.nodup_cons] at h
      obtain ⟨i1, i2⟩ := ih h.2
      simp only [executed_ids, rejected_ids, List.nodup_cons, List.mem_cons, not_or]
      exact ⟨⟨fun he => h.1 (mem_decided_of_executed he), i1⟩,
        fun id hid => ⟨fun e => h.1 (e ▸ mem_decided_of_rejected hid), i2 id hid⟩⟩

theorem submitted_ids_append (a b : List (Event T)) :
    submitted_ids (a ++ b) = submitted_ids a ++ submitted_ids b := by
  induction a with
  | nil => rfl
  | cons e a ih =>
    cases e <;> simp [submitted_ids, ih]

/-- Bookkeeping of job ids during one dispatch: the ids decided before this wakeup, those
decided in it, the queued ones and those still to be submitted are all distinct. -/
theorem ids_dispatch (now : T) (hist : List String) (st : State T) (ev : Event T)
    (fut : List String)
    (h : (hist ++ decided_ids st.out ++ st.pending.map (fun j => j.job_id) ++
      (submitted_ids [ev] ++ fut)).Nodup) :
    (hist ++ decided_ids (dispatch now st ev).out ++
      (dispatch now st ev).pending.map (fun j => j.job_id) ++ fut).Nodup := by
  cases ev with
  | hello => simpa [dispatch, submitted_ids, decided_ids_append, decided_ids] using h
  | simulationBegins n => simpa [dispatch, submitted_ids] using h
  | jobSubmitted jid nb wt =>
    simp only [dispatch]
    split_ifs
    · simp only [decided_ids_append, decided_ids, submitted_ids] at h ⊢
      refine (List.Perm.nodup_iff ?_).1 h
      rw [List.perm_iff_count]
      intro a
      simp only [List.count_append, List.count_cons, List.count_nil]
      omega
    · simp only [submitted_ids, List.map_append, List.map_cons, List.map_nil] at h ⊢
      refine (List.Perm.nodup_iff ?_).1 h
      rw [List.perm_iff_count]
      intro a
      simp only [List.count_append, List.count_cons, List.count_nil]
      omega
  | jobCompleted jid =>
    simp only [dispatch]
    split <;> simpa [submitted_ids] using h
  | other => simpa [dispatch, submitted_ids] using h

theorem ids_foldl_dispatch (now : T) (hist : List String) (evs : List (Event T)) :
    ∀ (st : State T) (fut : List String),
      (hist ++ decided_ids st.out ++ st.pending.map (fun j => j.job_id) ++
        (submitted_ids evs ++ fut)).Nodup →
      (hist ++ decided_ids (evs.foldl (dispatch now) st).out ++
        (evs.foldl (dispatch now) st).pending.map (fun j => j.job_id) ++ fut).Nodup := by
  induction evs with
  | nil => intro st fut h; simpa [submitted_ids] using h
  | cons ev evs ih =>
    intro st fut h
    rw [List.foldl_cons]
    apply ih
    apply ids_dispatch now hist st ev
    have e : submitted_ids (ev :: evs) = submitted_ids [ev] ++ submitted_ids evs :=
      submitted_ids_append [ev] evs
    rw [e] at h
    simpa only [List.append_assoc] using h

end History

section RunHistory

variable {T : Type} [LinearOrder T] [Add T] [Sub T] [Neg T] [Div T] [Zero T] [NatCast T]

/-- Along a simulation no job id is decided twice, whatever was decided before it (`hist`),
as long as these ids, the queued ones and those to be submitted are all distinct; and in each
wakeup the jobs executed are exactly the jobs that leave the queue. -/
theorem run_history
    (std_sort : (JobPtr T → JobPtr T → Bool) → List (JobPtr T) → List (JobPtr T))
    (hperm : ∀ lt l, (std_sort lt l).Perm l)
    (cfg : Config T) :
    ∀ (msgs : List (T × List (Event T))) (st : State T) (hist : List String),
      BaseInv st →
      (hist ++ st.pending.map (fun j => j.job_id) ++ submitted_ids (all_events msgs)).Nodup →
      ∃ ws, run std_sort cfg st msgs = .ok ws ∧
        (hist ++ decided_ids (decisions_of ws)).Nodup ∧
        ∀ w ∈ ws,
          BaseInv w.1 ∧
          (∃ E : List (JobPtr T × List Nat), w.2.out = w.1.out ++ E.map execute_of ∧
            w.1.pending.Perm (E.map Prod.fst ++ w.2.pending)) ∧
          ∀ d ∈ w.1.out, ∀ jid hs, d ≠ Decision.execute_job jid hs := by
  intro msgs
  induction msgs with
  | nil =>
    intro st hist _ h
    refine ⟨[], rfl, ?_, by simp⟩
    simp only [decisions_of, List.map_nil, List.flatten_nil, decided_ids, List.append_nil]
    exact (List.nodup_append.1 (List.nodup_append.1 h).1).1
  | cons msg msgs ih =>
    intro st hist hb h
    have hbd := baseInv_foldl_dispatch msg.1 msg.2 { st with out := [] } (baseInv_clear st hb)
    have hidsd := ids_foldl_dispatch msg.1 hist msg.2 { st with out := [] }
      (submitted_ids (all_events msgs)) (by
        have e : submitted_ids (all_events (msg :: msgs)) =
            submitted_ids msg.2 ++ submitted_ids (all_events msgs) := by
          simp only [all_events, List.map_cons, List.flatten_cons]
          exact submitted_ids_append _ _
        rw [e] at h
        simpa [decided_ids] using h)
    obtain ⟨st2, h2⟩ := take_decisions_ok std_sort hperm cfg st msg
    have h2' := h2
    unfold batsim_edc_take_decisions at h2'
    obtain ⟨E, hE, hs2⟩ := easy_loop_spec std_sort hperm cfg msg.1 _ _ st2 hbd.1 h2'
    have hb2 := baseInv_of_spec hbd hE hs2
    have hpm := hE.2.2.2.2.2.2.2 hbd.2.1
    have hout := hE.1
    have hids2 : (hist ++ decided_ids st2.out ++ st2.pending.map (fun j => j.job_id) ++
        submitted_ids (all_events msgs)).Nodup := by
      refine (List.Perm.nodup_iff ?_).1 hidsd
      rw [hout, decided_ids_append, decided_ids_executes, List.perm_iff_count]
      intro a
      have hc := (hpm.map (fun j => j.job_id)).count_eq a
      simp only [List.map_append, List.map_map, List.count_append] at hc
      simp only [List.count_append]
      have e : List.count a (List.map ((fun j : JobPtr T => j.job_id) ∘ Prod.fst) E) =
          List.count a (List.map (fun p : JobPtr T × List Nat => p.1.job_id) E) := rfl
      omega
    obtain ⟨ws, hrun2, hnd, hw⟩ := ih st2 (hist ++ decided_ids st2.out)
      hb2 (by simpa only [List.append_assoc] using hids2)
    refine ⟨(msg.2.foldl (dispatch msg.1) { st with out := [] }, st2) :: ws, ?_, ?_, ?_⟩
    · simp only [run, h2, hrun2]
    · simp only [decisions_of, List.map_cons, List.flatten_cons, decided_ids_append]
      simpa only [decisions_of, List.append_assoc] using hnd
    · intro w hw2
      rcases List.mem_cons.1 hw2 with rfl | hw2
      · exact ⟨hbd, ⟨E, hout, hpm⟩, foldl_dispatch_no_execute msg.1 msg.2 _ (by simp)⟩
      · exact hw w hw2

end RunHistory

/-! ## The host list string -/

theorem digit_value_digitChar (k : Nat) (h : k < 10) :
    digit_value (Nat.digitChar k) = k ∧ (Nat.digitChar k).isDigit = true ∧
      Nat.digitChar k ≠ ',' := by
  interval_cases k <;> decide

theorem read_decimal_append (ds : List Char) (c : Char) :
    read_decimal (ds ++ [c]) = 10 * read_decimal ds + digit_value c := by
  simp [read_decimal, List.foldl_append]

theorem toDigitsCore_spec (fuel : Nat) : ∀ (n : Nat) (ds : List Char), n < fuel →
    ∃ ds1, Nat.toDigitsCore 10 fuel n ds = ds1 ++ ds ∧ ds1 ≠ [] ∧
      (∀ c ∈ ds1, c.isDigit = true ∧ c ≠ ',') ∧ read_decimal ds1 = n := by
  induction fuel with
  | zero => intro n ds h; omega
  | succ fuel ih =>
    intro n ds h
    have hd := digit_value_digitChar (n % 10) (Nat.mod_lt _ (by decide))
    unfold Nat.toDigitsCore
    by_cases h0 : n / 10 = 0
    · simp only [h0, if_true]
      refine ⟨[Nat.digitChar (n % 10)], rfl, by simp, ?_, ?_⟩
      · intro c hc
        rw [List.mem_singleton] at hc
        subst hc
        exact hd.2
      · simp only [read_decimal, List.foldl_cons, List.foldl_nil, hd.1]
        omega
    · simp only [h0, if_false]
      obtain ⟨ds1, e1, -, e3, e4⟩ := ih (n / 10) (Nat.digitChar (n % 10) :: ds) (by omega)
      refine ⟨ds1 ++ [Nat.digitChar (n % 10)], by rw [e1]; simp, by simp, ?_, ?_⟩
      · intro c hc
        rcases List.mem_append.1 hc with hc | hc
        · exact e3 c hc
        · rw [List.mem_singleton] at hc
          subst hc
          exact hd.2
      · rw [read_decimal_append, e4, hd.1]
        omega

theorem toDigits_spec (n : Nat) :
    Nat.toDigits 10 n ≠ [] ∧ (∀ c ∈ Nat.toDigits 10 n, c.isDigit = true ∧ c ≠ ',') ∧
      read_decimal (Nat.toDigits 10 n) = n := by
  obtain ⟨ds1, e1, e2, e3, e4⟩ := toDigitsCore_spec (n + 1) n [] (by omega)
  have e : Nat.toDigits 10 n = ds1 := by simp [Nat.toDigits, e1]
  rw [e]
  exact ⟨e2, e3, e4⟩


theorem host_string_fold (l : List Nat) : ∀ s : String,
    ((l.foldl (fun (acc : String × Bool) h =>
      ((if acc.2 then acc.1 else acc.1 ++ ",") ++ toString h, false)) (s, false)).1).data =
    s.data ++ (l.map (fun h => ',' :: Nat.toDigits 10 h)).flatten := by
  induction l with
  | nil => intro s; simp
  | cons h l ih =>
    intro s
    rw [List.foldl_cons]
    simp only [Bool.false_eq_true, if_false]
    rw [ih]
    simp only [String.data_append, List.map_cons, List.flatten_cons, List.append_assoc]
    rfl

theorem host_string_nil : host_string [] = "" := rfl

theorem host_string_cons (h : Nat) (l : List Nat) :
    (host_string (h :: l)).data =
      Nat.toDigits 10 h ++ (l.map (fun h => ',' :: Nat.toDigits 10 h)).flatten := by
  unfold host_string
  rw [List.foldl_cons]
  simp only [if_true]
  rw [host_string_fold]
  simp only [String.data_append]
  rfl

theorem host_string_data (l : List Nat) :
    (host_string l).data = List.intercalate [','] (l.map (Nat.toDigits 10)) := by
  cases l with
  | nil => rfl
  | cons h l =>
    rw [host_string_cons]
    induction l generalizing h with
    | nil => simp [List.intercalate]
    | cons k l ih =>
      have e := ih k
      simp only [List.intercalate, List.map_cons, List.flatten_cons] at e ⊢
      rw [List.intersperse_cons₂, List.flatten_cons, List.flatten_cons, ← e]
      simp


theorem split_commas_ne_nil (cs : List Char) : split_commas cs ≠ [] := by
  cases cs with
  | nil => simp [split_commas]
  | cons c cs =>
    unfold split_commas
    split_ifs
    · simp
    · split <;> simp

theorem split_commas_piece (d : List Char) (hd : ∀ c ∈ d, c ≠ ',') (r : List Char) :
    split_commas (d ++ ',' :: r) = d :: split_commas r := by
  induction d with
  | nil => simp [split_commas]
  | cons c d ih =>
    have hc : c ≠ ',' := hd c (by simp)
    rw [List.cons_append, split_commas, if_neg hc, ih (fun x hx => hd x (by simp [hx]))]

theorem split_commas_last (d : List Char) (hd : ∀ c ∈ d, c ≠ ',') :
    split_commas d = [d] := by
  induction d with
  | nil => simp [split_commas]
  | cons c d ih =>
    have hc : c ≠ ',' := hd c (by simp)
    rw [split_commas, if_neg hc, ih (fun x hx => hd x (by simp [hx]))]

theorem split_commas_render (l : List Nat) : ∀ h : Nat,
    split_commas (Nat.toDigits 10 h ++ (l.map (fun h => ',' :: Nat.toDigits 10 h)).flatten) =
      (h :: l).map (Nat.toDigits 10) := by
  induction l with
  | nil =>
    intro h
    simpa using split_commas_last _ (fun c hc => ((toDigits_spec h).2.1 c hc).2)
  | cons k l ih =>
    intro h
    rw [List.map_cons, List.flatten_cons, List.cons_append,
      split_commas_piece _ (fun c hc => ((toDigits_spec h).2.1 c hc).2), ih k]
    rfl

theorem render_getLast (l : List Nat) : ∀ (p : List Char) (k : Nat) (c : Char),
    (p ++ Nat.toDigits 10 k ++ (l.map (fun h => ',' :: Nat.toDigits 10 h)).flatten).getLast? =
      some c → c ≠ ',' := by
  induction l with
  | nil =>
    intro p k c h
    simp only [List.map_nil, List.flatten_nil, List.append_nil] at h
    rw [List.getLast?_append_of_ne_nil _ (toDigits_spec k).1] at h
    exact ((toDigits_spec k).2.1 c (List.mem_of_getLast?_eq_some h)).2
  | cons j l ih =>
    intro p k c h
    refine ih (p ++ Nat.toDigits 10 k ++ [',']) j c ?_
    simpa using h

theorem parse_host_string (l : List Nat) : parse_host_list (host_string l) = l := by
  cases l with
  | nil => rfl
  | cons h l =>
    unfold parse_host_list
    rw [host_string_cons, split_commas_render]
    have hne : Nat.toDigits 10 h ++ (l.map (fun h => ',' :: Nat.toDigits 10 h)).flatten ≠ [] := by
      simp [(toDigits_spec h).1]
    rw [if_neg hne, List.map_map]
    conv_rhs => rw [← List.map_id (h :: l)]
    exact List.map_congr_left (fun n _ => (toDigits_spec n).2.2)


theorem host_string_ends (l : List Nat) :
    (host_string l).data.head? ≠ some ',' ∧ (host_string l).data.getLast? ≠ some ',' := by
  cases l with
  | nil => exact ⟨by simp [host_string_nil], by simp [host_string_nil]⟩
  | cons h l =>
    rw [host_string_cons]
    constructor
    · intro e
      obtain ⟨h1, h2, -⟩ := toDigits_spec h
      cases hd : Nat.toDigits 10 h with
      | nil => exact h1 hd
      | cons c cs =>
        rw [hd] at e h2
        simp only [List.cons_append, List.head?_cons, Option.some.injEq] at e
        exact (h2 c (by simp)).2 e
    · intro e
      exact render_getLast l [] h ',' (by simpa using e) rfl

/-! ## The unified comparator -/

section PrimaryOrder

variable {T : Type} [LinearOrder T] [Add T] [Sub T] [Neg T] [Div T] [Zero T] [NatCast T]

omit [Add T] [Neg T] [Div T] [NatCast T] in
theorem is_old_iff (cfg : Config T) (now : T) (j : JobPtr T) :
    is_old cfg now j = true ↔
      0 ≤ cfg.THRESHOLD_SEC ∧ cfg.THRESHOLD_SEC < now - j.submit_time := by
  simp [is_old]

theorem primary_lt_eq_false (cfg : Config T) (now : T) (a b : JobPtr T) :
    primary_lt cfg now b a = false ↔
      (is_old cfg now b = true → is_old cfg now a = true) ∧
      (is_old cfg now a = is_old cfg now b →
        key_for a now cfg.primary_policy ≤ key_for b now cfg.primary_policy) := by
  unfold primary_lt
  cases ha : is_old cfg now a <;> cases hb : is_old cfg now b <;> simp

theorem primary_lt_asymm (cfg : Config T) (now : T) (a b : JobPtr T)
    (h : primary_lt cfg now a b = true) : primary_lt cfg now b a = false := by
  unfold primary_lt at h ⊢
  revert h
  cases ha : is_old cfg now a <;> cases hb : is_old cfg now b <;> simp
  all_goals exact fun h => le_of_lt h

theorem primary_lt_trans (cfg : Config T) (now : T) (a b c : JobPtr T)
    (h1 : primary_lt cfg now b a = false) (h2 : primary_lt cfg now c b = false) :
    primary_lt cfg now c a = false := by
  unfold primary_lt at h1 h2 ⊢
  revert h1 h2
  cases ha : is_old cfg now a <;> cases hb : is_old cfg now b <;>
    cases hc : is_old cfg now c <;> simp
  all_goals exact fun h1 h2 => le_trans h1 h2

end PrimaryOrder

/-! ## Parsing the configuration -/

theorem split_first_of_not_mem (c : Char) (p : List Char) (h : c ∉ p) :
    split_first c p = (p, none) := by
  induction p with
  | nil => rfl
  | cons x p ih =>
    have hx : x ≠ c := fun e => h (by simp [e])
    rw [split_first, if_neg hx, ih (fun hm => h (by simp [hm]))]

theorem split_first_append (c : Char) (p r : List Char) (h : c ∉ p) :
    split_first c (p ++ c :: r) = (p, some r) := by
  induction p with
  | nil => simp [split_first]
  | cons x p ih =>
    have hx : x ≠ c := fun e => h (by simp [e])
    rw [List.cons_append, split_first, if_neg hx, ih (fun hm => h (by simp [hm]))]

theorem policy_tokens_single (q : List Char) (h : ',' ∉ q) : policy_tokens q = (q, q) := by
  simp [policy_tokens, split_first_of_not_mem _ _ h]

theorem policy_tokens_pair (p1 p2 : List Char) (h : ',' ∉ p1) :
    policy_tokens (p1 ++ ',' :: p2) = (p1, p2) := by
  simp [policy_tokens, split_first_append _ _ _ h]

theorem assign_policy_fcfs (p : List Char) : assign_policy .FCFS p = policy_of_token p := by
  unfold assign_policy policy_of_token
  cases map_get? STR2POL (String.mk p) <;> rfl

theorem policy_of_token_other (p : List Char)
    (h : String.mk p ∉ ["exp", "fcfs", "lcfs", "lpf", "lqf", "spf", "sqf"]) :
    policy_of_token p = .FCFS := by
  have : map_get? STR2POL (String.mk p) = none := map_get?_eq_none.2 h
  simp [policy_of_token, this]

section InitLemmas

variable {T : Type} [Mul T] [NatCast T]

theorem init_no_at (stod : List Char → Option T) (cfg : Config T) (arg : String)
    (h : '@' ∉ strip_quotes arg.data) :
    ∃ cfg1, batsim_edc_init stod cfg arg = .ok (0, cfg1) ∧
      cfg1.THRESHOLD_SEC = cfg.THRESHOLD_SEC ∧
      (arg.data ≠ [] →
        cfg1.primary_policy = assign_policy cfg.primary_policy
          (policy_tokens (strip_quotes arg.data)).1 ∧
        cfg1.backfill_policy = assign_policy cfg.backfill_policy
          (policy_tokens (strip_quotes arg.data)).2) ∧
      (arg.data = [] → cfg1 = cfg) := by
  by_cases h0 : arg.data = []
  · exact ⟨cfg, by simp [batsim_edc_init, h0], rfl, fun h => absurd h0 h, fun _ => rfl⟩
  · refine ⟨{ primary_policy := assign_policy cfg.primary_policy
                (policy_tokens (strip_quotes arg.data)).1,
              backfill_policy := assign_policy cfg.backfill_policy
                (policy_tokens (strip_quotes arg.data)).2,
              THRESHOLD_SEC := cfg.THRESHOLD_SEC }, ?_, rfl, fun _ => ⟨rfl, rfl⟩,
      fun h => absurd h h0⟩
    simp only [batsim_edc_init, if_neg h0, parse_threshold, split_first_of_not_mem _ _ h]

theorem init_with_at (stod : List Char → Option T) (cfg : Config T) (arg : String)
    (q n : List Char) (hq : '@' ∉ q) (hs : strip_quotes arg.data = q ++ '@' :: n) :
    (∀ h, stod n = some h →
      batsim_edc_init stod cfg arg = .ok (0,
        { primary_policy := assign_policy cfg.primary_policy (policy_tokens q).1,
          backfill_policy := assign_policy cfg.backfill_policy (policy_tokens q).2,
          THRESHOLD_SEC := h * ((3600 : Nat) : T) })) ∧
    (stod n = none → batsim_edc_init stod cfg arg = .error .stod_throws) := by
  have h0 : arg.data ≠ [] := by
    intro e
    rw [e] at hs
    simp [strip_quotes] at hs
  constructor
  · intro h hh
    simp only [batsim_edc_init, if_neg h0, parse_threshold, hs, split_first_append _ _ _ hq, hh]
  · intro hh
    simp only [batsim_edc_init, if_neg h0, parse_threshold, hs, split_first_append _ _ _ hq, hh]

end InitLemmas

/-! ## Independence of the enumeration order of the hash maps -/

theorem map_get?_of_mem {V : Type} {m : List (String × V)} {k : String} {v : V}
    (hn : (map_keys m).Nodup) (h : (k, v) ∈ m) : map_get? m k = some v := by
  induction m with
  | nil => simp at h
  | cons kv m ih =>
    obtain ⟨a, b⟩ := kv
    simp only [map_keys, List.map_cons, List.nodup_cons, List.mem_map, not_exists, not_and] at hn
    rcases List.mem_cons.1 h with e | hm
    · cases e
      simp [map_get?]
    · have hne : a ≠ k := fun e => hn.1 (k, v) hm (by simp [e])
      simp only [map_get?, if_neg hne]
      exact ih hn.2 hm

theorem map_get?_perm {V : Type} {m m2 : List (String × V)} (hp : m.Perm m2)
    (hn : (map_keys m).Nodup) (k : String) : map_get? m k = map_get? m2 k := by
  have hn2 : (map_keys m2).Nodup := (hp.map Prod.fst).nodup_iff.1 hn
  cases h : map_get? m k with
  | none =>
    have : k ∉ map_keys m2 := fun hk =>
      (map_get?_eq_none.1 h) ((hp.map Prod.fst).mem_iff.2 hk)
    exact (map_get?_eq_none.2 this).symm
  | some v => exact (map_get?_of_mem hn2 (hp.mem_iff.1 (map_get?_mem h))).symm

theorem map_set_perm_cons {V : Type} (m : List (String × V)) (k : String) (v : V)
    (hn : (map_keys m).Nodup) : (map_set m k v).Perm ((k, v) :: map_erase m k) := by
  induction m with
  | nil => simp [map_set, map_erase]
  | cons kv m ih =>
    obtain ⟨a, b⟩ := kv
    simp only [map_keys, List.map_cons, List.nodup_cons] at hn
    by_cases h : a = k
    · subst h
      have e : map_erase ((a, b) :: m) a = m := by
        have := map_erase_of_not_mem (m := m) (k := a) hn.1
        simpa [map_erase] using this
      simp only [map_set, if_true, e]
      exact List.Perm.refl _
    · have e : map_erase ((a, b) :: m) k = (a, b) :: map_erase m k := by
        simp [map_erase, List.filter_cons, h]
      simp only [map_set, if_neg h, e]
      exact ((ih hn.2).cons (a, b)).trans (List.Perm.swap _ _ _)

theorem map_erase_perm {V : Type} {m m2 : List (String × V)} (hp : m.Perm m2) (k : String) :
    (map_erase m k).Perm (map_erase m2 k) :=
  hp.filter _

theorem map_set_perm {V : Type} {m m2 : List (String × V)} (hp : m.Perm m2)
    (hn : (map_keys m).Nodup) (k : String) (v : V) :
    (map_set m k v).Perm (map_set m2 k v) :=
  (map_set_perm_cons m k v hn).trans
    ((((map_erase_perm hp k).cons (k, v))).trans
      (map_set_perm_cons m2 k v ((hp.map Prod.fst).nodup_iff.1 hn)).symm)

theorem map_set_nodup {V : Type} (m : List (String × V)) (k : String) (v : V)
    (hn : (map_keys m).Nodup) : (map_keys (map_set m k v)).Nodup := by
  rw [map_keys_map_set]
  split_ifs with h
  · exact hn
  · exact List.Nodup.append hn (List.nodup_singleton k) (by simpa using h)

theorem map_erase_nodup {V : Type} (m : List (String × V)) (k : String)
    (hn : (map_keys m).Nodup) : (map_keys (map_erase m k)).Nodup := by
  rw [map_keys_map_erase]
  exact hn.filter _


section Determinism

variable {T : Type} [LinearOrder T]

theorem pair_lt_antisymm (a b : T × Nat) (h1 : pair_lt b a = false) (h2 : pair_lt a b = false) :
    a = b := by
  unfold pair_lt at h1 h2
  simp only [Bool.or_eq_false_iff, decide_eq_false_iff_not, not_lt, Bool.and_eq_false_imp,
    Bool.not_eq_true', decide_eq_false_iff_not] at h1 h2
  have e1 : a.1 = b.1 := le_antisymm h1.1 h2.1
  have e2 : a.2 = b.2 := le_antisymm (h1.2 (by rw [e1])) (h2.2 (by rw [e1]))
  exact Prod.ext e1 e2

theorem sorted_pair_unique : ∀ (l l2 : List (T × Nat)), l.Perm l2 →
    l.Sorted (fun x y => pair_lt y x = false) → l2.Sorted (fun x y => pair_lt y x = false) →
    l = l2 := by
  intro l
  induction l with
  | nil => intro l2 hp _ _; exact (List.Perm.nil_eq hp)
  | cons a l ih =>
    intro l2 hp hs hs2
    cases l2 with
    | nil => simp at hp
    | cons b l2 =>
      have ha : a ∈ b :: l2 := hp.mem_iff.1 (by simp)
      have hb : b ∈ a :: l := hp.mem_iff.2 (by simp)
      have hab : a = b := by
        rcases List.mem_cons.1 ha with e | hm
        · exact e
        · rcases List.mem_cons.1 hb with e | hm2
          · exact e.symm
          · exact pair_lt_antisymm a b (List.rel_of_sorted_cons hs b hm2)
              (List.rel_of_sorted_cons hs2 a hm)
      subst hab
      rw [ih l2 (List.Perm.cons_inv hp) hs.of_cons hs2.of_cons]

theorem stable_sort_pair_perm {l l2 : List (T × Nat)} (hp : l.Perm l2) :
    stable_sort pair_lt l = stable_sort pair_lt l2 :=
  sorted_pair_unique _ _
    (((stable_sort_perm pair_lt l).trans hp).trans (stable_sort_perm pair_lt l2).symm)
    (stable_sort_sorted pair_lt pair_lt_asymm pair_lt_trans l)
    (stable_sort_sorted pair_lt pair_lt_asymm pair_lt_trans l2)

theorem compute_reservation_perm (st st2 : State T) (now : T) (need : Nat)
    (hf : st.available_hosts = st2.available_hosts)
    (ha : st.allocations.Perm st2.allocations) (hna : (map_keys st.allocations).Nodup)
    (he : st.end_times.Perm st2.end_times) :
    compute_reservation st now need = compute_reservation st2 now need := by
  have hsz : ∀ k, alloc_size st k = alloc_size st2 k := by
    intro k
    unfold alloc_size
    rw [map_get?_perm ha hna k]
  have hev : (release_events st).Perm (release_events st2) := by
    unfold release_events
    have e : (fun kv : String × T => (kv.2, alloc_size st kv.1 % U32)) =
        (fun kv : String × T => (kv.2, alloc_size st2 kv.1 % U32)) := by
      funext kv
      rw [hsz]
    rw [e]
    exact he.map _
  unfold compute_reservation
  rw [hf, stable_sort_pair_perm hev]

end Determinism


section Simulation

variable {T : Type} [LinearOrder T] [Add T] [Sub T] [Neg T] [Div T] [Zero T] [NatCast T]

omit [LinearOrder T] [Add T] [Sub T] [Neg T] [Div T] [Zero T] [NatCast T] in
theorem sameMaps_refl (st : State T) (h1 : (map_keys st.allocations).Nodup)
    (h2 : (map_keys st.end_times).Nodup) (h3 : Consistent st) : SameMaps st st :=
  ⟨rfl, rfl, rfl, rfl, rfl, List.Perm.refl _, List.Perm.refl _, h1, h2, h3⟩

omit [LinearOrder T] [Add T] [Sub T] [Neg T] [Div T] [Zero T] [NatCast T] in
theorem sameMaps_clear {st st2 : State T} (h : SameMaps st st2) :
    SameMaps { st with out := [] } { st2 with out := [] } := by
  obtain ⟨h1, h2, h3, -, h5, h6, h7, h8, h9, h10⟩ := h
  exact ⟨h1, h2, h3, rfl, h5, h6, h7, h8, h9, h10⟩

omit [LinearOrder T] [Add T] [Sub T] [Neg T] [Div T] [Zero T] [NatCast T] in
theorem sameMaps_dispatch (now : T) {st st2 : State T} (h : SameMaps st st2) (ev : Event T) :
    SameMaps (dispatch now st ev) (dispatch now st2 ev) := by
  obtain ⟨h1, h2, h3, h4, h5, h6, h7, h8, h9, h10⟩ := h
  cases ev with
  | hello =>
    exact ⟨h1, h2, h3, by simp only [dispatch, h4], h5, h6, h7, h8, h9, h10⟩
  | simulationBegins n =>
    exact ⟨h1, by simp only [dispatch, h2], rfl, h4, h5, h6, h7, h8, h9, h10⟩
  | jobSubmitted jid nb wt =>
    simp only [dispatch, ← h3]
    split_ifs
    · exact ⟨h1, h2, rfl, by simp only [h4], by simp only [h5], h6, h7, h8, h9, h10⟩
    · exact ⟨by simp only [h1, h5], h2, rfl, h4, by simp only [h5], h6, h7, h8, h9, h10⟩
  | jobCompleted jid =>
    simp only [dispatch, ← map_get?_perm h6 h8 jid]
    cases hg : map_get? st.allocations jid with
    | none => exact ⟨h1, h2, h3, h4, h5, h6, h7, h8, h9, h10⟩
    | some hs =>
      refine ⟨h1, by simp only [h2], h3, h4, h5, map_erase_perm h6 jid, map_erase_perm h7 jid,
        map_erase_nodup _ _ h8, map_erase_nodup _ _ h9, ?_⟩
      intro k hk
      simp only [map_keys_map_erase, List.mem_filter] at hk ⊢
      exact ⟨h10 k hk.1, hk.2⟩
  | other => exact ⟨h1, h2, h3, h4, h5, h6, h7, h8, h9, h10⟩

omit [LinearOrder T] [Add T] [Sub T] [Neg T] [Div T] [Zero T] [NatCast T] in
theorem sameMaps_foldl_dispatch (now : T) (evs : List (Event T)) :
    ∀ {st st2 : State T}, SameMaps st st2 →
      SameMaps (evs.foldl (dispatch now) st) (evs.foldl (dispatch now) st2) := by
  induction evs with
  | nil => exact fun h => h
  | cons ev evs ih => exact fun h => ih (sameMaps_dispatch now h ev)

omit [LinearOrder T] [Sub T] [Neg T] [Div T] [Zero T] [NatCast T] in
theorem start_job_unfold (now : T) (st : State T) (j : JobPtr T) :
    start_job now st j =
      if j.nb_hosts ≤ st.available_hosts.length then
        .ok { st with
              available_hosts :=
                (pick_hosts st.available_hosts j.nb_hosts).foldl (fun s h => set_erase h s)
                  st.available_hosts,
              allocations :=
                map_set st.allocations j.job_id (pick_hosts st.available_hosts j.nb_hosts),
              out := st.out ++
                [.execute_job j.job_id (host_string (pick_hosts st.available_hosts j.nb_hosts))],
              end_times := map_set st.end_times j.job_id (now + j.walltime) }
      else .error .underflow := by
  unfold start_job allocate
  split_ifs <;> rfl

omit [LinearOrder T] [Sub T] [Neg T] [Div T] [Zero T] [NatCast T] in
theorem sameMaps_start_job (now : T) {st st2 : State T} (h : SameMaps st st2) (j : JobPtr T) :
    Agree SameMaps (start_job now st j) (start_job now st2 j) := by
  obtain ⟨h1, h2, h3, h4, h5, h6, h7, h8, h9, h10⟩ := h
  rw [start_job_unfold, start_job_unfold, ← h2]
  split_ifs
  · refine ⟨h1, rfl, h3, by simp only [h4], h5, map_set_perm h6 h8 _ _, map_set_perm h7 h9 _ _,
      map_set_nodup _ _ _ h8, map_set_nodup _ _ _ h9, ?_⟩
    intro k hk
    rw [mem_map_keys_map_set] at hk ⊢
    exact hk.imp (fun e => e) (h10 k)
  · exact rfl


omit [LinearOrder T] [Add T] [Sub T] [Neg T] [Div T] [Zero T] [NatCast T] in
theorem sameMaps_set_pending {st st2 : State T} (h : SameMaps st st2) (p : List (JobPtr T)) :
    SameMaps { st with pending := p } { st2 with pending := p } := by
  obtain ⟨-, h2, h3, h4, h5, h6, h7, h8, h9, h10⟩ := h
  exact ⟨rfl, h2, h3, h4, h5, h6, h7, h8, h9, h10⟩

omit [LinearOrder T] [Add T] [Sub T] [Neg T] [Div T] [Zero T] [NatCast T] in
theorem sameMaps_consistent {st st2 : State T} (h : SameMaps st st2) : Consistent st2 := by
  intro k hk
  have hk1 : k ∈ map_keys st.end_times := (h.2.2.2.2.2.2.1.map Prod.fst).mem_iff.2 hk
  exact (h.2.2.2.2.2.1.map Prod.fst).mem_iff.1 (h.2.2.2.2.2.2.2.2.2 k hk1)

omit [Sub T] [Neg T] [Div T] [Zero T] [NatCast T] in
theorem sameMaps_backfill_step (now reserve_t : T) {acc acc2 : State T × Bool}
    (h : SameMaps acc.1 acc2.1) (hb : acc.2 = acc2.2) (cand : JobPtr T) :
    Agree (fun p q => SameMaps p.1 q.1 ∧ p.2 = q.2)
      (backfill_step now reserve_t acc cand) (backfill_step now reserve_t acc2 cand) := by
  have hs := sameMaps_start_job now h cand
  unfold backfill_step
  by_cases hc : cand.nb_hosts ≤ acc.1.available_hosts.length ∧ now + cand.walltime ≤ reserve_t
  · have hc2 : cand.nb_hosts ≤ acc2.1.available_hosts.length ∧
        now + cand.walltime ≤ reserve_t := by rw [← h.2.1]; exact hc
    rw [if_pos hc, if_pos hc2]
    cases e1 : start_job now acc.1 cand with
    | error e =>
      cases e2 : start_job now acc2.1 cand with
      | error f => rw [e1, e2] at hs; exact hs
      | ok s2 => rw [e1, e2] at hs; exact hs.elim
    | ok s1 =>
      cases e2 : start_job now acc2.1 cand with
      | error f => rw [e1, e2] at hs; exact hs.elim
      | ok s2 =>
        rw [e1, e2] at hs
        have hs' : SameMaps s1 s2 := hs
        have := sameMaps_set_pending hs'
          (s1.pending.filter (fun j => decide (j.addr ≠ cand.addr)))
        show SameMaps _ _ ∧ true = true
        rw [← hs'.1]
        exact ⟨this, rfl⟩
  · have hc2 : ¬ (cand.nb_hosts ≤ acc2.1.available_hosts.length ∧
        now + cand.walltime ≤ reserve_t) := by rw [← h.2.1]; exact hc
    rw [if_neg hc, if_neg hc2]
    exact ⟨h, hb⟩

omit [Sub T] [Neg T] [Div T] [Zero T] [NatCast T] in
theorem sameMaps_backfill (now reserve_t : T) (bf : List (JobPtr T)) :
    ∀ {acc acc2 : State T × Bool}, SameMaps acc.1 acc2.1 → acc.2 = acc2.2 →
      Agree (fun p q => SameMaps p.1 q.1 ∧ p.2 = q.2)
        (backfill now reserve_t acc bf) (backfill now reserve_t acc2 bf) := by
  induction bf with
  | nil => exact fun h hb => ⟨h, hb⟩
  | cons cand bf ih =>
    intro acc acc2 h hb
    have hs := sameMaps_backfill_step now reserve_t h hb cand
    unfold backfill
    cases e1 : backfill_step now reserve_t acc cand with
    | error e =>
      cases e2 : backfill_step now reserve_t acc2 cand with
      | error f => rw [e1, e2] at hs; exact hs
      | ok s2 => rw [e1, e2] at hs; exact hs.elim
    | ok s1 =>
      cases e2 : backfill_step now reserve_t acc2 cand with
      | error f => rw [e1, e2] at hs; exact hs.elim
      | ok s2 =>
        rw [e1, e2] at hs
        exact ih hs.1 hs.2

theorem sameMaps_easy_pass
    (std_sort : (JobPtr T → JobPtr T → Bool) → List (JobPtr T) → List (JobPtr T))
    (cfg : Config T) (now : T) {st st2 : State T} (h : SameMaps st st2) :
    Agree (fun p q => SameMaps p.1 q.1 ∧ p.2 = q.2)
      (easy_pass std_sort cfg now st) (easy_pass std_sort cfg now st2) := by
  unfold easy_pass
  rw [← h.1]
  cases hsort : stable_sort (primary_lt cfg now) st.pending with
  | nil => exact ⟨h, rfl⟩
  | cons head rest =>
    have hp := sameMaps_set_pending h (head :: rest)
    by_cases hc : head.nb_hosts ≤ st.available_hosts.length
    · have hc2 : head.nb_hosts ≤ st2.available_hosts.length := by rw [← h.2.1]; exact hc
      have hs := sameMaps_start_job now hp head
      show Agree _ (if head.nb_hosts ≤ st.available_hosts.length then _ else _)
        (if head.nb_hosts ≤ st2.available_hosts.length then _ else _)
      rw [if_pos hc, if_pos hc2]
      cases e1 : start_job now { st with pending := head :: rest } head with
      | error e =>
        cases e2 : start_job now { st2 with pending := head :: rest } head with
        | error f => rw [e1, e2] at hs; exact hs
        | ok s2 => rw [e1, e2] at hs; exact hs.elim
      | ok s1 =>
        cases e2 : start_job now { st2 with pending := head :: rest } head with
        | error f => rw [e1, e2] at hs; exact hs.elim
        | ok s2 =>
          rw [e1, e2] at hs
          exact ⟨sameMaps_set_pending hs rest, rfl⟩
    · have hc2 : ¬ head.nb_hosts ≤ st2.available_hosts.length := by rw [← h.2.1]; exact hc
      show Agree _ (if head.nb_hosts ≤ st.available_hosts.length then _ else _)
        (if head.nb_hosts ≤ st2.available_hosts.length then _ else _)
      rw [if_neg hc, if_neg hc2,
        touch_allocations_of_consistent _ _ hp.2.2.2.2.2.2.2.2.2,
        touch_allocations_of_consistent _ _ (sameMaps_consistent hp),
        compute_reservation_perm _ _ now head.nb_hosts hp.2.1 hp.2.2.2.2.2.1
          hp.2.2.2.2.2.2.2.1 hp.2.2.2.2.2.2.1]
      exact sameMaps_backfill now _ _ hp rfl

theorem sameMaps_easy_loop
    (std_sort : (JobPtr T → JobPtr T → Bool) → List (JobPtr T) → List (JobPtr T))
    (cfg : Config T) (now : T) (fuel : Nat) :
    ∀ {st st2 : State T}, SameMaps st st2 →
      Agree SameMaps (easy_loop std_sort cfg now fuel st) (easy_loop std_sort cfg now fuel st2) := by
  induction fuel with
  | zero =>
    intro st st2 h
    unfold easy_loop
    rw [← h.1]
    split_ifs
    · exact h
    · exact rfl
  | succ n ih =>
    intro st st2 h
    have hs := sameMaps_easy_pass std_sort cfg now h
    unfold easy_loop
    rw [← h.1]
    split_ifs
    · exact h
    · cases e1 : easy_pass std_sort cfg now st with
      | error e =>
        cases e2 : easy_pass std_sort cfg now st2 with
        | error f => rw [e1, e2] at hs; exact hs
        | ok s2 => rw [e1, e2] at hs; exact hs.elim
      | ok s1 =>
        cases e2 : easy_pass std_sort cfg now st2 with
        | error f => rw [e1, e2] at hs; exact hs.elim
        | ok s2 =>
          rw [e1, e2] at hs
          obtain ⟨a, pa⟩ := s1
          obtain ⟨b, pb⟩ := s2
          have hpb : pa = pb := hs.2
          subst hpb
          cases pa with
          | false => exact hs.1
          | true => exact ih hs.1

theorem sameMaps_take_decisions
    (std_sort : (JobPtr T → JobPtr T → Bool) → List (JobPtr T) → List (JobPtr T))
    (cfg : Config T) {st st2 : State T} (h : SameMaps st st2) (msg : T × List (Event T)) :
    Agree SameMaps (batsim_edc_take_decisions std_sort cfg st msg)
      (batsim_edc_take_decisions std_sort cfg st2 msg) := by
  have hd := sameMaps_foldl_dispatch msg.1 msg.2 (sameMaps_clear h)
  unfold batsim_edc_take_decisions
  rw [← hd.1]
  exact sameMaps_easy_loop std_sort cfg msg.1 _ hd

theorem sameMaps_run
    (std_sort : (JobPtr T → JobPtr T → Bool) → List (JobPtr T) → List (JobPtr T))
    (cfg : Config T) (msgs : List (T × List (Event T))) :
    ∀ {st st2 : State T}, SameMaps st st2 →
      Agree (fun ws ws2 => decisions_of ws = decisions_of ws2)
        (run std_sort cfg st msgs) (run std_sort cfg st2 msgs) := by
  induction msgs with
  | nil => exact fun _ => rfl
  | cons msg msgs ih =>
    intro st st2 h
    have hs := sameMaps_take_decisions std_sort cfg h msg
    unfold run
    cases e1 : batsim_edc_take_decisions std_sort cfg st msg with
    | error e =>
      cases e2 : batsim_edc_take_decisions std_sort cfg st2 msg with
      | error f => rw [e1, e2] at hs; exact hs
      | ok s2 => rw [e1, e2] at hs; exact hs.elim
    | ok s1 =>
      cases e2 : batsim_edc_take_decisions std_sort cfg st2 msg with
      | error f => rw [e1, e2] at hs; exact hs.elim
      | ok s2 =>
        rw [e1, e2] at hs
        have hr := @ih s1 s2 hs
        have hout : s1.out = s2.out := hs.2.2.2.1
        dsimp only
        cases r1 : run std_sort cfg s1 msgs with
        | error e =>
          cases r2 : run std_sort cfg s2 msgs with
          | error f => rw [r1, r2] at hr; exact hr
          | ok w2 => rw [r1, r2] at hr; exact hr.elim
        | ok w1 =>
          cases r2 : run std_sort cfg s2 msgs with
          | error f => rw [r1, r2] at hr; exact hr.elim
          | ok w2 =>
            rw [r1, r2] at hr
            have hr' : decisions_of w1 = decisions_of w2 := hr
            show decisions_of _ = decisions_of _
            simp only [decisions_of, List.map_cons, List.flatten_cons] at hr' ⊢
            rw [hout, hr']

end Simulation

/-! ## Induction along the iterations of a simulation -/

section Entries
variable {T : Type} [LinearOrder T] [Add T] [Sub T] [Neg T] [Div T] [Zero T] [NatCast T]

theorem loop_entries_induct
    (std_sort : (JobPtr T → JobPtr T → Bool) → List (JobPtr T) → List (JobPtr T))
    (cfg : Config T) (now : T) (Q : State T → Prop)
    (hpass : ∀ st st1 pr, Q st → easy_pass std_sort cfg now st = .ok (st1, pr) → Q st1) :
    ∀ (fuel : Nat) (st : State T), Q st → ∀ s ∈ loop_entries std_sort cfg now fuel st, Q s := by
  intro fuel
  induction fuel with
  | zero => intro st _ s hs; simp [loop_entries] at hs
  | succ n ih =>
    intro st hQ s hs
    unfold loop_entries at hs
    split_ifs at hs with he
    · simp at hs
    · obtain ⟨⟨s1, pr⟩, hp⟩ := easy_pass_ok std_sort cfg now st
      rw [hp] at hs
      simp only [List.mem_cons] at hs
      rcases hs with rfl | hs
      · exact hQ
      · cases pr with
        | false => simp at hs
        | true => exact ih s1 (hpass st s1 true hQ hp) s (by simpa using hs)

omit [LinearOrder T] [Add T] [Sub T] [Neg T] [Div T] [Zero T] [NatCast T] in
theorem foldl_dispatch_induct (now : T) (Q : State T → Prop) (G : Event T → Prop)
    (hdisp : ∀ st ev, G ev → Q st → Q (dispatch now st ev)) :
    ∀ (evs : List (Event T)) (st : State T), (∀ ev ∈ evs, G ev) → Q st →
      Q (evs.foldl (dispatch now) st) := by
  intro evs
  induction evs with
  | nil => exact fun st _ h => h
  | cons ev evs ih =>
    intro st hG h
    exact ih _ (fun e he => hG e (by simp [he])) (hdisp st ev (hG ev (by simp)) h)

/-- Induction along the iterations of a simulation whose wakeup times do not decrease: a
property of the time and the state that survives the passing of time, the clearing of the
message builder, every dispatch of an admitted event and every loop iteration holds at the
entry of every iteration. -/
theorem run_entries_induct
    (std_sort : (JobPtr T → JobPtr T → Bool) → List (JobPtr T) → List (JobPtr T))
    (cfg : Config T) (P : T → State T → Prop) (G : Event T → Prop)
    (hmono : ∀ t t2 st, t ≤ t2 → P t st → P t2 st)
    (hclear : ∀ t st, P t st → P t { st with out := [] })
    (hdisp : ∀ t st ev, G ev → P t st → P t (dispatch t st ev))
    (hpass : ∀ t st st1 pr, P t st → easy_pass std_sort cfg t st = .ok (st1, pr) → P t st1) :
    ∀ (msgs : List (T × List (Event T))) (t0 : T) (st : State T), P t0 st →
      (∀ m ∈ msgs, t0 ≤ m.1) → (msgs.map Prod.fst).Pairwise (· ≤ ·) →
      (∀ ev ∈ all_events msgs, G ev) →
      ∀ e ∈ run_entries std_sort cfg st msgs, P e.1 e.2 := by
  intro msgs
  induction msgs with
  | nil => intro t0 st _ _ _ _ e he; simp [run_entries] at he
  | cons msg msgs ih =>
    intro t0 st h0 hlo hsorted hG e he
    have h1 : P msg.1 (msg.2.foldl (dispatch msg.1) { st with out := [] }) :=
      foldl_dispatch_induct msg.1 (P msg.1) G (hdisp msg.1) msg.2 _
        (fun ev hev => hG ev (by simp [all_events, hev]))
        (hclear _ _ (hmono t0 msg.1 st (hlo msg (by simp)) h0))
    unfold run_entries at he
    rcases List.mem_append.1 he with he | he
    · obtain ⟨s, hs, rfl⟩ := List.mem_map.1 he
      exact loop_entries_induct std_sort cfg msg.1 (P msg.1) (hpass msg.1) _ _ h1 s hs
    · cases hr : batsim_edc_take_decisions std_sort cfg st msg with
      | error err => rw [hr] at he; simp at he
      | ok st1 =>
        rw [hr] at he
        have h2 : P msg.1 st1 :=
          easy_loop_induct std_sort cfg msg.1 (P msg.1)
            (fun a b pr ha _ hp => hpass msg.1 a b pr ha hp) _ _ st1 h1 hr
        simp only [List.map_cons, List.pairwise_cons] at hsorted
        exact ih msg.1 st1 h2
          (fun m hm => hsorted.1 m.1 (List.mem_map_of_mem _ hm)) hsorted.2
          (fun ev hev => hG ev (by
            simp only [all_events, List.map_cons, List.flatten_cons, List.mem_append] at hev ⊢
            exact Or.inr hev)) e he

omit [Sub T] [Neg T] [Div T] [Zero T] [NatCast T] in
theorem backfill_pending_sublist (now reserve_t : T) (bf : List (JobPtr T))
    (acc acc1 : State T × Bool) (h : backfill now reserve_t acc bf = .ok acc1) :
    acc1.1.pending.Sublist acc.1.pending := by
  obtain ⟨acc2, h2, h3⟩ := backfill_fold now reserve_t
    (fun a _ => a.1.pending.Sublist acc.1.pending)
    (fun a c bf h => h)
    (fun a c bf st1 h _ _ hst => by
      have hp := (start_job_fields now a.1 st1 c hst).2.1
      exact (List.filter_sublist _).trans (hp ▸ h))
    bf acc (List.Sublist.refl _)
  rw [h] at h2
  cases h2
  exact h3

theorem easy_pass_pending_sublist
    (std_sort : (JobPtr T → JobPtr T → Bool) → List (JobPtr T) → List (JobPtr T))
    (cfg : Config T) (now : T) (st st1 : State T) (pr : Bool)
    (h : easy_pass std_sort cfg now st = .ok (st1, pr)) :
    st1.pending.Sublist (stable_sort (primary_lt cfg now) st.pending) := by
  rcases easy_pass_cases std_sort cfg now st with ⟨hs, h1⟩ | ⟨head, rest, hs, hq, s1, hs1, h1⟩ |
    ⟨head, rest, hs, -, h1⟩
  · rw [h1] at h
    cases h
    have := (stable_sort_perm (primary_lt cfg now) st.pending).length_eq
    rw [hs] at this
    rw [List.eq_nil_of_length_eq_zero this.symm]
    exact List.nil_sublist _
  · rw [h1] at h
    cases h
    rw [hs]
    exact List.sublist_cons_self head rest
  · rw [h1] at h
    have := backfill_pending_sublist now _ _ _ _ h
    rw [(touch_allocations_fields _ _).1] at this
    rw [hs]
    exact this

end Entries

/-! ## Arrival order under FCFS -/

theorem stable_sort_of_sorted {α : Type} (lt : α → α → Bool) :
    ∀ l : List α, l.Pairwise (fun x y => lt y x = false) → stable_sort lt l = l := by
  intro l
  induction l with
  | nil => intro _; rfl
  | cons a l ih =>
    intro h
    rw [List.pairwise_cons] at h
    rw [stable_sort, ih h.2]
    cases l with
    | nil => rfl
    | cons b l =>
      have hb : lt b a = false := h.1 b (by simp)
      simp [ordered_insert, hb]

section Fcfs
variable {T : Type} [LinearOrder T] [Add T] [Sub T] [Neg T] [Div T] [Zero T] [NatCast T]

theorem primary_lt_fcfs (cfg : Config T) (hp : cfg.primary_policy = .FCFS)
    (hthr : cfg.THRESHOLD_SEC < 0) (now : T) (a b : JobPtr T) :
    primary_lt cfg now a b = decide (a.submit_time < b.submit_time) := by
  have hno : ∀ j, is_old cfg now j = false := by
    intro j
    simp [is_old, not_le.2 hthr]
  simp [primary_lt, hno, hp, key_for]

theorem easy_pass_starts
    (std_sort : (JobPtr T → JobPtr T → Bool) → List (JobPtr T) → List (JobPtr T))
    (hperm : ∀ lt l, (std_sort lt l).Perm l)
    (cfg : Config T) (now : T) (st : State T) (hB : BaseInv st) :
    ∃ st1 pr E, easy_pass std_sort cfg now st = .ok (st1, pr) ∧
      st1.out = st.out ++ E.map execute_of ∧
      ((stable_sort (primary_lt cfg now) st.pending = [] ∧ E = []) ∨
       (∃ head rest, stable_sort (primary_lt cfg now) st.pending = head :: rest ∧
          head.nb_hosts ≤ st.available_hosts.length ∧ E.map Prod.fst = [head]) ∨
       (∃ head rest, stable_sort (primary_lt cfg now) st.pending = head :: rest ∧
          st.available_hosts.length < head.nb_hosts ∧
          (E.map Prod.fst).Sublist (std_sort (backfill_lt cfg now) rest))) := by
  have hsp := stable_sort_perm (primary_lt cfg now) st.pending
  rcases easy_pass_cases std_sort cfg now st with ⟨hs, h1⟩ | ⟨head, rest, hs, hq, s1, hs1, h1⟩ |
    ⟨head, rest, hs, hq, h1⟩
  · exact ⟨st, false, [], h1, by simp, Or.inl ⟨hs, rfl⟩⟩
  · obtain ⟨-, s1', -⟩ :=
      start_job_spec now { st with pending := head :: rest } s1 head hB.1 hs1
    exact ⟨_, true, [(head, st.available_hosts.take head.nb_hosts)], h1, by simpa using s1',
      Or.inr (Or.inl ⟨head, rest, hs, hq, rfl⟩)⟩
  · rw [hs] at hsp
    have hnd : (head :: rest).Nodup :=
      List.Nodup.of_map _ (((hsp.map (fun j => j.addr)).nodup_iff).2 hB.2.1)
    obtain ⟨acc1, E, hb, hE, -, hsub⟩ := backfill_spec now
      (compute_reservation { st with pending := head :: rest } now head.nb_hosts)
      (touch_allocations { st with pending := head :: rest } head.nb_hosts)
      (std_sort (backfill_lt cfg now) rest)
      (by rw [(touch_allocations_fields _ _).2.2.1]; exact hB.1)
      (fun c hc => by
        rw [(touch_allocations_fields _ _).1]
        exact List.mem_cons_of_mem _ ((hperm _ rest).mem_iff.1 hc))
      (fun _ => (hperm _ rest).nodup_iff.2 (List.nodup_cons.1 hnd).2)
    refine ⟨acc1.1, acc1.2, E, by rw [h1, hb], ?_, Or.inr (Or.inr ⟨head, rest, hs, hq, hsub⟩)⟩
    rw [hE.1, (touch_allocations_fields _ _).2.1]

omit [Add T] [Sub T] [Neg T] [Div T] [Zero T] [NatCast T] in
theorem arrivalOrder_mono (t t2 : T) (st : State T) (h : t ≤ t2) (hA : ArrivalOrder t st) :
    ArrivalOrder t2 st :=
  ⟨hA.1, hA.2.1, fun j hj => le_trans (hA.2.2 j hj) h⟩

omit [Add T] [Sub T] [Neg T] [Div T] [Zero T] [NatCast T] in
theorem arrivalOrder_dispatch (t : T) (st : State T) (ev : Event T) (hA : ArrivalOrder t st) :
    ArrivalOrder t (dispatch t st ev) := by
  obtain ⟨h1, h2, h3⟩ := hA
  refine ⟨baseInv_dispatch t st ev h1, ?_⟩
  cases ev with
  | hello => exact ⟨h2, h3⟩
  | simulationBegins n => exact ⟨h2, h3⟩
  | jobSubmitted jid nb wt =>
    simp only [dispatch]
    split_ifs
    · exact ⟨h2, h3⟩
    · constructor
      · rw [List.pairwise_append]
        refine ⟨h2, List.pairwise_singleton _ _, fun x hx y hy => ?_⟩
        rw [List.mem_singleton] at hy
        subst hy
        exact ⟨h1.2.2 x hx, h3 x hx⟩
      · intro j hj
        rcases List.mem_append.1 hj with hj | hj
        · exact h3 j hj
        · rw [List.mem_singleton] at hj
          subst hj
          exact le_refl _
  | jobCompleted jid =>
    simp only [dispatch]
    split <;> exact ⟨h2, h3⟩
  | other => exact ⟨h2, h3⟩

theorem arrivalOrder_sort (cfg : Config T) (hp : cfg.primary_policy = .FCFS)
    (hthr : cfg.THRESHOLD_SEC < 0) (t : T) (st : State T) (hA : ArrivalOrder t st) :
    stable_sort (primary_lt cfg t) st.pending = st.pending := by
  refine stable_sort_of_sorted _ _ (List.Pairwise.imp ?_ hA.2.1)
  intro x y hxy
  rw [primary_lt_fcfs cfg hp hthr]
  simpa using hxy.2

theorem arrivalOrder_pass
    (std_sort : (JobPtr T → JobPtr T → Bool) → List (JobPtr T) → List (JobPtr T))
    (hperm : ∀ lt l, (std_sort lt l).Perm l)
    (cfg : Config T) (hp : cfg.primary_policy = .FCFS) (hthr : cfg.THRESHOLD_SEC < 0)
    (t : T) (st st1 : State T) (pr : Bool) (hA : ArrivalOrder t st)
    (h : easy_pass std_sort cfg t st = .ok (st1, pr)) : ArrivalOrder t st1 := by
  obtain ⟨E, hE, hs⟩ := easy_pass_spec std_sort hperm cfg t st st1 pr hA.1.1 h
  have hsub := easy_pass_pending_sublist std_sort cfg t st st1 pr h
  rw [arrivalOrder_sort cfg hp hthr t st hA] at hsub
  exact ⟨baseInv_of_spec hA.1 hE hs, hA.2.1.sublist hsub, fun j hj => hA.2.2 j (hsub.subset hj)⟩

theorem loop_entries_pending
    (std_sort : (JobPtr T → JobPtr T → Bool) → List (JobPtr T) → List (JobPtr T))
    (cfg : Config T) (now : T) :
    ∀ (fuel : Nat) (st : State T), ∀ s ∈ loop_entries std_sort cfg now fuel st,
      s.pending ≠ [] := by
  intro fuel
  induction fuel with
  | zero => intro st s hs; simp [loop_entries] at hs
  | succ n ih =>
    intro st s hs
    unfold loop_entries at hs
    split_ifs at hs with he
    · simp at hs
    · simp only [List.mem_cons] at hs
      rcases hs with rfl | hs
      · exact fun e => he (by simp [e])
      · split at hs
        · simp at hs
        · split_ifs at hs
          · exact ih _ s hs
          · simp at hs

theorem run_entries_pending
    (std_sort : (JobPtr T → JobPtr T → Bool) → List (JobPtr T) → List (JobPtr T))
    (cfg : Config T) :
    ∀ (msgs : List (T × List (Event T))) (st : State T),
      ∀ e ∈ run_entries std_sort cfg st msgs, e.2.pending ≠ [] := by
  intro msgs
  induction msgs with
  | nil => intro st e he; simp [run_entries] at he
  | cons msg msgs ih =>
    intro st e he
    unfold run_entries at he
    rcases List.mem_append.1 he with he | he
    · obtain ⟨s, hs, rfl⟩ := List.mem_map.1 he
      exact loop_entries_pending std_sort cfg msg.1 _ _ s hs
    · split at he
      · simp at he
      · exact ih _ e he

end Fcfs

/-! ## Stability of the primary order -/

theorem ordered_insert_pairwise {α : Type} (lt : α → α → Bool) (R : α → α → Prop) (a : α) :
    ∀ l : List α, (∀ b ∈ l, lt b a = true → R b a) → (∀ b ∈ l, R a b) → l.Pairwise R →
      (ordered_insert lt a l).Pairwise R := by
  intro l
  induction l with
  | nil => intro _ _ _; simp [ordered_insert]
  | cons b l ih =>
    intro h1 h2 h3
    rw [List.pairwise_cons] at h3
    unfold ordered_insert
    split_ifs with hb
    · rw [List.pairwise_cons]
      refine ⟨fun c hc => ?_, ih (fun c hc => h1 c (by simp [hc])) (fun c hc => h2 c (by simp [hc]))
        h3.2⟩
      rcases (mem_ordered_insert lt a c l).1 hc with rfl | hc
      · exact h1 b (by simp) hb
      · exact h3.1 c hc
    · exact List.pairwise_cons.2 ⟨h2, List.pairwise_cons.2 h3⟩

theorem stable_sort_pairwise {α : Type} (lt : α → α → Bool) (R : α → α → Prop) :
    ∀ l : List α, l.Pairwise (fun a b => R a b ∧ (lt b a = true → R b a)) →
      (stable_sort lt l).Pairwise R := by
  intro l
  induction l with
  | nil => intro _; simp [stable_sort]
  | cons a l ih =>
    intro h
    rw [List.pairwise_cons] at h
    unfold stable_sort
    refine ordered_insert_pairwise lt R a _ (fun b hb hlt => ?_) (fun b hb => ?_) (ih h.2)
    · exact (h.1 b ((stable_sort_perm lt l).mem_iff.1 hb)).2 hlt
    · exact (h.1 b ((stable_sort_perm lt l).mem_iff.1 hb)).1

section Stable
variable {T : Type} [LinearOrder T] [Add T] [Sub T] [Neg T] [Div T] [Zero T] [NatCast T]

omit [LinearOrder T] [Zero T] in
/-- For every policy but EXP the key of a job does not depend on `now`. -/
theorem key_for_static (p : Policy) (hp : p ≠ .EXP) (x : JobPtr T) (t t2 : T) :
    key_for x t2 p = key_for x t p := by
  cases p with
  | EXP => exact absurd rfl hp
  | FCFS => rfl
  | LCFS => rfl
  | LPF => rfl
  | LQF => rfl
  | SPF => rfl
  | SQF => rfl

omit [Add T] [Neg T] [Div T] [NatCast T] in
/-- Where the subtraction is antitone in its second argument, a job submitted no later than
an old job is old. -/
theorem is_old_of_earlier (hsub : ∀ a b c : T, b ≤ c → a - c ≤ a - b) (cfg : Config T) (t : T)
    (x y : JobPtr T) (hs : y.submit_time ≤ x.submit_time) (h : is_old cfg t x = true) :
    is_old cfg t y = true := by
  rw [is_old_iff] at h ⊢
  exact ⟨h.1, lt_of_lt_of_le h.2 (hsub t _ _ hs)⟩

theorem submissionOrder_mono (cfg : Config T) (t t2 : T) (st : State T) (h : t ≤ t2)
    (hS : SubmissionOrder cfg t st) : SubmissionOrder cfg t2 st := by
  obtain ⟨h1, h2, h3⟩ := hS
  refine ⟨h1, fun j hj => ⟨le_trans (h2 j hj).1 h, (h2 j hj).2⟩, List.Pairwise.imp ?_ h3⟩
  intro x y hxy
  exact ⟨hxy.1, fun hlt => ⟨(hxy.2 hlt).1, fun t3 ht3 => (hxy.2 hlt).2 t3 (le_trans h ht3)⟩⟩

theorem submissionOrder_dispatch (cfg : Config T) (t : T) (st : State T) (ev : Event T)
    (hev : walltime_positive ev) (hS : SubmissionOrder cfg t st) :
    SubmissionOrder cfg t (dispatch t st ev) := by
  obtain ⟨h1, h2, h3⟩ := hS
  refine ⟨baseInv_dispatch t st ev h1, ?_⟩
  cases ev with
  | hello => exact ⟨h2, h3⟩
  | simulationBegins n => exact ⟨h2, h3⟩
  | jobSubmitted jid nb wt =>
    simp only [dispatch]
    split_ifs
    · exact ⟨h2, h3⟩
    · constructor
      · intro j hj
        rcases List.mem_append.1 hj with hj | hj
        · exact h2 j hj
        · rw [List.mem_singleton] at hj
          subst hj
          exact ⟨le_refl _, hev⟩
      · rw [List.pairwise_append]
        refine ⟨h3, List.pairwise_singleton _ _, fun x hx y hy => ?_⟩
        rw [List.mem_singleton] at hy
        subst hy
        exact ⟨fun _ => (h2 x hx).1, fun hlt => absurd (h1.2.2 x hx) (not_lt.2 hlt.le)⟩
  | jobCompleted jid =>
    simp only [dispatch]
    split <;> exact ⟨h2, h3⟩
  | other => exact ⟨h2, h3⟩

theorem submissionOrder_sort (cfg : Config T)
    (hsub : ∀ a b c : T, b ≤ c → a - c ≤ a - b)
    (hpers : ∀ (x y : JobPtr T) (t t2 : T), y.submit_time ≤ x.submit_time →
      x.submit_time ≤ t → 0 < x.walltime → 0 < y.walltime → t ≤ t2 →
      key_for x t cfg.primary_policy < key_for y t cfg.primary_policy →
      key_for x t2 cfg.primary_policy < key_for y t2 cfg.primary_policy)
    (t : T) (st : State T) (hS : SubmissionOrder cfg t st) :
    (stable_sort (primary_lt cfg t) st.pending).Pairwise (fun x y =>
      (x.addr < y.addr → x.submit_time ≤ y.submit_time) ∧
      (y.addr < x.addr → y.submit_time ≤ x.submit_time ∧
        ∀ t2, t ≤ t2 → key_for x t2 cfg.primary_policy < key_for y t2 cfg.primary_policy)) := by
  obtain ⟨-, h2, h3⟩ := hS
  refine stable_sort_pairwise _ _ _ ?_
  refine List.Pairwise.imp_of_mem ?_ h3
  intro a b hma hmb hab
  have hmem : a ∈ st.pending ∧ b ∈ st.pending := ⟨hma, hmb⟩
  refine ⟨hab, fun hlt => ⟨fun hba => (hab.2 hba).1, fun hab2 => ⟨hab.1 hab2, ?_⟩⟩⟩
  have hsa := hab.1 hab2
  have hkey : key_for b t cfg.primary_policy < key_for a t cfg.primary_policy := by
    unfold primary_lt at hlt
    by_cases hg : is_old cfg t b = is_old cfg t a
    · simpa [hg] using hlt
    · have hb : is_old cfg t b = true := by simpa [hg] using hlt
      exact absurd (hb.trans (is_old_of_earlier hsub cfg t b a hsa hb).symm) hg
  intro t2 ht2
  exact hpers b a t t2 hsa (h2 b hmem.2).1 (h2 b hmem.2).2 (h2 a hmem.1).2 ht2 hkey

theorem submissionOrder_pass
    (std_sort : (JobPtr T → JobPtr T → Bool) → List (JobPtr T) → List (JobPtr T))
    (hperm : ∀ lt l, (std_sort lt l).Perm l)
    (cfg : Config T)
    (hsub : ∀ a b c : T, b ≤ c → a - c ≤ a - b)
    (hpers : ∀ (x y : JobPtr T) (t t2 : T), y.submit_time ≤ x.submit_time →
      x.submit_time ≤ t → 0 < x.walltime → 0 < y.walltime → t ≤ t2 →
      key_for x t cfg.primary_policy < key_for y t cfg.primary_policy →
      key_for x t2 cfg.primary_policy < key_for y t2 cfg.primary_policy)
    (t : T) (st st1 : State T) (pr : Bool) (hS : SubmissionOrder cfg t st)
    (h : easy_pass std_sort cfg t st = .ok (st1, pr)) : SubmissionOrder cfg t st1 := by
  obtain ⟨E, hE, hs⟩ := easy_pass_spec std_sort hperm cfg t st st1 pr hS.1.1 h
  have hsl := easy_pass_pending_sublist std_sort cfg t st st1 pr h
  refine ⟨baseInv_of_spec hS.1 hE hs, fun j hj => ?_,
    (submissionOrder_sort cfg hsub hpers t st hS).sublist hsl⟩
  exact hS.2.1 j ((stable_sort_perm _ _).mem_iff.1 (hsl.subset hj))

/-- Stability of the primary order from two facts about the arithmetic of times: the
subtraction is antitone in its second argument, and a strict order between the keys of two
queued jobs, the later-submitted one in front, persists as `now` grows.  Along every
simulation from the load-time state whose wakeup times do not decrease and whose submitted
walltimes are positive, at every iteration of the EASY loop two jobs of the same group with
equal primary key stand, in the sorted queue, in the order of their creation. -/
theorem primary_order_stable_of
    (std_sort : (JobPtr T → JobPtr T → Bool) → List (JobPtr T) → List (JobPtr T))
    (hperm : ∀ lt l, (std_sort lt l).Perm l)
    (cfg : Config T)
    (hsub : ∀ a b c : T, b ≤ c → a - c ≤ a - b)
    (hpers : ∀ (x y : JobPtr T) (t t2 : T), y.submit_time ≤ x.submit_time →
      x.submit_time ≤ t → 0 < x.walltime → 0 < y.walltime → t ≤ t2 →
      key_for x t cfg.primary_policy < key_for y t cfg.primary_policy →
      key_for x t2 cfg.primary_policy < key_for y t2 cfg.primary_policy)
    (msgs : List (T × List (Event T)))
    (hnow : (msgs.map Prod.fst).Pairwise (· ≤ ·))
    (hwt : ∀ ev ∈ all_events msgs, walltime_positive ev) :
    ∀ e ∈ run_entries std_sort cfg (State.init T) msgs,
      (stable_sort (primary_lt cfg e.1) e.2.pending).Pairwise (fun a b =>
        is_old cfg e.1 a = is_old cfg e.1 b →
        key_for a e.1 cfg.primary_policy = key_for b e.1 cfg.primary_policy →
        a.addr < b.addr) ∧
      (∀ j ∈ e.2.pending, j.addr < e.2.heap) := by
  intro e he
  have hinit : ∀ t : T, SubmissionOrder cfg t (State.init T) := fun t =>
    ⟨⟨by simp [State.init], by simp [State.init], by simp [State.init]⟩,
      by simp [State.init], by simp [State.init]⟩
  have hS : SubmissionOrder cfg e.1 e.2 := by
    cases msgs with
    | nil => simp [run_entries] at he
    | cons msg msgs =>
      have hnow2 := hnow
      simp only [List.map_cons, List.pairwise_cons] at hnow2
      exact run_entries_induct std_sort cfg (SubmissionOrder cfg) walltime_positive
        (submissionOrder_mono cfg) (fun t st h => h)
        (fun t st ev hev h => submissionOrder_dispatch cfg t st ev hev h)
        (fun t st st1 pr h hpass =>
          submissionOrder_pass std_sort hperm cfg hsub hpers t st st1 pr h hpass)
        (msg :: msgs) msg.1 (State.init T) (hinit _)
        (fun m hm => by
          rcases List.mem_cons.1 hm with rfl | hm
          · exact le_refl _
          · exact hnow2.1 m.1 (List.mem_map_of_mem _ hm))
        hnow hwt e he
  refine ⟨?_, fun j hj => hS.1.2.2 j hj⟩
  have hsp := stable_sort_perm (primary_lt cfg e.1) e.2.pending
  have hnd : (stable_sort (primary_lt cfg e.1) e.2.pending).Pairwise
      (fun a b => a.addr ≠ b.addr) :=
    have hn : ((stable_sort (primary_lt cfg e.1) e.2.pending).map (fun j => j.addr)).Nodup :=
      ((hsp.map (fun j => j.addr)).nodup_iff).2 hS.1.2.1
    List.pairwise_map.1 hn
  refine List.Pairwise.imp₂ ?_ (submissionOrder_sort cfg hsub hpers e.1 e.2 hS) hnd
  intro a b hab hne _ hkey
  rcases lt_trichotomy a.addr b.addr with h | h | h
  · exact h
  · exact absurd h hne
  · exact absurd hkey (ne_of_lt ((hab.2 h).2 e.1 (le_refl _)))

end Stable

section StableExact
variable {T : Type} [LinearOrderedField T]

/-- In exact arithmetic, with positive walltimes, a strict order between the keys of two
jobs persists as `now` grows, for every policy; under EXP the gap can only widen. -/
theorem key_for_persist (p : Policy) (x y : JobPtr T) (t t2 : T)
    (hs : y.submit_time ≤ x.submit_time) (hx : x.submit_time ≤ t)
    (hwx : 0 < x.walltime) (hwy : 0 < y.walltime) (ht : t ≤ t2)
    (h : key_for x t p < key_for y t p) : key_for x t2 p < key_for y t2 p := by
  cases p with
  | EXP =>
    simp only [key_for, neg_lt_neg_iff] at h ⊢
    rw [div_lt_div_iff₀ hwy hwx] at h ⊢
    have hA : 0 ≤ t - x.submit_time := sub_nonneg.2 hx
    have hw : x.walltime < y.walltime := by
      by_contra hc
      push_neg at hc
      nlinarith [mul_le_mul_of_nonneg_left hc hA, mul_le_mul_of_nonneg_right hs hwx.le]
    nlinarith [mul_le_mul_of_nonneg_left hw.le (sub_nonneg.2 ht)]
  | FCFS => exact h
  | LCFS => exact h
  | LPF => exact h
  | LQF => exact h
  | SPF => exact h
  | SQF => exact h

/-- Stability of the primary order in exact arithmetic (times in a linearly ordered field,
no rounding), for all seven policies.  The arithmetic of `double` rounds, and under EXP the
statement does not carry over to it. -/
theorem primary_order_stable_exact
    (std_sort : (JobPtr T → JobPtr T → Bool) → List (JobPtr T) → List (JobPtr T))
    (hperm : ∀ lt l, (std_sort lt l).Perm l)
    (cfg : Config T) (msgs : List (T × List (Event T)))
    (hnow : (msgs.map Prod.fst).Pairwise (· ≤ ·))
    (hwt : ∀ ev ∈ all_events msgs, walltime_positive ev) :
    ∀ e ∈ run_entries std_sort cfg (State.init T) msgs,
      (stable_sort (primary_lt cfg e.1) e.2.pending).Pairwise (fun a b =>
        is_old cfg e.1 a = is_old cfg e.1 b →
        key_for a e.1 cfg.primary_policy = key_for b e.1 cfg.primary_policy →
        a.addr < b.addr) ∧
      (∀ j ∈ e.2.pending, j.addr < e.2.heap) :=
  primary_order_stable_of std_sort hperm cfg (fun a _ _ h => sub_le_sub_left h a)
    (fun x y t t2 hs hx hwx hwy ht h =>
      key_for_persist cfg.primary_policy x y t t2 hs hx hwx hwy ht h)
    msgs hnow hwt

end StableExact

/-- Under EXP in exact arithmetic the jobs `A`, `B`, `C` tie at time 5 and stand in
submission order; at time 7 the shorter `C` has moved to the front and `A`, `B`, still tied,
keep their order. -/
theorem primary_order_stable_exact_example :
    (∀ e ∈ run_entries stable_sort cfg_exp (State.init Rat) msgs_exp,
      (stable_sort (primary_lt cfg_exp e.1) e.2.pending).Pairwise (fun a b =>
        is_old cfg_exp e.1 a = is_old cfg_exp e.1 b →
        key_for a e.1 cfg_exp.primary_policy = key_for b e.1 cfg_exp.primary_policy →
        a.addr < b.addr) ∧
      (∀ j ∈ e.2.pending, j.addr < e.2.heap)) ∧
    (run_entries stable_sort cfg_exp (State.init Rat) msgs_exp).map
        (fun e => (e.1, (stable_sort (primary_lt cfg_exp e.1) e.2.pending).map
          (fun j => j.job_id))) =
      [(0, ["R"]), (5, ["A", "B", "C"]), (7, ["C", "A", "B"])] :=
  ⟨primary_order_stable_exact stable_sort (fun lt l => stable_sort_perm lt l) cfg_exp msgs_exp
      (by norm_num [msgs_exp]) (by simp [all_events, msgs_exp, walltime_positive]),
   by decide!⟩

/-! ## The scan of the reservation reaches its goal -/

section Reach
variable {T : Type}

theorem sum_lengths_eq_sum_sizes (m : List (String × List Nat)) (hn : (map_keys m).Nodup) :
    (m.map (fun kv => kv.2.length)).sum =
      ((map_keys m).map (fun k => ((map_get? m k).getD []).length)).sum := by
  unfold map_keys
  rw [List.map_map]
  congr 1
  refine List.map_congr_left (fun kv hkv => ?_)
  obtain ⟨a, b⟩ := kv
  simp only [Function.comp]
  rw [map_get?_of_mem hn hkv]
  rfl

theorem sum_map_le_of_subset (f : String → Nat) {l l2 : List String} (hn : l.Nodup)
    (hs : l ⊆ l2) : (l.map f).sum ≤ (l2.map f).sum := by
  obtain ⟨l3, hp, hsub⟩ := List.subperm_of_subset hn hs
  rw [← (hp.map f).sum_eq]
  exact (hsub.map f).sum_le_sum (fun _ _ => Nat.zero_le _)

theorem running_hosts_ge (st : State T) (hka : (map_keys st.allocations).Nodup)
    (hrun : ∀ k ∈ map_keys st.allocations, k ∈ map_keys st.end_times) :
    (st.allocations.map (fun kv => kv.2.length)).sum ≤ running_hosts st := by
  rw [sum_lengths_eq_sum_sizes _ hka]
  have := sum_map_le_of_subset (fun k => ((map_get? st.allocations k).getD []).length) hka hrun
  unfold running_hosts alloc_size
  unfold map_keys at this ⊢
  simpa only [List.map_map] using this


theorem partition_count {H : Nat} {st : State T} (hp : Partition H st)
    (hka : (map_keys st.allocations).Nodup) (hke : (map_keys st.end_times).Nodup)
    (hrun : ∀ k ∈ map_keys st.allocations, k ∈ map_keys st.end_times) :
    st.available_hosts.length + running_hosts st = H := by
  have hlen := ((partition_iff_perm H st).1 hp).length_eq
  rw [length_hosts_of, List.length_range] at hlen
  have h1 := running_hosts_le st hke
  have h2 := running_hosts_ge st hka hrun
  omega

end Reach

/-! ## The state at the exit of the loop -/

section Quiet
variable {T : Type} [LinearOrder T] [Add T] [Sub T] [Neg T] [Div T] [Zero T] [NatCast T]

theorem easy_loop_last
    (std_sort : (JobPtr T → JobPtr T → Bool) → List (JobPtr T) → List (JobPtr T))
    (cfg : Config T) (now : T) :
    ∀ (fuel : Nat) (st st1 : State T), easy_loop std_sort cfg now fuel st = .ok st1 →
      st1.pending = [] ∨
      ∃ st0, st0.pending ≠ [] ∧ easy_pass std_sort cfg now st0 = .ok (st1, false) := by
  intro fuel
  induction fuel with
  | zero =>
    intro st st1 h
    unfold easy_loop at h
    split_ifs at h with he
    cases h
    exact Or.inl (by simpa using he)
  | succ n ih =>
    intro st st1 h
    unfold easy_loop at h
    split_ifs at h with he
    · cases h
      exact Or.inl (by simpa using he)
    · obtain ⟨⟨s1, pr⟩, hp⟩ := easy_pass_ok std_sort cfg now st
      rw [hp] at h
      cases pr with
      | false =>
        simp only [Bool.false_eq_true, if_false, Except.ok.injEq] at h
        subst h
        exact Or.inr ⟨st, fun e => he (by simp [e]), hp⟩
      | true =>
        simp only [if_true] at h
        exact ih s1 st1 h

omit [Sub T] [Neg T] [Div T] [Zero T] [NatCast T] in
theorem backfill_flag_true (now reserve_t : T) (bf : List (JobPtr T)) :
    ∀ (s : State T) (acc1 : State T × Bool),
      backfill now reserve_t (s, true) bf = .ok acc1 → acc1.2 = true := by
  induction bf with
  | nil =>
    intro s acc1 h
    simp only [backfill, Except.ok.injEq] at h
    rw [← h]
  | cons c bf ih =>
    intro s acc1 h
    unfold backfill at h
    rcases backfill_step_cases now reserve_t (s, true) c with ⟨-, hs⟩ | ⟨-, -, st1, -, hs⟩
    · rw [hs] at h
      exact ih s acc1 h
    · rw [hs] at h
      exact ih _ acc1 h

omit [Sub T] [Neg T] [Div T] [Zero T] [NatCast T] in
theorem backfill_no_progress (now reserve_t : T) (bf : List (JobPtr T)) :
    ∀ (s s1 : State T), backfill now reserve_t (s, false) bf = .ok (s1, false) →
      s1 = s ∧
      ∀ c ∈ bf, ¬ (c.nb_hosts ≤ s.available_hosts.length ∧ now + c.walltime ≤ reserve_t) := by
  induction bf with
  | nil =>
    intro s s1 h
    simp only [backfill, Except.ok.injEq, Prod.mk.injEq, and_true] at h
    exact ⟨h.symm, by simp⟩
  | cons c bf ih =>
    intro s s1 h
    unfold backfill at h
    rcases backfill_step_cases now reserve_t (s, false) c with ⟨hno, hs⟩ | ⟨-, -, st1, -, hs⟩
    · rw [hs] at h
      obtain ⟨h1, h2⟩ := ih s s1 h
      refine ⟨h1, fun x hx => ?_⟩
      rcases List.mem_cons.1 hx with rfl | hx
      · exact hno
      · exact h2 x hx
    · rw [hs] at h
      have := backfill_flag_true now reserve_t bf _ _ h
      simp at this

omit [LinearOrder T] [Add T] [Sub T] [Neg T] [Div T] [Zero T] [NatCast T] in
theorem alloc_size_touch (st : State T) (need : Nat) (k : String) :
    alloc_size (touch_allocations st need) k = alloc_size st k := by
  unfold touch_allocations
  split_ifs
  · rfl
  · unfold alloc_size
    have key : ∀ (l : List (String × T)) (m : List (String × List Nat)),
        ((map_get? (List.foldl (fun m kv => match map_get? m kv.1 with
          | some _ => m
          | none => map_set m kv.1 []) m l) k).getD []).length =
        ((map_get? m k).getD []).length := by
      intro l
      induction l with
      | nil => intro m; rfl
      | cons kv l ih =>
        intro m
        rw [List.foldl_cons, ih]
        cases hg : map_get? m kv.1 with
        | some v => rfl
        | none =>
          by_cases hk : k = kv.1
          · subst hk
            simp only [map_get?_map_set_same, hg]
            rfl
          · rw [map_get?_map_set_other _ _ hk]
    exact key st.end_times st.allocations

omit [Add T] [Sub T] [Neg T] [Div T] [Zero T] [NatCast T] in
theorem compute_reservation_touch (st : State T) (need : Nat) (now : T) (need2 : Nat) :
    compute_reservation (touch_allocations st need) now need2 =
      compute_reservation st now need2 := by
  obtain ⟨-, -, t3, t4, -, -⟩ := touch_allocations_fields st need
  have hev : release_events (touch_allocations st need) = release_events st := by
    unfold release_events
    rw [t4]
    exact List.map_congr_left (fun kv _ => by rw [alloc_size_touch])
  unfold compute_reservation
  rw [t3, hev]

theorem stable_sort_idem (cfg : Config T) (now : T) (l : List (JobPtr T)) :
    stable_sort (primary_lt cfg now) (stable_sort (primary_lt cfg now) l) =
      stable_sort (primary_lt cfg now) l :=
  stable_sort_of_sorted _ _
    (stable_sort_sorted (primary_lt cfg now) (primary_lt_asymm cfg now)
      (primary_lt_trans cfg now) l)

end Quiet

/-! ## Length of the loop -/

section Termination
variable {T : Type} [LinearOrder T] [Add T] [Sub T] [Neg T] [Div T] [Zero T] [NatCast T]

theorem loop_entries_length
    (std_sort : (JobPtr T → JobPtr T → Bool) → List (JobPtr T) → List (JobPtr T))
    (hsub : ∀ lt l, ∀ x ∈ std_sort lt l, x ∈ l)
    (cfg : Config T) (now : T) :
    ∀ (fuel : Nat) (st : State T),
      (loop_entries std_sort cfg now fuel st).length ≤ st.pending.length := by
  intro fuel
  induction fuel with
  | zero => intro st; simp [loop_entries]
  | succ n ih =>
    intro st
    unfold loop_entries
    split_ifs with he
    · simp
    · have hpos : 0 < st.pending.length := by
        cases hp : st.pending with
        | nil => simp [hp] at he
        | cons a l => simp
      obtain ⟨⟨s1, pr⟩, hp⟩ := easy_pass_ok std_sort cfg now st
      rw [hp]
      cases pr with
      | false =>
        simp only [Bool.false_eq_true, if_false, List.length_cons, List.length_nil]
        omega
      | true =>
        have h1 := easy_pass_progress std_sort hsub cfg now st s1 hp
        have h2 := ih s1
        simp only [if_true, List.length_cons]
        omega

end Termination

/-! ## The comparator inside one group -/

theorem ordered_insert_congr {α : Type} (lt lt2 : α → α → Bool) (a : α) :
    ∀ l : List α, (∀ b ∈ l, lt b a = lt2 b a) →
      ordered_insert lt a l = ordered_insert lt2 a l := by
  intro l
  induction l with
  | nil => intro _; rfl
  | cons b l ih =>
    intro h
    unfold ordered_insert
    rw [h b (by simp), ih (fun c hc => h c (by simp [hc]))]

theorem stable_sort_congr {α : Type} (lt lt2 : α → α → Bool) :
    ∀ l : List α, (∀ a ∈ l, ∀ b ∈ l, lt a b = lt2 a b) →
      stable_sort lt l = stable_sort lt2 l := by
  intro l
  induction l with
  | nil => intro _; rfl
  | cons a l ih =>
    intro h
    unfold stable_sort
    rw [ih (fun x hx y hy => h x (by simp [hx]) y (by simp [hy]))]
    exact ordered_insert_congr lt lt2 a _ (fun b hb =>
      h b (List.mem_cons_of_mem _ ((stable_sort_perm lt2 l).mem_iff.1 hb)) a (by simp))

section Boundary
variable {T : Type} [LinearOrder T] [Add T] [Sub T] [Neg T] [Div T] [Zero T] [NatCast T]

/-- When all jobs of a list fall in one group the unified comparator is the comparison of
the primary keys, whatever the threshold. -/
theorem primary_lt_one_group (cfg : Config T) (now : T) (b : Bool) (x y : JobPtr T)
    (hx : is_old cfg now x = b) (hy : is_old cfg now y = b) :
    primary_lt cfg now x y =
      decide (key_for x now cfg.primary_policy < key_for y now cfg.primary_policy) := by
  simp [primary_lt, hx, hy]

omit [Add T] [Neg T] [Div T] [NatCast T] in
theorem is_old_disabled (cfg : Config T) (h : cfg.THRESHOLD_SEC < 0) (now : T) (j : JobPtr T) :
    is_old cfg now j = false := by
  simp [is_old, not_le.2 h]

end Boundary

/-! ## Projected end times within one wakeup -/

theorem mem_map_set {V : Type} (m : List (String × V)) (k : String) (v : V) (kv : String × V)
    (h : kv ∈ map_set m k v) : kv = (k, v) ∨ kv ∈ m := by
  induction m with
  | nil =>
    simp only [map_set, List.mem_singleton] at h
    exact Or.inl h
  | cons a m ih =>
    obtain ⟨a1, a2⟩ := a
    unfold map_set at h
    split_ifs at h with hk
    · rcases List.mem_cons.1 h with e | hm
      · left
        rw [e]
        simp only at hk
        rw [hk]
      · exact Or.inr (List.mem_cons_of_mem _ hm)
    · rcases List.mem_cons.1 h with e | hm
      · exact Or.inr (by rw [e]; simp)
      · exact (ih hm).imp (fun e => e) (fun hm2 => List.mem_cons_of_mem _ hm2)

section Ends
variable {T : Type} [LinearOrderedRing T] [Div T]

omit [Div T] in
theorem endsAfter_dispatch (now : T) (st : State T) (ev : Event T) (hev : walltime_nonneg ev)
    (h : EndsAfter now st) : EndsAfter now (dispatch now st ev) := by
  obtain ⟨h1, h2⟩ := h
  cases ev with
  | hello => exact ⟨h1, h2⟩
  | simulationBegins n => exact ⟨h1, h2⟩
  | jobSubmitted jid nb wt =>
    simp only [dispatch]
    split_ifs
    · exact ⟨h1, h2⟩
    · refine ⟨h1, fun j hj => ?_⟩
      rcases List.mem_append.1 hj with hj | hj
      · exact h2 j hj
      · rw [List.mem_singleton] at hj
        subst hj
        exact hev
  | jobCompleted jid =>
    simp only [dispatch]
    split
    · exact ⟨fun kv hkv => h1 kv (List.mem_of_mem_filter hkv), h2⟩
    · exact ⟨h1, h2⟩
  | other => exact ⟨h1, h2⟩

omit [Div T] in
theorem endsAfter_start (now : T) (st st1 : State T) (j : JobPtr T) (hj : 0 ≤ j.walltime)
    (h : EndsAfter now st) (hs : start_job now st j = .ok st1) :
    EndsAfter now st1 := by
  rw [start_job_unfold] at hs
  split_ifs at hs
  cases hs
  refine ⟨fun kv hkv => ?_, h.2⟩
  rcases mem_map_set _ _ _ kv hkv with e | hm
  · rw [e]
    exact le_add_of_nonneg_right hj
  · exact h.1 kv hm

theorem endsAfter_pass
    (std_sort : (JobPtr T → JobPtr T → Bool) → List (JobPtr T) → List (JobPtr T))
    (hperm : ∀ lt l, (std_sort lt l).Perm l)
    (cfg : Config T) (now : T) (st st1 : State T) (pr : Bool) (h : EndsAfter now st)
    (hp : easy_pass std_sort cfg now st = .ok (st1, pr)) : EndsAfter now st1 := by
  have hsp := stable_sort_perm (primary_lt cfg now) st.pending
  rcases easy_pass_cases std_sort cfg now st with ⟨-, h1⟩ | ⟨head, rest, hs, -, s1, hs1, h1⟩ |
    ⟨head, rest, hs, -, h1⟩
  · rw [h1] at hp
    cases hp
    exact h
  · rw [h1] at hp
    cases hp
    rw [hs] at hsp
    have hmem : ∀ j ∈ head :: rest, 0 ≤ j.walltime := fun j hj => h.2 j (hsp.mem_iff.1 hj)
    have := endsAfter_start now { st with pending := head :: rest } s1 head (hmem head (by simp))
      ⟨h.1, hmem⟩ hs1
    exact ⟨this.1, fun j hj => hmem j (List.mem_cons_of_mem _ hj)⟩
  · rw [h1] at hp
    rw [hs] at hsp
    have hmem : ∀ j ∈ head :: rest, 0 ≤ j.walltime := fun j hj => h.2 j (hsp.mem_iff.1 hj)
    obtain ⟨t1, -, -, t4, -, -⟩ :=
      touch_allocations_fields { st with pending := head :: rest } head.nb_hosts
    obtain ⟨acc1, hb, hP⟩ := backfill_fold now
      (compute_reservation { st with pending := head :: rest } now head.nb_hosts)
      (fun acc rem => EndsAfter now acc.1 ∧ ∀ c ∈ rem, 0 ≤ c.walltime)
      (fun acc c bf hh => ⟨hh.1, fun x hx => hh.2 x (List.mem_cons_of_mem _ hx)⟩)
      (fun acc c bf s2 hh _ _ hst => by
        have h3 := endsAfter_start now acc.1 s2 c (hh.2 c (by simp)) hh.1 hst
        exact ⟨⟨h3.1, fun j hj => h3.2 j (List.mem_of_mem_filter hj)⟩,
          fun x hx => hh.2 x (List.mem_cons_of_mem _ hx)⟩)
      (std_sort (backfill_lt cfg now) rest)
      (touch_allocations { st with pending := head :: rest } head.nb_hosts, false)
      ⟨⟨by rw [t4]; exact h.1, by rw [t1]; exact hmem⟩,
        fun c hc => hmem c (List.mem_cons_of_mem _ ((hperm _ rest).mem_iff.1 hc))⟩
    rw [hb] at hp
    cases hp
    exact hP.1

omit [Div T] in
theorem compute_reservation_ge (st : State T) (now : T) (need : Nat)
    (h : ∀ kv ∈ st.end_times, now ≤ kv.2) : now ≤ compute_reservation st now need := by
  unfold compute_reservation
  split_ifs
  · exact le_refl _
  · cases hev : stable_sort pair_lt (release_events st) with
    | nil => simp [reservation_from, scan_events]
    | cons e es =>
      have hne : e :: es ≠ [] := by simp
      obtain ⟨ev, hmem, hr⟩ :=
        reservation_from_mem now need (st.available_hosts.length % U32) hne
      rw [← hr]
      rw [← hev, (stable_sort_perm pair_lt _).mem_iff] at hmem
      unfold release_events at hmem
      obtain ⟨kv, hkv, rfl⟩ := List.mem_map.1 hmem
      exact h kv hkv

end Ends

/-! ## The comparator of the candidate sort -/

section Order
variable {T : Type} [LinearOrder T] [Add T] [Sub T] [Neg T] [Div T] [Zero T] [NatCast T]

omit [Zero T] in
theorem backfill_lt_asymm (cfg : Config T) (now : T) (a b : JobPtr T)
    (h : backfill_lt cfg now a b = true) : backfill_lt cfg now b a = false := by
  unfold backfill_lt at h ⊢
  simp only [decide_eq_true_eq] at h
  simp only [decide_eq_false_iff_not, not_lt]
  exact le_of_lt h

omit [Zero T] in
theorem backfill_lt_trans (cfg : Config T) (now : T) (a b c : JobPtr T)
    (h1 : backfill_lt cfg now b a = false) (h2 : backfill_lt cfg now c b = false) :
    backfill_lt cfg now c a = false := by
  unfold backfill_lt at h1 h2 ⊢
  simp only [decide_eq_false_iff_not, not_lt] at h1 h2 ⊢
  exact le_trans h1 h2

end Order

/-! ## The plug-in `easy_spf_spf.cpp` and the configuration `spf` -/

theorem ordered_insert_map {α β : Type} (f : α → β) (lt : α → α → Bool) (lt2 : β → β → Bool)
    (h : ∀ a b, lt2 (f a) (f b) = lt a b) (a : α) :
    ∀ l : List α, ordered_insert lt2 (f a) (l.map f) = (ordered_insert lt a l).map f := by
  intro l
  induction l with
  | nil => rfl
  | cons b l ih =>
    simp only [List.map_cons, ordered_insert, h]
    split_ifs
    · rw [ih]; rfl
    · rfl

theorem stable_sort_map {α β : Type} (f : α → β) (lt : α → α → Bool) (lt2 : β → β → Bool)
    (h : ∀ a b, lt2 (f a) (f b) = lt a b) :
    ∀ l : List α, stable_sort lt2 (l.map f) = (stable_sort lt l).map f := by
  intro l
  induction l with
  | nil => rfl
  | cons a l ih =>
    simp only [List.map_cons, stable_sort]
    rw [ih, ordered_insert_map f lt lt2 h]

/-- Two arrangements of the same elements that are both ordered by an asymmetric relation
are the same list. -/
theorem eq_of_perm_of_pairwise {α : Type} (r : α → α → Prop) (hasym : ∀ a b, r a b → ¬ r b a) :
    ∀ l1 l2 : List α, l1.Perm l2 → l1.Pairwise r → l2.Pairwise r → l1 = l2 := by
  intro l1
  induction l1 with
  | nil => intro l2 hp _ _; exact (List.nil_perm.1 hp).symm
  | cons a l1 ih =>
    intro l2 hp h1 h2
    cases l2 with
    | nil => exact absurd hp.symm (by simp)
    | cons b l2 =>
      rw [List.pairwise_cons] at h1 h2
      have hab : a = b := by
        by_contra hne
        have ha : a ∈ l2 := by
          have : a ∈ b :: l2 := hp.mem_iff.1 (List.mem_cons_self a l1)
          rcases List.mem_cons.1 this with h | h
          · exact absurd h hne
          · exact h
        have hb : b ∈ l1 := by
          have : b ∈ a :: l1 := hp.mem_iff.2 (List.mem_cons_self b l2)
          rcases List.mem_cons.1 this with h | h
          · exact absurd h.symm hne
          · exact h
        exact hasym a b (h1.1 b hb) (h2.1 a ha)
      subst hab
      rw [ih l2 (List.perm_cons a |>.1 hp) h1.2 h2.2]

section Refinement

variable {T : Type} [LinearOrder T]

/-- The stable sort by walltime of a queue in which ties stand in the order of creation is
ordered by walltime, then by address. -/
theorem spf_sorted_tie_order (l : List (SpfSpf.JobPtr T))
    (h : l.Pairwise (fun x y => x.walltime < y.walltime ∨ x.addr < y.addr)) :
    (stable_sort SpfSpf.walltime_lt l).Pairwise
      (fun x y => x.walltime < y.walltime ∨ (x.walltime = y.walltime ∧ x.addr < y.addr)) := by
  have h1 : (stable_sort SpfSpf.walltime_lt l).Pairwise
      (fun x y => SpfSpf.walltime_lt y x = false) :=
    stable_sort_sorted SpfSpf.walltime_lt
      (fun a b hab => by
        unfold SpfSpf.walltime_lt at hab ⊢
        simp only [decide_eq_true_eq] at hab
        simp only [decide_eq_false_iff_not, not_lt]
        exact le_of_lt hab)
      (fun a b c hab hbc => by
        unfold SpfSpf.walltime_lt at hab hbc ⊢
        simp only [decide_eq_false_iff_not, not_lt] at hab hbc ⊢
        exact le_trans hab hbc) l
  have h2 : (stable_sort SpfSpf.walltime_lt l).Pairwise
      (fun x y => x.walltime < y.walltime ∨ x.addr < y.addr) := by
    refine stable_sort_pairwise SpfSpf.walltime_lt _ l (h.imp ?_)
    intro a b hab
    refine ⟨hab, fun hlt => ?_⟩
    unfold SpfSpf.walltime_lt at hlt
    simp only [decide_eq_true_eq] at hlt
    exact Or.inl hlt
  refine (h1.and h2).imp ?_
  intro a b hab
  obtain ⟨ha, hb⟩ := hab
  unfold SpfSpf.walltime_lt at ha
  simp only [decide_eq_false_iff_not, not_lt] at ha
  rcases lt_or_eq_of_le ha with h3 | h3
  · exact Or.inl h3
  · rcases hb with h4 | h4
    · exact Or.inl h4
    · exact Or.inr ⟨h3, h4⟩

/-- Queues that hold the same records, each with its ties in the order of creation, give
the same vector when sorted by walltime. -/
theorem spf_sorted_unique (l1 l2 : List (SpfSpf.JobPtr T)) (hp : l1.Perm l2)
    (h1 : l1.Pairwise (fun x y => x.walltime < y.walltime ∨ x.addr < y.addr))
    (h2 : l2.Pairwise (fun x y => x.walltime < y.walltime ∨ x.addr < y.addr)) :
    stable_sort SpfSpf.walltime_lt l1 = stable_sort SpfSpf.walltime_lt l2 := by
  refine eq_of_perm_of_pairwise _ ?_ _ _
    (((stable_sort_perm _ l1).trans hp).trans (stable_sort_perm _ l2).symm)
    (spf_sorted_tie_order l1 h1) (spf_sorted_tie_order l2 h2)
  intro a b hab hba
  rcases hab with h | ⟨h, h3⟩
  · rcases hba with h4 | ⟨h4, -⟩
    · exact lt_asymm h h4
    · exact absurd h4.symm (ne_of_lt h)
  · rcases hba with h4 | ⟨-, h5⟩
    · exact absurd h.symm (ne_of_lt h4)
    · omega

end Refinement

section Simulation

variable {T : Type} [LinearOrder T] [Add T] [Sub T] [Neg T] [Div T] [Zero T] [NatCast T]

theorem primary_lt_spf (cfg : Config T) (hp : cfg.primary_policy = .SPF)
    (ht : cfg.THRESHOLD_SEC < 0) (now : T) (a b : JobPtr T) :
    primary_lt cfg now a b = SpfSpf.walltime_lt (spf_record a) (spf_record b) := by
  simp [primary_lt, is_old_disabled cfg ht, hp, key_for, SpfSpf.walltime_lt, spf_record]

omit [Zero T] in
theorem backfill_lt_spf (cfg : Config T) (hb : cfg.backfill_policy = .SPF) (now : T)
    (a b : JobPtr T) :
    backfill_lt cfg now a b = SpfSpf.walltime_lt (spf_record a) (spf_record b) := by
  simp [backfill_lt, hb, key_for, SpfSpf.walltime_lt, spf_record]

/-- Under `spf` the primary sort of the unified queue and the stable sort of the dedicated
plug-in give the same vector. -/
theorem refines_sorted_eq (cfg : Config T) (hp : cfg.primary_policy = .SPF)
    (ht : cfg.THRESHOLD_SEC < 0) (now : T) {u : State T} {d : SpfSpf.State T}
    (h : Refines u d) :
    (stable_sort (primary_lt cfg now) u.pending).map spf_record =
      stable_sort SpfSpf.walltime_lt d.pending := by
  rw [← stable_sort_map spf_record (primary_lt cfg now) SpfSpf.walltime_lt
    (fun a b => (primary_lt_spf cfg hp ht now a b).symm)]
  exact spf_sorted_unique _ _ h.2.2.2.2.2.2.1 (List.pairwise_map.2 h.2.2.2.2.2.2.2.2.2.1)
    h.2.2.2.2.2.2.2.2.2.2

/-- Sorting the unified queue in place keeps the correspondence. -/
theorem refines_sort (cfg : Config T) (hp : cfg.primary_policy = .SPF)
    (ht : cfg.THRESHOLD_SEC < 0) (now : T) {u : State T} {d : SpfSpf.State T}
    (h : Refines u d) :
    Refines { u with pending := stable_sort (primary_lt cfg now) u.pending } d := by
  obtain ⟨h1, h2, h3, h4, h5, h6, h7, h8, h9, h10, h11⟩ := h
  have hperm := stable_sort_perm (primary_lt cfg now) u.pending
  refine ⟨h1, h2, h3, h4, h5, h6, (hperm.map spf_record).trans h7,
    ((hperm.map (fun j => j.addr)).nodup_iff).2 h8,
    fun j hj => h9 j (hperm.mem_iff.1 hj), ?_, h11⟩
  refine stable_sort_pairwise (primary_lt cfg now) _ u.pending (h10.imp ?_)
  intro a b hab
  refine ⟨hab, fun hlt => ?_⟩
  rw [primary_lt_spf cfg hp ht] at hlt
  unfold SpfSpf.walltime_lt at hlt
  simp only [decide_eq_true_eq] at hlt
  exact Or.inl hlt

omit [LinearOrder T] [Add T] [Sub T] [Neg T] [Div T] [Zero T] [NatCast T] in
theorem reject_execute_append (a b : List Decision) :
    reject_execute (a ++ b) = reject_execute a ++ reject_execute b := by
  simp [reject_execute]

omit [Add T] [Sub T] [Neg T] [Div T] [Zero T] [NatCast T] in
theorem refines_clear {u : State T} {d : SpfSpf.State T} (h : Refines u d) :
    Refines { u with out := [] } { d with out := [] } := by
  obtain ⟨h1, h2, h3, h4, h5, -, h7, h8, h9, h10, h11⟩ := h
  exact ⟨h1, h2, h3, h4, h5, rfl, h7, h8, h9, h10, h11⟩

omit [Add T] [Sub T] [Neg T] [Div T] [Zero T] [NatCast T] in
theorem refines_dispatch (now : T) (ev : Event T) {u : State T} {d : SpfSpf.State T}
    (h : Refines u d) : Refines (dispatch now u ev) (SpfSpf.dispatch d ev) := by
  obtain ⟨up, ua, ue, uav, upl, uout, uh⟩ := u
  obtain ⟨dp, da, de, dav, dpl, dout, dh⟩ := d
  unfold Refines at h
  dsimp only at h
  obtain ⟨rfl, rfl, rfl, rfl, rfl, h6, h7, h8, h9, h10, h11⟩ := h
  cases ev with
  | hello =>
    refine ⟨rfl, rfl, rfl, rfl, rfl, ?_, h7, h8, h9, h10, h11⟩
    simp only [dispatch, SpfSpf.dispatch, reject_execute_append, h6]
    rfl
  | simulationBegins n => exact ⟨rfl, rfl, rfl, rfl, rfl, h6, h7, h8, h9, h10, h11⟩
  | jobSubmitted jid nb wt =>
    by_cases hc : dpl < nb
    · have e1 : dispatch now ⟨up, da, de, dav, dpl, uout, dh⟩ (.jobSubmitted jid nb wt) =
          ⟨up, da, de, dav, dpl, uout ++ [.reject_job jid], dh + 1⟩ := by
        simp only [dispatch, if_pos hc]
      have e2 : SpfSpf.dispatch ⟨dp, da, de, dav, dpl, dout, dh⟩ (.jobSubmitted jid nb wt) =
          ⟨dp, da, de, dav, dpl, dout ++ [.reject_job jid], dh + 1⟩ := by
        simp only [SpfSpf.dispatch, if_pos hc]
      rw [e1, e2]
      refine ⟨rfl, rfl, rfl, rfl, rfl, ?_, h7, h8, fun j hj => Nat.lt_succ_of_lt (h9 j hj),
        h10, h11⟩
      simp only [reject_execute_append, h6]
    · have e1 : dispatch now ⟨up, da, de, dav, dpl, uout, dh⟩ (.jobSubmitted jid nb wt) =
          ⟨up ++ [{ job_id := jid, nb_hosts := nb, walltime := wt, submit_time := now,
                    addr := dh }], da, de, dav, dpl, uout, dh + 1⟩ := by
        simp only [dispatch, if_neg hc]
      have e2 : SpfSpf.dispatch ⟨dp, da, de, dav, dpl, dout, dh⟩ (.jobSubmitted jid nb wt) =
          ⟨dp ++ [{ job_id := jid, nb_hosts := nb, walltime := wt, addr := dh }],
            da, de, dav, dpl, dout, dh + 1⟩ := by
        simp only [SpfSpf.dispatch, if_neg hc]
      rw [e1, e2]
      have hd : ∀ a ∈ dp, a.addr < dh := by
        intro a ha
        obtain ⟨j, hj, rfl⟩ := List.mem_map.1 (h7.mem_iff.2 ha)
        exact h9 j hj
      refine ⟨rfl, rfl, rfl, rfl, rfl, h6, ?_, ?_, ?_, ?_, ?_⟩
      · show (List.map spf_record (up ++ [_])).Perm (dp ++ [_])
        rw [List.map_append]
        exact h7.append_right _
      · show (List.map (fun j => j.addr) (up ++ [_])).Nodup
        rw [List.map_append, List.nodup_append]
        refine ⟨h8, by simp, ?_⟩
        intro a ha hb
        simp only [List.map_cons, List.map_nil, List.mem_singleton] at hb
        obtain ⟨j, hj, rfl⟩ := List.mem_map.1 ha
        have := h9 j hj
        omega
      · intro j hj
        rcases List.mem_append.1 hj with hj | hj
        · exact Nat.lt_succ_of_lt (h9 j hj)
        · simp only [List.mem_singleton] at hj
          subst hj
          exact Nat.lt_succ_self _
      · show List.Pairwise _ (up ++ [_])
        rw [List.pairwise_append]
        refine ⟨h10, by simp, ?_⟩
        intro a ha b hb
        simp only [List.mem_singleton] at hb
        subst hb
        exact Or.inr (h9 a ha)
      · show List.Pairwise _ (dp ++ [_])
        rw [List.pairwise_append]
        refine ⟨h11, by simp, ?_⟩
        intro a ha b hb
        simp only [List.mem_singleton] at hb
        subst hb
        exact Or.inr (hd a ha)
  | jobCompleted jid =>
    simp only [dispatch, SpfSpf.dispatch]
    cases hg : map_get? da jid with
    | none => exact ⟨rfl, rfl, rfl, rfl, rfl, h6, h7, h8, h9, h10, h11⟩
    | some hs => exact ⟨rfl, rfl, rfl, rfl, rfl, h6, h7, h8, h9, h10, h11⟩
  | other => exact ⟨rfl, rfl, rfl, rfl, rfl, h6, h7, h8, h9, h10, h11⟩

omit [Add T] [Sub T] [Neg T] [Div T] [Zero T] [NatCast T] in
theorem refines_foldl_dispatch (now : T) (evs : List (Event T)) :
    ∀ {u : State T} {d : SpfSpf.State T}, Refines u d →
      Refines (evs.foldl (dispatch now) u) (evs.foldl SpfSpf.dispatch d) := by
  induction evs with
  | nil => intro u d h; exact h
  | cons ev evs ih => intro u d h; exact ih (refines_dispatch now ev h)

omit [Add T] [Sub T] [Neg T] [Div T] [Zero T] [NatCast T] in
theorem refines_touch (n : Nat) {u : State T} {d : SpfSpf.State T} (h : Refines u d) :
    Refines (touch_allocations u n) (SpfSpf.touch_allocations d n) := by
  obtain ⟨up, ua, ue, uav, upl, uout, uh⟩ := u
  obtain ⟨dp, da, de, dav, dpl, dout, dh⟩ := d
  unfold Refines at h
  dsimp only at h
  obtain ⟨rfl, rfl, rfl, rfl, rfl, h6, h7, h8, h9, h10, h11⟩ := h
  unfold touch_allocations SpfSpf.touch_allocations
  dsimp only
  split_ifs
  · exact ⟨rfl, rfl, rfl, rfl, rfl, h6, h7, h8, h9, h10, h11⟩
  · exact ⟨rfl, rfl, rfl, rfl, rfl, h6, h7, h8, h9, h10, h11⟩

omit [Add T] [Sub T] [Neg T] [Div T] [Zero T] [NatCast T] in
theorem refines_reservation (now : T) (n : Nat) {u : State T} {d : SpfSpf.State T}
    (h : Refines u d) :
    SpfSpf.compute_reservation d now n = compute_reservation u now n := by
  obtain ⟨h1, h2, h3, -⟩ := h
  simp only [SpfSpf.compute_reservation, compute_reservation, release_events, alloc_size,
    h1, h2, h3]

omit [Sub T] [Neg T] [Div T] [Zero T] [NatCast T] in
/-- Starting a job in both plug-ins keeps the correspondence once the unified plug-in has
taken the job off its queue as well. -/
theorem refines_start (now : T) (c : JobPtr T) {u : State T} {d : SpfSpf.State T}
    (h : Refines u d) (hq : c.nb_hosts ≤ u.available_hosts.length) :
    ∃ u1 d1, start_job now u c = .ok u1 ∧ SpfSpf.start_job now d (spf_record c) = .ok d1 ∧
      u1.pending = u.pending ∧
      Refines { u1 with pending := u1.pending.filter (fun j => decide (j.addr ≠ c.addr)) }
        d1 := by
  obtain ⟨up, ua, ue, uav, upl, uout, uh⟩ := u
  obtain ⟨dp, da, de, dav, dpl, dout, dh⟩ := d
  unfold Refines at h
  dsimp only at h hq
  obtain ⟨rfl, rfl, rfl, rfl, rfl, h6, h7, h8, h9, h10, h11⟩ := h
  rw [start_job_unfold]
  dsimp only
  rw [if_pos hq]
  have e2 : SpfSpf.start_job now ⟨dp, da, de, dav, dpl, dout, dh⟩ (spf_record c) =
      .ok ⟨dp.filter (fun x => decide (x.addr ≠ c.addr)),
        map_set da c.job_id (pick_hosts dav c.nb_hosts),
        map_set de c.job_id (now + c.walltime),
        (pick_hosts dav c.nb_hosts).foldl (fun s h => set_erase h s) dav,
        dpl, dout ++ [.execute_job c.job_id (host_string (pick_hosts dav c.nb_hosts))],
        dh⟩ := by
    have hq2 : (spf_record c).nb_hosts ≤ dav.length := hq
    simp only [SpfSpf.start_job, SpfSpf.allocate_hosts, if_pos hq2]
    rfl
  rw [e2]
  refine ⟨_, _, rfl, rfl, rfl, ?_⟩
  refine ⟨rfl, rfl, rfl, rfl, rfl, ?_, ?_, ?_, ?_, ?_, ?_⟩
  · simp only [reject_execute_append, h6]
  · show (List.map spf_record (up.filter _)).Perm _
    have : List.map spf_record (up.filter (fun j => decide (j.addr ≠ c.addr))) =
        (List.map spf_record up).filter (fun x => decide (x.addr ≠ c.addr)) := by
      rw [List.filter_map]
      rfl
    rw [this]
    exact h7.filter _
  · exact (List.filter_sublist up).map _ |>.nodup h8
  · exact fun j hj => h9 j (List.mem_of_mem_filter hj)
  · exact h10.sublist (List.filter_sublist up)
  · exact h11.sublist (List.filter_sublist dp)

omit [Sub T] [Neg T] [Div T] [Zero T] [NatCast T] in
/-- The candidate loops of the two plug-ins, run over the same candidates, none of them the
head, make the same starts. -/
theorem refines_backfill (now rt : T) (hd : SpfSpf.JobPtr T) :
    ∀ (cs : List (JobPtr T)) (au : State T) (ad : SpfSpf.State T) (fl : Bool),
      Refines au ad → (∀ c ∈ cs, c.addr ≠ hd.addr) →
      ∃ u1 d1 pr, backfill now rt (au, fl) cs = .ok (u1, pr) ∧
        SpfSpf.backfill now rt hd (ad, fl) (cs.map spf_record) = .ok (d1, pr) ∧
        Refines u1 d1 := by
  intro cs
  induction cs with
  | nil => intro au ad fl h _; exact ⟨au, ad, fl, rfl, rfl, h⟩
  | cons c cs ih =>
    intro au ad fl h hne
    have hc : (spf_record c).addr ≠ hd.addr := hne c (List.mem_cons_self c cs)
    have hav : ad.available_hosts = au.available_hosts := h.2.2.1
    rcases backfill_step_cases now rt (au, fl) c with ⟨hg, hstep⟩ | ⟨hg1, hg2, st1, hst, hstep⟩
    · obtain ⟨u1, d1, pr, e1, e2, hr⟩ := ih au ad fl h
        (fun x hx => hne x (List.mem_cons_of_mem c hx))
      refine ⟨u1, d1, pr, ?_, ?_, hr⟩
      · rw [backfill, hstep]
        exact e1
      · have hg2 : ¬ ((spf_record c).nb_hosts ≤ ad.available_hosts.length ∧
            now + (spf_record c).walltime ≤ rt) := by
          rw [hav]
          exact hg
        have : SpfSpf.backfill_step now rt hd (ad, fl) (spf_record c) = .ok (ad, fl) := by
          unfold SpfSpf.backfill_step
          rw [if_neg hc, if_neg hg2]
        rw [List.map_cons, SpfSpf.backfill, this]
        exact e2
    · obtain ⟨u1, d1, hs1, hs2, -, hr⟩ := refines_start now c h hg1
      have hu : u1 = st1 := by
        rw [hs1] at hst
        exact Except.ok.inj hst
      subst hu
      obtain ⟨u2, d2, pr, e1, e2, hr2⟩ := ih _ d1 true hr
        (fun x hx => hne x (List.mem_cons_of_mem c hx))
      refine ⟨u2, d2, pr, ?_, ?_, hr2⟩
      · rw [backfill, hstep]
        exact e1
      · have hg3 : (spf_record c).nb_hosts ≤ ad.available_hosts.length ∧
            now + (spf_record c).walltime ≤ rt := by
          rw [hav]
          exact ⟨hg1, hg2⟩
        have : SpfSpf.backfill_step now rt hd (ad, fl) (spf_record c) = .ok (d1, true) := by
          unfold SpfSpf.backfill_step
          rw [if_neg hc, if_pos hg3]
          dsimp only
          rw [hs2]
        rw [List.map_cons, SpfSpf.backfill, this]
        exact e2

/-- One iteration of the loop in both plug-ins: the same starts and the same flag, as long
as `std::sort` leaves a candidate vector that is already in order as it is. -/
theorem refines_pass
    (std_sort : (JobPtr T → JobPtr T → Bool) → List (JobPtr T) → List (JobPtr T))
    (hkeep : ∀ (lt : JobPtr T → JobPtr T → Bool) l,
      l.Pairwise (fun a b => lt b a = false) → std_sort lt l = l)
    (cfg : Config T) (hp : cfg.primary_policy = .SPF) (hb : cfg.backfill_policy = .SPF)
    (ht : cfg.THRESHOLD_SEC < 0) (now : T) {u : State T} {d : SpfSpf.State T}
    (h : Refines u d) :
    ∃ u1 d1 pr, easy_pass std_sort cfg now u = .ok (u1, pr) ∧
      SpfSpf.easy_pass now d = .ok (d1, pr) ∧ Refines u1 d1 := by
  have hs := refines_sorted_eq cfg hp ht now h
  have hsort := refines_sort cfg hp ht now h
  have hav : d.available_hosts = u.available_hosts := h.2.2.1
  rcases easy_pass_cases std_sort cfg now u with ⟨h0, h1⟩ |
    ⟨head, rest, h0, hfit, st1, hst, h1⟩ | ⟨head, rest, h0, hnofit, h1⟩
  · refine ⟨u, d, false, h1, ?_, h⟩
    rw [h0] at hs
    unfold SpfSpf.easy_pass
    rw [← hs]
    rfl
  · rw [h0] at hs hsort
    have hnd : ((head :: rest).map (fun j => j.addr)).Nodup := hsort.2.2.2.2.2.2.2.1
    obtain ⟨u1, d1, hs1, hs2, hpd, hr⟩ := refines_start now head hsort hfit
    have hu : u1 = st1 := by
      rw [hs1] at hst
      exact Except.ok.inj hst
    subst hu
    have hflt : u1.pending.filter (fun j => decide (j.addr ≠ head.addr)) = rest := by
      rw [hpd]
      show (head :: rest).filter _ = rest
      rw [List.filter_cons_of_neg (by simp)]
      rw [List.filter_eq_self]
      intro x hx
      simp only [List.map_cons, List.nodup_cons, List.mem_map, not_exists, not_and] at hnd
      simp only [decide_eq_true_eq]
      exact fun e => hnd.1 x hx e
    rw [hflt] at hr
    refine ⟨_, d1, true, h1, ?_, hr⟩
    have hfit2 : (spf_record head).nb_hosts ≤ d.available_hosts.length := by
      rw [hav]
      exact hfit
    unfold SpfSpf.easy_pass
    rw [← hs]
    simp only [List.map_cons]
    rw [if_pos hfit2, hs2]
  · rw [h0] at hs hsort
    have hnd : ((head :: rest).map (fun j => j.addr)).Nodup := hsort.2.2.2.2.2.2.2.1
    have hsorted : (head :: rest).Pairwise (fun a b => backfill_lt cfg now b a = false) := by
      have := stable_sort_sorted (primary_lt cfg now) (primary_lt_asymm cfg now)
        (primary_lt_trans cfg now) u.pending
      rw [h0] at this
      refine List.Pairwise.imp ?_ this
      intro a b hab
      rw [backfill_lt_spf cfg hb, ← primary_lt_spf cfg hp ht now]
      exact hab
    have hrest : std_sort (backfill_lt cfg now) rest = rest :=
      hkeep _ rest (List.pairwise_cons.1 hsorted).2
    have hne : ∀ c ∈ rest, c.addr ≠ (spf_record head).addr := by
      intro x hx e
      simp only [List.map_cons, List.nodup_cons, List.mem_map, not_exists, not_and] at hnd
      exact hnd.1 x hx e
    obtain ⟨u1, d1, pr, e1, e2, hr⟩ := refines_backfill now
      (compute_reservation { u with pending := head :: rest } now head.nb_hosts)
      (spf_record head) rest _ _ false (refines_touch head.nb_hosts hsort) hne
    refine ⟨u1, d1, pr, ?_, ?_, hr⟩
    · rw [h1, hrest]
      exact e1
    · have hnofit2 : ¬ (spf_record head).nb_hosts ≤ d.available_hosts.length := by
        rw [hav]
        exact not_le.2 hnofit
      unfold SpfSpf.easy_pass
      rw [← hs]
      simp only [List.map_cons]
      rw [if_neg hnofit2, refines_reservation now _ hsort]
      rw [SpfSpf.backfill]
      have : SpfSpf.backfill_step now
          (compute_reservation { u with pending := head :: rest } now
            (spf_record head).nb_hosts) (spf_record head)
          (SpfSpf.touch_allocations d (spf_record head).nb_hosts, false) (spf_record head) =
          .ok (SpfSpf.touch_allocations d (spf_record head).nb_hosts, false) := by
        unfold SpfSpf.backfill_step
        rw [if_pos rfl]
      rw [this]
      exact e2

/-- The loops of the two plug-ins, given the same fuel, end alike. -/
theorem refines_loop
    (std_sort : (JobPtr T → JobPtr T → Bool) → List (JobPtr T) → List (JobPtr T))
    (hkeep : ∀ (lt : JobPtr T → JobPtr T → Bool) l,
      l.Pairwise (fun a b => lt b a = false) → std_sort lt l = l)
    (cfg : Config T) (hp : cfg.primary_policy = .SPF) (hb : cfg.backfill_policy = .SPF)
    (ht : cfg.THRESHOLD_SEC < 0) (now : T) :
    ∀ (fuel : Nat) (u : State T) (d : SpfSpf.State T), Refines u d →
      (∃ e, easy_loop std_sort cfg now fuel u = .error e ∧
        SpfSpf.easy_loop now fuel d = .error e) ∨
      (∃ u1 d1, easy_loop std_sort cfg now fuel u = .ok u1 ∧
        SpfSpf.easy_loop now fuel d = .ok d1 ∧ Refines u1 d1) := by
  intro fuel
  induction fuel with
  | zero =>
    intro u d h
    have hlen : d.pending.length = u.pending.length := by
      rw [← h.2.2.2.2.2.2.1.length_eq, List.length_map]
    have hemp : d.pending.isEmpty = u.pending.isEmpty := by
      cases hd : d.pending with
      | nil =>
        rw [hd] at hlen
        rw [List.length_eq_zero.1 hlen.symm]
        rfl
      | cons x xs =>
        rw [hd] at hlen
        cases hu : u.pending with
        | nil => rw [hu] at hlen; simp at hlen
        | cons y ys => rfl
    unfold easy_loop SpfSpf.easy_loop
    rw [hemp]
    split_ifs
    · exact Or.inr ⟨u, d, rfl, rfl, h⟩
    · exact Or.inl ⟨_, rfl, rfl⟩
  | succ n ih =>
    intro u d h
    have hlen : d.pending.length = u.pending.length := by
      rw [← h.2.2.2.2.2.2.1.length_eq, List.length_map]
    have hemp : d.pending.isEmpty = u.pending.isEmpty := by
      cases hd : d.pending with
      | nil =>
        rw [hd] at hlen
        rw [List.length_eq_zero.1 hlen.symm]
        rfl
      | cons x xs =>
        rw [hd] at hlen
        cases hu : u.pending with
        | nil => rw [hu] at hlen; simp at hlen
        | cons y ys => rfl
    unfold easy_loop SpfSpf.easy_loop
    rw [hemp]
    split_ifs
    · exact Or.inr ⟨u, d, rfl, rfl, h⟩
    · obtain ⟨u1, d1, pr, e1, e2, hr⟩ := refines_pass std_sort hkeep cfg hp hb ht now h
      rw [e1, e2]
      dsimp only
      cases pr with
      | false => exact Or.inr ⟨u1, d1, rfl, rfl, hr⟩
      | true => exact ih u1 d1 hr

/-- A wakeup of the two plug-ins from corresponding states. -/
theorem refines_take_decisions
    (std_sort : (JobPtr T → JobPtr T → Bool) → List (JobPtr T) → List (JobPtr T))
    (hperm : ∀ lt l, (std_sort lt l).Perm l)
    (hkeep : ∀ (lt : JobPtr T → JobPtr T → Bool) l,
      l.Pairwise (fun a b => lt b a = false) → std_sort lt l = l)
    (cfg : Config T) (hp : cfg.primary_policy = .SPF) (hb : cfg.backfill_policy = .SPF)
    (ht : cfg.THRESHOLD_SEC < 0) (msg : T × List (Event T)) {u : State T}
    {d : SpfSpf.State T} (h : Refines u d) :
    ∃ u1 d1, batsim_edc_take_decisions std_sort cfg u msg = .ok u1 ∧
      SpfSpf.batsim_edc_take_decisions d msg = .ok d1 ∧ Refines u1 d1 := by
  have hd := refines_foldl_dispatch msg.1 msg.2 (refines_clear h)
  have hlen : (msg.2.foldl SpfSpf.dispatch { d with out := [] }).pending.length =
      (msg.2.foldl (dispatch msg.1) { u with out := [] }).pending.length := by
    rw [← hd.2.2.2.2.2.2.1.length_eq, List.length_map]
  obtain ⟨w, hw⟩ := take_decisions_ok std_sort hperm cfg u msg
  rcases refines_loop std_sort hkeep cfg hp hb ht msg.1
    ((msg.2.foldl (dispatch msg.1) { u with out := [] }).pending.length + 1) _ _ hd with
    ⟨e, e1, -⟩ | ⟨u1, d1, e1, e2, hr⟩
  · unfold batsim_edc_take_decisions at hw
    rw [e1] at hw
    cases hw
  · refine ⟨u1, d1, e1, ?_, hr⟩
    unfold SpfSpf.batsim_edc_take_decisions
    rw [hlen]
    exact e2

/-- Whole simulations of the two plug-ins from corresponding states: the same `Reject` and
`Execute` decisions in every wakeup. -/
theorem refines_run
    (std_sort : (JobPtr T → JobPtr T → Bool) → List (JobPtr T) → List (JobPtr T))
    (hperm : ∀ lt l, (std_sort lt l).Perm l)
    (hkeep : ∀ (lt : JobPtr T → JobPtr T → Bool) l,
      l.Pairwise (fun a b => lt b a = false) → std_sort lt l = l)
    (cfg : Config T) (hp : cfg.primary_policy = .SPF) (hb : cfg.backfill_policy = .SPF)
    (ht : cfg.THRESHOLD_SEC < 0) :
    ∀ (msgs : List (T × List (Event T))) (u : State T) (d : SpfSpf.State T), Refines u d →
      ∃ ws ds, run std_sort cfg u msgs = .ok ws ∧ SpfSpf.run d msgs = .ok ds ∧
        ws.map (fun w => reject_execute w.2.out) = ds.map (fun s => reject_execute s.out) := by
  intro msgs
  induction msgs with
  | nil => intro u d _; exact ⟨[], [], rfl, rfl, rfl⟩
  | cons msg msgs ih =>
    intro u d h
    obtain ⟨u1, d1, e1, e2, hr⟩ := refines_take_decisions std_sort hperm hkeep cfg hp hb ht msg h
    obtain ⟨ws, ds, e3, e4, e5⟩ := ih u1 d1 hr
    refine ⟨(msg.2.foldl (dispatch msg.1) { u with out := [] }, u1) :: ws, d1 :: ds,
      ?_, ?_, ?_⟩
    · rw [run, e1]
      dsimp only
      rw [e3]
    · rw [SpfSpf.run, e2]
      dsimp only
      rw [e4]
    · simp only [List.map_cons, e5, hr.2.2.2.2.2.1]

omit [Add T] [Sub T] [Neg T] [Div T] [Zero T] [NatCast T] in
theorem refines_init : Refines (State.init T) (SpfSpf.State.init T) := by
  unfold Refines
  simp [State.init, SpfSpf.State.init]

/-- Refinement under a `std::sort` that keeps an ordered vector as it is.  For every
sequence of messages, the unified plug-in configured with primary = backfill = SPF and the
threshold disabled and the plug-in `easy_spf_spf.cpp`, both started from their load-time
state, run to the end and send the same `Reject` and `Execute` decisions in every wakeup. -/
theorem spf_refinement_of_kept_order
    (std_sort : (JobPtr T → JobPtr T → Bool) → List (JobPtr T) → List (JobPtr T))
    (hperm : ∀ lt l, (std_sort lt l).Perm l)
    (hkeep : ∀ (lt : JobPtr T → JobPtr T → Bool) l,
      l.Pairwise (fun a b => lt b a = false) → std_sort lt l = l)
    (cfg : Config T) (hp : cfg.primary_policy = .SPF) (hb : cfg.backfill_policy = .SPF)
    (ht : cfg.THRESHOLD_SEC < 0) (msgs : List (T × List (Event T))) :
    ∃ ws ds, run std_sort cfg (State.init T) msgs = .ok ws ∧
      SpfSpf.run (SpfSpf.State.init T) msgs = .ok ds ∧
      ws.map (fun w => reject_execute w.2.out) = ds.map (fun s => reject_execute s.out) :=
  refines_run std_sort hperm hkeep cfg hp hb ht msgs _ _ refines_init

end Simulation

/-- Insertion sort is such a `std::sort`: with it the two plug-ins agree on every sequence of
messages over integer times. -/
theorem spf_refinement_insertion_sort (msgs : List (Int × List (Event Int))) :
    ∃ ws ds, run demo_sort cfg_spf (State.init Int) msgs = .ok ws ∧
      SpfSpf.run (SpfSpf.State.init Int) msgs = .ok ds ∧
      ws.map (fun w => reject_execute w.2.out) = ds.map (fun s => reject_execute s.out) :=
  spf_refinement_of_kept_order demo_sort (fun lt l => stable_sort_perm lt l)
    (fun lt l h => stable_sort_of_sorted lt l h) cfg_spf rfl rfl (by decide) msgs

/-! ## Claims -/

section Claims

variable {T : Type}

/-- C5. `allocate(jid, q)` on a free set `F` (a `std::set`, so strictly ascending) with
`q ≤ |F|` succeeds; the set stored under `allocations[jid]` consists of the first `q`
elements of `F`, that is `q` elements of `F` each smaller than every element of `F` left out;
the new free set is `F` without them, so it has `q` elements fewer; the allocation of every
other job is unchanged. -/
theorem allocate_picks_smallest (st : State T) (jid : String) (q : Nat)
    (hF : st.available_hosts.Sorted (· < ·)) (hq : q ≤ st.available_hosts.length) :
    ∃ st1 res picked, allocate st jid q = .ok (st1, res) ∧
      map_get? st1.allocations jid = some picked ∧
      picked = st.available_hosts.take q ∧
      picked.length = q ∧
      picked.Sorted (· < ·) ∧
      (∀ x ∈ picked, x ∈ st.available_hosts) ∧
      (∀ x ∈ picked, ∀ y ∈ st.available_hosts, y ∉ picked → x < y) ∧
      st1.available_hosts.Sorted (· < ·) ∧
      (∀ x, x ∈ st1.available_hosts ↔ x ∈ st.available_hosts ∧ x ∉ picked) ∧
      st1.available_hosts.length + q = st.available_hosts.length ∧
      (∀ k, k ≠ jid → map_get? st1.allocations k = map_get? st.allocations k) := by
  refine ⟨_, _, st.available_hosts.take q, allocate_eq st jid hF hq, ?_, rfl, ?_, ?_, ?_, ?_,
    ?_, ?_, ?_, ?_⟩
  · exact map_get?_map_set_same _ _ _
  · exact List.length_take_of_le hq
  · exact hF.sublist (List.take_sublist q _)
  · exact fun x hx => List.mem_of_mem_take hx
  · intro x hx y hy hny
    exact take_lt_drop hF q x hx y ((mem_drop_iff hF.nodup q y).2 ⟨hy, hny⟩)
  · exact hF.sublist (List.drop_sublist q _)
  · exact fun x => mem_drop_iff hF.nodup q x
  · simp only [List.length_drop]; omega
  · exact fun k hk => map_get?_map_set_other _ _ hk

/-- Witness for C5: two hosts out of `{0, 1, 2, 3}`. -/
theorem allocate_picks_smallest_witness :
    ∃ st1 res picked, allocate st_four_free "J1" 2 = .ok (st1, res) ∧
      map_get? st1.allocations "J1" = some picked ∧
      picked = st_four_free.available_hosts.take 2 ∧
      picked.length = 2 ∧
      picked.Sorted (· < ·) ∧
      (∀ x ∈ picked, x ∈ st_four_free.available_hosts) ∧
      (∀ x ∈ picked, ∀ y ∈ st_four_free.available_hosts, y ∉ picked → x < y) ∧
      st1.available_hosts.Sorted (· < ·) ∧
      (∀ x, x ∈ st1.available_hosts ↔ x ∈ st_four_free.available_hosts ∧ x ∉ picked) ∧
      st1.available_hosts.length + 2 = st_four_free.available_hosts.length ∧
      (∀ k, k ≠ "J1" → map_get? st1.allocations k = map_get? st_four_free.allocations k) :=
  allocate_picks_smallest st_four_free "J1" 2 (by decide) (by decide)

/-- C10. Release inverts start: when `jid` is not running (no entry in `allocations` nor in
`end_times`) and `q ≤ free_count`, starting the job (`allocate`, `end_times[jid] = now +
walltime`) and then dispatching `JobCompleted(jid)` gives back exactly the free host set,
the allocations map and the end-times map of the state before the start. -/
theorem release_inverts_start [Add T] (now now2 : T) (st : State T) (j : JobPtr T)
    (hF : st.available_hosts.Sorted (· < ·))
    (hq : j.nb_hosts ≤ st.available_hosts.length)
    (ha : j.job_id ∉ map_keys st.allocations)
    (he : j.job_id ∉ map_keys st.end_times) :
    ∃ st1, start_job now st j = .ok st1 ∧
      (dispatch now2 st1 (.jobCompleted j.job_id)).available_hosts = st.available_hosts ∧
      (dispatch now2 st1 (.jobCompleted j.job_id)).allocations = st.allocations ∧
      (dispatch now2 st1 (.jobCompleted j.job_id)).end_times = st.end_times := by
  refine ⟨_, start_job_eq now st j hF hq, ?_⟩
  simp only [dispatch, map_get?_map_set_same]
  exact ⟨insert_take_into_drop hF _, map_erase_map_set _ ha, map_erase_map_set _ he⟩

/-- Witness for C10: start and complete a two-host job on four free hosts. -/
theorem release_inverts_start_witness :
    ∃ st1, start_job 0 st_four_free job_two = .ok st1 ∧
      (dispatch 10 st1 (.jobCompleted "J1")).available_hosts = [0, 1, 2, 3] ∧
      (dispatch 10 st1 (.jobCompleted "J1")).allocations = [] ∧
      (dispatch 10 st1 (.jobCompleted "J1")).end_times = [] :=
  release_inverts_start 0 10 st_four_free job_two (by decide) (by decide) (by decide) (by decide)

/-- C4. As long as the counts fit in 32 bits (free count plus the host counts of the running
jobs below `2 ^ 32`, which holds whenever the free set and the allocations are disjoint sets of
hosts of a 32-bit platform): `compute_reservation(now, need)` returns `now` when
`free_count ≥ need`; when `free_count < need` and some running job has a projected end time
`t` with `free_count + (hosts of all running jobs ending at or before t) ≥ need`, it returns
the smallest such projected end time.  All jobs ending at or before `t` are counted, so jobs
sharing an end time act as one release event. -/
theorem compute_reservation_earliest [LinearOrder T] (st : State T) (now : T) (need : Nat)
    (hfit : st.available_hosts.length + running_hosts st < U32) :
    (need ≤ st.available_hosts.length → compute_reservation st now need = now) ∧
    (st.available_hosts.length < need →
      (∃ kv ∈ st.end_times, need ≤ st.available_hosts.length + released_by st kv.2) →
      (∃ kv ∈ st.end_times, kv.2 = compute_reservation st now need) ∧
      need ≤ st.available_hosts.length + released_by st (compute_reservation st now need) ∧
      ∀ kv ∈ st.end_times, need ≤ st.available_hosts.length + released_by st kv.2 →
        compute_reservation st now need ≤ kv.2) := by
  have hrun : running_hosts st < U32 := by omega
  constructor
  · intro h
    unfold compute_reservation
    rw [Nat.mod_eq_of_lt (by omega), if_pos h]
  · intro hlt ⟨kv0, hkv0, hsat0⟩
    rw [compute_reservation_of_lt st now (by omega) hlt]
    have hspec := scan_events_spec need (stable_sort pair_lt (release_events st))
      st.available_hosts.length (sorted_events_time _)
      (by rw [sum_sorted_events st hrun]; exact hfit) hlt
    have hrel : ∀ t, released (stable_sort pair_lt (release_events st)) t = released_by st t :=
      fun t => (released_perm (stable_sort_perm pair_lt _) t).trans
        (released_release_events st hrun t)
    have hmem : ∀ ev, ev ∈ stable_sort pair_lt (release_events st) ↔
        ∃ kv ∈ st.end_times, (kv.2, alloc_size st kv.1) = ev := by
      intro ev
      rw [(stable_sort_perm pair_lt _).mem_iff, release_events_eq st hrun, List.mem_map]
    unfold reservation_from
    cases hscan : scan_events need st.available_hosts.length
        (stable_sort pair_lt (release_events st)) with
    | none =>
      rw [hscan] at hspec
      rw [sum_sorted_events st hrun] at hspec
      have : released_by st kv0.2 ≤ running_hosts st := by
        rw [← released_release_events st hrun, ← sum_release_events st hrun]
        exact released_le_sum _ _
      omega
    | some r =>
      rw [hscan] at hspec
      obtain ⟨⟨ev, hev, hr⟩, hsat, hmin⟩ := hspec
      refine ⟨?_, ?_, ?_⟩
      · obtain ⟨kv, hkv, rfl⟩ := (hmem ev).1 hev
        exact ⟨kv, hkv, hr⟩
      · rw [← hrel]; exact hsat
      · intro kv hkv hs
        exact hmin (kv.2, alloc_size st kv.1) ((hmem _).2 ⟨kv, hkv, rfl⟩)
          (by rw [hrel]; exact hs)

/-- Witness for C4 on Scenario C: one free host suffices at once; four hosts are reached
at time 50, when `J1` ends. -/
theorem compute_reservation_earliest_witness :
    compute_reservation st_busy 0 1 = 0 ∧
    ((∃ kv ∈ st_busy.end_times, kv.2 = compute_reservation st_busy 0 4) ∧
      4 ≤ st_busy.available_hosts.length + released_by st_busy (compute_reservation st_busy 0 4) ∧
      ∀ kv ∈ st_busy.end_times, 4 ≤ st_busy.available_hosts.length + released_by st_busy kv.2 →
        compute_reservation st_busy 0 4 ≤ kv.2) ∧
    compute_reservation st_busy 0 4 = 50 :=
  ⟨(compute_reservation_earliest st_busy 0 1 (by decide)).1 (by decide),
   (compute_reservation_earliest st_busy 0 4 (by decide)).2 (by decide)
     ⟨("J1", 50), by decide, by decide⟩,
   by decide⟩

/-- C2 (no-delay), amended. In a state satisfying the partition invariant of a 32-bit
platform (free set a `std::set`, `end_times` a map) whose head does not fit, let `t*` be
`compute_reservation(now, head.nb_hosts)`.  Starting a candidate `c` whose job id is not that
of a running job, that fits the free hosts and has `now + c.walltime ≤ t*`, succeeds, and
afterwards `compute_reservation(now, head.nb_hosts)` is not later than `t*`. -/
theorem backfill_no_delay [LinearOrder T] [Add T] (H : Nat) (st : State T) (now : T)
    (head c : JobPtr T)
    (hpart : Partition H st) (hH : H < U32)
    (hF : st.available_hosts.Sorted (· < ·))
    (hkeys : (map_keys st.end_times).Nodup)
    (hhead : st.available_hosts.length < head.nb_hosts)
    (hrun : c.job_id ∉ map_keys st.end_times)
    (hcq : c.nb_hosts ≤ st.available_hosts.length)
    (hct : now + c.walltime ≤ compute_reservation st now head.nb_hosts) :
    ∃ st1, start_job now st c = .ok st1 ∧
      compute_reservation st1 now head.nb_hosts ≤ compute_reservation st now head.nb_hosts := by
  have hfit := partition_fits hpart hH hkeys
  have hrunfit : running_hosts st < U32 := by omega
  obtain ⟨st1, hst1, hav, hev⟩ := release_events_start now st c hF hcq hrun (by omega)
  refine ⟨st1, hst1, ?_⟩
  have hlen : st1.available_hosts.length = st.available_hosts.length - c.nb_hosts := by
    rw [hav, List.length_drop]
  rw [compute_reservation_of_lt st now (by omega) hhead] at hct ⊢
  rw [compute_reservation_of_lt st1 now (by omega) (by omega), hlen, hev]
  refine reservation_from_no_delay now head.nb_hosts st.available_hosts.length c.nb_hosts
    (now + c.walltime) (sorted_events_time _) (sorted_events_time _) ?_ ?_ hcq hhead hct
  · exact (stable_sort_perm pair_lt _).trans
      ((List.perm_append_comm).trans ((stable_sort_perm pair_lt _).symm.cons _))
  · rw [sum_sorted_events st hrunfit]; exact hfit

/-- C2 as stated fails when the candidate carries the id of a running job.  On five hosts
with `J` (hosts 0 to 2, until 10) and `K` (host 3, until 20) running, the partition invariant
holds, the head asks for four hosts with one free, and `t* = 10`.  The queued second job `J`
(one host, `1 + 2 ≤ 10`) fits; starting it overwrites `allocations["J"]` and
`end_times["J"]`, and the reservation for the head moves to 20.  The state is the one reached
by the two messages `msg_dup1`, `msg_dup2`. -/
theorem backfill_no_delay_counterexample :
    Partition 5 st_dup ∧
    st_dup.available_hosts.length < job_h.nb_hosts ∧ job_h.nb_hosts ≤ 5 ∧
    job_dup ∈ st_dup.pending ∧
    job_dup.nb_hosts ≤ st_dup.available_hosts.length ∧
    1 + job_dup.walltime ≤ compute_reservation st_dup 1 job_h.nb_hosts ∧
    (∃ st1, start_job 1 st_dup job_dup = .ok st1 ∧
      compute_reservation st_dup 1 job_h.nb_hosts < compute_reservation st1 1 job_h.nb_hosts) ∧
    (∃ s1, batsim_edc_take_decisions demo_sort cfg_fcfs (State.init Int) msg_dup1 = .ok s1 ∧
      msg_dup2.2.foldl (dispatch msg_dup2.1) { s1 with out := [] } = st_dup) :=
  ⟨(partition_iff_perm 5 st_dup).2 (by decide), by decide, by decide, by decide, by decide,
    by decide, ⟨_, rfl, by decide⟩, ⟨_, rfl, rfl⟩⟩

/-- Witness for C2 on Scenario C: a one-host job ending at 30 is started while the head waits
for time 50, and the reservation stays at 50. -/
theorem backfill_no_delay_witness :
    ∃ st1, start_job 0 st_busy job_short = .ok st1 ∧
      compute_reservation st1 0 job_head.nb_hosts ≤ compute_reservation st_busy 0 job_head.nb_hosts :=
  backfill_no_delay 4 st_busy 0 job_head job_short
    ((partition_iff_perm 4 st_busy).2 (by decide)) (by decide) (by decide) (by decide)
    (by decide) (by decide) (by decide) (by decide)

/-- C7. The fault of `allocate(jid, q)` is exactly the request `q > |available_hosts|`
(the iterator would run past the end of the free set), and it is never raised from the
decision loop: an iteration always completes, and neither the loop, for any number of
iterations, nor `batsim_edc_take_decisions` ends in that fault.  Hence every call `allocate(jid, q)`
made by the loop has `q ≤ |available_hosts|` at the time of the call. -/
theorem allocation_never_underflows [LinearOrder T] [Add T] [Sub T] [Neg T] [Div T] [Zero T]
    [NatCast T]
    (std_sort : (JobPtr T → JobPtr T → Bool) → List (JobPtr T) → List (JobPtr T))
    (cfg : Config T) :
    (∀ (st : State T) (jid : String) (q : Nat),
      (∃ r, allocate st jid q = .ok r) ↔ q ≤ st.available_hosts.length) ∧
    (∀ (st : State T) (jid : String) (q : Nat),
      allocate st jid q = .error .underflow ↔ st.available_hosts.length < q) ∧
    (∀ (now : T) (st : State T), ∃ r, easy_pass std_sort cfg now st = .ok r) ∧
    (∀ (now : T) (fuel : Nat) (st : State T),
      easy_loop std_sort cfg now fuel st ≠ .error .underflow) ∧
    (∀ (st : State T) (msg : T × List (Event T)),
      batsim_edc_take_decisions std_sort cfg st msg ≠ .error .underflow) := by
  have hloop : ∀ (now : T) (fuel : Nat) (st : State T),
      easy_loop std_sort cfg now fuel st ≠ .error .underflow := by
    intro now fuel
    induction fuel with
    | zero =>
      intro st
      unfold easy_loop
      split_ifs <;> simp
    | succ n ih =>
      intro st
      unfold easy_loop
      split_ifs
      · simp
      · obtain ⟨⟨s1, pr⟩, hp⟩ := easy_pass_ok std_sort cfg now st
        rw [hp]
        cases pr with
        | false => simp
        | true => simpa using ih s1
  refine ⟨fun st jid q => ?_, fun st jid q => ?_, fun now st => easy_pass_ok std_sort cfg now st,
    hloop, fun st msg => hloop _ _ _⟩
  · unfold allocate
    split_ifs with h
    · exact ⟨fun _ => h, fun _ => ⟨_, rfl⟩⟩
    · exact ⟨fun ⟨r, hr⟩ => by simp at hr, fun h2 => absurd h2 h⟩
  · unfold allocate
    split_ifs with h
    · exact ⟨fun h2 => by simp at h2, fun h2 => by omega⟩
    · exact ⟨fun _ => by omega, fun _ => rfl⟩

/-- C3. In an iteration whose head does not fit, let `t*` be the reservation computed for
the head.  The iteration is the candidate loop over the sorted non-head jobs, and for each
candidate `c`, reached in state `acc`: `c` is a pending job other than the head; the step
either leaves the state as it is, or `c.nb_hosts ≤ free_count`, `now + c.walltime ≤ t*` and
exactly one `Execute(c)` is appended; and a candidate with `now + c.walltime > t*` is left
unstarted. -/
theorem backfill_respects_reservation [LinearOrder T] [Add T] [Sub T] [Neg T] [Div T]
    [Zero T] [NatCast T]
    (std_sort : (JobPtr T → JobPtr T → Bool) → List (JobPtr T) → List (JobPtr T))
    (hsub : ∀ lt l, ∀ x ∈ std_sort lt l, x ∈ l)
    (cfg : Config T) (now : T) (st : State T) (head : JobPtr T) (rest : List (JobPtr T))
    (hs : stable_sort (primary_lt cfg now) st.pending = head :: rest)
    (hnofit : st.available_hosts.length < head.nb_hosts) :
    easy_pass std_sort cfg now st =
      backfill now (compute_reservation st now head.nb_hosts)
        (touch_allocations { st with pending := head :: rest } head.nb_hosts, false)
        (std_sort (backfill_lt cfg now) rest) ∧
    ∀ pre c post, std_sort (backfill_lt cfg now) rest = pre ++ c :: post →
      ∃ acc acc1,
        backfill now (compute_reservation st now head.nb_hosts)
          (touch_allocations { st with pending := head :: rest } head.nb_hosts, false) pre = .ok acc ∧
        backfill_step now (compute_reservation st now head.nb_hosts) acc c = .ok acc1 ∧
        c ∈ rest ∧ c ∈ st.pending ∧
        (acc1 = acc ∨
          (c.nb_hosts ≤ acc.1.available_hosts.length ∧
            now + c.walltime ≤ compute_reservation st now head.nb_hosts ∧
            ∃ res, acc1.1.out = acc.1.out ++ [.execute_job c.job_id res])) ∧
        (compute_reservation st now head.nb_hosts < now + c.walltime → acc1 = acc) := by
  constructor
  · rcases easy_pass_cases std_sort cfg now st with ⟨h0, -⟩ | ⟨h, r, hs1, hfit, -⟩ |
      ⟨h, r, hs1, -, heq⟩
    · rw [hs] at h0; simp at h0
    · rw [hs] at hs1
      simp only [List.cons.injEq] at hs1
      rw [← hs1.1] at hfit
      omega
    · rw [hs] at hs1
      simp only [List.cons.injEq] at hs1
      rw [heq, ← hs1.1, ← hs1.2]
      rfl
  · intro pre c post hsplit
    obtain ⟨acc, hacc⟩ := backfill_ok now (compute_reservation st now head.nb_hosts) pre
      (touch_allocations { st with pending := head :: rest } head.nb_hosts, false)
    have hc : c ∈ rest := hsub _ _ c (by rw [hsplit]; simp)
    have hcp : c ∈ st.pending :=
      (stable_sort_perm (primary_lt cfg now) st.pending).mem_iff.1
        (by rw [hs]; exact List.mem_cons_of_mem _ hc)
    rcases backfill_step_cases now (compute_reservation st now head.nb_hosts) acc c with
      ⟨hg, hstep⟩ | ⟨h1, h2, st1, hst1, hstep⟩
    · refine ⟨acc, acc, hacc, hstep, hc, hcp, Or.inl rfl, fun _ => rfl⟩
    · exact ⟨acc, _, hacc, hstep, hc, hcp,
        Or.inr ⟨h1, h2, _, (start_job_fields now acc.1 st1 c hst1).2.2.2.2⟩,
        fun hlt => absurd h2 (not_le.2 hlt)⟩

/-- Witness for C3, Scenario C: with `J1` running on two of four hosts until 50 and head `J2`
asking for four, the candidate `J3` (two hosts free, but `0 + 100 > 50`) is tried and not
started; replayed from the start, the second wakeup emits no decision. -/
theorem backfill_respects_reservation_witness :
    (∃ acc acc1,
      backfill 0 (compute_reservation st_busy 0 job_head.nb_hosts)
        (touch_allocations { st_busy with pending := job_head :: [job_wide] } job_head.nb_hosts,
          false) [] =
          .ok acc ∧
      backfill_step 0 (compute_reservation st_busy 0 job_head.nb_hosts) acc job_wide =
        .ok acc1 ∧
      job_wide ∈ [job_wide] ∧ job_wide ∈ st_busy.pending ∧
      (acc1 = acc ∨
        (job_wide.nb_hosts ≤ acc.1.available_hosts.length ∧
          0 + job_wide.walltime ≤ compute_reservation st_busy 0 job_head.nb_hosts ∧
          ∃ res, acc1.1.out = acc.1.out ++ [.execute_job job_wide.job_id res])) ∧
      (compute_reservation st_busy 0 job_head.nb_hosts < 0 + job_wide.walltime → acc1 = acc)) ∧
    compute_reservation st_busy 0 job_head.nb_hosts = 50 ∧
    (∃ s1 s2, batsim_edc_take_decisions demo_sort cfg_fcfs (State.init Int) msg_c1 = .ok s1 ∧
      s1.out = [.execute_job "J1" "0,1"] ∧
      batsim_edc_take_decisions demo_sort cfg_fcfs s1 msg_c2 = .ok s2 ∧ s2.out = []) :=
  ⟨(backfill_respects_reservation demo_sort
      (fun lt l x hx => (stable_sort_perm lt l).mem_iff.1 hx) cfg_fcfs 0 st_busy job_head
      [job_wide] (by rfl) (by decide)).2 [] job_wide [] (by rfl),
   by decide, ⟨_, _, rfl, rfl, rfl, rfl⟩⟩

/-- C6. For a call of `batsim_edc_take_decisions` in a state whose free set is a `std::set` (as in every
state satisfying the partition invariant) and with `std::sort` permuting its input: the call
returns; its decisions are those of the event dispatch, none of them an `Execute`, followed
by the `Execute` decisions of the started jobs `E`; the host sets of these are pairwise
disjoint; each consists of hosts that were free after the event dispatch, has no repetition
and has exactly `nb_hosts` elements; and each started job was pending after the dispatch. -/
theorem executes_disjoint_and_sized [LinearOrder T] [Add T] [Sub T] [Neg T] [Div T] [Zero T]
    [NatCast T]
    (std_sort : (JobPtr T → JobPtr T → Bool) → List (JobPtr T) → List (JobPtr T))
    (hperm : ∀ lt l, (std_sort lt l).Perm l)
    (cfg : Config T) (st : State T) (msg : T × List (Event T))
    (hF : st.available_hosts.Sorted (· < ·)) :
    ∃ (st2 : State T) (E : List (JobPtr T × List Nat)),
      batsim_edc_take_decisions std_sort cfg st msg = .ok st2 ∧
      st2.out = (msg.2.foldl (dispatch msg.1) { st with out := [] }).out ++ E.map execute_of ∧
      (∀ d ∈ (msg.2.foldl (dispatch msg.1) { st with out := [] }).out,
        ∀ jid hs, d ≠ Decision.execute_job jid hs) ∧
      (E.map Prod.snd).Pairwise List.Disjoint ∧
      ∀ p ∈ E,
        (∀ h ∈ p.2, h ∈ (msg.2.foldl (dispatch msg.1) { st with out := [] }).available_hosts) ∧
        p.2.Nodup ∧ p.2.length = p.1.nb_hosts ∧
        p.1 ∈ (msg.2.foldl (dispatch msg.1) { st with out := [] }).pending := by
  have hsub : ∀ lt l, ∀ x ∈ std_sort lt l, x ∈ l := fun lt l x hx => (hperm lt l).mem_iff.1 hx
  have hFd := foldl_dispatch_sorted msg.1 msg.2 { st with out := [] } hF
  obtain ⟨st2, h2⟩ := easy_loop_ok std_sort hsub cfg msg.1
    ((msg.2.foldl (dispatch msg.1) { st with out := [] }).pending.length + 1)
    (msg.2.foldl (dispatch msg.1) { st with out := [] }) (by omega)
  obtain ⟨E, ⟨a1, a2, a3, -⟩, -⟩ := easy_loop_spec std_sort hperm cfg msg.1 _ _ st2 hFd h2
  have hnd : ((E.map Prod.snd).flatten ++ st2.available_hosts).Nodup := a2 ▸ hFd.nodup
  have hfl := List.nodup_flatten.1 (List.nodup_append.1 hnd).1
  refine ⟨st2, E, h2, a1, foldl_dispatch_no_execute msg.1 msg.2 _ (by simp), hfl.2,
    fun p hp => ⟨fun h hh => ?_, hfl.1 p.2 (List.mem_map_of_mem _ hp), a3 p hp⟩⟩
  rw [a2]
  exact List.mem_append_left _ (List.mem_flatten.2 ⟨p.2, List.mem_map_of_mem _ hp, hh⟩)

/-- Witness for C6: on four free hosts a two-host and a one-host job are started in one
wakeup, on hosts `0,1` and `2`. -/
theorem executes_disjoint_and_sized_witness :
    (∃ (st2 : State Int) (E : List (JobPtr Int × List Nat)),
      batsim_edc_take_decisions demo_sort cfg_fcfs (State.init Int) msg_two_starts = .ok st2 ∧
      st2.out = (msg_two_starts.2.foldl (dispatch msg_two_starts.1)
        { State.init Int with out := [] }).out ++ E.map execute_of ∧
      (∀ d ∈ (msg_two_starts.2.foldl (dispatch msg_two_starts.1)
          { State.init Int with out := [] }).out,
        ∀ jid hs, d ≠ Decision.execute_job jid hs) ∧
      (E.map Prod.snd).Pairwise List.Disjoint ∧
      ∀ p ∈ E,
        (∀ h ∈ p.2, h ∈ (msg_two_starts.2.foldl (dispatch msg_two_starts.1)
          { State.init Int with out := [] }).available_hosts) ∧
        p.2.Nodup ∧ p.2.length = p.1.nb_hosts ∧
        p.1 ∈ (msg_two_starts.2.foldl (dispatch msg_two_starts.1)
          { State.init Int with out := [] }).pending) ∧
    (∃ st2, batsim_edc_take_decisions demo_sort cfg_fcfs (State.init Int) msg_two_starts = .ok st2 ∧
      st2.out = [.execute_job "J1" "0,1", .execute_job "J2" "2"]) :=
  ⟨executes_disjoint_and_sized demo_sort (fun lt l => stable_sort_perm lt l) cfg_fcfs
      (State.init Int) msg_two_starts (by decide),
   ⟨_, rfl, rfl⟩⟩

/-- C1. Take a simulation from the load-time state whose first event is `SimulationBegins(H)`,
with no other `SimulationBegins` and with every job id submitted at most once (`std::sort`
permuting its input).  The simulation runs to its end, and in every state it goes through,
after each dispatched event and after each iteration of the decision loop, the free host set
and the host sets of the running jobs are pairwise disjoint sets whose union is
`{0, ..., H-1}`. -/
theorem partition_along_run [LinearOrder T] [Add T] [Sub T] [Neg T] [Div T] [Zero T]
    [NatCast T]
    (std_sort : (JobPtr T → JobPtr T → Bool) → List (JobPtr T) → List (JobPtr T))
    (hperm : ∀ lt l, (std_sort lt l).Perm l)
    (cfg : Config T) (H : Nat) (now0 : T) (evs0 : List (Event T))
    (msgs : List (T × List (Event T)))
    (hbegin : ∀ ev ∈ evs0 ++ all_events msgs, is_begin ev = false)
    (hids : (submitted_ids (evs0 ++ all_events msgs)).Nodup) :
    (∃ ws, run std_sort cfg (State.init T) ((now0, .simulationBegins H :: evs0) :: msgs) =
      .ok ws) ∧
    ∀ s ∈ run_trace std_sort cfg (State.init T) ((now0, .simulationBegins H :: evs0) :: msgs),
      Partition H s := by
  refine ⟨run_ok std_sort hperm cfg _ _, fun s hs => ?_⟩
  obtain ⟨f, hP, -⟩ := run_trace_first std_sort cfg
    (fun st fut => RunInv H st ∧ (∀ e ∈ fut, is_begin e = false) ∧ Fresh (submitted_ids fut) st)
    (fun st fut h => h)
    (fun now st ev fut h => runInv_dispatch now ev fut h)
    (fun now st st1 pr fut ⟨h1, h2, h3⟩ hp => by
      obtain ⟨E, hE, hs1⟩ := easy_pass_spec std_sort hperm cfg now st st1 pr h1.1.1 hp
      obtain ⟨r1, r2⟩ := runInv_of_spec h1 hE hs1
      exact ⟨r1, h2, r2 _ h3⟩)
    (State.init T) now0 (.simulationBegins H) evs0 msgs
    ⟨runInv_begin now0 H, hbegin, hids, fun id _ => by simp [dispatch, State.init, map_keys]⟩
    s hs
  exact (partition_iff_perm H s).2 hP.2.2.1

/-- Witness for C1, Scenario B: the nine states of the two wakeups partition `{0,1,2,3}`. -/
theorem partition_along_run_witness :
    ((∃ ws, run demo_sort cfg_fcfs (State.init Int)
        ((0, .simulationBegins 4 :: evs_b_first) :: msgs_b_rest) = .ok ws) ∧
      ∀ s ∈ run_trace demo_sort cfg_fcfs (State.init Int)
          ((0, .simulationBegins 4 :: evs_b_first) :: msgs_b_rest),
        Partition 4 s) ∧
    (run_trace demo_sort cfg_fcfs (State.init Int)
      ((0, .simulationBegins 4 :: evs_b_first) :: msgs_b_rest)).length = 9 :=
  ⟨partition_along_run demo_sort (fun lt l => stable_sort_perm lt l) cfg_fcfs 4 0 evs_b_first
      msgs_b_rest (by decide) (by decide),
   by rfl⟩

/-- C8. Dispatching `JobSubmitted(job_id, nb_hosts, walltime)` at time `now`: when
`nb_hosts > H` it appends `Reject(job_id)` and leaves the queue as it is; otherwise it emits
nothing and appends the record `(job_id, nb_hosts, walltime, submit_time = now)` at the back
of the queue; so the rejection happens if and only if `nb_hosts > H`; hosts, allocations and
end times are untouched either way.  Consequently the dispatch keeps every queued job at
`nb_hosts ≤ H`, and in a simulation that starts with `SimulationBegins(H)` and has no other,
every queued job has `nb_hosts ≤ H` in every state gone through. -/
theorem submit_rejects_oversized [LinearOrder T] [Add T] [Sub T] [Neg T] [Div T] [Zero T]
    [NatCast T]
    (std_sort : (JobPtr T → JobPtr T → Bool) → List (JobPtr T) → List (JobPtr T))
    (hperm : ∀ lt l, (std_sort lt l).Perm l)
    (cfg : Config T) (H : Nat) (now0 : T) (evs0 : List (Event T))
    (msgs : List (T × List (Event T)))
    (hbegin : ∀ ev ∈ evs0 ++ all_events msgs, is_begin ev = false) :
    (∀ (now : T) (st : State T) (jid : String) (nb : Nat) (wt : T),
      (st.platform_nb_hosts < nb →
        (dispatch now st (.jobSubmitted jid nb wt)).out = st.out ++ [.reject_job jid] ∧
        (dispatch now st (.jobSubmitted jid nb wt)).pending = st.pending) ∧
      (nb ≤ st.platform_nb_hosts →
        (dispatch now st (.jobSubmitted jid nb wt)).out = st.out ∧
        (dispatch now st (.jobSubmitted jid nb wt)).pending = st.pending ++
          [{ job_id := jid, nb_hosts := nb, walltime := wt, submit_time := now,
             addr := st.heap }]) ∧
      (((dispatch now st (.jobSubmitted jid nb wt)).out = st.out ++ [.reject_job jid] ∧
        (dispatch now st (.jobSubmitted jid nb wt)).pending = st.pending) ↔
          st.platform_nb_hosts < nb) ∧
      (dispatch now st (.jobSubmitted jid nb wt)).available_hosts = st.available_hosts ∧
      (dispatch now st (.jobSubmitted jid nb wt)).allocations = st.allocations ∧
      (dispatch now st (.jobSubmitted jid nb wt)).end_times = st.end_times ∧
      (dispatch now st (.jobSubmitted jid nb wt)).platform_nb_hosts = st.platform_nb_hosts ∧
      ((∀ j ∈ st.pending, j.nb_hosts ≤ st.platform_nb_hosts) →
        ∀ j ∈ (dispatch now st (.jobSubmitted jid nb wt)).pending,
          j.nb_hosts ≤ (dispatch now st (.jobSubmitted jid nb wt)).platform_nb_hosts)) ∧
    ∀ s ∈ run_trace std_sort cfg (State.init T) ((now0, .simulationBegins H :: evs0) :: msgs),
      s.platform_nb_hosts = H ∧ ∀ j ∈ s.pending, j.nb_hosts ≤ H := by
  constructor
  · intro now st jid nb wt
    by_cases h : st.platform_nb_hosts < nb
    · have e : dispatch now st (.jobSubmitted jid nb wt) =
          { st with out := st.out ++ [.reject_job jid], heap := st.heap + 1 } := by
        simp only [dispatch, if_pos h]
      rw [e]
      exact ⟨fun _ => ⟨rfl, rfl⟩, fun h2 => by omega, ⟨fun _ => h, fun _ => ⟨rfl, rfl⟩⟩,
        rfl, rfl, rfl, rfl, fun hp => hp⟩
    · have e : dispatch now st (.jobSubmitted jid nb wt) =
          { st with
            pending := st.pending ++
              [{ job_id := jid, nb_hosts := nb, walltime := wt, submit_time := now,
                 addr := st.heap }],
            heap := st.heap + 1 } := by
        simp only [dispatch, if_neg h]
      rw [e]
      refine ⟨fun h2 => absurd h2 h, fun _ => ⟨rfl, rfl⟩, ⟨fun h2 => ?_, fun h2 => absurd h2 h⟩,
        rfl, rfl, rfl, rfl, fun hp j hj => ?_⟩
      · have := congrArg List.length h2.2
        simp at this
      · rcases List.mem_append.1 hj with hj | hj
        · exact hp j hj
        · simp only [List.mem_singleton] at hj
          subst hj
          exact Nat.le_of_not_lt h
  · intro s hs
    obtain ⟨f, -, hH, hP, -⟩ := run_trace_first std_sort cfg
      (fun st fut => BaseInv st ∧ st.platform_nb_hosts = H ∧
        (∀ j ∈ st.pending, j.nb_hosts ≤ H) ∧ ∀ e ∈ fut, is_begin e = false)
      (fun st fut h => h)
      (fun now st ev fut ⟨h1, h2, h3, h4⟩ => by
        refine ⟨baseInv_dispatch now st ev h1, ?_, ?_,
          fun e he => h4 e (List.mem_cons_of_mem _ he)⟩
        · cases ev with
          | hello => exact h2
          | simulationBegins n =>
            have := h4 (.simulationBegins n) (by simp)
            simp [is_begin] at this
          | jobSubmitted jid nb wt =>
            simp only [dispatch]
            split_ifs <;> exact h2
          | jobCompleted jid =>
            simp only [dispatch]
            split <;> exact h2
          | other => exact h2
        · cases ev with
          | hello => exact h3
          | simulationBegins n => exact h3
          | jobSubmitted jid nb wt =>
            simp only [dispatch]
            split_ifs with hlt
            · exact h3
            · intro j hj
              rcases List.mem_append.1 hj with hj | hj
              · exact h3 j hj
              · simp only [List.mem_singleton] at hj
                subst hj
                simp only
                omega
          | jobCompleted jid =>
            simp only [dispatch]
            split <;> exact h3
          | other => exact h3)
      (fun now st st1 pr fut ⟨h1, h2, h3, h4⟩ hp => by
        obtain ⟨E, hE, hs1⟩ := easy_pass_spec std_sort hperm cfg now st st1 pr h1.1 hp
        exact ⟨baseInv_of_spec h1 hE hs1, hE.2.2.2.2.1.trans h2,
          fun j hj => h3 j (hE.2.2.2.1 j hj), h4⟩)
      (State.init T) now0 (.simulationBegins H) evs0 msgs
      ⟨baseInv_dispatch now0 _ _ ⟨by simp [State.init], by simp [State.init],
          by simp [State.init]⟩, rfl, by simp [dispatch, State.init], hbegin⟩
      s hs
    exact ⟨hH, hP⟩

/-- Witness for C8, Scenario F: with two hosts, `Submit(Big, 3)` is answered by `Reject(Big)`
alone, and along Scenario B every queued job asks for at most four hosts. -/
theorem submit_rejects_oversized_witness :
    (∀ s ∈ run_trace demo_sort cfg_fcfs (State.init Int)
        ((0, .simulationBegins 4 :: evs_b_first) :: msgs_b_rest),
      s.platform_nb_hosts = 4 ∧ ∀ j ∈ s.pending, j.nb_hosts ≤ 4) ∧
    (∃ st1, batsim_edc_take_decisions demo_sort cfg_fcfs (State.init Int) msg_f = .ok st1 ∧
      st1.out = [.reject_job "Big"] ∧ st1.pending = []) :=
  ⟨(submit_rejects_oversized demo_sort (fun lt l => stable_sort_perm lt l) cfg_fcfs 4 0
      evs_b_first msgs_b_rest (by decide)).2,
   ⟨_, rfl, rfl, rfl⟩⟩

/-- C9. In a simulation from the load-time state in which every job id is submitted at most
once (`std::sort` permuting its input): the simulation runs to its end; over all its wakeups no
id named by a `Reject` is named by an `Execute`, and no id is named by two `Execute`s; in each
wakeup the dispatch emits no `Execute`, and the jobs executed are exactly the jobs that leave
the queue between the end of the dispatch and the return.  Moreover every loop iteration is
entered with queued records at distinct addresses, and in such a state the head is in the
queue and each backfill candidate is still in the queue when its turn comes, hence
immediately before it is started. -/
theorem rejection_is_final [LinearOrder T] [Add T] [Sub T] [Neg T] [Div T] [Zero T]
    [NatCast T]
    (std_sort : (JobPtr T → JobPtr T → Bool) → List (JobPtr T) → List (JobPtr T))
    (hperm : ∀ lt l, (std_sort lt l).Perm l)
    (cfg : Config T) (msgs : List (T × List (Event T)))
    (hids : (submitted_ids (all_events msgs)).Nodup) :
    (∃ ws, run std_sort cfg (State.init T) msgs = .ok ws ∧
      (∀ id ∈ rejected_ids (decisions_of ws), id ∉ executed_ids (decisions_of ws)) ∧
      (executed_ids (decisions_of ws)).Nodup ∧
      ∀ w ∈ ws,
        BaseInv w.1 ∧
        (∃ E : List (JobPtr T × List Nat), w.2.out = w.1.out ++ E.map execute_of ∧
          w.1.pending.Perm (E.map Prod.fst ++ w.2.pending)) ∧
        ∀ d ∈ w.1.out, ∀ jid hs, d ≠ Decision.execute_job jid hs) ∧
    (∀ s ∈ run_trace std_sort cfg (State.init T) msgs, BaseInv s) ∧
    (∀ (now : T) (st : State T) (head : JobPtr T) (rest : List (JobPtr T)),
      BaseInv st → stable_sort (primary_lt cfg now) st.pending = head :: rest →
      head ∈ st.pending ∧
      ∀ pre c post, std_sort (backfill_lt cfg now) rest = pre ++ c :: post →
        ∃ acc, backfill now (compute_reservation st now head.nb_hosts)
            (touch_allocations { st with pending := head :: rest } head.nb_hosts, false) pre = .ok acc ∧
          c ∈ acc.1.pending) := by
  have hinit : BaseInv (State.init T) := ⟨by simp [State.init], by simp [State.init],
    by simp [State.init]⟩
  refine ⟨?_, ?_, ?_⟩
  · obtain ⟨ws, h1, h2, h3⟩ := run_history std_sort hperm cfg msgs (State.init T) [] hinit
      (by simpa [State.init] using hids)
    obtain ⟨h4, h5⟩ := of_decided_nodup (by simpa using h2)
    exact ⟨ws, h1, h5, h4, h3⟩
  · intro s hs
    obtain ⟨_, h⟩ := run_trace_induct std_sort cfg (fun st _ => BaseInv st)
      (fun st _ h => h) (fun now st ev _ h => baseInv_dispatch now st ev h)
      (fun now st st1 pr _ h hp => by
        obtain ⟨E, hE, hs1⟩ := easy_pass_spec std_sort hperm cfg now st st1 pr h.1 hp
        exact baseInv_of_spec h hE hs1)
      msgs (State.init T) hinit s hs
    exact h
  · intro now st head rest hb hs
    have hsp := stable_sort_perm (primary_lt cfg now) st.pending
    rw [hs] at hsp
    refine ⟨hsp.mem_iff.1 (by simp), fun pre c post hsplit => ?_⟩
    have hadr : ((head :: rest).map (fun j => j.addr)).Nodup :=
      ((hsp.map (fun j => j.addr)).nodup_iff).2 hb.2.1
    have hrest : rest.Nodup := (List.nodup_cons.1 (List.Nodup.of_map _ hadr)).2
    obtain ⟨t1, -, t3, -⟩ :=
      touch_allocations_fields { st with pending := head :: rest } head.nb_hosts
    exact backfill_candidate_pending now _
      (touch_allocations { st with pending := head :: rest } head.nb_hosts)
      pre post c (by rw [t3]; exact hb.1) (by rw [t1]; exact hadr)
      (fun x hx => by
        rw [t1]
        exact List.mem_cons_of_mem _ ((hperm _ rest).mem_iff.1 (hsplit ▸ hx)))
      (hsplit ▸ (hperm _ rest).nodup_iff.2 hrest)

/-- Witness for C9: `Big` is rejected and never executed; `A` and `B` are executed once. -/
theorem rejection_is_final_witness :
    (∃ ws, run demo_sort cfg_fcfs (State.init Int) msgs_reject = .ok ws ∧
      (∀ id ∈ rejected_ids (decisions_of ws), id ∉ executed_ids (decisions_of ws)) ∧
      (executed_ids (decisions_of ws)).Nodup ∧
      ∀ w ∈ ws,
        BaseInv w.1 ∧
        (∃ E : List (JobPtr Int × List Nat), w.2.out = w.1.out ++ E.map execute_of ∧
          w.1.pending.Perm (E.map Prod.fst ++ w.2.pending)) ∧
        ∀ d ∈ w.1.out, ∀ jid hs, d ≠ Decision.execute_job jid hs) ∧
    (∃ ws, run demo_sort cfg_fcfs (State.init Int) msgs_reject = .ok ws ∧
      decisions_of ws =
        [.reject_job "Big", .execute_job "A" "0", .execute_job "B" "0,1"]) :=
  ⟨(rejection_is_final demo_sort (fun lt l => stable_sort_perm lt l) cfg_fcfs msgs_reject
      (by decide)).1,
   ⟨_, rfl, rfl⟩⟩

end Claims

/-! ## Claims on event handling, configuration and ordering -/

section ClaimsB

variable {T : Type}

/-- C11. Dispatching `JobCompleted(jid)` for a `jid` that is not a key of `allocations`
returns the state it was given: the free host set, the allocations, the projected end
times and the pending queue are unchanged and nothing is added to the message builder, so
no decision is emitted. -/
theorem completion_of_unknown_job (now : T) (st : State T) (jid : String)
    (h : jid ∉ map_keys st.allocations) :
    dispatch now st (.jobCompleted jid) = st ∧
    (dispatch now st (.jobCompleted jid)).available_hosts = st.available_hosts ∧
    (dispatch now st (.jobCompleted jid)).allocations = st.allocations ∧
    (dispatch now st (.jobCompleted jid)).end_times = st.end_times ∧
    (dispatch now st (.jobCompleted jid)).pending = st.pending ∧
    (dispatch now st (.jobCompleted jid)).out = st.out := by
  have e : dispatch now st (.jobCompleted jid) = st := by
    simp only [dispatch, map_get?_eq_none.2 h]
  rw [e]
  exact ⟨rfl, rfl, rfl, rfl, rfl, rfl⟩

/-- Witness for C11: in Scenario C only `J1` runs; a completion of `J9` changes nothing. -/
theorem completion_of_unknown_job_witness :
    dispatch (60 : Int) st_busy (.jobCompleted "J9") = st_busy ∧
    (dispatch (60 : Int) st_busy (.jobCompleted "J9")).available_hosts = st_busy.available_hosts ∧
    (dispatch (60 : Int) st_busy (.jobCompleted "J9")).allocations = st_busy.allocations ∧
    (dispatch (60 : Int) st_busy (.jobCompleted "J9")).end_times = st_busy.end_times ∧
    (dispatch (60 : Int) st_busy (.jobCompleted "J9")).pending = st_busy.pending ∧
    (dispatch (60 : Int) st_busy (.jobCompleted "J9")).out = st_busy.out :=
  completion_of_unknown_job 60 st_busy "J9" (by decide)

/-- C20. For a free set in ascending order and `q` not above its size, `allocate(jid, q)`
returns a string whose characters are the decimal representations of the picked hosts (the
first `q` free hosts, strictly ascending) with one comma between consecutive ones: each
representation is a non-empty run of digits that reads back as the host id, the string
neither starts nor ends with a comma, its pieces between commas are exactly those
representations (so no two commas are adjacent), it is empty for `q = 0`, and reading it
back gives the list of allocated hosts. -/
theorem host_list_string (st : State T) (jid : String) (q : Nat)
    (hF : st.available_hosts.Sorted (· < ·)) (hq : q ≤ st.available_hosts.length) :
    ∃ st1 s, allocate st jid q = .ok (st1, s) ∧
      map_get? st1.allocations jid = some (st.available_hosts.take q) ∧
      (st.available_hosts.take q).Sorted (· < ·) ∧
      s.data = List.intercalate [','] ((st.available_hosts.take q).map (Nat.toDigits 10)) ∧
      (∀ h ∈ st.available_hosts.take q, Nat.toDigits 10 h ≠ [] ∧
        (∀ c ∈ Nat.toDigits 10 h, c.isDigit = true) ∧ read_decimal (Nat.toDigits 10 h) = h) ∧
      s.data.head? ≠ some ',' ∧ s.data.getLast? ≠ some ',' ∧
      (0 < q → split_commas s.data = (st.available_hosts.take q).map (Nat.toDigits 10)) ∧
      (q = 0 → s = "") ∧
      parse_host_list s = st.available_hosts.take q := by
  refine ⟨_, _, allocate_eq st jid hF hq, map_get?_map_set_same _ _ _,
    hF.sublist (List.take_sublist q _), host_string_data _, ?_, (host_string_ends _).1,
    (host_string_ends _).2, ?_, ?_, parse_host_string _⟩
  · intro h _
    exact ⟨(toDigits_spec h).1, fun c hc => ((toDigits_spec h).2.1 c hc).1, (toDigits_spec h).2.2⟩
  · intro hq0
    cases hl : st.available_hosts.take q with
    | nil =>
      have := List.length_take_of_le hq
      rw [hl] at this
      simp at this
      omega
    | cons h l => rw [host_string_cons, split_commas_render]
  · intro hq0
    subst hq0
    rfl

/-- Witness for C20, Scenario A: four free hosts, `q = 2` gives the string `0,1`. -/
theorem host_list_string_witness :
    (∃ st1 s, allocate st_four_free "J1" 2 = .ok (st1, s) ∧
      map_get? st1.allocations "J1" = some (st_four_free.available_hosts.take 2) ∧
      (st_four_free.available_hosts.take 2).Sorted (· < ·) ∧
      s.data = List.intercalate [','] ((st_four_free.available_hosts.take 2).map (Nat.toDigits 10)) ∧
      (∀ h ∈ st_four_free.available_hosts.take 2, Nat.toDigits 10 h ≠ [] ∧
        (∀ c ∈ Nat.toDigits 10 h, c.isDigit = true) ∧ read_decimal (Nat.toDigits 10 h) = h) ∧
      s.data.head? ≠ some ',' ∧ s.data.getLast? ≠ some ',' ∧
      (0 < 2 → split_commas s.data = (st_four_free.available_hosts.take 2).map (Nat.toDigits 10)) ∧
      (2 = 0 → s = "") ∧
      parse_host_list s = st_four_free.available_hosts.take 2) ∧
    (∃ st1, allocate st_four_free "J1" 2 = .ok (st1, "0,1")) ∧
    parse_host_list "0,1" = [0, 1] :=
  ⟨host_list_string st_four_free "J1" 2 (by decide) (by decide), ⟨_, rfl⟩, by decide⟩

/-- C16. The primary sort of an iteration (the stable sort of `pending` under the unified
comparator, with which `easy_pass` begins) yields a permutation of the queue.  When the
threshold is enabled (`0 ≤ THRESHOLD_SEC`), no job with `now - submit_time ≤ threshold` stands
before a job with `now - submit_time > threshold`, and two jobs of the same group stand in
non-decreasing order of `key_for(j, now, primary)`.  When it is disabled the whole queue is
non-decreasing in that key. -/
theorem primary_sort_order [LinearOrder T] [Add T] [Sub T] [Neg T] [Div T] [Zero T]
    [NatCast T] (cfg : Config T) (now : T) (st : State T) :
    (stable_sort (primary_lt cfg now) st.pending).Perm st.pending ∧
    (0 ≤ cfg.THRESHOLD_SEC →
      (stable_sort (primary_lt cfg now) st.pending).Pairwise (fun a b =>
        (cfg.THRESHOLD_SEC < now - b.submit_time → cfg.THRESHOLD_SEC < now - a.submit_time) ∧
        ((cfg.THRESHOLD_SEC < now - a.submit_time ↔ cfg.THRESHOLD_SEC < now - b.submit_time) →
          key_for a now cfg.primary_policy ≤ key_for b now cfg.primary_policy))) ∧
    (cfg.THRESHOLD_SEC < 0 →
      (stable_sort (primary_lt cfg now) st.pending).Pairwise (fun a b =>
        key_for a now cfg.primary_policy ≤ key_for b now cfg.primary_policy)) := by
  have hs := stable_sort_sorted (primary_lt cfg now) (primary_lt_asymm cfg now)
    (primary_lt_trans cfg now) st.pending
  refine ⟨stable_sort_perm _ _, fun hthr => ?_, fun hthr => ?_⟩
  · refine List.Pairwise.imp ?_ hs
    intro a b hab
    rw [primary_lt_eq_false] at hab
    simp only [is_old_iff, hthr, true_and] at hab
    refine ⟨hab.1, fun hiff => hab.2 ?_⟩
    simp only [is_old, hthr, decide_True, Bool.true_and]
    exact decide_eq_decide.2 hiff
  · refine List.Pairwise.imp ?_ hs
    intro a b hab
    rw [primary_lt_eq_false] at hab
    have hno : ∀ j, is_old cfg now j = false := by
      intro j
      simp [is_old, not_le.2 hthr]
    exact hab.2 (by rw [hno a, hno b])

/-- Witness for C16: under `spf@20` at time 80000 the two old jobs come first, the shorter
one ahead; with the threshold disabled the FCFS keys are in order. -/
theorem primary_sort_order_witness :
    (stable_sort (primary_lt cfg_spf_rescue 80000) st_mixed.pending).Perm st_mixed.pending ∧
    (stable_sort (primary_lt cfg_spf_rescue 80000) st_mixed.pending).Pairwise (fun a b =>
      (cfg_spf_rescue.THRESHOLD_SEC < 80000 - b.submit_time →
        cfg_spf_rescue.THRESHOLD_SEC < 80000 - a.submit_time) ∧
      ((cfg_spf_rescue.THRESHOLD_SEC < 80000 - a.submit_time ↔
          cfg_spf_rescue.THRESHOLD_SEC < 80000 - b.submit_time) →
        key_for a 80000 cfg_spf_rescue.primary_policy ≤
          key_for b 80000 cfg_spf_rescue.primary_policy)) ∧
    (stable_sort (primary_lt cfg_spf_rescue 80000) st_mixed.pending).map (fun j => j.job_id) =
      ["C", "A", "B"] ∧
    (stable_sort (primary_lt cfg_fcfs 80000) st_mixed.pending).Pairwise (fun a b =>
      key_for a 80000 cfg_fcfs.primary_policy ≤ key_for b 80000 cfg_fcfs.primary_policy) :=
  ⟨(primary_sort_order cfg_spf_rescue 80000 st_mixed).1,
   (primary_sort_order cfg_spf_rescue 80000 st_mixed).2.1 (by decide),
   by decide,
   (primary_sort_order cfg_fcfs 80000 st_mixed).2.2 (by decide)⟩

/-- C12. Starting from the load-time configuration, let the argument with its quote
characters stripped be `q`, or `q@n` with `std::stod` converting `n`, where `q` holds no `@`.
Then `batsim_edc_init` returns 0 and: if `q` holds no comma, primary and backfill policy are both
the policy of the token `q`; if `q` is `p1,p2` with no comma in `p1`, primary is the policy
of `p1` and backfill the policy of `p2`; where the policy of a token is the entry of
`STR2POL` for the seven names `exp`, `fcfs`, `lcfs`, `lpf`, `lqf`, `spf`, `sqf` and FCFS for
every other token. -/
theorem init_policies [Mul T] [NatCast T] [Neg T] (stod : List Char → Option T)
    (arg : String) (q : List Char) (hq : '@' ∉ q)
    (hs : strip_quotes arg.data = q ∨
      ∃ n h, strip_quotes arg.data = q ++ '@' :: n ∧ stod n = some h) :
    ∃ cfg1, batsim_edc_init stod (Config.load T) arg = .ok (0, cfg1) ∧
      (',' ∉ q →
        cfg1.primary_policy = policy_of_token q ∧ cfg1.backfill_policy = policy_of_token q) ∧
      (∀ p1 p2, q = p1 ++ ',' :: p2 → ',' ∉ p1 →
        cfg1.primary_policy = policy_of_token p1 ∧
        cfg1.backfill_policy = policy_of_token p2) ∧
      (policy_of_token "exp".data = .EXP ∧ policy_of_token "fcfs".data = .FCFS ∧
        policy_of_token "lcfs".data = .LCFS ∧ policy_of_token "lpf".data = .LPF ∧
        policy_of_token "lqf".data = .LQF ∧ policy_of_token "spf".data = .SPF ∧
        policy_of_token "sqf".data = .SQF) ∧
      ∀ p, String.mk p ∉ ["exp", "fcfs", "lcfs", "lpf", "lqf", "spf", "sqf"] →
        policy_of_token p = .FCFS := by
  have key : ∃ cfg1, batsim_edc_init stod (Config.load T) arg = .ok (0, cfg1) ∧
      cfg1.primary_policy = policy_of_token (policy_tokens q).1 ∧
      cfg1.backfill_policy = policy_of_token (policy_tokens q).2 := by
    rcases hs with hs | ⟨n, h, hs, hh⟩
    · obtain ⟨cfg1, e1, -, e3, e4⟩ := init_no_at stod (Config.load T) arg (hs ▸ hq)
      refine ⟨cfg1, e1, ?_⟩
      by_cases h0 : arg.data = []
      · have hq0 : q = [] := by rw [← hs, h0]; rfl
        rw [e4 h0, hq0]
        exact ⟨rfl, rfl⟩
      · rw [(e3 h0).1, (e3 h0).2, hs]
        exact ⟨assign_policy_fcfs _, assign_policy_fcfs _⟩
    · exact ⟨_, (init_with_at stod (Config.load T) arg q n hq hs).1 h hh,
        assign_policy_fcfs _, assign_policy_fcfs _⟩
  obtain ⟨cfg1, e1, e2, e3⟩ := key
  refine ⟨cfg1, e1, fun hc => ?_, fun p1 p2 hp hc => ?_,
    ⟨rfl, rfl, rfl, rfl, rfl, rfl, rfl⟩, policy_of_token_other⟩
  · rw [e2, e3, policy_tokens_single q hc]
    exact ⟨rfl, rfl⟩
  · rw [e2, e3, hp, policy_tokens_pair p1 p2 hc]
    exact ⟨rfl, rfl⟩

/-- Witness for C12: `lqf,lpf` gives (LQF, LPF), `spf,bogus` gives (SPF, FCFS) and `sqf@20`
gives (SQF, SQF). -/
theorem init_policies_witness :
    (∃ cfg1, batsim_edc_init stod_int (Config.load Int) "lqf,lpf" = .ok (0, cfg1) ∧
      cfg1.primary_policy = .LQF ∧ cfg1.backfill_policy = .LPF) ∧
    (∃ cfg1, batsim_edc_init stod_int (Config.load Int) "spf,bogus" = .ok (0, cfg1) ∧
      cfg1.primary_policy = .SPF ∧ cfg1.backfill_policy = .FCFS) ∧
    (∃ cfg1, batsim_edc_init stod_int (Config.load Int) "sqf@20" = .ok (0, cfg1) ∧
      cfg1.primary_policy = .SQF ∧ cfg1.backfill_policy = .SQF) := by
  refine ⟨?_, ?_, ?_⟩
  · obtain ⟨cfg1, e1, -, e3, -⟩ := init_policies stod_int "lqf,lpf" "lqf,lpf".data (by decide)
      (Or.inl rfl)
    exact ⟨cfg1, e1, e3 "lqf".data "lpf".data rfl (by decide)⟩
  · obtain ⟨cfg1, e1, -, e3, -⟩ := init_policies stod_int "spf,bogus" "spf,bogus".data
      (by decide) (Or.inl rfl)
    exact ⟨cfg1, e1, e3 "spf".data "bogus".data rfl (by decide)⟩
  · obtain ⟨cfg1, e1, e2, -⟩ := init_policies stod_int "sqf@20" "sqf".data (by decide)
      (Or.inr ⟨"20".data, 20, rfl, rfl⟩)
    exact ⟨cfg1, e1, e2 (by decide)⟩

/-- C13, amended. From the load-time configuration: when the stripped argument is `q@n`
(no `@` in `q`) and `std::stod` converts `n` to `h`, `batsim_edc_init` returns 0 with
`THRESHOLD_SEC = h * 3600`, and the age rescue is enabled exactly when `0 ≤ h`: a job counts as
old iff `0 ≤ h` and `now - submit_time > h * 3600`.  When the stripped argument holds no `@`
the threshold stays negative and no job ever counts as old. -/
theorem init_threshold [LinearOrderedRing T] (stod : List Char → Option T) (arg : String) :
    (∀ q n h, '@' ∉ q → strip_quotes arg.data = q ++ '@' :: n → stod n = some h →
      ∃ cfg1, batsim_edc_init stod (Config.load T) arg = .ok (0, cfg1) ∧
        cfg1.THRESHOLD_SEC = h * 3600 ∧
        (0 ≤ cfg1.THRESHOLD_SEC ↔ 0 ≤ h) ∧
        ∀ (now : T) (j : JobPtr T),
          is_old cfg1 now j = true ↔ 0 ≤ h ∧ h * 3600 < now - j.submit_time) ∧
    ('@' ∉ strip_quotes arg.data →
      ∃ cfg1, batsim_edc_init stod (Config.load T) arg = .ok (0, cfg1) ∧
        cfg1.THRESHOLD_SEC < 0 ∧
        ∀ (now : T) (j : JobPtr T), is_old cfg1 now j = false) := by
  constructor
  · intro q n h hq hs hh
    have h36 : (0 : T) < 3600 := by norm_num
    have hiff : 0 ≤ h * 3600 ↔ 0 ≤ h :=
      ⟨fun hp => le_of_mul_le_mul_right (by simpa using hp) h36,
       fun hp => mul_nonneg hp h36.le⟩
    refine ⟨_, (init_with_at stod (Config.load T) arg q n hq hs).1 h hh, ?_, ?_, ?_⟩
    · simp
    · simp
    · intro now j
      rw [is_old_iff]
      simp only [Nat.cast_ofNat, hiff]
  · intro hno
    obtain ⟨cfg1, e1, e2, -⟩ := init_no_at stod (Config.load T) arg hno
    have hneg : cfg1.THRESHOLD_SEC < 0 := by
      rw [e2]
      simp [Config.load]
    refine ⟨cfg1, e1, hneg, fun now j => ?_⟩
    simp [is_old, not_le.2 hneg]


/-- Counterexample for C13: the configuration `spf@-1` names the real number `-1`; after
`batsim_edc_init` the threshold is `-3600`, the test `THRESHOLD_SEC >= 0` fails and no job is
ever old, so the age rescue is not enabled. -/
theorem init_threshold_counterexample :
    stod_int "-1".data = some (-1) ∧
    ∃ cfg1, batsim_edc_init stod_int (Config.load Int) "spf@-1" = .ok (0, cfg1) ∧
      cfg1.THRESHOLD_SEC = -1 * 3600 ∧
      ¬ (0 ≤ cfg1.THRESHOLD_SEC) ∧
      ∀ (now : Int) (j : JobPtr Int), is_old cfg1 now j = false :=
  ⟨rfl, { primary_policy := .SPF, backfill_policy := .SPF, THRESHOLD_SEC := -3600 }, rfl,
    by decide, by decide, fun now j => by simp [is_old]⟩

/-- Witness for C13: `spf@20` gives 72000 s and `spf@1` gives 3600 s, both enabled; `lqf,lpf`
leaves the rule disabled. -/
theorem init_threshold_witness :
    (∃ cfg1, batsim_edc_init stod_int (Config.load Int) "spf@20" = .ok (0, cfg1) ∧
      cfg1.THRESHOLD_SEC = 72000 ∧ 0 ≤ cfg1.THRESHOLD_SEC) ∧
    (∃ cfg1, batsim_edc_init stod_int (Config.load Int) "spf@1" = .ok (0, cfg1) ∧
      cfg1.THRESHOLD_SEC = 3600 ∧ 0 ≤ cfg1.THRESHOLD_SEC) ∧
    (∃ cfg1, batsim_edc_init stod_int (Config.load Int) "lqf,lpf" = .ok (0, cfg1) ∧
      cfg1.THRESHOLD_SEC < 0) := by
  refine ⟨?_, ?_, ?_⟩
  · obtain ⟨cfg1, e1, e2, e3, -⟩ := (init_threshold stod_int "spf@20").1 "spf".data "20".data 20
      (by decide) rfl rfl
    exact ⟨cfg1, e1, e2, e3.2 (by decide)⟩
  · obtain ⟨cfg1, e1, e2, e3, -⟩ := (init_threshold stod_int "spf@1").1 "spf".data "1".data 1
      (by decide) rfl rfl
    exact ⟨cfg1, e1, e2, e3.2 (by decide)⟩
  · obtain ⟨cfg1, e1, e2, -⟩ := (init_threshold stod_int "lqf,lpf").2 (by decide)
    exact ⟨cfg1, e1, e2⟩

/-- C14, amended. Whenever `batsim_edc_init` returns, the status is 0.  It returns when the
stripped argument holds no `@`, and when it is `q@n` (no `@` in `q`) with `std::stod`
converting `n` to some `h`, which then sets the threshold to `h * 3600`, whatever follows the
converted prefix.  When `std::stod` throws on `n`, nothing catches the exception and the call
returns no status. -/
theorem init_status [Mul T] [NatCast T] (stod : List Char → Option T) (cfg : Config T)
    (arg : String) :
    (∀ r, batsim_edc_init stod cfg arg = .ok r → r.1 = 0) ∧
    ('@' ∉ strip_quotes arg.data → ∃ cfg1, batsim_edc_init stod cfg arg = .ok (0, cfg1)) ∧
    (∀ q n, '@' ∉ q → strip_quotes arg.data = q ++ '@' :: n →
      (∀ h, stod n = some h →
        ∃ cfg1, batsim_edc_init stod cfg arg = .ok (0, cfg1) ∧
          cfg1.THRESHOLD_SEC = h * ((3600 : Nat) : T)) ∧
      (stod n = none → batsim_edc_init stod cfg arg = .error .stod_throws)) := by
  refine ⟨fun r hr => ?_, fun hno => ?_, fun q n hq hs => ⟨fun h hh => ?_, ?_⟩⟩
  · unfold batsim_edc_init at hr
    split_ifs at hr
    · cases hr; rfl
    · cases hp : parse_threshold stod cfg (strip_quotes arg.data) with
      | error e => rw [hp] at hr; cases hr
      | ok thr => rw [hp] at hr; cases hr; rfl
  · obtain ⟨cfg1, e1, -⟩ := init_no_at stod cfg arg hno
    exact ⟨cfg1, e1⟩
  · exact ⟨_, (init_with_at stod cfg arg q n hq hs).1 h hh, rfl⟩
  · exact (init_with_at stod cfg arg q n hq hs).2

/-- Counterexample for C14: for `spf@20abc`, whose numeric part is not a well-formed number,
`batsim_edc_init` returns 0 (with threshold 72000); for `spf@` and `spf@abc` it returns no status
at all, `std::stod` throws. -/
theorem init_status_counterexample :
    stod_int "20abc".data = some 20 ∧
    (∃ cfg1, batsim_edc_init stod_int (Config.load Int) "spf@20abc" = .ok (0, cfg1) ∧
      cfg1.THRESHOLD_SEC = 72000) ∧
    batsim_edc_init stod_int (Config.load Int) "spf@" = .error .stod_throws ∧
    batsim_edc_init stod_int (Config.load Int) "spf@abc" = .error .stod_throws :=
  ⟨rfl, ⟨_, rfl, by decide⟩, rfl, rfl⟩

/-- Witness for C14: `spf@20abc` returns 0, `spf@abc` ends in the exception, `spf` returns
0. -/
theorem init_status_witness :
    (∃ cfg1, batsim_edc_init stod_int (Config.load Int) "spf@20abc" = .ok (0, cfg1) ∧
      cfg1.THRESHOLD_SEC = 20 * ((3600 : Nat) : Int)) ∧
    batsim_edc_init stod_int (Config.load Int) "spf@abc" = .error .stod_throws ∧
    ∃ cfg1, batsim_edc_init stod_int (Config.load Int) "spf" = .ok (0, cfg1) :=
  ⟨((init_status stod_int (Config.load Int) "spf@20abc").2.2 "spf".data "20abc".data
      (by decide) rfl).1 20 rfl,
   ((init_status stod_int (Config.load Int) "spf@abc").2.2 "spf".data "abc".data
      (by decide) rfl).2 rfl,
   (init_status stod_int (Config.load Int) "spf").2.1 (by decide)⟩

/-- C15, amended. For any behaviour of `std::sort` that permutes its input,
`batsim_edc_take_decisions` returns status 0 on every state and every batch, also when the batch
holds a `SimulationBegins` that follows an earlier one or a `JobSubmitted`.  The event is
handled in every state alike: the host count is overwritten and the hosts `0 .. h-1` are
inserted into the free set. -/
theorem take_decisions_status_zero [LinearOrder T] [Add T] [Sub T] [Neg T] [Div T] [Zero T]
    [NatCast T]
    (std_sort : (JobPtr T → JobPtr T → Bool) → List (JobPtr T) → List (JobPtr T))
    (hperm : ∀ lt l, (std_sort lt l).Perm l)
    (cfg : Config T) (st : State T) (msg : T × List (Event T)) :
    take_decisions_status std_sort cfg st msg = .ok 0 ∧
    ∀ (now : T) (s : State T) (h : Nat),
      dispatch now s (.simulationBegins h) =
        { s with
          platform_nb_hosts := h,
          available_hosts := (List.range h).foldl (fun f i => set_insert i f) s.available_hosts } := by
  obtain ⟨st1, h1⟩ := take_decisions_ok std_sort hperm cfg st msg
  exact ⟨by simp only [take_decisions_status, h1], fun _ _ _ => rfl⟩

/-- Counterexample for C15: a batch with a second `SimulationBegins` behind a submission,
and a `SimulationBegins` arriving in a later batch, both end with status 0. -/
theorem take_decisions_status_counterexample :
    take_decisions_status demo_sort cfg_fcfs (State.init Int) msg_begin_twice = .ok 0 ∧
    ∃ st1, batsim_edc_take_decisions demo_sort cfg_fcfs (State.init Int) msg_two_starts = .ok st1 ∧
      take_decisions_status demo_sort cfg_fcfs st1 msg_begin_again = .ok 0 :=
  ⟨rfl, _, rfl, rfl⟩

/-- Witness for C15: the batch with two `SimulationBegins` events. -/
theorem take_decisions_status_zero_witness :
    take_decisions_status demo_sort cfg_fcfs (State.init Int) msg_begin_twice = .ok 0 :=
  (take_decisions_status_zero demo_sort (fun lt l => stable_sort_perm lt l) cfg_fcfs
    (State.init Int) msg_begin_twice).1

/-- C19. Determinism.  Take two states that differ at most in the order in which the hash
maps `allocations` and `end_times` enumerate their entries, and any behaviour of `std::sort`
that permutes its input.  Every sequence of timestamped event batches runs to its end from
both states and the decisions sent are the same, one by one.  In particular
`compute_reservation` returns the same value whatever the enumeration order of `end_times`
(and of `allocations`), and two calls of `allocate` for `q` hosts against the same free set
return the same host string, store the same host set and leave the same free set. -/
theorem decisions_deterministic [LinearOrder T] [Add T] [Sub T] [Neg T] [Div T] [Zero T]
    [NatCast T]
    (std_sort : (JobPtr T → JobPtr T → Bool) → List (JobPtr T) → List (JobPtr T))
    (hperm : ∀ lt l, (std_sort lt l).Perm l)
    (cfg : Config T) (msgs : List (T × List (Event T))) (st st2 : State T)
    (h : SameMaps st st2) :
    (∃ ws ws2, run std_sort cfg st msgs = .ok ws ∧ run std_sort cfg st2 msgs = .ok ws2 ∧
      decisions_of ws = decisions_of ws2) ∧
    (∀ (s s2 : State T) (now : T) (need : Nat),
      s.available_hosts = s2.available_hosts →
      s.allocations.Perm s2.allocations → (map_keys s.allocations).Nodup →
      s.end_times.Perm s2.end_times →
      compute_reservation s now need = compute_reservation s2 now need) ∧
    (∀ (s s2 : State T) (jid jid2 : String) (q : Nat),
      s.available_hosts = s2.available_hosts → q ≤ s.available_hosts.length →
      ∃ s1 s3 res, allocate s jid q = .ok (s1, res) ∧ allocate s2 jid2 q = .ok (s3, res) ∧
        map_get? s1.allocations jid = map_get? s3.allocations jid2 ∧
        s1.available_hosts = s3.available_hosts) := by
  refine ⟨?_, fun s s2 now need hf ha hn he => compute_reservation_perm s s2 now need hf ha hn he,
    ?_⟩
  · obtain ⟨ws, h1⟩ := run_ok std_sort hperm cfg msgs st
    obtain ⟨ws2, h2⟩ := run_ok std_sort hperm cfg msgs st2
    have hr := sameMaps_run std_sort cfg msgs h
    rw [h1, h2] at hr
    exact ⟨ws, ws2, h1, h2, hr⟩
  · intro s s2 jid jid2 q hf hq
    have hq2 : q ≤ s2.available_hosts.length := hf ▸ hq
    refine ⟨_, _, _, by unfold allocate; rw [if_pos hq],
      by unfold allocate; rw [if_pos hq2, ← hf], ?_, ?_⟩
    · rw [map_get?_map_set_same, map_get?_map_set_same]
    · simp only [hf]

/-- Witness for C19: two running jobs enumerated in either order; the reservation of the
head is 10 in both cases and both simulations send `Execute(S, 4)`, then
`Execute(Head, 0,1,2,4)`. -/
theorem decisions_deterministic_witness :
    (∃ ws ws2, run demo_sort cfg_fcfs st_pair msgs_pair = .ok ws ∧
      run demo_sort cfg_fcfs st_pair_swapped msgs_pair = .ok ws2 ∧
      decisions_of ws = decisions_of ws2) ∧
    compute_reservation st_pair 1 4 = compute_reservation st_pair_swapped 1 4 ∧
    compute_reservation st_pair_swapped 1 4 = 10 ∧
    (∃ ws, run demo_sort cfg_fcfs st_pair_swapped msgs_pair = .ok ws ∧
      decisions_of ws = [.execute_job "S" "4", .execute_job "Head" "0,1,2,4"]) :=
  ⟨(decisions_deterministic demo_sort (fun lt l => stable_sort_perm lt l) cfg_fcfs
      msgs_pair st_pair st_pair_swapped (by unfold SameMaps Consistent; decide)).1,
   (decisions_deterministic demo_sort (fun lt l => stable_sort_perm lt l) cfg_fcfs
      msgs_pair st_pair st_pair_swapped (by unfold SameMaps Consistent; decide)).2.1
      st_pair st_pair_swapped 1 4 rfl (by decide) (by decide) (by decide),
   by decide,
   ⟨_, rfl, rfl⟩⟩

/-- C18. Under a configuration with primary policy FCFS and the threshold disabled, along
every simulation from the load-time state whose wakeup times do not decrease, at the entry
of every iteration of the EASY loop the primary sort leaves the queue as it is and its head
is the earliest-submitted queued job: every other queued job has a submission time that is
not smaller and was created later (records are numbered in the order of their `JobSubmitted`
events, every queued record has a number below the counter `heap`).  The iteration starts
the jobs of a list `E`: if the head fits, `E` is the head alone; and whenever a started job
`c` was created after a queued job `x`, the head does not fit, `c` is one of the backfill
candidates behind the head and `x` is the head or queued behind it. -/
theorem fcfs_head_is_earliest [LinearOrder T] [Add T] [Sub T] [Neg T] [Div T] [Zero T]
    [NatCast T]
    (std_sort : (JobPtr T → JobPtr T → Bool) → List (JobPtr T) → List (JobPtr T))
    (hperm : ∀ lt l, (std_sort lt l).Perm l)
    (cfg : Config T) (hp : cfg.primary_policy = .FCFS) (hthr : cfg.THRESHOLD_SEC < 0)
    (msgs : List (T × List (Event T)))
    (hnow : (msgs.map Prod.fst).Pairwise (· ≤ ·)) :
    ∀ e ∈ run_entries std_sort cfg (State.init T) msgs,
      ∃ head rest, stable_sort (primary_lt cfg e.1) e.2.pending = head :: rest ∧
        e.2.pending = head :: rest ∧
        (∀ j ∈ rest, head.submit_time ≤ j.submit_time ∧ head.addr < j.addr) ∧
        (∀ j ∈ e.2.pending, j.addr < e.2.heap) ∧
        ∃ (st1 : State T) (pr : Bool) (E : List (JobPtr T × List Nat)),
          easy_pass std_sort cfg e.1 e.2 = .ok (st1, pr) ∧
          st1.out = e.2.out ++ E.map execute_of ∧
          (head.nb_hosts ≤ e.2.available_hosts.length → E.map Prod.fst = [head]) ∧
          ∀ c ∈ E.map Prod.fst, ∀ x ∈ e.2.pending, x.addr < c.addr →
            e.2.available_hosts.length < head.nb_hosts ∧ c ∈ rest ∧ (x = head ∨ x ∈ rest) := by
  intro e he
  have hinit : ∀ t : T, ArrivalOrder t (State.init T) := fun t =>
    ⟨⟨by simp [State.init], by simp [State.init], by simp [State.init]⟩,
      by simp [State.init], by simp [State.init]⟩
  have hne : e.2.pending ≠ [] := run_entries_pending std_sort cfg msgs _ e he
  have hA : ArrivalOrder e.1 e.2 := by
    cases msgs with
    | nil => simp [run_entries] at he
    | cons msg msgs =>
      simp only [List.map_cons, List.pairwise_cons] at hnow
      exact run_entries_induct std_sort cfg ArrivalOrder (fun _ => True)
        arrivalOrder_mono (fun t st h => h) (fun t st ev _ h => arrivalOrder_dispatch t st ev h)
        (fun t st st1 pr h hpass => arrivalOrder_pass std_sort hperm cfg hp hthr t st st1 pr h hpass)
        (msg :: msgs) msg.1 (State.init T) (hinit _)
        (fun m hm => by
          rcases List.mem_cons.1 hm with rfl | hm
          · exact le_refl _
          · exact hnow.1 m.1 (List.mem_map_of_mem _ hm))
        (by simpa using hnow) (fun _ _ => trivial) e he
  have hsort := arrivalOrder_sort cfg hp hthr e.1 e.2 hA
  obtain ⟨head, rest, hpend⟩ := List.exists_cons_of_ne_nil hne
  · have hpw := hA.2.1
    rw [hpend, List.pairwise_cons] at hpw
    obtain ⟨st1, pr, E, h1, h2, h3⟩ := easy_pass_starts std_sort hperm cfg e.1 e.2 hA.1
    rw [hsort, hpend] at h3
    refine ⟨head, rest, by rw [hsort, hpend], hpend, fun j hj => ⟨(hpw.1 j hj).2, (hpw.1 j hj).1⟩,
      fun j hj => hA.1.2.2 j (hpend ▸ hj), st1, pr, E, h1, h2, ?_, ?_⟩
    · intro hfit
      rcases h3 with ⟨h3, -⟩ | ⟨hd, rs, h3, -, h4⟩ | ⟨hd, rs, h3, h4, -⟩
      · simp at h3
      · simp only [List.cons.injEq] at h3
        rw [h4, h3.1]
      · simp only [List.cons.injEq] at h3
        rw [← h3.1] at h4
        omega
    · intro c hc x hx hlt
      rw [hpend] at hx
      rcases h3 with ⟨-, h3⟩ | ⟨hd, rs, h3, -, h4⟩ | ⟨hd, rs, h3, h4, h5⟩
      · subst h3
        simp at hc
      · simp only [List.cons.injEq] at h3
        rw [h4, List.mem_singleton, ← h3.1] at hc
        subst hc
        rcases List.mem_cons.1 hx with rfl | hx
        · exact absurd hlt (lt_irrefl _)
        · exact absurd hlt (not_lt.2 (hpw.1 x hx).1.le)
      · simp only [List.cons.injEq] at h3
        rw [← h3.1] at h4
        rw [← h3.2] at h5
        exact ⟨h4, (hperm _ rest).mem_iff.1 (h5.subset hc), List.mem_cons.1 hx⟩

/-- Witness for C18: `A` holds three of four hosts, the four-host job `B` is the head of the
second wakeup and the one-host job `C`, submitted after `B`, is started as a backfill. -/
theorem fcfs_head_is_earliest_witness :
    (∀ e ∈ run_entries demo_sort cfg_fcfs (State.init Int) msgs_fcfs,
      ∃ head rest, stable_sort (primary_lt cfg_fcfs e.1) e.2.pending = head :: rest ∧
        e.2.pending = head :: rest ∧
        (∀ j ∈ rest, head.submit_time ≤ j.submit_time ∧ head.addr < j.addr) ∧
        (∀ j ∈ e.2.pending, j.addr < e.2.heap) ∧
        ∃ (st1 : State Int) (pr : Bool) (E : List (JobPtr Int × List Nat)),
          easy_pass demo_sort cfg_fcfs e.1 e.2 = .ok (st1, pr) ∧
          st1.out = e.2.out ++ E.map execute_of ∧
          (head.nb_hosts ≤ e.2.available_hosts.length → E.map Prod.fst = [head]) ∧
          ∀ c ∈ E.map Prod.fst, ∀ x ∈ e.2.pending, x.addr < c.addr →
            e.2.available_hosts.length < head.nb_hosts ∧ c ∈ rest ∧ (x = head ∨ x ∈ rest)) ∧
    (run_entries demo_sort cfg_fcfs (State.init Int) msgs_fcfs).map
        (fun e => (e.1, e.2.pending.map (fun j => j.job_id))) =
      [(0, ["A"]), (1, ["B", "C"]), (1, ["B"])] ∧
    (∃ ws, run demo_sort cfg_fcfs (State.init Int) msgs_fcfs = .ok ws ∧
      decisions_of ws = [.execute_job "A" "0,1,2", .execute_job "C" "3"]) :=
  ⟨fcfs_head_is_earliest demo_sort (fun lt l => stable_sort_perm lt l) cfg_fcfs rfl
      (by decide) msgs_fcfs (by decide),
   by decide, ⟨_, rfl, rfl⟩⟩

/-- C17, amended.  Stable primary order for the six primary policies whose key does not
depend on `now` (FCFS, LCFS, SPF, LPF, SQF, LQF), with any threshold.  Times are any linearly
ordered type whose subtraction is antitone in its second argument, as the rounded
subtraction of `double` is; no other law of arithmetic is used.  For any behaviour of
`std::sort` that permutes its input and every simulation from the load-time state whose
wakeup times do not decrease and whose submitted walltimes are positive: at every iteration
of the EASY loop, in the queue as the primary sort leaves it, two jobs of the same group
(both old or both not) with equal primary key at the current `now` stand in submission
order, the record created first in front (records are numbered in the order of their
`JobSubmitted` events; every queued record has a number below the counter `heap`). -/
theorem primary_order_stable [LinearOrder T] [Add T] [Sub T] [Neg T] [Div T] [Zero T]
    [NatCast T]
    (std_sort : (JobPtr T → JobPtr T → Bool) → List (JobPtr T) → List (JobPtr T))
    (hperm : ∀ lt l, (std_sort lt l).Perm l)
    (cfg : Config T) (hpol : cfg.primary_policy ≠ .EXP)
    (hsub : ∀ a b c : T, b ≤ c → a - c ≤ a - b)
    (msgs : List (T × List (Event T)))
    (hnow : (msgs.map Prod.fst).Pairwise (· ≤ ·))
    (hwt : ∀ ev ∈ all_events msgs, walltime_positive ev) :
    ∀ e ∈ run_entries std_sort cfg (State.init T) msgs,
      (stable_sort (primary_lt cfg e.1) e.2.pending).Pairwise (fun a b =>
        is_old cfg e.1 a = is_old cfg e.1 b →
        key_for a e.1 cfg.primary_policy = key_for b e.1 cfg.primary_policy →
        a.addr < b.addr) ∧
      (∀ j ∈ e.2.pending, j.addr < e.2.heap) := by
  refine primary_order_stable_of std_sort hperm cfg hsub ?_ msgs hnow hwt
  intro x y t t2 _ _ _ _ _ h
  rw [key_for_static cfg.primary_policy hpol x t t2,
    key_for_static cfg.primary_policy hpol y t t2]
  exact h

/-- C17 as stated fails under EXP, whose key is recomputed in `double` arithmetic at every
`now`.  One host held by `R`; `Y` (walltime `1 + 2^-52`) is submitted before `X` (walltime
1), both at time 0, and all input values are `double`s.  At time 0 the keys tie and the
queue is `Y`, `X`.  At time 1 the key of `X` is `-2` and that of `Y` is `-(2 - 2^-51)`, so
`X` moves in front.  At time `1 + 2^-51` both keys round to `-(2 + 2^-51)`: the jobs tie,
the stable sort leaves `X` (record 2) in front of the earlier-submitted `Y` (record 1). -/
theorem primary_order_stable_counterexample :
    (msgs_rounding.map Prod.fst).Pairwise (· ≤ ·) ∧
    (∀ ev ∈ all_events msgs_rounding, walltime_positive ev) ∧
    (∀ v ∈ [(0 : Rat), 1, 100, 1 + 1 / 2 ^ 52, 1 + 1 / 2 ^ 51], round53 v = v) ∧
    (run_entries stable_sort cfg_exp_double (State.init Binary64) msgs_rounding).map
        (fun e => (e.1, (stable_sort (primary_lt cfg_exp_double e.1) e.2.pending).map
          (fun j => (j.job_id, j.addr, is_old cfg_exp_double e.1 j,
            key_for j e.1 cfg_exp_double.primary_policy)))) =
      [(⟨0⟩, [("R", 0, false, ⟨-1⟩), ("Y", 1, false, ⟨-1⟩), ("X", 2, false, ⟨-1⟩)]),
       (⟨0⟩, [("Y", 1, false, ⟨-1⟩), ("X", 2, false, ⟨-1⟩)]),
       (⟨1⟩, [("X", 2, false, ⟨-2⟩), ("Y", 1, false, ⟨-(2 - 1 / 2 ^ 51)⟩)]),
       (⟨1 + 1 / 2 ^ 51⟩,
        [("X", 2, false, ⟨-(2 + 1 / 2 ^ 51)⟩), ("Y", 1, false, ⟨-(2 + 1 / 2 ^ 51)⟩)])] ∧
    ¬ ∀ e ∈ run_entries stable_sort cfg_exp_double (State.init Binary64) msgs_rounding,
      (stable_sort (primary_lt cfg_exp_double e.1) e.2.pending).Pairwise (fun a b =>
        is_old cfg_exp_double e.1 a = is_old cfg_exp_double e.1 b →
        key_for a e.1 cfg_exp_double.primary_policy =
          key_for b e.1 cfg_exp_double.primary_policy →
        a.addr < b.addr) := by
  refine ⟨?_, ?_, by decide!, by decide!, by decide!⟩
  · unfold msgs_rounding
    simp only [List.map_cons, List.map_nil, List.pairwise_cons, List.mem_cons,
      List.mem_singleton, List.not_mem_nil, forall_eq_or_imp, forall_eq, false_imp_iff,
      implies_true, List.Pairwise.nil, and_true]
    refine ⟨⟨?_, ?_⟩, ?_⟩
    · show (0 : Rat) ≤ 1
      norm_num
    · show (0 : Rat) ≤ 1 + 1 / 2 ^ 51
      norm_num
    · show (1 : Rat) ≤ 1 + 1 / 2 ^ 51
      norm_num
  intro ev hev
  simp only [all_events, msgs_rounding, List.map_cons, List.map_nil, List.flatten_cons,
    List.flatten_nil, List.append_nil, List.mem_cons, List.mem_singleton] at hev
  rcases hev with rfl | rfl | rfl | rfl | hev
  · trivial
  · show (0 : Binary64) < ⟨100⟩
    decide!
  · show (0 : Binary64) < ⟨1 + 1 / 2 ^ 52⟩
    decide!
  · show (0 : Binary64) < ⟨1⟩
    decide!
  · simp at hev

/-- Witness for C17: under SPF with the age rule at 72000 seconds the jobs `A` and `B` tie
and stay in submission order behind the shorter `C`, at time 5 and at time 7. -/
theorem primary_order_stable_witness :
    (∀ e ∈ run_entries demo_sort cfg_spf_rescue (State.init Int) msgs_spf_tied,
      (stable_sort (primary_lt cfg_spf_rescue e.1) e.2.pending).Pairwise (fun a b =>
        is_old cfg_spf_rescue e.1 a = is_old cfg_spf_rescue e.1 b →
        key_for a e.1 cfg_spf_rescue.primary_policy =
          key_for b e.1 cfg_spf_rescue.primary_policy →
        a.addr < b.addr) ∧
      (∀ j ∈ e.2.pending, j.addr < e.2.heap)) ∧
    (run_entries demo_sort cfg_spf_rescue (State.init Int) msgs_spf_tied).map
        (fun e => (e.1, (stable_sort (primary_lt cfg_spf_rescue e.1) e.2.pending).map
          (fun j => (j.job_id, j.addr)))) =
      [(0, [("R", 0)]), (5, [("C", 3), ("A", 1), ("B", 2)]),
       (7, [("C", 3), ("A", 1), ("B", 2)])] :=
  ⟨primary_order_stable demo_sort (fun lt l => stable_sort_perm lt l) cfg_spf_rescue
      (by decide) (fun a _ _ h => Int.sub_le_sub_left h a) msgs_spf_tied
      (by decide) (by simp [all_events, msgs_spf_tied, walltime_positive]),
   by decide⟩

end ClaimsB

/-! ## Claims on the reservation scan, the loop and the sibling plug-ins -/

section ClaimsC

variable {T : Type}

/-- C21. In a state satisfying the partition invariant of a 32-bit platform of `H` hosts
(both hash maps holding one entry per key) in which every running job, that is every key of
`allocations`, has a projected end time, and for `need ≤ H`: `compute_reservation(now, need)`
returns `now` when `free_count ≥ need`; otherwise the scan over the sorted release events
stops at some event, so the fallback behind the scan is not reached, and the value returned
is a projected end time `t` with `free_count` plus the hosts released up to `t` at least
`need`. -/
theorem reservation_scan_reaches [LinearOrder T] (H : Nat) (st : State T) (now : T)
    (need : Nat) (hpart : Partition H st) (hH : H < U32)
    (hka : (map_keys st.allocations).Nodup) (hke : (map_keys st.end_times).Nodup)
    (hrun : ∀ k ∈ map_keys st.allocations, k ∈ map_keys st.end_times)
    (hneed : need ≤ H) :
    (need ≤ st.available_hosts.length → compute_reservation st now need = now) ∧
    (st.available_hosts.length < need →
      ∃ t, scan_events need (st.available_hosts.length % U32)
          (stable_sort pair_lt (release_events st)) = some t ∧
        compute_reservation st now need = t ∧
        (∃ kv ∈ st.end_times, kv.2 = t) ∧
        need ≤ st.available_hosts.length + released_by st t) := by
  have hcount := partition_count hpart hka hke hrun
  have hfit : st.available_hosts.length + running_hosts st < U32 := by omega
  have hrunfit : running_hosts st < U32 := by omega
  refine ⟨(compute_reservation_earliest st now need hfit).1, fun hlt => ?_⟩
  have hmod : st.available_hosts.length % U32 = st.available_hosts.length :=
    Nat.mod_eq_of_lt (by omega)
  have hspec := scan_events_spec need (stable_sort pair_lt (release_events st))
    st.available_hosts.length (sorted_events_time _)
    (by rw [sum_sorted_events st hrunfit]; exact hfit) hlt
  rw [hmod, compute_reservation_of_lt st now (by omega) hlt]
  unfold reservation_from
  cases hscan : scan_events need st.available_hosts.length
      (stable_sort pair_lt (release_events st)) with
  | none =>
    rw [hscan, sum_sorted_events st hrunfit] at hspec
    omega
  | some r =>
    rw [hscan] at hspec
    obtain ⟨⟨ev, hev, hr⟩, hsat, -⟩ := hspec
    refine ⟨r, rfl, rfl, ?_, ?_⟩
    · rw [(stable_sort_perm pair_lt _).mem_iff, release_events_eq st hrunfit, List.mem_map] at hev
      obtain ⟨kv, hkv, rfl⟩ := hev
      exact ⟨kv, hkv, hr⟩
    · rw [← released_release_events st hrunfit,
        ← released_perm (stable_sort_perm pair_lt (release_events st))]
      exact hsat

/-- Witness for C21, Scenario C: two hosts free, `J1` holds the other two until 50; for
`need = 4` the scan stops at that event and returns 50. -/
theorem reservation_scan_reaches_witness :
    (∃ t, scan_events 4 (st_busy.available_hosts.length % U32)
          (stable_sort pair_lt (release_events st_busy)) = some t ∧
        compute_reservation st_busy 0 4 = t ∧
        (∃ kv ∈ st_busy.end_times, kv.2 = t) ∧
        4 ≤ st_busy.available_hosts.length + released_by st_busy t) ∧
    compute_reservation st_busy 0 4 = 50 :=
  ⟨(reservation_scan_reaches 4 st_busy 0 4 ((partition_iff_perm 4 st_busy).2 (by decide))
      (by decide) (by decide) (by decide) (by decide) (by decide)).2 (by decide),
   by decide⟩

/-- C22. Quiescence at loop exit, for any behaviour of `std::sort` that permutes its input.
When the EASY loop returns with a non-empty queue, the queue is in primary order (sorting it
again changes nothing), its first job `head` does not fit the free hosts, and no other queued
job `c` has both `c.nb_hosts ≤ free_count` and
`now + c.walltime ≤ compute_reservation(now, head.nb_hosts)`.  This holds for the loop run
with any number of iterations allowed, and `batsim_edc_take_decisions` always returns in such a
state. -/
theorem loop_exit_quiescent [LinearOrder T] [Add T] [Sub T] [Neg T] [Div T] [Zero T]
    [NatCast T]
    (std_sort : (JobPtr T → JobPtr T → Bool) → List (JobPtr T) → List (JobPtr T))
    (hperm : ∀ lt l, (std_sort lt l).Perm l)
    (cfg : Config T) :
    (∀ (now : T) (fuel : Nat) (st st1 : State T),
      easy_loop std_sort cfg now fuel st = .ok st1 → st1.pending ≠ [] →
      ∃ head rest, stable_sort (primary_lt cfg now) st1.pending = head :: rest ∧
        st1.pending = head :: rest ∧
        st1.available_hosts.length < head.nb_hosts ∧
        ∀ c ∈ rest, ¬ (c.nb_hosts ≤ st1.available_hosts.length ∧
          now + c.walltime ≤ compute_reservation st1 now head.nb_hosts)) ∧
    (∀ (st : State T) (msg : T × List (Event T)),
      ∃ st1, batsim_edc_take_decisions std_sort cfg st msg = .ok st1 ∧
        (st1.pending ≠ [] →
          ∃ head rest, stable_sort (primary_lt cfg msg.1) st1.pending = head :: rest ∧
            st1.pending = head :: rest ∧
            st1.available_hosts.length < head.nb_hosts ∧
            ∀ c ∈ rest, ¬ (c.nb_hosts ≤ st1.available_hosts.length ∧
              msg.1 + c.walltime ≤ compute_reservation st1 msg.1 head.nb_hosts))) := by
  have main : ∀ (now : T) (fuel : Nat) (st st1 : State T),
      easy_loop std_sort cfg now fuel st = .ok st1 → st1.pending ≠ [] →
      ∃ head rest, stable_sort (primary_lt cfg now) st1.pending = head :: rest ∧
        st1.pending = head :: rest ∧
        st1.available_hosts.length < head.nb_hosts ∧
        ∀ c ∈ rest, ¬ (c.nb_hosts ≤ st1.available_hosts.length ∧
          now + c.walltime ≤ compute_reservation st1 now head.nb_hosts) := by
    intro now fuel st st1 h hne
    rcases easy_loop_last std_sort cfg now fuel st st1 h with he | ⟨st0, hne0, hp⟩
    · exact absurd he hne
    · rcases easy_pass_cases std_sort cfg now st0 with ⟨hs, -⟩ | ⟨_, _, -, -, _, -, h1⟩ |
        ⟨head, rest, hs, hq, h1⟩
      · have := (stable_sort_perm (primary_lt cfg now) st0.pending).length_eq
        rw [hs] at this
        exact absurd (List.eq_nil_of_length_eq_zero this.symm) hne0
      · rw [h1] at hp
        simp at hp
      · rw [h1] at hp
        obtain ⟨e1, e2⟩ := backfill_no_progress now _ _ _ _ hp
        obtain ⟨t1, -, t3, -, -, -⟩ :=
          touch_allocations_fields { st0 with pending := head :: rest } head.nb_hosts
        have hpend : st1.pending = head :: rest := by rw [e1, t1]
        have hav : st1.available_hosts = st0.available_hosts := by rw [e1, t3]
        have hres : compute_reservation st1 now head.nb_hosts =
            compute_reservation { st0 with pending := head :: rest } now head.nb_hosts := by
          rw [e1, compute_reservation_touch]
        refine ⟨head, rest, ?_, hpend, by rw [hav]; exact hq, fun c hc => ?_⟩
        · rw [hpend, ← hs, stable_sort_idem]
        · rw [hres, hav]
          have := e2 c ((hperm _ rest).mem_iff.2 hc)
          rw [t3] at this
          exact this
  refine ⟨main, fun st msg => ?_⟩
  obtain ⟨st1, h1⟩ := take_decisions_ok std_sort hperm cfg st msg
  exact ⟨st1, h1, main msg.1 _ _ st1 h1⟩

/-- Witness for C22, Scenario C: the call returns with `J2` and `J3` queued; `J2` needs four
hosts with two free and `J3` would end at 100, after the reservation. -/
theorem loop_exit_quiescent_witness :
    ∃ st1, batsim_edc_take_decisions demo_sort cfg_fcfs st_busy (0, []) = .ok st1 ∧
      st1.pending.map (fun j => j.job_id) = ["J2", "J3"] ∧
      (st1.pending ≠ [] →
        ∃ head rest, stable_sort (primary_lt cfg_fcfs 0) st1.pending = head :: rest ∧
          st1.pending = head :: rest ∧
          st1.available_hosts.length < head.nb_hosts ∧
          ∀ c ∈ rest, ¬ (c.nb_hosts ≤ st1.available_hosts.length ∧
            0 + c.walltime ≤ compute_reservation st1 0 head.nb_hosts)) := by
  obtain ⟨st1, h1, h2⟩ := (loop_exit_quiescent demo_sort (fun lt l => stable_sort_perm lt l)
    cfg_fcfs).2 st_busy (0, [])
  refine ⟨st1, h1, ?_, h2⟩
  have e : batsim_edc_take_decisions demo_sort cfg_fcfs st_busy (0, []) =
      .ok { st_busy with out := [] } := rfl
  rw [e] at h1
  cases h1
  rfl

/-- C23. Termination of the EASY loop, for any behaviour of `std::sort` that permutes its
input.  An iteration that sets `progress` leaves a strictly shorter queue, and no iteration
lengthens it (the queue it leaves is a sublist of the sorted queue).  From a state whose
queued records are distinct and whose free set is ascending, the loop enters at most as many
iterations as jobs are queued, hence at most that number plus one; with that many iterations
allowed or more it returns, having sent the `Execute` decisions of a list `E` of pairwise
distinct jobs of the entry queue, one decision per job, so at most one per job queued at
entry. -/
theorem loop_terminates [LinearOrder T] [Add T] [Sub T] [Neg T] [Div T] [Zero T]
    [NatCast T]
    (std_sort : (JobPtr T → JobPtr T → Bool) → List (JobPtr T) → List (JobPtr T))
    (hperm : ∀ lt l, (std_sort lt l).Perm l)
    (cfg : Config T) (now : T) (st : State T) (hB : BaseInv st) :
    (∀ s s1 : State T, easy_pass std_sort cfg now s = .ok (s1, true) →
      s1.pending.length < s.pending.length) ∧
    (∀ (s s1 : State T) (pr : Bool), easy_pass std_sort cfg now s = .ok (s1, pr) →
      s1.pending.Sublist (stable_sort (primary_lt cfg now) s.pending) ∧
      s1.pending.length ≤ s.pending.length) ∧
    (∀ fuel, (loop_entries std_sort cfg now fuel st).length ≤ st.pending.length + 1) ∧
    ∃ (st1 : State T) (E : List (JobPtr T × List Nat)),
      (∀ extra, easy_loop std_sort cfg now (st.pending.length + 1 + extra) st = .ok st1) ∧
      st1.out = st.out ++ E.map execute_of ∧
      st.pending.Perm (E.map Prod.fst ++ st1.pending) ∧
      (E.map Prod.fst).Nodup ∧
      E.length ≤ st.pending.length := by
  have hsub : ∀ lt l, ∀ x ∈ std_sort lt l, x ∈ l := fun lt l x hx => (hperm lt l).mem_iff.1 hx
  refine ⟨fun s s1 h => easy_pass_progress std_sort hsub cfg now s s1 h, fun s s1 pr h => ?_,
    fun fuel => Nat.le_succ_of_le (loop_entries_length std_sort hsub cfg now fuel st), ?_⟩
  · have h1 := easy_pass_pending_sublist std_sort cfg now s s1 pr h
    exact ⟨h1, (stable_sort_perm (primary_lt cfg now) s.pending).length_eq ▸ h1.length_le⟩
  · obtain ⟨st1, h1⟩ := easy_loop_ok std_sort hsub cfg now (st.pending.length + 1) st (by omega)
    obtain ⟨E, hE, -⟩ := easy_loop_spec std_sort hperm cfg now _ st st1 hB.1 h1
    have hp := hE.2.2.2.2.2.2.2 hB.2.1
    have hnd : (E.map Prod.fst ++ st1.pending).Nodup :=
      hp.nodup_iff.1 (List.Nodup.of_map _ hB.2.1)
    refine ⟨st1, E, fun extra => easy_loop_fuel_mono std_sort cfg now _ st st1 h1 extra, hE.1, hp,
      (List.nodup_append.1 hnd).1, ?_⟩
    have := hp.length_eq
    simp only [List.length_append, List.length_map] at this
    omega

/-- Witness for C23: with `Head` and `S` queued the loop runs two iterations, the first
starts `S` as a backfill, and returns. -/
theorem loop_terminates_witness :
    (∃ (st1 : State Int) (E : List (JobPtr Int × List Nat)),
      (∀ extra, easy_loop demo_sort cfg_fcfs 1 (st_pair.pending.length + 1 + extra) st_pair =
        .ok st1) ∧
      st1.out = st_pair.out ++ E.map execute_of ∧
      st_pair.pending.Perm (E.map Prod.fst ++ st1.pending) ∧
      (E.map Prod.fst).Nodup ∧
      E.length ≤ st_pair.pending.length) ∧
    (loop_entries demo_sort cfg_fcfs 1 3 st_pair).length = 2 ∧
    (∃ st1, easy_loop demo_sort cfg_fcfs 1 3 st_pair = .ok st1 ∧
      st1.out = [.execute_job "S" "4"]) :=
  ⟨(loop_terminates demo_sort (fun lt l => stable_sort_perm lt l) cfg_fcfs 1 st_pair
    ⟨by decide, by decide, by decide⟩).2.2.2, by decide, ⟨_, rfl, rfl⟩⟩

/-- C25. Threshold-zero boundary, with times in a linearly ordered ring.  With the threshold
equal to 0 a job is old exactly when `submit_time < now`, so a job submitted at the current
`now` is not old.  When every job of the queue has `submit_time < now`, the primary sort with
threshold 0 gives the same list as with any negative (disabled) threshold.  More generally,
for any configuration, when all jobs of the queue are old or none is, the primary sort gives
the same list as with the threshold disabled. -/
theorem threshold_zero_boundary [LinearOrderedRing T] [Div T] (cfg : Config T) (now : T)
    (l : List (JobPtr T)) :
    (∀ j : JobPtr T,
      is_old (with_threshold cfg 0) now j = true ↔ j.submit_time < now) ∧
    (∀ thr : T, thr < 0 → (∀ j ∈ l, j.submit_time < now) →
      stable_sort (primary_lt (with_threshold cfg 0) now) l =
        stable_sort (primary_lt (with_threshold cfg thr) now) l) ∧
    (∀ (thr : T) (b : Bool), thr < 0 → (∀ j ∈ l, is_old cfg now j = b) →
      stable_sort (primary_lt cfg now) l =
        stable_sort (primary_lt (with_threshold cfg thr) now) l) := by
  have h0 : ∀ j : JobPtr T,
      is_old (with_threshold cfg 0) now j = true ↔ j.submit_time < now := by
    intro j
    rw [is_old_iff]
    simp [with_threshold]
  have hgen : ∀ (c : Config T) (thr : T) (b : Bool), thr < 0 →
      (∀ j ∈ l, is_old c now j = b) →
      stable_sort (primary_lt c now) l =
        stable_sort (primary_lt (with_threshold c thr) now) l := by
    intro c thr b hthr hall
    refine stable_sort_congr _ _ l (fun x hx y hy => ?_)
    rw [primary_lt_one_group c now b x y (hall x hx) (hall y hy),
      primary_lt_one_group (with_threshold c thr) now false x y
        (is_old_disabled _ hthr now x) (is_old_disabled _ hthr now y)]
    rfl
  refine ⟨h0, fun thr hthr hall => ?_, hgen cfg⟩
  exact hgen (with_threshold cfg 0) thr true hthr (fun j hj => (h0 j).2 (hall j hj))

/-- Witness for C25: at time 80000 all three jobs were submitted earlier and threshold 0
orders them as the disabled threshold does, by walltime (`B`, `C`, `A`), unlike threshold
72000 (`C`, `A`, `B`); at time 50000 the job `B` submitted then is not old. -/
theorem threshold_zero_boundary_witness :
    (stable_sort (primary_lt (with_threshold cfg_spf_rescue 0) 80000) queue_mixed =
      stable_sort (primary_lt (with_threshold cfg_spf_rescue (-1)) 80000) queue_mixed) ∧
    (stable_sort (primary_lt (with_threshold cfg_spf_rescue 0) 80000) queue_mixed).map
        (fun j => j.job_id) = ["B", "C", "A"] ∧
    (stable_sort (primary_lt cfg_spf_rescue 80000) queue_mixed).map (fun j => j.job_id) =
      ["C", "A", "B"] ∧
    is_old (with_threshold cfg_spf_rescue 0) 50000 (queue_mixed.get ⟨1, by decide⟩) =
      false :=
  ⟨(threshold_zero_boundary cfg_spf_rescue 80000 queue_mixed).2.1 (-1) (by decide) (by decide),
   by decide, by decide, by decide⟩

/-- C26, amended, with times in a linearly ordered ring and any behaviour of `std::sort`
that permutes its input.  Take a wakeup at time `now` that begins in a state where no
projected end time lies before `now` and no queued job has a negative walltime, and whose
`JobSubmitted` events carry no negative walltime.  Then in the state after every event
dispatch and after every iteration of the EASY loop of that wakeup every running job has
`end_times[j] ≥ now`, and `compute_reservation(now, need)` is not earlier than `now` for any
`need`. -/
theorem ends_not_before_now [LinearOrderedRing T] [Div T]
    (std_sort : (JobPtr T → JobPtr T → Bool) → List (JobPtr T) → List (JobPtr T))
    (hperm : ∀ lt l, (std_sort lt l).Perm l)
    (cfg : Config T) (st : State T) (msg : T × List (Event T))
    (hst : EndsAfter msg.1 st) (hev : ∀ ev ∈ msg.2, walltime_nonneg ev) :
    ∀ s ∈ dispatch_trace msg.1 { st with out := [] } msg.2 ++
        loop_trace std_sort cfg msg.1
          ((msg.2.foldl (dispatch msg.1) { st with out := [] }).pending.length + 1)
          (msg.2.foldl (dispatch msg.1) { st with out := [] }),
      (∀ kv ∈ s.end_times, msg.1 ≤ kv.2) ∧
      ∀ need, msg.1 ≤ compute_reservation s msg.1 need := by
  have hall : ∀ s ∈ dispatch_trace msg.1 { st with out := [] } msg.2 ++
        loop_trace std_sort cfg msg.1
          ((msg.2.foldl (dispatch msg.1) { st with out := [] }).pending.length + 1)
          (msg.2.foldl (dispatch msg.1) { st with out := [] }), EndsAfter msg.1 s := by
    intro s hs
    obtain ⟨h1, h2⟩ := dispatch_trace_induct msg.1
      (fun s fut => EndsAfter msg.1 s ∧ ∀ ev ∈ fut, walltime_nonneg ev)
      (fun s ev fut h => ⟨endsAfter_dispatch msg.1 s ev (h.2 ev (by simp)) h.1,
        fun e he => h.2 e (List.mem_cons_of_mem _ he)⟩)
      msg.2 { st with out := [] } [] ⟨hst, by simpa using hev⟩
    rcases List.mem_append.1 hs with hs | hs
    · obtain ⟨f, hf⟩ := h1 s hs
      exact hf.1
    · exact loop_trace_induct std_sort cfg msg.1 (EndsAfter msg.1)
        (fun a b pr ha hp => endsAfter_pass std_sort hperm cfg msg.1 a b pr ha hp) _ _ h2.1 s hs
  intro s hs
  exact ⟨(hall s hs).1, fun need => compute_reservation_ge s msg.1 need (hall s hs).1⟩

/-- Counterexample for C26.  On one host `A` (walltime 5) is started at time 0; when the next
wakeup comes at time 10 with no completion of `A`, after the dispatch of its event
`end_times[A] = 5 < 10` and `compute_reservation(10, 1) = 5`.  And a job submitted with
walltime `-1` is started with `end_times[A] = -1 < 0` in the very wakeup that starts it. -/
theorem ends_not_before_now_counterexample :
    (∃ st1, batsim_edc_take_decisions demo_sort cfg_fcfs (State.init Int) msg_short_job = .ok st1 ∧
      st1.end_times = [("A", 5)] ∧
      (dispatch 10 { st1 with out := [] } (.jobSubmitted "B" 1 5)).end_times = [("A", 5)] ∧
      compute_reservation (dispatch 10 { st1 with out := [] } (.jobSubmitted "B" 1 5)) 10 1 = 5 ∧
      (5 : Int) < 10) ∧
    (∃ st1, batsim_edc_take_decisions demo_sort cfg_fcfs (State.init Int) msg_no_walltime = .ok st1 ∧
      st1.end_times = [("A", -1)] ∧ (-1 : Int) < 0) :=
  ⟨⟨_, rfl, rfl, rfl, by decide, by decide⟩, ⟨_, rfl, rfl, by decide⟩⟩

/-- Witness for C26: the second message of Scenario C at time 0, with `J1` running until
50; in the three states of that wakeup the only end time is 50, and so is the reservation
for four hosts. -/
theorem ends_not_before_now_witness :
    EndsAfter msg_c2.1 st_busy_c ∧
    (∀ s ∈ dispatch_trace msg_c2.1 { st_busy_c with out := [] } msg_c2.2 ++
        loop_trace demo_sort cfg_fcfs msg_c2.1
          ((msg_c2.2.foldl (dispatch msg_c2.1) { st_busy_c with out := [] }).pending.length + 1)
          (msg_c2.2.foldl (dispatch msg_c2.1) { st_busy_c with out := [] }),
      (∀ kv ∈ s.end_times, msg_c2.1 ≤ kv.2) ∧
      ∀ need, msg_c2.1 ≤ compute_reservation s msg_c2.1 need) ∧
    (dispatch_trace msg_c2.1 { st_busy_c with out := [] } msg_c2.2 ++
        loop_trace demo_sort cfg_fcfs msg_c2.1
          ((msg_c2.2.foldl (dispatch msg_c2.1) { st_busy_c with out := [] }).pending.length + 1)
          (msg_c2.2.foldl (dispatch msg_c2.1) { st_busy_c with out := [] })).map
      (fun s => (s.end_times, compute_reservation s msg_c2.1 4)) =
      [([("J1", 50)], 50), ([("J1", 50)], 50), ([("J1", 50)], 50)] :=
  ⟨by unfold EndsAfter; decide,
   ends_not_before_now demo_sort (fun lt l => stable_sort_perm lt l) cfg_fcfs st_busy_c msg_c2
    (by unfold EndsAfter; decide) (by simp [msg_c2, walltime_nonneg]),
   by decide⟩

/-- C28, evaluated on `fcfs.cpp`.  On a platform of four hosts a job asking for 260 hosts is
not rejected: its request is stored as `260 mod 256 = 4`, it is queued and started on hosts
0 to 3.  A job asking for 256 hosts is stored with `nb_hosts = 0`, queued and started on no
host.  A job asking for 5 hosts is rejected, and the unified plug-in, whose `nb_hosts` has 32
bits, rejects the request for 260. -/
theorem fcfs_wide_request_not_rejected :
    (Fcfs.batsim_edc_take_decisions Fcfs.State.init msg_wide).out =
      [.execute_job "W" "0,1,2,3"] ∧
    (Fcfs.batsim_edc_take_decisions Fcfs.State.init msg_wide_zero).out =
      [.execute_job "Z" ""] ∧
    (msg_wide_zero.2.foldl Fcfs.dispatch Fcfs.State.init).jobs =
      [{ job_id := "Z", nb_hosts := 0 }] ∧
    (Fcfs.batsim_edc_take_decisions Fcfs.State.init msg_five).out = [.reject_job "F"] ∧
    (batsim_edc_take_decisions demo_sort cfg_fcfs (State.init Int) msg_wide).map (fun s => s.out) =
      .ok [.reject_job "W"] := by
  refine ⟨by decide, by decide, by decide, by decide, rfl⟩

/-- C24, amended.  When the head of the sorted queue does not fit, the iteration tries the
candidates in the order of the vector that `std::sort` returns for the queue behind the head:
for every `std::sort` that permutes its input and returns it ordered by the comparator, the
head and that vector are a rearrangement of the queue, the vector is in non-decreasing order
of the backfill policy key, the iteration is the candidate loop over that vector, and the
jobs it starts are a sub-sequence of the vector, hence started in non-decreasing key order.
Nothing is said about the order of candidates with equal backfill keys. -/
theorem backfill_tries_in_key_order [LinearOrder T] [Add T] [Sub T] [Neg T] [Div T] [Zero T]
    [NatCast T]
    (std_sort : (JobPtr T → JobPtr T → Bool) → List (JobPtr T) → List (JobPtr T))
    (hperm : ∀ lt l, (std_sort lt l).Perm l)
    (hsorted : ∀ (lt : JobPtr T → JobPtr T → Bool) l, (∀ a b, lt a b = true → lt b a = false) →
      (∀ a b c, lt b a = false → lt c b = false → lt c a = false) →
      (std_sort lt l).Pairwise (fun a b => lt b a = false))
    (cfg : Config T) (now : T) (st : State T) (head : JobPtr T) (rest : List (JobPtr T))
    (hB : BaseInv st)
    (hs : stable_sort (primary_lt cfg now) st.pending = head :: rest)
    (hq : st.available_hosts.length < head.nb_hosts) :
    st.pending.Perm (head :: std_sort (backfill_lt cfg now) rest) ∧
    (std_sort (backfill_lt cfg now) rest).Pairwise (fun a b =>
      key_for a now cfg.backfill_policy ≤ key_for b now cfg.backfill_policy) ∧
    easy_pass std_sort cfg now st =
      backfill now (compute_reservation { st with pending := head :: rest } now head.nb_hosts)
        (touch_allocations { st with pending := head :: rest } head.nb_hosts, false)
        (std_sort (backfill_lt cfg now) rest) ∧
    ∃ (st1 : State T) (pr : Bool) (E : List (JobPtr T × List Nat)),
      easy_pass std_sort cfg now st = .ok (st1, pr) ∧
      st1.out = st.out ++ E.map execute_of ∧
      (E.map Prod.fst).Sublist (std_sort (backfill_lt cfg now) rest) ∧
      (E.map Prod.fst).Pairwise (fun a b =>
        key_for a now cfg.backfill_policy ≤ key_for b now cfg.backfill_policy) := by
  have hkey : (std_sort (backfill_lt cfg now) rest).Pairwise (fun a b =>
      key_for a now cfg.backfill_policy ≤ key_for b now cfg.backfill_policy) := by
    refine List.Pairwise.imp ?_ (hsorted (backfill_lt cfg now) rest (backfill_lt_asymm cfg now)
      (backfill_lt_trans cfg now))
    intro a b h
    simpa [backfill_lt] using h
  have hp : st.pending.Perm (head :: std_sort (backfill_lt cfg now) rest) :=
    ((stable_sort_perm (primary_lt cfg now) st.pending).symm.trans (hs ▸ List.Perm.refl _)).trans
      ((hperm _ rest).symm.cons head)
  refine ⟨hp, hkey, ?_, ?_⟩
  · rcases easy_pass_cases std_sort cfg now st with ⟨h0, -⟩ | ⟨hd, rs, h0, h1, -⟩ |
      ⟨hd, rs, h0, -, h2⟩
    · rw [hs] at h0
      simp at h0
    · rw [hs] at h0
      simp only [List.cons.injEq] at h0
      rw [← h0.1] at h1
      omega
    · rw [hs] at h0
      simp only [List.cons.injEq] at h0
      rw [h2, ← h0.1, ← h0.2]
  · obtain ⟨st1, pr, E, h1, h2, h3⟩ := easy_pass_starts std_sort hperm cfg now st hB
    refine ⟨st1, pr, E, h1, h2, ?_⟩
    rcases h3 with ⟨h0, -⟩ | ⟨hd, rs, h0, h4, -⟩ | ⟨hd, rs, h0, -, h5⟩
    · rw [hs] at h0
      simp at h0
    · rw [hs] at h0
      simp only [List.cons.injEq] at h0
      rw [← h0.1] at h4
      omega
    · rw [hs] at h0
      simp only [List.cons.injEq] at h0
      rw [← h0.2] at h5
      exact ⟨h5, hkey.sublist h5⟩

/-- C24 as stated fails.  Primary LCFS, backfill SPF, three hosts, insertion sort as
`std::sort`: at time 10 the queue in primary order is `Head`, `X2`, `X1`; the candidates
`X2` (record 3, submitted at time 1) and `X1` (record 2, submitted at time 0) have the same
backfill key 5 and are tried as `X2`, `X1`, so that `X2` takes the only free host and the
earlier-submitted `X1` stays queued. -/
theorem backfill_tries_in_key_order_counterexample :
    (∃ ws, run demo_sort cfg_lcfs_spf (State.init Int) msgs_ties = .ok ws ∧
      decisions_of ws =
        [.execute_job "R1" "0,1", .execute_job "R2" "2", .execute_job "X2" "2"]) ∧
    ((run_entries demo_sort cfg_lcfs_spf (State.init Int) msgs_ties).filter
        (fun e => decide (e.1 = 10))).map
      (fun e => ((stable_sort (primary_lt cfg_lcfs_spf e.1) e.2.pending).map
          (fun j => j.job_id),
        (demo_sort (backfill_lt cfg_lcfs_spf e.1)
          (stable_sort (primary_lt cfg_lcfs_spf e.1) e.2.pending).tail).map
          (fun j => (j.job_id, j.addr, key_for j e.1 cfg_lcfs_spf.backfill_policy)))) =
      [(["Head", "X2", "X1"], [("X2", 3, 5), ("X1", 2, 5)]),
       (["Head", "X1"], [("X1", 2, 5)])] ∧
    (∃ st1, easy_pass demo_sort cfg_lcfs_spf 10 st_ties = .ok (st1, true) ∧
      st1.out = [.execute_job "X2" "2"] ∧
      st1.pending.map (fun j => j.job_id) = ["Head", "X1"]) :=
  ⟨⟨_, rfl, rfl⟩, by decide, ⟨_, rfl, rfl, rfl⟩⟩

/-- The theorem of C24 on that state at time 10: the queue is a rearrangement of `Head`
and the candidate vector, which is in non-decreasing key order. -/
theorem backfill_tries_in_key_order_witness :
    (stable_sort (primary_lt cfg_lcfs_spf 10) st_ties.pending).map (fun j => j.job_id) =
      ["Head", "X2", "X1"] ∧
    st_ties.pending.Perm
      ({ job_id := "Head", nb_hosts := 3, walltime := 50, submit_time := 10, addr := 4 } ::
        demo_sort (backfill_lt cfg_lcfs_spf 10)
          [{ job_id := "X2", nb_hosts := 1, walltime := 5, submit_time := 1, addr := 3 },
           { job_id := "X1", nb_hosts := 1, walltime := 5, submit_time := 0, addr := 2 }]) ∧
    (demo_sort (backfill_lt cfg_lcfs_spf 10)
      [{ job_id := "X2", nb_hosts := 1, walltime := 5, submit_time := 1, addr := 3 },
       { job_id := "X1", nb_hosts := 1, walltime := 5, submit_time := 0, addr := 2 }]).Pairwise
      (fun a b => key_for a 10 cfg_lcfs_spf.backfill_policy ≤
        key_for b 10 cfg_lcfs_spf.backfill_policy) :=
  ⟨by decide,
   (backfill_tries_in_key_order demo_sort (fun lt l => stable_sort_perm lt l)
      (fun lt l h1 h2 => stable_sort_sorted lt h1 h2 l) cfg_lcfs_spf 10 st_ties
      { job_id := "Head", nb_hosts := 3, walltime := 50, submit_time := 10, addr := 4 }
      [{ job_id := "X2", nb_hosts := 1, walltime := 5, submit_time := 1, addr := 3 },
       { job_id := "X1", nb_hosts := 1, walltime := 5, submit_time := 0, addr := 2 }]
      ⟨by decide, by decide, by decide⟩ (by decide) (by decide)).1,
   (backfill_tries_in_key_order demo_sort (fun lt l => stable_sort_perm lt l)
      (fun lt l h1 h2 => stable_sort_sorted lt h1 h2 l) cfg_lcfs_spf 10 st_ties
      { job_id := "Head", nb_hosts := 3, walltime := 50, submit_time := 10, addr := 4 }
      [{ job_id := "X2", nb_hosts := 1, walltime := 5, submit_time := 1, addr := 3 },
       { job_id := "X1", nb_hosts := 1, walltime := 5, submit_time := 0, addr := 2 }]
      ⟨by decide, by decide, by decide⟩ (by decide) (by decide)).2.1⟩

/-- C27, evaluated.  Three hosts, `R` on two of them; `Head` (three hosts, walltime 5) and
seventeen one-host jobs `C1` to `C17` of walltime 10 arrive together.  `easy_spf_spf.cpp`
orders its candidates with `std::stable_sort` and sends `Execute(C1, "2")`.  In
`easy_variants.cpp` the seventeen tied candidates go through `std::sort`: with a sort that
returns tied elements in reverse order the configuration `spf` sends `Execute(C17, "2")`;
with insertion sort it sends `Execute(C1, "2")` as well. -/
theorem spf_plugins_diverge :
    (∃ ws, run tie_reversing_sort cfg_spf (State.init Int) msgs_spf_ties = .ok ws ∧
      ws.map (fun w => reject_execute w.2.out) =
        [[.execute_job "R" "0,1"], [.execute_job "C17" "2"]]) ∧
    (∃ ds, SpfSpf.run (SpfSpf.State.init Int) msgs_spf_ties = .ok ds ∧
      ds.map (fun s => reject_execute s.out) =
        [[.execute_job "R" "0,1"], [.execute_job "C1" "2"]]) ∧
    (∃ ws, run demo_sort cfg_spf (State.init Int) msgs_spf_ties = .ok ws ∧
      ws.map (fun w => reject_execute w.2.out) =
        [[.execute_job "R" "0,1"], [.execute_job "C1" "2"]]) :=
  ⟨⟨_, rfl, rfl⟩, ⟨_, rfl, rfl⟩, ⟨_, rfl, rfl⟩⟩

end ClaimsC

end EasyVariants
